import Mathlib

/-!
# ShugoConsole: the CVar memory scanner, the values of a record, the validators, the engine

A shallow embedding of `src/shugoconsole/cry/cvar.hpp` (the record layout,
`cvar::pattern`, the writes to a record and the reads from it), of
`src/shugoconsole/cry/memory.cpp` (`LookupPage`, `find_cvar_ptr`), of
`src/shugoconsole/config.hpp` (the validators and `configuration`), of
`src/shugoconsole/win/file_monitor.cpp` and of `run` in
`src/shugoconsole/shugoconsole.cpp` (the two loops of the engine), followed by
the properties proved about them. The older copies of the scanner (`cryengine_cvar.hpp`,
`memory_parser.cpp`) have the same bodies; where the older copy of a write
differs (`std::stoi` for `std::from_chars`), it is embedded next to it.

Conventions of the embedding.

* A byte is a natural number; a block of memory is a `List Nat`.
* A pointer into a block is the index of the byte it points at.
* `size_t` arithmetic that can wrap is taken modulo `2 ^ bits`.
* An access outside the block a pointer was derived from is undefined behaviour
  in C++; the embedding reports it as a result of its own (`none` for a
  predicate, `Lookup.ub` for a scan) instead of inventing a value.
* The Win32 primitives `ReadProcessMemory` and `VirtualQueryEx` are parameters.
* An `int` is an integer from `INT_MIN` to `INT_MAX`; `static_cast<int>` of a
  64-bit integer keeps the low 32 bits.
* The members of `struct cvar` are laid out by the rule of both targets: each
  at the first multiple of its alignment at or after the end of the one
  before; a scalar is aligned to its size, an array of `char` to 1.
* A `float` or `double` is a sign, a mantissa and an exponent, or an infinity,
  or NaN. `int(f)` for an `f` whose integer part is no `int` is undefined in
  C++; the two targets deliver a value there, which is a parameter
  (`Runtime.indefinite`), so that nothing proved depends on it.
* A text is the list of its bytes. The functions of the C and C++ libraries
  that the code calls on `int` and on texts (`std::to_string`,
  `std::from_chars`, `strncpy_s`, `std::strncmp`) are embedded from their
  documentation; those on `float` texts are parameters (`Runtime`), as is
  `toml::format`.
* A message made by `fmt::format` is given with each `{}` filled in.
* A TOML document is the function from a key to what `toml::find` does with it
  (a value, `std::out_of_range`, `toml::exception`); a file that cannot be
  opened or parsed is a document of its own.
* `run` never returns by itself. One turn of either of its loops is a function
  `step` from a state and from what the surroundings deliver in that turn
  (`Input`: the memory of the process, the outcome of the wait, the clock, the
  file) to the next state and the events of the turn (`Event`); `run` folds
  `step` over a list of inputs, so a property of every finite list of inputs
  is a property of every moment of a run.
* The records of the process are a function from an address to a record;
  records at different addresses are different records.
-/

namespace shugoconsole.cry

/-! ## Record layout (`cvar.hpp`, lines 18-32 and 144-159) -/

/-- The two targets the header accepts: `_M_IX86` (narrow) and `_M_X64` (wide). -/
inductive Abi
  | x86
  | x64
deriving DecidableEq

/-- Width of `size_t` and of a pointer, in bits. -/
def Abi.bits : Abi → Nat
  | .x86 => 32
  | .x64 => 64

/-- Value of `offsetof(cvar, cat)`, as asserted by the header for each target. -/
def offsetof_cat : Abi → Nat
  | .x86 => 4
  | .x64 => 8

/-- Value of `offsetof(cvar, name)`, as asserted by the header for each target. -/
def offsetof_name : Abi → Nat
  | .x86 => 5
  | .x64 => 9

/-- Unsigned subtraction on `size_t`: the difference modulo `2 ^ bits`. -/
def size_t_sub (abi : Abi) (a b : Nat) : Nat :=
  (a + (2 ^ abi.bits - b % 2 ^ abi.bits)) % 2 ^ abi.bits

/-! ## `std::memcmp` and `cvar::pattern` (`cvar.hpp`, lines 46-71) -/

/-- The `n` bytes of block `m` starting at index `i`; `none` when the range
leaves the block. -/
def readBytes (m : List Nat) (i n : Nat) : Option (List Nat) :=
  if i + n ≤ m.length then some ((m.drop i).take n) else none

/-- Result of `std::memcmp` on two byte ranges of the same length: the sign of
the first difference, `0` when there is none. -/
def memcmp : List Nat → List Nat → Int
  | a :: as, b :: bs => if a = b then memcmp as bs else if a < b then -1 else 1
  | _, _ => 0

/-- A `cvar::pattern`: the bytes of `name_` (a `std::string`). -/
structure pattern where
  name_ : List Nat
deriving DecidableEq

/-- Value of `name_.c_str()`: the bytes of the name and the terminator. -/
def pattern.c_str (p : pattern) : List Nat := p.name_ ++ [0]

/-- `pattern::match(const cvar* var)`, with `var` the index in block `m` the
pointer refers to. The right operand of `&&` is evaluated only when the
category byte is `0` or `1`; `memcmp` then reads `name_.size() + 1` bytes of
the name field. -/
def pattern.match_ (abi : Abi) (p : pattern) (m : List Nat) (var : Nat) : Option Bool :=
  match m[var + offsetof_cat abi]? with
  | none => none
  | some cat =>
    if cat = 0 ∨ cat = 1 then
      match readBytes m (var + offsetof_name abi) (p.name_.length + 1) with
      | none => none
      | some field => some (decide (memcmp p.c_str field = 0))
    else some false

/-- `pattern::size()`: `offsetof(cvar, name) + name_.size() + 1`. -/
def pattern.size (abi : Abi) (p : pattern) : Nat :=
  offsetof_name abi + p.name_.length + 1

/-! ## `LookupPage` (`memory.cpp`, lines 12-82) -/

/-- How a scan ends: `ptr a` for `return cvarReadAddress` with the foreign
address `a`, `nullptr` for `return nullptr`, `ub` when the scan read outside
the buffer. -/
inductive Lookup
  | ptr (address : Nat)
  | nullptr
  | ub
deriving DecidableEq

/-- The primitive `ReadProcessMemory(process, address, buffer, size, &bytesRead)`:
`none` when the call returns `FALSE`, else the bytes it copied to the front of
the buffer (`bytesRead` of them, never more than `size`). A call that fails is
taken to leave the buffer as it was. -/
structure ReadProcessMemory where
  read : Nat → Nat → Option (List Nat)
  length_le : ∀ address size bytes, read address size = some bytes → bytes.length ≤ size

/-- `MEMORY_BASIC_INFORMATION`, the fields the scanner uses (`Type_` is the
field `Type`). -/
structure MEMORY_BASIC_INFORMATION where
  BaseAddress : Nat
  RegionSize : Nat
  State : Nat
  Protect : Nat
  Type_ : Nat
deriving DecidableEq

/-- The variables of `LookupPage` that live across passes of `for (;;)`; the
buffer is the caller's vector, whose size never changes. -/
structure LookupPage.State where
  currentReadAddress : Nat
  remainingBytesInRegion : Nat
  buffer : List Nat
deriving DecidableEq

/-- The loop `for (offset = 0; offset < endOffset; offset += 16)` (lines 55-68)
from `offset` on: the first offset at which the buffer matches ends the scan
with the foreign address `currentReadAddress + offset`. The recursion is on
`fuel`, a bound on the distance to `endOffset`: when it is used up the loop
condition is false. (`offset + 16` cannot wrap before the scan has left the
buffer, a vector being smaller than the address space.) -/
def LookupPage.offsets (abi : Abi) (cvarDef : pattern) (buffer : List Nat)
    (currentReadAddress endOffset : Nat) :
    (fuel offset : Nat) → endOffset ≤ offset + fuel → Lookup
  | 0, _, _ => .nullptr
  | fuel + 1, offset, _ =>
    if offset < endOffset then
      match cvarDef.match_ abi buffer offset with
      | none => .ub
      | some true => .ptr (currentReadAddress + offset)
      | some false =>
        LookupPage.offsets abi cvarDef buffer currentReadAddress endOffset fuel (offset + 16)
          (by omega)
    else .nullptr

/-- How one pass through the body of `for (;;)` ends: with a `return` or a
`break` (`ret`), or by going round again. -/
inductive LookupPage.Pass
  | ret (result : Lookup) (buffer : List Nat)
  | again (next : LookupPage.State)
deriving DecidableEq

/-- The buffer after `ReadProcessMemory` copied `bytes` to its front. -/
def LookupPage.copied (bytes buffer : List Nat) : List Nat :=
  bytes ++ buffer.drop bytes.length

/-- One pass through the body of `for (;;)` (lines 23-78). -/
def LookupPage.pass (rpm : ReadProcessMemory) (abi : Abi) (cvarDef : pattern)
    (s : LookupPage.State) : LookupPage.Pass :=
  let currentBufferSize := min s.buffer.length s.remainingBytesInRegion
  match rpm.read s.currentReadAddress currentBufferSize with
  | none => .ret .nullptr s.buffer
  | some bytes =>
    let bytesRead := bytes.length
    if bytesRead = 0 then .ret .nullptr s.buffer
    else
      let buffer := LookupPage.copied bytes s.buffer
      let endOffset := size_t_sub abi bytesRead (cvarDef.size abi)
      match LookupPage.offsets abi cvarDef buffer s.currentReadAddress endOffset endOffset 0
          (by omega) with
      | .ptr address => .ret (.ptr address) buffer
      | .ub => .ret .ub buffer
      | .nullptr =>
        if bytesRead < s.remainingBytesInRegion then
          .again ⟨s.currentReadAddress + bytesRead, s.remainingBytesInRegion - bytesRead, buffer⟩
        else .ret .nullptr buffer

/-- A pass that goes round again has fewer bytes left in the region. -/
theorem LookupPage_pass_again_lt (rpm : ReadProcessMemory) (abi : Abi) (cvarDef : pattern)
    (s next : LookupPage.State) (h : LookupPage.pass rpm abi cvarDef s = .again next) :
    next.remainingBytesInRegion < s.remainingBytesInRegion := by
  unfold LookupPage.pass at h
  simp only at h
  split at h
  · simp at h
  · split at h
    · simp at h
    · split at h
      · simp at h
      · simp at h
      · split at h
        · simp only [LookupPage.Pass.again.injEq] at h
          subst h
          simp only
          omega
        · simp at h

/-- What `LookupPage` leaves behind: its return value, the buffer, and the
requests `(address, size)` it made to `ReadProcessMemory`, in order. -/
structure Scan where
  result : Lookup
  buffer : List Nat
  reads : List (Nat × Nat)
deriving DecidableEq

/-- The request a pass makes: `currentBufferSize` bytes at `currentReadAddress`. -/
def LookupPage.request (s : LookupPage.State) : Nat × Nat :=
  (s.currentReadAddress, min s.buffer.length s.remainingBytesInRegion)

/-- The loop `for (;;)` of `LookupPage` from state `s` on. The recursion is on
`fuel`, a bound on the bytes left in the region, which every pass that goes
round again makes smaller. -/
def LookupPage.loop (rpm : ReadProcessMemory) (abi : Abi) (cvarDef : pattern) :
    (fuel : Nat) → (s : LookupPage.State) → s.remainingBytesInRegion ≤ fuel → Scan
  | 0, s, h =>
    match hp : LookupPage.pass rpm abi cvarDef s with
    | .ret result buffer => ⟨result, buffer, [LookupPage.request s]⟩
    | .again next =>
      absurd (LookupPage_pass_again_lt rpm abi cvarDef s next hp) (by omega)
  | fuel + 1, s, h =>
    match hp : LookupPage.pass rpm abi cvarDef s with
    | .ret result buffer => ⟨result, buffer, [LookupPage.request s]⟩
    | .again next =>
      let rest := LookupPage.loop rpm abi cvarDef fuel next
        (by have := LookupPage_pass_again_lt rpm abi cvarDef s next hp; omega)
      ⟨rest.result, rest.buffer, LookupPage.request s :: rest.reads⟩

/-- The loop of `LookupPage` from state `s` on. -/
def LookupPage.run (rpm : ReadProcessMemory) (abi : Abi) (cvarDef : pattern)
    (s : LookupPage.State) : Scan :=
  LookupPage.loop rpm abi cvarDef s.remainingBytesInRegion s (Nat.le_refl _)

/-- `LookupPage(memoryBasicInformation, cvarDef, buffer)`. -/
def LookupPage (rpm : ReadProcessMemory) (abi : Abi)
    (memoryBasicInformation : MEMORY_BASIC_INFORMATION) (cvarDef : pattern)
    (buffer : List Nat) : Scan :=
  LookupPage.run rpm abi cvarDef
    ⟨memoryBasicInformation.BaseAddress, memoryBasicInformation.RegionSize, buffer⟩

/-- The state in which `LookupPage`, started in `s`, begins pass number `k`
(counted from `0`); `none` when the scan ends before. -/
def LookupPage.stateAt (rpm : ReadProcessMemory) (abi : Abi) (cvarDef : pattern) :
    Nat → LookupPage.State → Option LookupPage.State
  | 0, s => some s
  | k + 1, s =>
    match LookupPage.pass rpm abi cvarDef s with
    | .again next => LookupPage.stateAt rpm abi cvarDef k next
    | .ret _ _ => none

/-- The `n` bytes of a foreign address space `mem` from `address` on. -/
def memBytes (mem : Nat → Nat) (address n : Nat) : List Nat :=
  (List.range n).map fun i => mem (address + i)

/-- `ReadProcessMemory` on an address space all of whose bytes are readable:
every request is served in full. -/
def readAll (mem : Nat → Nat) : ReadProcessMemory where
  read address size := some (memBytes mem address size)
  length_le := by
    intro address size bytes h
    simp only [Option.some.injEq] at h
    subst h
    simp [memBytes]

/-- `ReadProcessMemory` on an address space readable below `limit` only: a
request that stays below `limit` is served in full, any other fails. -/
def readBelow (mem : Nat → Nat) (limit : Nat) : ReadProcessMemory where
  read address size := if address + size ≤ limit then some (memBytes mem address size) else none
  length_le := by
    intro address size bytes h
    simp only at h
    split at h
    · simp only [Option.some.injEq] at h
      subst h
      simp [memBytes]
    · simp at h

/-! ## `find_cvar_ptr` (`memory.cpp`, lines 84-171) -/

/-- Value of `MEM_COMMIT` in `<winnt.h>`. -/
def MEM_COMMIT : Nat := 0x1000

/-- Value of `MEM_PRIVATE` in `<winnt.h>`. -/
def MEM_PRIVATE : Nat := 0x20000

/-- Value of `PAGE_READWRITE` in `<winnt.h>`. -/
def PAGE_READWRITE : Nat := 0x04

/-- Value of `PAGE_EXECUTE_READWRITE` in `<winnt.h>`. -/
def PAGE_EXECUTE_READWRITE : Nat := 0x40

/-- The constant `VirtualMemoryMax` of lines 144-150. -/
def VirtualMemoryMax : Abi → Nat
  | .x64 => 0x7fffffff0000
  | .x86 => 0x78000000

/-- The primitive `VirtualQueryEx(process, address, &memoryBasicInformation, size)`:
`none` when the call returns `0`, else the region it describes. -/
abbrev VirtualQueryEx := Nat → Option MEMORY_BASIC_INFORMATION

/-- One pass of the loop of `find_cvar_ptr` as seen from outside: the address
given to `VirtualQueryEx`, the buffer at that time, the region the call
described (`none` when it failed) and, when the region was handed to
`LookupPage`, what that scan left behind. -/
structure Visit where
  readAddress : Nat
  buffer : List Nat
  region : Option MEMORY_BASIC_INFORMATION
  scan : Option Scan
deriving DecidableEq

/-- The requests to `ReadProcessMemory` made during a visit. -/
def Visit.reads (v : Visit) : List (Nat × Nat) :=
  match v.scan with
  | some scan => scan.reads
  | none => []

/-- Whether the scan of a visit returned a pointer that `if (cvarPtr)` takes
for a match, that is a non-null one. -/
def Visit.matched (v : Visit) : Bool :=
  match v.scan with
  | some scan =>
    match scan.result with
    | .ptr a => a != 0
    | _ => false
  | none => false

/-- The variables of `find_cvar_ptr` that live across passes of `for (;;)`. -/
structure find_cvar_ptr.State where
  readAddress : Nat
  buffer : List Nat
deriving DecidableEq

/-- How one pass through the body of `for (;;)` ends: with a `break` and the
value `cvarPtr` then has (`ret`), or by going round again. -/
inductive find_cvar_ptr.Pass
  | ret (visit : Visit) (cvarPtr : Lookup) (buffer : List Nat)
  | again (visit : Visit) (next : find_cvar_ptr.State)

/-- Lines 140-165: the step to the next region, taken when the region gave no
match; `cvarPtr` is null on each `break` here. -/
def find_cvar_ptr.advance (abi : Abi) (visit : Visit)
    (memoryBasicInformation : MEMORY_BASIC_INFORMATION) (buffer : List Nat) :
    find_cvar_ptr.Pass :=
  let nextAddress :=
    (memoryBasicInformation.BaseAddress + memoryBasicInformation.RegionSize) % 2 ^ abi.bits
  if nextAddress ≥ VirtualMemoryMax abi then .ret visit .nullptr buffer
  else if nextAddress ≤ visit.readAddress then .ret visit .nullptr buffer
  else .again visit ⟨nextAddress, buffer⟩

/-- One pass through the body of `for (;;)` (lines 98-165). -/
def find_cvar_ptr.pass (vq : VirtualQueryEx) (rpm : ReadProcessMemory) (abi : Abi)
    (cvarDef : pattern) (s : find_cvar_ptr.State) : find_cvar_ptr.Pass :=
  match vq s.readAddress with
  | none => .ret ⟨s.readAddress, s.buffer, none, none⟩ .nullptr s.buffer
  | some memoryBasicInformation =>
    if memoryBasicInformation.Type_ = MEM_PRIVATE ∧
        memoryBasicInformation.State = MEM_COMMIT ∧
        (memoryBasicInformation.Protect = PAGE_READWRITE ∨
          memoryBasicInformation.Protect = PAGE_EXECUTE_READWRITE) then
      let scan := LookupPage rpm abi memoryBasicInformation cvarDef s.buffer
      let visit : Visit := ⟨s.readAddress, s.buffer, some memoryBasicInformation, some scan⟩
      match scan.result with
      | .ptr a =>
        if a ≠ 0 then .ret visit (.ptr a) scan.buffer
        else find_cvar_ptr.advance abi visit memoryBasicInformation scan.buffer
      | .ub => .ret visit .ub scan.buffer
      | .nullptr => find_cvar_ptr.advance abi visit memoryBasicInformation scan.buffer
    else
      find_cvar_ptr.advance abi ⟨s.readAddress, s.buffer, some memoryBasicInformation, none⟩
        memoryBasicInformation s.buffer

/-- The visit a pass made. -/
def find_cvar_ptr.Pass.visit : find_cvar_ptr.Pass → Visit
  | .ret visit _ _ => visit
  | .again visit _ => visit

theorem find_cvar_ptr_advance_again (abi : Abi) (visit visit2 : Visit)
    (mbi : MEMORY_BASIC_INFORMATION) (buffer : List Nat) (next : find_cvar_ptr.State)
    (h : find_cvar_ptr.advance abi visit mbi buffer = .again visit2 next) :
    visit2 = visit ∧ next.buffer = buffer ∧
    next.readAddress = (mbi.BaseAddress + mbi.RegionSize) % 2 ^ abi.bits ∧
    visit.readAddress < next.readAddress ∧ next.readAddress < VirtualMemoryMax abi := by
  unfold find_cvar_ptr.advance at h
  simp only at h
  split at h
  · simp at h
  · split at h
    · simp at h
    · simp only [find_cvar_ptr.Pass.again.injEq] at h
      obtain ⟨h1, h2⟩ := h
      subst h1 h2
      exact ⟨rfl, rfl, rfl, by simp only; omega, by simp only; omega⟩

/-- A pass that goes round again moves the address up, below the ceiling. -/
theorem find_cvar_ptr_pass_again_lt (vq : VirtualQueryEx) (rpm : ReadProcessMemory) (abi : Abi)
    (cvarDef : pattern) (s next : find_cvar_ptr.State) (visit : Visit)
    (h : find_cvar_ptr.pass vq rpm abi cvarDef s = .again visit next) :
    s.readAddress < next.readAddress ∧ next.readAddress < VirtualMemoryMax abi := by
  unfold find_cvar_ptr.pass at h
  split at h
  · simp at h
  · split at h
    · simp only at h
      split at h
      · split at h
        · simp at h
        · have := find_cvar_ptr_advance_again abi _ _ _ _ _ h
          exact ⟨this.2.2.2.1, this.2.2.2.2⟩
      · simp at h
      · have := find_cvar_ptr_advance_again abi _ _ _ _ _ h
        exact ⟨this.2.2.2.1, this.2.2.2.2⟩
    · have := find_cvar_ptr_advance_again abi _ _ _ _ _ h
      exact ⟨this.2.2.2.1, this.2.2.2.2⟩

/-- What `find_cvar_ptr` leaves behind: its return value, the buffer, and the
passes of its loop, in order. -/
structure Sweep where
  cvarPtr : Lookup
  buffer : List Nat
  visits : List Visit

/-- The loop `for (;;)` of `find_cvar_ptr` from state `s` on. The recursion is
on `fuel`, a bound on the distance from `readAddress` to `VirtualMemoryMax`,
which every pass that goes round again makes smaller. -/
def find_cvar_ptr.loop (vq : VirtualQueryEx) (rpm : ReadProcessMemory) (abi : Abi)
    (cvarDef : pattern) :
    (fuel : Nat) → (s : find_cvar_ptr.State) → VirtualMemoryMax abi ≤ s.readAddress + fuel → Sweep
  | 0, s, h =>
    match hp : find_cvar_ptr.pass vq rpm abi cvarDef s with
    | .ret visit cvarPtr buffer => ⟨cvarPtr, buffer, [visit]⟩
    | .again visit next =>
      absurd (find_cvar_ptr_pass_again_lt vq rpm abi cvarDef s next visit hp) (by omega)
  | fuel + 1, s, h =>
    match hp : find_cvar_ptr.pass vq rpm abi cvarDef s with
    | .ret visit cvarPtr buffer => ⟨cvarPtr, buffer, [visit]⟩
    | .again visit next =>
      let rest := find_cvar_ptr.loop vq rpm abi cvarDef fuel next
        (by have := find_cvar_ptr_pass_again_lt vq rpm abi cvarDef s next visit hp; omega)
      ⟨rest.cvarPtr, rest.buffer, visit :: rest.visits⟩

/-- The loop of `find_cvar_ptr` from state `s` on. -/
def find_cvar_ptr.run (vq : VirtualQueryEx) (rpm : ReadProcessMemory) (abi : Abi)
    (cvarDef : pattern) (s : find_cvar_ptr.State) : Sweep :=
  find_cvar_ptr.loop vq rpm abi cvarDef (VirtualMemoryMax abi) s (Nat.le_add_left _ _)

/-- `find_cvar_ptr(cvarDef, buffer)`: the sweep starts at `readAddress = nullptr`. -/
def find_cvar_ptr (vq : VirtualQueryEx) (rpm : ReadProcessMemory) (abi : Abi)
    (cvarDef : pattern) (buffer : List Nat) : Sweep :=
  find_cvar_ptr.run vq rpm abi cvarDef ⟨0, buffer⟩

/-- The state of the sweep at the start of its pass number `k` (counted from
0) when the loop is entered in state `s`: `none` when the loop has ended
before that pass. -/
def find_cvar_ptr.stateAt (vq : VirtualQueryEx) (rpm : ReadProcessMemory) (abi : Abi)
    (cvarDef : pattern) : Nat → find_cvar_ptr.State → Option find_cvar_ptr.State
  | 0, s => some s
  | k + 1, s =>
    match find_cvar_ptr.pass vq rpm abi cvarDef s with
    | .ret _ _ _ => none
    | .again _ next => find_cvar_ptr.stateAt vq rpm abi cvarDef k next

/-! ## Values of a record (`cvar.hpp`, lines 30-43 and 83-194) -/

/-- `INT_MIN` of the 32-bit `int`. -/
def INT_MIN : Int := -2147483648

/-- `INT_MAX` of the 32-bit `int`. -/
def INT_MAX : Int := 2147483647

/-- A floating-point datum: a finite one has the value `m * 2 ^ e`, negated
when `negative` is set; the zero with `negative` set is `-0.0`. One value can
be written in several ways (`m = 2, e = 0` and `m = 1, e = 1`). The values of
`float` are those that can be written with `m < 2 ^ 24` and
`-149 ≤ e ≤ 104`, both infinities and NaN. -/
inductive float where
  | finite (negative : Bool) (m : Nat) (e : Int)
  | inf (negative : Bool)
  | nan
deriving DecidableEq

/-- The literal `0.0f`. -/
def float.zero : float := .finite false 0 0

/-- The number of low bits by which `a` is longer than 24 bits. The recursion
is on `fuel`, a bound on `a`. -/
def float.excess : (fuel a : Nat) → a ≤ fuel → Nat
  | 0, _, _ => 0
  | fuel + 1, a, h =>
    if ha : a < 2 ^ 24 then 0
    else float.excess fuel (a / 2) (by omega) + 1

/-- `float(i)` for an `int`: exact below `2 ^ 24`, otherwise rounded to 24
significant bits, to nearest and to even on a tie. -/
def float.of_int (i : Int) : float :=
  let a := i.natAbs
  if a < 2 ^ 24 then .finite (decide (i < 0)) a 0
  else
    let k := float.excess a a (Nat.le_refl _)
    let q := a / 2 ^ k
    let r := a % 2 ^ k
    let m := if 2 ^ (k - 1) < r ∨ (r = 2 ^ (k - 1) ∧ q % 2 = 1) then q + 1 else q
    .finite (decide (i < 0)) m k

/-- The value of a finite datum, as a rational number. -/
def float.value : float → Option ℚ
  | .finite negative m e => some ((if negative then -1 else 1) * ((m : ℚ) * (2 : ℚ) ^ e))
  | .inf _ => none
  | .nan => none

/-- The integer part of a finite datum: its value with the fraction
discarded. Infinities and NaN have none. -/
def float.trunc : float → Option Int
  | .finite negative m e =>
    let a : Nat := if 0 ≤ e then m * 2 ^ e.toNat else m / 2 ^ (-e).toNat
    some (if negative then -(a : Int) else (a : Int))
  | .inf _ => none
  | .nan => none

/-- `int(f)`: the integer part of `f` when that is an `int`. For every other
`f` the language leaves the conversion undefined; the value the target then
delivers is the parameter `indefinite`. -/
def float.to_int (indefinite : Int) (f : float) : Int :=
  match f.trunc with
  | some v => if INT_MIN ≤ v ∧ v ≤ INT_MAX then v else indefinite
  | none => indefinite

/-- `a == b` on `float`: NaN equals nothing, the two zeros are equal, and
otherwise the values are compared. -/
def float.eq : float → float → Bool
  | .finite n1 m1 e1, .finite n2 m2 e2 =>
    if m1 = 0 ∧ m2 = 0 then true
    else decide (n1 = n2 ∧
      m1 * 2 ^ (e1 - min e1 e2).toNat = m2 * 2 ^ (e2 - min e1 e2).toNat)
  | .inf n1, .inf n2 => decide (n1 = n2)
  | _, _ => false

/-- What the model takes from the C++ library and the target instead of
defining it: the value of `int(f)` where the language leaves it undefined,
`std::to_string(float)` (at most 255 bytes, none of them NUL) and
`std::from_chars` for `float`, given as the value of its third argument after
the call. -/
structure Runtime where
  indefinite : Int
  indefinite_int : INT_MIN ≤ indefinite ∧ indefinite ≤ INT_MAX
  to_string_float : float → List Nat
  to_string_float_length : ∀ f, (to_string_float f).length < 256
  to_string_float_nul : ∀ f, ∀ b ∈ to_string_float f, b ≠ 0
  from_chars_float : List Nat → float → float

/-- The decimal digits of `n`, most significant first, as bytes `'0'`..`'9'`.
The recursion is on `fuel`, a bound on `n`. -/
def std.digits : (fuel n : Nat) → n ≤ fuel → List Nat
  | 0, _, _ => [48]
  | fuel + 1, n, h =>
    if hn : n < 10 then [48 + n]
    else std.digits fuel (n / 10) (by omega) ++ [48 + n % 10]

/-- `std::to_string(int)`: a minus sign for a negative number, then the
decimal digits of its absolute value. -/
def std.to_string (i : Int) : List Nat :=
  if i < 0 then 45 :: std.digits i.natAbs i.natAbs (Nat.le_refl _)
  else std.digits i.natAbs i.natAbs (Nat.le_refl _)

/-- Whether a byte is one of `'0'`..`'9'`. -/
def std.isdigit (c : Nat) : Bool := decide (48 ≤ c ∧ c ≤ 57)

/-- The number a sequence of digit bytes denotes in base ten. -/
def std.decimal (digits : List Nat) : Nat :=
  digits.foldl (fun a d => 10 * a + (d - 48)) 0

/-- `std::from_chars(first, last, value)` for an `int`, in base ten, given as
the value of `value` after the call. The pattern is an optional minus sign
then digits, as many as there are; with no digit, or with a number that is
not an `int`, `value` is left as it was. -/
def std.from_chars (s : List Nat) (value : Int) : Int :=
  let negative : Bool := decide (s.head? = some 45)
  let digits := (if negative then s.drop 1 else s).takeWhile std.isdigit
  if digits = [] then value
  else
    let v : Int := if negative then -(std.decimal digits : Int) else (std.decimal digits : Int)
    if INT_MIN ≤ v ∧ v ≤ INT_MAX then v else value

/-- Whether a byte is white space for `isspace` in the "C" locale. -/
def std.isspace (c : Nat) : Bool := decide (c = 32 ∨ (9 ≤ c ∧ c ≤ 13))

/-- `std::stoi(s)` of the older copy `cryengine_cvar.hpp`: white space is
skipped, a sign `-` or `+` may come, then digits; `none` when it throws
`std::invalid_argument` (no digit) or `std::out_of_range` (not an `int`). -/
def std.stoi (s : List Nat) : Option Int :=
  let t := s.dropWhile std.isspace
  let negative : Bool := decide (t.head? = some 45)
  let signed : Bool := decide (t.head? = some 45 ∨ t.head? = some 43)
  let digits := (if signed then t.drop 1 else t).takeWhile std.isdigit
  if digits = [] then none
  else
    let v : Int := if negative then -(std.decimal digits : Int) else (std.decimal digits : Int)
    if INT_MIN ≤ v ∧ v ≤ INT_MAX then some v else none

/-- The `int_value` that `assign::operator()(const std::string&)` of the older
copy `cryengine_cvar.hpp` stores: `std::stoi(s)`, or 0 when that throws. -/
def assign.int_value (s : List Nat) : Int :=
  match std.stoi s with
  | some v => v
  | none => 0

/-- `strlen`: the number of bytes before the first NUL. -/
def strlen (s : List Nat) : Nat := (s.takeWhile (· ≠ 0)).length

/-- `strncpy_s(strDest, numberOfElements, strSource, count)` of the Microsoft
C runtime, given as the destination after the call. The first `D` bytes of the
source are to be copied, `D` being the lesser of `count` and the length of the
source; when they and a terminator fit in `numberOfElements` bytes they are
copied and the terminator is appended, and the bytes after it stay (release
runtime). When they do not fit, the invalid-parameter handler is invoked:
`none`. -/
def strncpy_s (strDest : List Nat) (numberOfElements : Nat) (strSource : List Nat)
    (count : Nat) : Option (List Nat) :=
  let D := min count (strlen strSource)
  if D < numberOfElements then some (strSource.take D ++ [0] ++ strDest.drop (D + 1))
  else none

/-- `std::strncmp(lhs, rhs, count)`: the sign of the first difference among
the first `count` bytes, none being looked at after a NUL; `none` when an
array ends before that. -/
def strncmp : List Nat → List Nat → Nat → Option Int
  | _, _, 0 => some 0
  | a :: lhs, b :: rhs, count + 1 =>
    if a < b then some (-1)
    else if b < a then some 1
    else if a = 0 then some 0
    else strncmp lhs rhs count
  | [], _, _ + 1 => none
  | _ :: _, [], _ + 1 => none

/-- The three value fields of `struct cvar`; `string_value` is an array of
256 bytes. -/
structure cvar where
  int_value : Int
  float_value : float
  string_value : List Nat
deriving DecidableEq

/-- The enumeration `cvar::type`. -/
inductive cvar.type where
  | integer
  | floating
  | string
deriving DecidableEq

/-- The variant `cvar::value`. -/
inductive cvar.value where
  | int (i : Int)
  | float (f : float)
  | string (s : List Nat)
deriving DecidableEq

/-- The alternative a value holds, as a `cvar::type`. -/
def cvar.value.type : cvar.value → cvar.type
  | .int _ => .integer
  | .float _ => .floating
  | .string _ => .string

/-- How a write to a record ends: with the record written, or in the
invalid-parameter handler of the C runtime, which ends the process unless a
handler was installed. -/
inductive Write where
  | done (v : cvar)
  | invalid_parameter
deriving DecidableEq

/-- Whether a write ended with the record written. -/
def Write.done? : Write → Bool
  | .done _ => true
  | .invalid_parameter => false

/-- `cvar::set(i, f, s)`. -/
def cvar.set (v : cvar) (i : Int) (f : float) (s : List Nat) : Write :=
  match strncpy_s v.string_value 256 (s ++ [0]) s.length with
  | some string_value => .done ⟨i, f, string_value⟩
  | none => .invalid_parameter

/-- `cvar::operator=(int i)`. -/
def cvar.assign_int (v : cvar) (i : Int) : Write :=
  v.set i (float.of_int i) (std.to_string i)

/-- `cvar::operator=(float f)`. -/
def cvar.assign_float (rt : Runtime) (v : cvar) (f : float) : Write :=
  v.set (f.to_int rt.indefinite) f (rt.to_string_float f)

/-- `cvar::operator=(const std::string& s)`. -/
def cvar.assign_string (rt : Runtime) (v : cvar) (s : List Nat) : Write :=
  v.set (std.from_chars s 0) (rt.from_chars_float s float.zero) s

/-- `cvar::operator=(const value& v)`. -/
def cvar.assign (rt : Runtime) (v : cvar) : cvar.value → Write
  | .int i => v.assign_int i
  | .float f => v.assign_float rt f
  | .string s => v.assign_string rt s

/-- `std::string{p}` for a pointer `p` to the bytes `bytes`: the bytes before
the first NUL; `none` when there is no NUL among them. -/
def c_string (bytes : List Nat) : Option (List Nat) :=
  if 0 ∈ bytes then some (bytes.takeWhile (· ≠ 0)) else none

/-- `cvar::to_value(t)`. -/
def cvar.to_value (v : cvar) : cvar.type → Option cvar.value
  | .integer => some (.int v.int_value)
  | .floating => some (.float v.float_value)
  | .string => (c_string v.string_value).map .string

/-- `to_string(const cvar::value&)`. -/
def to_string (rt : Runtime) : cvar.value → List Nat
  | .int i => std.to_string i
  | .float f => rt.to_string_float f
  | .string s => s

/-- `operator==(const cvar&, const std::string&)`; `none` when `strncmp`
reads past an array. -/
def cvar.eq_string (v : cvar) (s : List Nat) : Option Bool :=
  (strncmp v.string_value (s ++ [0]) (min 256 (s.length + 1))).map (fun c => decide (c = 0))

/-- `operator==(const cvar&, cvar::value)`, through the overloads for `int`,
`float` and `std::string`. -/
def cvar.eq (v : cvar) : cvar.value → Option Bool
  | .int i => some (decide (v.int_value = i))
  | .float f => some (v.float_value.eq f)
  | .string s => v.eq_string s

/-! ## The order of `float`, and values that fit a record -/

/-- The number of binary digits of `a`. The recursion is on `fuel`, a bound
on `a`. -/
def float.width : (fuel a : Nat) → a ≤ fuel → Nat
  | 0, _, _ => 0
  | fuel + 1, a, h =>
    if ha : a = 0 then 0
    else float.width fuel (a / 2) (by omega) + 1

/-- `a < b` on `float` and on `double`: false when either is NaN, the two
zeros are not below one another, and otherwise the values are compared. -/
def float.lt : float → float → Bool
  | .finite n1 m1 e1, .finite n2 m2 e2 =>
    decide ((if n1 then -(m1 * 2 ^ (e1 - min e1 e2).toNat : Int)
        else (m1 * 2 ^ (e1 - min e1 e2).toNat : Int)) <
      (if n2 then -(m2 * 2 ^ (e2 - min e1 e2).toNat : Int)
        else (m2 * 2 ^ (e2 - min e1 e2).toNat : Int)))
  | .finite _ _ _, .inf n2 => !n2
  | .inf n1, .finite _ _ _ => n1
  | .inf n1, .inf n2 => n1 && !n2
  | .nan, _ => false
  | _, .nan => false

/-- The place of a datum on the rational line with its two ends: the value
of a finite datum, the top for `+inf`, the bottom for `-inf`; NaN has none. -/
def float.extended : float → Option (WithBot (WithTop ℚ))
  | .finite negative m e =>
    some ((((if negative then -1 else 1) * ((m : ℚ) * (2 : ℚ) ^ e) : ℚ) : WithTop ℚ) :
      WithBot (WithTop ℚ))
  | .inf false => some ((⊤ : WithTop ℚ) : WithBot (WithTop ℚ))
  | .inf true => some ⊥
  | .nan => none

/-- The bytes of a string literal of the source. -/
def std.string (s : String) : List Nat := s.data.map Char.toNat

/-- Whether a value is one a record can take: its `int` is an `int`, its text
leaves room for the terminator in `string_value`. -/
def cvar.value.fits : cvar.value → Bool
  | .int i => decide (INT_MIN ≤ i ∧ i ≤ INT_MAX)
  | .float _ => true
  | .string s => decide (s.length ≤ 255)

/-! ## The members of `struct cvar` and their places (`cvar.hpp`, lines 18-32) -/

/-- Value of `offsetof(cvar, int_value)`, as asserted by the header for each
target. -/
def offsetof_int_value : Abi → Nat
  | .x86 => 160
  | .x64 => 184

/-- Value of `offsetof(cvar, float_value)`, as asserted by the header for
each target. -/
def offsetof_float_value : Abi → Nat
  | .x86 => 164
  | .x64 => 188

/-- Value of `offsetof(cvar, string_value)`, as asserted by the header for
each target. -/
def offsetof_string_value : Abi → Nat
  | .x86 => 168
  | .x64 => 192

/-- The types the members of `struct cvar` are declared with. -/
inductive ctype where
  | pointer
  | char
  | int
  | float
  | array_char (n : Nat)
deriving DecidableEq

/-- `sizeof` of a type on a target. -/
def ctype.sizeof (abi : Abi) : ctype → Nat
  | .pointer => abi.bits / 8
  | .char => 1
  | .int => 4
  | .float => 4
  | .array_char n => n

/-- `alignof` of a type on a target, as the columns `a32` and `a64` of the
declaration have it: a scalar is aligned to its size, an array of `char` to
1. -/
def ctype.alignof (abi : Abi) : ctype → Nat
  | .array_char _ => 1
  | t => t.sizeof abi

/-- The non-static data members of `struct cvar`. -/
inductive cvar.member where
  | dummy0
  | cat
  | name
  | dummy1
  | dummy2
  | dummy3
  | dummy4
  | dummy5
  | dummy6
  | int_value
  | float_value
  | string_value
deriving DecidableEq

/-- The members of `struct cvar` with their types, in the order of their
declaration. -/
def cvar.members : List (cvar.member × ctype) :=
  [(.dummy0, .pointer), (.cat, .char), (.name, .array_char 128), (.dummy1, .pointer),
    (.dummy2, .int), (.dummy3, .int), (.dummy4, .int), (.dummy5, .pointer),
    (.dummy6, .pointer), (.int_value, .int), (.float_value, .float),
    (.string_value, .array_char 256)]

/-- The first multiple of `align` at or after `offset`. -/
def align_up (offset align : Nat) : Nat :=
  (offset + align - 1) / align * align

/-- The places of members laid out one after another from `offset` on: each
at the first multiple of its alignment at or after the end of the one
before. -/
def layout {α : Type} (abi : Abi) : Nat → List (α × ctype) → List (α × Nat)
  | _, [] => []
  | offset, (m, t) :: rest =>
    (m, align_up offset (t.alignof abi)) ::
      layout abi (align_up offset (t.alignof abi) + t.sizeof abi) rest

/-- The place of a member of `struct cvar` when its members are laid out one
after another from 0 on. -/
def cvar.member.offset (abi : Abi) (m : cvar.member) : Option Nat :=
  ((layout abi 0 cvar.members).find? (fun e => decide (e.1 = m))).map (·.2)

/-- Whether a value is an `int`, a `float` other than NaN, or a text of at
most 255 bytes none of which is NUL. -/
def cvar.value.plain : cvar.value → Bool
  | .int i => decide (INT_MIN ≤ i ∧ i ≤ INT_MAX)
  | .float f => decide (f ≠ .nan)
  | .string s => decide (s.length ≤ 255 ∧ ∀ b ∈ s, b ≠ 0)


end shugoconsole.cry

namespace shugoconsole.config

/-! ## Validation of configuration values (`config.hpp`, lines 23-199) -/

/-- A value of a TOML document, as `toml::value` holds it: a boolean, a
64-bit integer, a `double`, a string, or a value of another kind (a date, a
time, an array, a table). -/
inductive toml.value where
  | boolean (b : Bool)
  | integer (i : Int)
  | floating (d : cry.float)
  | string (s : List Nat)
  | other
deriving DecidableEq

/-- `static_cast<int>(x)` for a 64-bit integer `x`: its low 32 bits, read as
two's complement. -/
def static_cast_int (x : Int) : Int := (x + 2147483648) % 4294967296 - 2147483648

/-- The text `fmt::format` puts for an `int` at `{}`: its decimal text. -/
def fmt.int (i : Int) : String := String.mk ((cry.std.to_string i).map Char.ofNat)

/-- The text of `fmt::join(v, sep)`. -/
def fmt.join (v : List String) (sep : String) : String := sep.intercalate v

/-- `struct error`: the message, `fmt::format` of the format string and its
arguments, here with each `{}` filled in. -/
structure error where
  message : String
deriving DecidableEq

/-- `result`, a `checked<cry::cvar::value, error>`. -/
inductive result where
  | value (v : cry.cvar.value)
  | error (e : error)
deriving DecidableEq

/-- `detail::minmax<T>`. -/
structure types.detail.minmax (T : Type) where
  min : T
  max : T

/-- `detail::check_bounds(m, v)`, for a type `T` with its order `lt`, the text
`fmt::format` puts for it, and the alternative of `cvar::value` it goes to.
The arguments of the message are, in this order, `m.min`, `m.max`, `v`. -/
def types.detail.check_bounds {T : Type} (lt : T → T → Bool) (text : T → String)
    (alternative : T → cry.cvar.value) (m : types.detail.minmax T) (v : T) : result :=
  if lt v m.min || lt m.max v then
    .error ⟨text m.min ++ " is not a valid value. Value must be between " ++ text m.max ++
      " and " ++ text v ++ "."⟩
  else .value (alternative v)

/-- `boolean::check(int i)`. -/
def types.boolean.check_int (i : Int) : result :=
  if i ≠ 0 ∧ i ≠ 1 then
    .error ⟨fmt.int i ++
      " is not a valid value. Boolean values must be either 0, 1, true or false."⟩
  else .value (.int i)

/-- `boolean::check(bool b)`. -/
def types.boolean.check_bool (b : Bool) : result :=
  .value (.int (if b then 1 else 0))

/-- `boolean::from_toml(toml_value)`; `format` is `toml::format`. -/
def types.boolean.from_toml (format : toml.value → String) (toml_value : toml.value) :
    result :=
  match toml_value with
  | .integer i => types.boolean.check_int (static_cast_int i)
  | .boolean b => types.boolean.check_bool b
  | _ =>
    .error ⟨"\x27" ++ format toml_value ++
      "\x27 is not a valid value. It should be a boolean or an integer value (0 or 1)."⟩

/-- `struct integer`: its member `constraint`, a variant of `no_constraint`,
`constraint_minmax` and `constraint_values`. -/
inductive types.integer where
  | no_constraint
  | constraint_minmax (m : types.detail.minmax Int)
  | constraint_values (v : List Int)

/-- `integer::with_min_max(min, max)`. -/
def types.integer.with_min_max (min max : Int) : types.integer :=
  .constraint_minmax ⟨min, max⟩

/-- `integer::with_values(v)`. -/
def types.integer.with_values (v : List Int) : types.integer :=
  .constraint_values v

/-- `integer::check(int i)`, through `check` of the constraint held. -/
def types.integer.check (c : types.integer) (i : Int) : result :=
  match c with
  | .no_constraint => .value (.int i)
  | .constraint_minmax m =>
    types.detail.check_bounds (fun a b => decide (a < b)) fmt.int .int m i
  | .constraint_values v =>
    if v.isEmpty || v.any (fun value => decide (i = value)) then .value (.int i)
    else
      .error ⟨fmt.int i ++ " is not a valid value. It should be one of: " ++
        fmt.join (v.map fmt.int) ", " ++ "."⟩

/-- `integer::from_toml(toml_value)`; `format` is `toml::format`. -/
def types.integer.from_toml (format : toml.value → String) (c : types.integer)
    (toml_value : toml.value) : result :=
  match toml_value with
  | .integer i => c.check (static_cast_int i)
  | _ => .error ⟨"\x27" ++ format toml_value ++ "\x27 is not a valid value. It should be an integer."⟩

/-! ## Validation of `float` and text values (`config.hpp`, lines 201-340) -/

/-- `static_cast<float>(d)` for a `double` `d`: the nearest `float`, the one
with an even mantissa on a tie; a `float` is left as it is, and a value too
large for a `float` becomes an infinity. -/
def static_cast_float : cry.float → cry.float
  | .finite negative m e =>
    if m = 0 then .finite negative 0 0
    else
      let top : Int := e + cry.float.width m m (Nat.le_refl _) - 1
      let q : Int := max (top - 23) (-149)
      if q ≤ e then
        if 128 ≤ top then .inf negative else .finite negative m e
      else
        let k := (q - e).toNat
        let m0 := m / 2 ^ k
        let r := m % 2 ^ k
        let m1 := if 2 ^ (k - 1) < r ∨ (r = 2 ^ (k - 1) ∧ m0 % 2 = 1) then m0 + 1 else m0
        if 128 ≤ top ∨ (top = 127 ∧ m1 = 2 ^ 24) then .inf negative
        else .finite negative m1 q
  | .inf negative => .inf negative
  | .nan => .nan

/-- The text `fmt::format` puts for a `std::string` at `{}`: the string. -/
def fmt.string (s : List Nat) : String := String.mk (s.map Char.ofNat)

/-- `class floating`: its member `constraint`, a variant of `no_constraint`
and `constraint_minmax`. -/
inductive types.floating where
  | no_constraint
  | constraint_minmax (m : types.detail.minmax cry.float)

/-- `floating::with_min_max(min, max)`. -/
def types.floating.with_min_max (min max : cry.float) : types.floating :=
  .constraint_minmax ⟨min, max⟩

/-- `floating::check(float f)`, through `check` of the constraint held;
`text` is the text `fmt::format` puts for a `float`. -/
def types.floating.check (text : cry.float → String) (c : types.floating) (f : cry.float) :
    result :=
  match c with
  | .no_constraint => .value (.float f)
  | .constraint_minmax m => types.detail.check_bounds cry.float.lt text .float m f

/-- `floating::check(int i)`. -/
def types.floating.check_int (text : cry.float → String) (c : types.floating) (i : Int) :
    result :=
  c.check text (cry.float.of_int i)

/-- `floating::from_toml(toml_value)`; `format` is `toml::format`. -/
def types.floating.from_toml (format : toml.value → String) (text : cry.float → String)
    (c : types.floating) (toml_value : toml.value) : result :=
  match toml_value with
  | .integer i => c.check_int text (static_cast_int i)
  | .floating d => c.check text (static_cast_float d)
  | _ =>
    .error ⟨"\x27" ++ format toml_value ++
      "\x27 is not a valid value. It should be an integer or a floating point value."⟩

/-- `class string`: its member `constraint`, a variant of `no_constraint` and
`constraint_values`. -/
inductive types.string where
  | no_constraint
  | constraint_values (v : List (List Nat))

/-- `string::with_values(v)`. -/
def types.string.with_values (v : List (List Nat)) : types.string :=
  .constraint_values v

/-- `string::check(s)`; `max_size`, the size of `string_value`, is 256. -/
def types.string.check (c : types.string) (s : List Nat) : result :=
  if s.length ≥ 256 then
    .error ⟨"\x27" ++ fmt.string s ++
      "\x27 is not a valid value. String values must contain 255 characters or less."⟩
  else
    match c with
    | .no_constraint => .value (.string s)
    | .constraint_values v =>
      if v.isEmpty || v.any (fun value => decide (s = value)) then .value (.string s)
      else
        .error ⟨fmt.string s ++ " is not a valid value. It should be one of: " ++
          fmt.join (v.map fmt.string) ", " ++ "."⟩

/-- `string::from_toml(toml_value)`; `format` is `toml::format`. -/
def types.string.from_toml (format : toml.value → String) (c : types.string)
    (toml_value : toml.value) : result :=
  match toml_value with
  | .string s => c.check s
  | _ =>
    .error ⟨"\x27" ++ format toml_value ++ "\x27 is not a valid value. It should be a string value."⟩

/-! ## `configuration` (`config.hpp`, lines 344-463) -/

/-- `variable_definition::type_variant`. -/
inductive configuration.type_variant where
  | boolean
  | integer (t : types.integer)
  | floating (t : types.floating)
  | string (t : types.string)

/-- `cvar_type()` of the type held. -/
def configuration.type_variant.cvar_type : configuration.type_variant → cry.cvar.type
  | .boolean => .integer
  | .integer _ => .integer
  | .floating _ => .floating
  | .string _ => .string

/-- `from_toml(toml_value)` of the type held, as `std::visit` calls it in
`from_file`. -/
def configuration.type_variant.from_toml (format : toml.value → String)
    (text : cry.float → String) (t : configuration.type_variant) (toml_value : toml.value) :
    result :=
  match t with
  | .boolean => types.boolean.from_toml format toml_value
  | .integer t => t.from_toml format toml_value
  | .floating t => t.from_toml format text toml_value
  | .string t => t.from_toml format toml_value

/-- The kinds of literal that each type is said to take: an integer or a
boolean for `boolean`, an integer for `integer`, an integer or a
floating-point number for `floating`, a string for `string`. -/
def configuration.type_variant.takes : configuration.type_variant → toml.value → Bool
  | .boolean, .integer _ => true
  | .boolean, .boolean _ => true
  | .integer _, .integer _ => true
  | .floating _, .integer _ => true
  | .floating _, .floating _ => true
  | .string _, .string _ => true
  | _, _ => false

/-- `configuration::variable_definition`. -/
structure configuration.variable_definition where
  name : List Nat
  type : configuration.type_variant

/-- `variable_definition::cvar_type()`. -/
def configuration.variable_definition.cvar_type (d : configuration.variable_definition) :
    cry.cvar.type :=
  d.type.cvar_type

/-- `configuration::variable`: the member `def` is `definition` here. -/
structure configuration.variable where
  definition : configuration.variable_definition
  opt_value : Option cry.cvar.value

/-- `class configuration`. -/
structure configuration where
  vars : List configuration.variable

/-- `configuration::configuration(var_set)`: every value is empty. -/
def configuration.of_set (var_set : List configuration.variable_definition) : configuration :=
  ⟨var_set.map (fun definition => ⟨definition, none⟩)⟩

/-- What `toml::find(root, key)` does: it returns the value at the key, or
throws `std::out_of_range` when the key is not there, or throws a
`toml::exception`. -/
inductive toml.found where
  | value (v : toml.value)
  | out_of_range
  | exception
deriving DecidableEq

/-- The file at `configPath` as `from_file` meets it: it cannot be opened, or
`toml::parse` throws a `toml::exception`, or it is parsed to a `root` that
`toml::find` is called on. -/
inductive document where
  | unopenable
  | unparsable
  | parsed (root : List Nat → toml.found)

/-- The body of the loop of `from_file` for one variable. -/
def configuration.from_file.read (format : toml.value → String) (text : cry.float → String)
    (root : List Nat → toml.found) (var : configuration.variable) : configuration.variable :=
  match root var.definition.name with
  | .value toml_value =>
    match var.definition.type.from_toml format text toml_value with
    | .value v => ⟨var.definition, some v⟩
    | .error _ => ⟨var.definition, none⟩
  | .out_of_range => ⟨var.definition, none⟩
  | .exception => ⟨var.definition, none⟩

/-- `configuration::from_file(varSet, configPath)`, for the file as it is
met; what is logged is left out. -/
def configuration.from_file (format : toml.value → String) (text : cry.float → String)
    (varSet : List configuration.variable_definition) (file : document) : configuration :=
  match file with
  | .unopenable => configuration.of_set varSet
  | .unparsable => configuration.of_set varSet
  | .parsed root =>
    ⟨(configuration.of_set varSet).vars.map (configuration.from_file.read format text root)⟩

/-- What `toml::find` does for a name in the file as it is met, when there is
a parsed file to call it on. -/
def document.find : document → List Nat → Option toml.found
  | .parsed root, name => some (root name)
  | .unopenable, _ => none
  | .unparsable, _ => none

end shugoconsole.config

namespace shugoconsole.cry

/-! ## Concrete inputs used below -/

/-- An address space holding `bytes` from `base` on and `filler` elsewhere. -/
def memAt (base : Nat) (bytes : List Nat) (filler : Nat) : Nat → Nat :=
  fun address => if address < base then filler else bytes.getD (address - base) filler

/-- A pattern whose name is twelve bytes long, so `size() = 18` on x86. -/
def name12 : pattern := ⟨List.replicate 12 97⟩

/-- A record for `name12` at offset 16 of a block: category byte at 20, name
at 21..32, terminator at 33. -/
def record12 : List Nat :=
  List.replicate 20 7 ++ [1] ++ List.replicate 12 97 ++ [0] ++ List.replicate 30 7

/-- A pattern whose name is ten bytes long, so `size() = 16` on x86. -/
def name10 : pattern := ⟨List.replicate 10 97⟩

/-- A record for `name10` at offset 16 of a block of 36 bytes: category byte
at 20, name at 21..30, terminator at 31. -/
def record10 : List Nat :=
  List.replicate 20 7 ++ [1] ++ List.replicate 10 97 ++ [0] ++ List.replicate 4 7

/-- An enumeration of three regions: a free one below 4096, a candidate of 64
bytes at 4096, a read-only one up to 8192; above, `VirtualQueryEx` fails. -/
def demoRegions : VirtualQueryEx := fun address =>
  if address < 4096 then some ⟨0, 4096, 0x10000, 0x01, 0⟩
  else if address < 4160 then some ⟨4096, 64, MEM_COMMIT, PAGE_READWRITE, MEM_PRIVATE⟩
  else if address < 8192 then some ⟨4160, 4032, MEM_COMMIT, 0x02, MEM_PRIVATE⟩
  else none

/-- The first visit of a sweep over `demoRegions` with a fresh buffer of 48
bytes: the free region at address 0, which is not scanned. -/
def demoVisit : Visit :=
  ⟨0, List.replicate 48 0, some ⟨0, 4096, 0x10000, 0x01, 0⟩, none⟩

/-- A runtime for the concrete inputs below: `int(f)` gives `INT_MIN` where it
is undefined, every `float` is rendered as `?`, and no text is read as a
`float`. -/
def demoRuntime : Runtime :=
  ⟨INT_MIN, by decide, fun _ => [63], fun _ => by simp, fun _ => by simp, fun _ f => f⟩

/-- A record whose fields hold 7, NaN and 256 bytes 9. -/
def demoRecord : cvar := ⟨7, .nan, List.replicate 256 9⟩

/-- A record whose text is `ab`: the bytes `a`, `b`, NUL, and 253 bytes 9. -/
def demoText : cvar := ⟨7, .nan, [97, 98, 0] ++ List.replicate 253 9⟩

/-- The `float` nearest to 3.9, `16357786 * 2 ^ -22`. -/
def float_3_9 : float := .finite false 16357786 (-22)

/-- `ReadProcessMemory` on an address space all of whose bytes are readable,
which copies no more than `n` bytes for a request at the address `first` and
serves every other request in full. -/
def readShortAt (mem : Nat → Nat) (first n : Nat) : ReadProcessMemory where
  read address size :=
    if address = first then some (memBytes mem address (min size n))
    else some (memBytes mem address size)
  length_le := by
    intro address size bytes h
    simp only at h
    split at h
    · simp only [Option.some.injEq] at h
      subst h
      simp [memBytes]
    · simp only [Option.some.injEq] at h
      subst h
      simp [memBytes]

/-- A record for `name10` at offset 4 of a block of 36 bytes: category byte
at 8, name at 9..18, terminator at 19. -/
def record10at4 : List Nat :=
  List.replicate 8 7 ++ [1] ++ List.replicate 10 97 ++ [0] ++ List.replicate 16 7

/-- An enumeration of two regions: a free one below 4096 and a candidate of
36 bytes at 4096; above, `VirtualQueryEx` fails. -/
def demoOddRegion : VirtualQueryEx := fun address =>
  if address < 4096 then some ⟨0, 4096, 0x10000, 0x01, 0⟩
  else if address < 4132 then some ⟨4096, 36, MEM_COMMIT, PAGE_READWRITE, MEM_PRIVATE⟩
  else none

end shugoconsole.cry

namespace shugoconsole.win

/-! ## `file_monitor` (`win/file_monitor.cpp`) -/

/-- The members of `file_monitor` that its functions read and write. A time
point of `steady_clock` and a duration are counts of its ticks, a
`file_time_type` a count of ticks of the file clock. -/
structure file_monitor where
  changed_ : Bool
  last_time_point_ : Int
  last_write_ : Option Int
  interval_ : Int
deriving DecidableEq

/-- `file_monitor::file_monitor(file_path, interval)`, with what
`steady_clock::now()` and `opt_last_write_time(file_path_)` return in it. -/
def file_monitor.create (now : Int) (last_write : Option Int) (interval : Int) :
    file_monitor :=
  ⟨false, now, last_write, interval⟩

/-- `file_monitor::changed()`, with what `steady_clock::now()` returns in it. -/
def file_monitor.changed (monitor : file_monitor) (now : Int) : Bool :=
  monitor.changed_ && decide (now - monitor.last_time_point_ > monitor.interval_)

/-- `file_monitor::reset()`. -/
def file_monitor.reset (monitor : file_monitor) : file_monitor :=
  ⟨false, monitor.last_time_point_, monitor.last_write_, monitor.interval_⟩

/-- `file_monitor::on_event_signaled()`, with what `opt_last_write_time` and
`steady_clock::now()` return in it. -/
def file_monitor.on_event_signaled (monitor : file_monitor) (new_last_write : Option Int)
    (now : Int) : file_monitor :=
  if new_last_write ≠ monitor.last_write_ then
    ⟨true, now, new_last_write, monitor.interval_⟩
  else monitor

end shugoconsole.win

namespace shugoconsole

/-! ## `instance_impl::run` (`shugoconsole.cpp`) -/

/-- `WAIT_TIME_AFTER_FILE_CHANGE`, one second, in ticks of `steady_clock`
(nanoseconds). -/
def WAIT_TIME_AFTER_FILE_CHANGE : Int := 1000000000

/-- `CONSOLE_VARS`. -/
def CONSOLE_VARS : List config.configuration.variable_definition :=
  [⟨cry.std.string "g_minFov",
      .floating (.with_min_max (.finite false 60 0) (.finite false 170 0))⟩,
    ⟨cry.std.string "g_chatlog", .boolean⟩,
    ⟨cry.std.string "g_camMax",
      .floating (.with_min_max (.finite false 5 0) (.finite false 50 0))⟩,
    ⟨cry.std.string "d3d9_TripleBuffering", .boolean⟩,
    ⟨cry.std.string "g_maxfps", .integer (.with_min_max 0 1000)⟩,
    ⟨cry.std.string "r_Texture_Anisotropic_Level", .integer (.with_values [0, 2, 4, 8, 16])⟩]

/-- `WAIT_OBJECT_0` of the Win32 headers. -/
def WAIT_OBJECT_0 : Nat := 0

/-- `WAIT_TIMEOUT` of the Win32 headers. -/
def WAIT_TIMEOUT : Nat := 258

/-- `instance_impl::console_var_task`. The pointer `cvar` is the address it
holds; `nullptr` is 0. -/
structure console_var_task where
  cfg : config.configuration.variable
  cvar : Nat

/-- `console_var_task::type()`. -/
def console_var_task.type (task : console_var_task) : cry.cvar.type :=
  task.cfg.definition.cvar_type

/-- `console_var_task::name()`. -/
def console_var_task.name (task : console_var_task) : List Nat :=
  task.cfg.definition.name

/-- What the build fixes for `run`: the target, the library functions that are
parameters of the embedding, and the set of definitions. -/
structure Build where
  abi : cry.Abi
  runtime : cry.Runtime
  format : config.toml.value → String
  text : cry.float → String
  varSet : List config.configuration.variable_definition

/-- What one pass through the body of a loop of `run` meets: the address
space `find_cvar_ptr` sweeps (`vq`, `rpm`); the records of the process, by
address, as they are when the pass reads them; what `WaitForMultipleObjects`
returns; what `steady_clock::now()` returns in `changed()`; the file, should
`from_file` read it; and what `opt_last_write_time` and `steady_clock::now()`
return in `on_event_signaled()`. -/
structure Input where
  vq : cry.VirtualQueryEx
  rpm : cry.ReadProcessMemory
  memory : Nat → cry.cvar
  wait : Nat
  now : Int
  file : config.document
  last_write : Option Int
  now_signaled : Int

/-- What `run` does that can be seen from outside: a call of `find_cvar_ptr`
for a name and what it returned; a read of a record for the log; the message
that all variables are found, with which the second loop is entered; a
second call of `from_file`; a comparison of a record with a value; a write of
a value to a record. -/
inductive Event where
  | sweep (name : List Nat) (cvarPtr : cry.Lookup)
  | read (address : Nat) (type : cry.cvar.type)
  | found_all
  | reload
  | compare (address : Nat) (value : cry.cvar.value)
  | write (address : Nat) (value : cry.cvar.value)
deriving DecidableEq

/-- Whether an event is a sweep or a read of a record for the log: what the
first loop does. -/
def Event.quiet : Event → Prop
  | .sweep _ _ => True
  | .read _ _ => True
  | _ => False

/-- Where `run` is: in its first loop, in its second loop, returned because
the quit event was signaled, returned because of a wait result it does not
handle, in undefined behaviour (a null or past-the-end pointer dereferenced, a
read past an array), or ended in the invalid-parameter handler. -/
inductive Phase where
  | discovering
  | syncing
  | quit
  | wait_error
  | undefined
  | invalid_parameter
deriving DecidableEq

/-- The variables of `run` that outlive a pass through a loop. -/
structure State where
  phase : Phase
  console_var_tasks : List console_var_task
  buffer : List Nat
  configFileMonitor : win.file_monitor

/-- `std::find_if` for a task whose `cvar` is `nullptr`: the index of the
first one, `none` for the end of the vector. -/
def find_if : List console_var_task → Option Nat
  | [] => none
  | task :: tasks => if task.cvar = 0 then some 0 else (find_if tasks).map (· + 1)

/-- `std::all_of` for `cvar != nullptr`. -/
def all_of (tasks : List console_var_task) : Bool :=
  tasks.all (fun e => decide (e.cvar ≠ 0))

/-- The end of the body of the first loop of `run` (lines 114-143), once the
task is assigned: the test whether all tasks are bound, and the wait. -/
def discover.wait (monitor : win.file_monitor) (i : Input) (tasks : List console_var_task)
    (buffer : List Nat) (events : List Event) : State × List Event :=
  if all_of tasks then (⟨.syncing, tasks, buffer, monitor⟩, events ++ [.found_all])
  else if i.wait = WAIT_OBJECT_0 then (⟨.quit, tasks, buffer, monitor⟩, events)
  else if i.wait = WAIT_TIMEOUT then (⟨.discovering, tasks, buffer, monitor⟩, events)
  else (⟨.wait_error, tasks, buffer, monitor⟩, events)

/-- One pass through the body of the first loop of `run` (lines 94-144). The
task is the first one not bound; `std::find_if` returning the end of the
vector, which is then dereferenced, is undefined behaviour, as is a sweep
that reads outside the buffer and a record read for the log whose text has no
terminator. -/
def discover (build : Build) (s : State) (i : Input) : State × List Event :=
  match find_if s.console_var_tasks with
  | none => (⟨.undefined, s.console_var_tasks, s.buffer, s.configFileMonitor⟩, [])
  | some k =>
    match s.console_var_tasks[k]? with
    | none => (⟨.undefined, s.console_var_tasks, s.buffer, s.configFileMonitor⟩, [])
    | some task =>
      match cry.find_cvar_ptr i.vq i.rpm build.abi ⟨task.name⟩ s.buffer with
      | ⟨.ub, buffer, _⟩ =>
        (⟨.undefined, s.console_var_tasks, buffer, s.configFileMonitor⟩,
          [.sweep task.name .ub])
      | ⟨.nullptr, buffer, _⟩ =>
        discover.wait s.configFileMonitor i (s.console_var_tasks.set k ⟨task.cfg, 0⟩) buffer
          [.sweep task.name .nullptr]
      | ⟨.ptr address, buffer, _⟩ =>
        if address = 0 then
          discover.wait s.configFileMonitor i (s.console_var_tasks.set k ⟨task.cfg, 0⟩) buffer
            [.sweep task.name (.ptr address)]
        else
          match (i.memory address).to_value task.type with
          | none =>
            (⟨.undefined, s.console_var_tasks.set k ⟨task.cfg, address⟩, buffer,
                s.configFileMonitor⟩,
              [.sweep task.name (.ptr address)])
          | some _ =>
            discover.wait s.configFileMonitor i
              (s.console_var_tasks.set k ⟨task.cfg, address⟩) buffer
              [.sweep task.name (.ptr address), .read address task.type]

/-- How the loop over the tasks (lines 169-175) ends: with the records as
they then are and what was done, in undefined behaviour, or in the
invalid-parameter handler. -/
inductive Pass where
  | done (memory : Nat → cry.cvar) (events : List Event)
  | undefined
  | invalid_parameter

/-- What was done in a loop over the tasks that ended. -/
def Pass.events : Pass → Option (List Event)
  | .done _ events => some events
  | .undefined => none
  | .invalid_parameter => none

/-- The body of the loop over the tasks for one task. Records at different
addresses are different records. -/
def sync_task (runtime : cry.Runtime) (memory : Nat → cry.cvar) (task : console_var_task) :
    Pass :=
  match task.cfg.opt_value with
  | none => .done memory []
  | some value =>
    if task.cvar = 0 then .undefined
    else
      match (memory task.cvar).eq value with
      | none => .undefined
      | some true => .done memory [.compare task.cvar value]
      | some false =>
        match (memory task.cvar).assign runtime value with
        | .done written =>
          .done (fun address => if address = task.cvar then written else memory address)
            [.compare task.cvar value, .write task.cvar value]
        | .invalid_parameter => .invalid_parameter

/-- The loop over the tasks (lines 169-175). -/
def sync_pass (runtime : cry.Runtime) : (Nat → cry.cvar) → List console_var_task → Pass
  | memory, [] => .done memory []
  | memory, task :: tasks =>
    match sync_task runtime memory task with
    | .done memory1 events1 =>
      match sync_pass runtime memory1 tasks with
      | .done memory2 events2 => .done memory2 (events1 ++ events2)
      | .undefined => .undefined
      | .invalid_parameter => .invalid_parameter
    | .undefined => .undefined
    | .invalid_parameter => .invalid_parameter

/-- The loop that takes the values of a configuration read again (lines
160-164): `none` when `newConfig.vars[i]` is past the end of the vector. -/
def take_values : List console_var_task → List config.configuration.variable →
    Option (List console_var_task)
  | [], _ => some []
  | _ :: _, [] => none
  | task :: tasks, var :: vars =>
    (take_values tasks vars).map
      (fun rest => ⟨⟨task.cfg.definition, var.opt_value⟩, task.cvar⟩ :: rest)

/-- One pass through the body of the second loop of `run` (lines 147-197). -/
def sync (build : Build) (s : State) (i : Input) : State × List Event :=
  let reloaded : Option (win.file_monitor × List console_var_task × List Event) :=
    if s.configFileMonitor.changed i.now then
      match take_values s.console_var_tasks
          (config.configuration.from_file build.format build.text build.varSet i.file).vars with
      | some tasks => some (s.configFileMonitor.reset, tasks, [.reload])
      | none => none
    else some (s.configFileMonitor, s.console_var_tasks, [])
  match reloaded with
  | none => (⟨.undefined, s.console_var_tasks, s.buffer, s.configFileMonitor.reset⟩, [.reload])
  | some (monitor, tasks, events) =>
    match sync_pass build.runtime i.memory tasks with
    | .undefined => (⟨.undefined, tasks, s.buffer, monitor⟩, events)
    | .invalid_parameter => (⟨.invalid_parameter, tasks, s.buffer, monitor⟩, events)
    | .done _ events2 =>
      if i.wait = WAIT_OBJECT_0 then (⟨.quit, tasks, s.buffer, monitor⟩, events ++ events2)
      else if i.wait = WAIT_OBJECT_0 + 1 then
        (⟨.syncing, tasks, s.buffer, monitor.on_event_signaled i.last_write i.now_signaled⟩,
          events ++ events2)
      else if i.wait = WAIT_TIMEOUT then (⟨.syncing, tasks, s.buffer, monitor⟩, events ++ events2)
      else (⟨.wait_error, tasks, s.buffer, monitor⟩, events ++ events2)

/-- The state in which `run` enters its first loop (lines 71-93), with the
file as `from_file` meets it and what `steady_clock::now()` and
`opt_last_write_time` return in the constructor of the monitor. -/
def start (build : Build) (file : config.document) (now : Int) (last_write : Option Int) :
    State :=
  ⟨.discovering,
    (config.configuration.from_file build.format build.text build.varSet file).vars.map
      (fun cfg => ⟨cfg, 0⟩),
    List.replicate (64 * 1024) 0,
    win.file_monitor.create now last_write WAIT_TIME_AFTER_FILE_CHANGE⟩

/-- One pass through the body of the loop `run` is in; nothing once it has
returned or ended. -/
def step (build : Build) (s : State) (i : Input) : State × List Event :=
  match s.phase with
  | .discovering => discover build s i
  | .syncing => sync build s i
  | _ => (s, [])

/-- The passes of `run` from a state on, one for each input, and what was
done in them, in order. -/
def run (build : Build) : State → List Input → State × List Event
  | s, [] => (s, [])
  | s, i :: inputs =>
    ((run build (step build s i).1 inputs).1,
      (step build s i).2 ++ (run build (step build s i).1 inputs).2)

/-! ## Concrete inputs for `run` -/

/-- Two tasks: `g_maxfps`, bound at 4112 with the value 5, and `g_chatlog`,
bound at 8208 with no value. -/
def demoTasks : List console_var_task :=
  [⟨⟨⟨cry.std.string "g_maxfps", .integer (.with_min_max 0 1000)⟩, some (.int 5)⟩, 4112⟩,
    ⟨⟨⟨cry.std.string "g_chatlog", .boolean⟩, none⟩, 8208⟩]

/-- A parsed file that sets `g_minFov` to 90.5, `g_maxfps` to 60 and
`r_Texture_Anisotropic_Level` to 3, and nothing else. -/
def demoFile : config.document :=
  .parsed (fun name =>
    if name = cry.std.string "g_minFov" then .value (.floating (.finite false 181 (-1)))
    else if name = cry.std.string "g_maxfps" then .value (.integer 60)
    else if name = cry.std.string "r_Texture_Anisotropic_Level" then .value (.integer 3)
    else .out_of_range)

/-- A build for x86 with three definitions: `g_maxfps`, `g_chatlog` and
`g_minFov`. -/
def demoBuild : Build :=
  ⟨.x86, cry.demoRuntime, fun _ => "", fun _ => "",
    [⟨cry.std.string "g_maxfps", .integer (.with_min_max 0 1000)⟩,
      ⟨cry.std.string "g_chatlog", .boolean⟩,
      ⟨cry.std.string "g_minFov",
        .floating (.with_min_max (.finite false 60 0) (.finite false 170 0))⟩]⟩

/-- The bytes of a region of 128 bytes that holds a record named `g_maxfps`
at offset 16 (category byte at 20, name at 21) and one named `g_chatlog` at
offset 48 (category byte at 52, name at 53). -/
def demoBytes : List Nat :=
  List.replicate 20 7 ++ [1] ++ cry.std.string "g_maxfps" ++ [0] ++ List.replicate 22 7 ++
    [1] ++ cry.std.string "g_chatlog" ++ [0] ++ List.replicate 65 7

/-- An address space of three regions: a free one below 4096, a candidate of
128 bytes at 4096, and above it nothing that `VirtualQueryEx` answers for. -/
def demoSpace : cry.VirtualQueryEx := fun address =>
  if address < 4096 then some ⟨0, 4096, 0x10000, 0x01, 0⟩
  else if address < 4224 then
    some ⟨4096, 128, cry.MEM_COMMIT, cry.PAGE_READWRITE, cry.MEM_PRIVATE⟩
  else none

/-- A state of the first loop: the three tasks of `demoBuild`, none bound and
none with a value, and a buffer of 128 bytes. -/
def demoState : State :=
  ⟨.discovering, demoBuild.varSet.map (fun definition => ⟨⟨definition, none⟩, 0⟩),
    List.replicate 128 0, win.file_monitor.create 0 none WAIT_TIME_AFTER_FILE_CHANGE⟩

/-- What a pass meets in the demo: `demoSpace` holding `demoBytes`, records
that hold 7, no file, and the wait result given. -/
def demoInput (wait : Nat) : Input :=
  ⟨demoSpace, cry.readAll (cry.memAt 4096 demoBytes 7), fun _ => cry.demoRecord, wait, 0,
    .unopenable, none, 0⟩

/-- A build for x86 with two definitions: `g_maxfps` and `g_chatlog`. -/
def demoBuild2 : Build :=
  ⟨.x86, cry.demoRuntime, fun _ => "", fun _ => "",
    [⟨cry.std.string "g_maxfps", .integer (.with_min_max 0 1000)⟩,
      ⟨cry.std.string "g_chatlog", .boolean⟩]⟩

/-- A state of the first loop: the two tasks of `demoBuild2`, neither bound,
the first with the value 5, and a buffer of 128 bytes. -/
def demoState2 : State :=
  ⟨.discovering,
    [⟨⟨⟨cry.std.string "g_maxfps", .integer (.with_min_max 0 1000)⟩, some (.int 5)⟩, 0⟩,
      ⟨⟨⟨cry.std.string "g_chatlog", .boolean⟩, none⟩, 0⟩],
    List.replicate 128 0, win.file_monitor.create 0 none WAIT_TIME_AFTER_FILE_CHANGE⟩

/-- A state of the second loop: the two tasks of `demoBuild2`, bound at 4112
and at 4144, neither with a value, no change of the file noted. -/
def demoSyncing : State :=
  ⟨.syncing,
    [⟨⟨⟨cry.std.string "g_maxfps", .integer (.with_min_max 0 1000)⟩, none⟩, 4112⟩,
      ⟨⟨⟨cry.std.string "g_chatlog", .boolean⟩, none⟩, 4144⟩],
    List.replicate 128 0, win.file_monitor.create 0 none WAIT_TIME_AFTER_FILE_CHANGE⟩

/-- What a pass of the second loop meets in the demo: records that hold 7,
the file `demoFile`, and the wait result and the readings of the clocks
given. -/
def demoPass (wait : Nat) (now : Int) (last_write : Option Int) (now_signaled : Int) : Input :=
  ⟨demoSpace, cry.readAll (cry.memAt 4096 demoBytes 7), fun _ => cry.demoRecord, wait, now,
    demoFile, last_write, now_signaled⟩


end shugoconsole

namespace shugoconsole.cry

/-! ## Properties of `memcmp` and of the pattern -/

theorem memcmp_eq_zero_iff (xs ys : List Nat) (h : xs.length = ys.length) :
    memcmp xs ys = 0 ↔ xs = ys := by
  induction xs generalizing ys with
  | nil =>
    cases ys with
    | nil => simp [memcmp]
    | cons y ys => simp at h
  | cons x xs ih =>
    cases ys with
    | nil => simp at h
    | cons y ys =>
      simp only [List.length_cons, Nat.add_right_cancel_iff] at h
      by_cases hxy : x = y
      · subst hxy
        simp [memcmp, ih ys h]
      · have : memcmp (x :: xs) (y :: ys) ≠ 0 := by
          simp only [memcmp, hxy, if_false]
          split <;> decide
        simp [this, hxy]

theorem readBytes_eq_some_iff (m : List Nat) (i n : Nat) (bs : List Nat)
    (hn : bs.length = n) (hpos : 0 < n) :
    readBytes m i n = some bs ↔ (m.drop i).take n = bs := by
  unfold readBytes
  constructor
  · intro h
    split at h
    · simpa using h
    · simp at h
  · intro h
    have hlen := congrArg List.length h
    simp only [List.length_take, List.length_drop] at hlen
    have hi : i + n ≤ m.length := by omega
    simp [hi, h]

theorem readBytes_length (m : List Nat) (i n : Nat) (bs : List Nat)
    (h : readBytes m i n = some bs) : bs.length = n := by
  unfold readBytes at h
  split at h
  · simp only [Option.some.injEq] at h
    subst h
    simp only [List.length_take, List.length_drop]
    omega
  · simp at h

/-- A window that `match` accepts holds the name and its terminator. -/
theorem match_true_name (abi : Abi) (p : pattern) (w : List Nat) (var : Nat)
    (h : p.match_ abi w var = some true) :
    (w.drop (var + offsetof_name abi)).take (p.name_.length + 1) = p.name_ ++ [0] := by
  unfold pattern.match_ at h
  cases hcat : w[var + offsetof_cat abi]? with
  | none => simp [hcat] at h
  | some cat =>
    rw [hcat] at h
    simp only at h
    split at h
    · cases hrd : readBytes w (var + offsetof_name abi) (p.name_.length + 1) with
      | none => simp [hrd] at h
      | some field =>
        rw [hrd] at h
        simp only [Option.some.injEq, decide_eq_true_eq, pattern.c_str] at h
        have hlen := readBytes_length _ _ _ _ hrd
        have heq := (memcmp_eq_zero_iff (p.name_ ++ [0]) field (by simp [hlen])).mp h
        rw [heq]
        exact (readBytes_eq_some_iff w _ _ field hlen (by omega)).mp hrd
    · simp at h

/-- C1. `pattern(n).match(w)` is true exactly when the category byte of the
window is `0` or `1` and the first `|n| + 1` bytes of its name field are the
bytes of `n` followed by one NUL byte. -/
theorem pattern_match_iff (abi : Abi) (n w : List Nat) (var : Nat) :
    pattern.match_ abi ⟨n⟩ w var = some true ↔
      (w[var + offsetof_cat abi]? = some 0 ∨ w[var + offsetof_cat abi]? = some 1) ∧
      (w.drop (var + offsetof_name abi)).take (n.length + 1) = n ++ [0] := by
  have hiff := readBytes_eq_some_iff w (var + offsetof_name abi) (n.length + 1) (n ++ [0])
    (by simp) (by omega)
  unfold pattern.match_
  cases hcat : w[var + offsetof_cat abi]? with
  | none => simp
  | some cat =>
    by_cases hc : cat = 0 ∨ cat = 1
    · cases hrd : readBytes w (var + offsetof_name abi) (n.length + 1) with
      | none =>
        have : ¬ (w.drop (var + offsetof_name abi)).take (n.length + 1) = n ++ [0] := by
          intro h
          rw [hiff.mpr h] at hrd
          simp at hrd
        simp [hc, this]
      | some field =>
        have hlen := readBytes_length _ _ _ _ hrd
        have hm : memcmp (n ++ [0]) field = 0 ↔ n ++ [0] = field :=
          memcmp_eq_zero_iff _ _ (by simp [hlen])
        rw [hrd] at hiff
        simp only [Option.some.injEq] at hiff
        simp only [hc, if_true, pattern.c_str, Option.some.injEq, decide_eq_true_eq, hm,
          true_and]
        rw [← hiff]
        exact eq_comm
    · have h0 : cat ≠ 0 := fun h => hc (Or.inl h)
      have h1 : cat ≠ 1 := fun h => hc (Or.inr h)
      simp [hc, h0, h1]

/-- C2. When the name field of the window holds a NUL-terminated name `m` of
which `n` is a strict prefix, `pattern(n).match` returns false, whatever the
category byte is. -/
theorem pattern_match_rejects_longer_name (abi : Abi) (n m w : List Nat) (var : Nat)
    (hnul : ∀ b ∈ m, b ≠ 0) (hpre : n <+: m) (hlt : n.length < m.length)
    (hfield : (w.drop (var + offsetof_name abi)).take (m.length + 1) = m ++ [0]) :
    pattern.match_ abi ⟨n⟩ w var = some false := by
  obtain ⟨t, rfl⟩ := hpre
  cases t with
  | nil => simp at hlt
  | cons c t =>
    have hc : c ≠ 0 := hnul c (by simp)
    have hlen := congrArg List.length hfield
    simp only [List.length_take, List.length_drop, List.length_append, List.length_cons,
      List.length_nil] at hlen
    have hoff : offsetof_cat abi < offsetof_name abi := by cases abi <;> decide
    have hcatlt : var + offsetof_cat abi < w.length := by omega
    have hfield2 : (w.drop (var + offsetof_name abi)).take (n.length + 1) = n ++ [c] := by
      have h2 := congrArg (List.take (n.length + 1)) hfield
      rw [List.take_take] at h2
      have hmin : min (n.length + 1) ((n ++ c :: t).length + 1) = n.length + 1 := by
        simp only [List.length_append, List.length_cons]
        omega
      rw [hmin] at h2
      rw [h2]
      rw [List.append_assoc, List.take_append_eq_append_take]
      simp
    have hne : ¬ (w.drop (var + offsetof_name abi)).take (n.length + 1) = n ++ [0] := by
      rw [hfield2]
      intro h
      have := List.append_cancel_left h
      simp at this
      exact hc this
    have hnot : pattern.match_ abi ⟨n⟩ w var ≠ some true := by
      intro h
      exact hne (match_true_name abi ⟨n⟩ w var h)
    have hrd : ∃ field, readBytes w (var + offsetof_name abi) (n.length + 1) = some field := by
      unfold readBytes
      have : var + offsetof_name abi + (n.length + 1) ≤ w.length := by omega
      simp [this]
    obtain ⟨field, hfd⟩ := hrd
    unfold pattern.match_ at hnot ⊢
    rw [List.getElem?_eq_getElem hcatlt] at hnot ⊢
    simp only [hfd] at hnot ⊢
    split
    · simp only [Option.some.injEq, Bool.decide_eq_false]
      simp only [‹_ ∨ _›, if_true, ne_eq, Option.some.injEq, decide_eq_true_eq] at hnot
      simpa using hnot
    · rfl

/-- C2, at a concrete window: pattern `"ab"` against the name field `"abc"`. -/
theorem pattern_match_rejects_longer_name_witness :
    pattern.match_ .x86 ⟨[97, 98]⟩ [0, 0, 0, 0, 1, 97, 98, 99, 0, 0] 0 = some false :=
  pattern_match_rejects_longer_name .x86 [97, 98] [97, 98, 99] [0, 0, 0, 0, 1, 97, 98, 99, 0, 0] 0
    (by decide) (by decide) (by decide) (by decide)

/-- C3. `pattern(n).size()` is the offset of the name field plus `|n| + 1`:
`5 + |n| + 1` under the narrow layout, `9 + |n| + 1` under the wide one. -/
theorem pattern_size_eq (n : List Nat) :
    (∀ abi, pattern.size abi ⟨n⟩ = offsetof_name abi + n.length + 1) ∧
    pattern.size .x86 ⟨n⟩ = 5 + n.length + 1 ∧
    pattern.size .x64 ⟨n⟩ = 9 + n.length + 1 :=
  ⟨fun _ => rfl, rfl, rfl⟩

/-! ## Where `match` reads -/

theorem match_defined_of_le (abi : Abi) (p : pattern) (m : List Nat) (var : Nat)
    (h : var + p.size abi ≤ m.length) : ∃ b, p.match_ abi m var = some b := by
  have hoff : offsetof_cat abi < offsetof_name abi := by cases abi <;> decide
  unfold pattern.size at h
  have hcat : var + offsetof_cat abi < m.length := by omega
  have hname : var + offsetof_name abi + (p.name_.length + 1) ≤ m.length := by omega
  unfold pattern.match_ readBytes
  rw [List.getElem?_eq_getElem hcat]
  simp only [hname, if_true]
  split
  · exact ⟨_, rfl⟩
  · exact ⟨_, rfl⟩

theorem match_of_none (abi : Abi) (p : pattern) (m : List Nat) (var : Nat)
    (h : p.match_ abi m var = none) : m.length < var + p.size abi := by
  by_contra hlt
  obtain ⟨b, hb⟩ := match_defined_of_le abi p m var (by omega)
  rw [hb] at h
  simp at h

theorem readBytes_append (m rest : List Nat) (i n : Nat) (bs : List Nat)
    (h : readBytes m i n = some bs) : readBytes (m ++ rest) i n = some bs := by
  unfold readBytes at h ⊢
  split at h
  · rename_i hle
    simp only [Option.some.injEq] at h
    have hle2 : i + n ≤ (m ++ rest).length := by
      simp only [List.length_append]
      omega
    simp only [hle2, if_true, Option.some.injEq]
    rw [← h]
    apply List.ext_getElem?
    intro j
    by_cases hj : j < n
    · simp only [List.getElem?_take_of_lt hj, List.getElem?_drop]
      rw [List.getElem?_append_left (by omega)]
    · rw [List.getElem?_eq_none (by simp; omega), List.getElem?_eq_none (by simp; omega)]
  · simp at h

/-- What `match` answers on a block it still answers when bytes follow the block. -/
theorem match_append (abi : Abi) (p : pattern) (m rest : List Nat) (var : Nat) (b : Bool)
    (h : p.match_ abi m var = some b) : p.match_ abi (m ++ rest) var = some b := by
  unfold pattern.match_ at h ⊢
  cases hcat : m[var + offsetof_cat abi]? with
  | none => simp [hcat] at h
  | some cat =>
    have hlt : var + offsetof_cat abi < m.length := by
      by_contra hge
      rw [List.getElem?_eq_none (by omega)] at hcat
      simp at hcat
    have hcat2 : (m ++ rest)[var + offsetof_cat abi]? = some cat := by
      rw [List.getElem?_append_left hlt]
      exact hcat
    rw [hcat] at h
    rw [hcat2]
    simp only at h ⊢
    split
    · rename_i hc
      simp only [hc, if_true] at h
      cases hrd : readBytes m (var + offsetof_name abi) (p.name_.length + 1) with
      | none => simp [hrd] at h
      | some field =>
        rw [readBytes_append m rest _ _ field hrd]
        rw [hrd] at h
        exact h
    · rename_i hc
      simp only [hc, if_false] at h
      exact h

/-- The answer of `match` at `var` depends on the `size()` bytes from `var` on only. -/
theorem match_window (abi : Abi) (p : pattern) (m : List Nat) (var : Nat)
    (h : var + p.size abi ≤ m.length) :
    p.match_ abi m var = p.match_ abi ((m.drop var).take (p.size abi)) 0 := by
  have hoff : offsetof_cat abi < offsetof_name abi := by cases abi <;> decide
  have hsz : p.size abi = offsetof_name abi + p.name_.length + 1 := rfl
  have hwlen : ((m.drop var).take (p.size abi)).length = p.size abi := by
    simp only [List.length_take, List.length_drop]
    omega
  have hcat : ((m.drop var).take (p.size abi))[0 + offsetof_cat abi]? =
      m[var + offsetof_cat abi]? := by
    rw [List.getElem?_take_of_lt (by omega), List.getElem?_drop]
    simp
  have hrd : readBytes ((m.drop var).take (p.size abi)) (0 + offsetof_name abi)
      (p.name_.length + 1) = readBytes m (var + offsetof_name abi) (p.name_.length + 1) := by
    unfold readBytes
    have h1 : 0 + offsetof_name abi + (p.name_.length + 1) ≤
        ((m.drop var).take (p.size abi)).length := by omega
    have h2 : var + offsetof_name abi + (p.name_.length + 1) ≤ m.length := by omega
    simp only [h1, h2, if_true, Option.some.injEq]
    apply List.ext_getElem?
    intro j
    by_cases hj : j < p.name_.length + 1
    · simp only [List.getElem?_take_of_lt hj, List.getElem?_drop]
      rw [List.getElem?_take_of_lt (by omega), List.getElem?_drop]
      congr 1
      omega
    · rw [List.getElem?_eq_none (by simp; omega), List.getElem?_eq_none (by simp; omega)]
  unfold pattern.match_
  rw [hcat, hrd]

/-! ## The loop over offsets -/

/-- What the loop over offsets did, read off its result: positions are the
offsets `offset, offset + 16, ...` below `endOffset`. -/
theorem offsets_spec (abi : Abi) (cvarDef : pattern) (buffer : List Nat)
    (currentReadAddress endOffset : Nat) (fuel offset : Nat) (h : endOffset ≤ offset + fuel) :
    match LookupPage.offsets abi cvarDef buffer currentReadAddress endOffset fuel offset h with
    | .ptr a => ∃ off, a = currentReadAddress + off ∧ offset ≤ off ∧ off < endOffset ∧
        (off - offset) % 16 = 0 ∧ cvarDef.match_ abi buffer off = some true ∧
        ∀ off2, offset ≤ off2 → off2 < off → (off2 - offset) % 16 = 0 →
          cvarDef.match_ abi buffer off2 = some false
    | .nullptr => ∀ off2, offset ≤ off2 → off2 < endOffset → (off2 - offset) % 16 = 0 →
        cvarDef.match_ abi buffer off2 = some false
    | .ub => ∃ off, offset ≤ off ∧ off < endOffset ∧ (off - offset) % 16 = 0 ∧
        cvarDef.match_ abi buffer off = none ∧
        ∀ off2, offset ≤ off2 → off2 < off → (off2 - offset) % 16 = 0 →
          cvarDef.match_ abi buffer off2 = some false := by
  induction fuel generalizing offset with
  | zero =>
    simp only [LookupPage.offsets]
    intro off2 h1 h2 _
    omega
  | succ fuel ih =>
    simp only [LookupPage.offsets]
    by_cases hlt : offset < endOffset
    · simp only [hlt, if_true]
      cases hm : cvarDef.match_ abi buffer offset with
      | none =>
        simp only
        exact ⟨offset, le_refl _, hlt, by simp, hm, fun off2 h1 h2 _ => by omega⟩
      | some b =>
        cases b with
        | true =>
          simp only
          exact ⟨offset, rfl, le_refl _, hlt, by simp, hm, fun off2 h1 h2 _ => by omega⟩
        | false =>
          simp only
          have hrec := ih (offset + 16) (by omega)
          have hstep : ∀ off2, offset ≤ off2 → (off2 - offset) % 16 = 0 →
              off2 = offset ∨ (offset + 16 ≤ off2 ∧ (off2 - (offset + 16)) % 16 = 0) := by
            intro off2 h1 h2
            omega
          split
          · rename_i a heq
            rw [heq] at hrec
            obtain ⟨off, ha, h1, h2, h3, h4, h5⟩ := hrec
            refine ⟨off, ha, by omega, h2, by omega, h4, ?_⟩
            intro off2 g1 g2 g3
            rcases hstep off2 g1 g3 with rfl | ⟨g4, g5⟩
            · exact hm
            · exact h5 off2 g4 g2 g5
          · rename_i heq
            rw [heq] at hrec
            intro off2 g1 g2 g3
            rcases hstep off2 g1 g3 with rfl | ⟨g4, g5⟩
            · exact hm
            · exact hrec off2 g4 g2 g5
          · rename_i heq
            rw [heq] at hrec
            obtain ⟨off, h1, h2, h3, h4, h5⟩ := hrec
            refine ⟨off, by omega, h2, by omega, h4, ?_⟩
            intro off2 g1 g2 g3
            rcases hstep off2 g1 g3 with rfl | ⟨g4, g5⟩
            · exact hm
            · exact h5 off2 g4 g2 g5
    · simp only [hlt, if_false]
      intro off2 h1 h2 _
      omega

/-- A matching offset that the loop can reach without leaving the buffer
makes the loop return a match at that offset or before. -/
theorem offsets_finds (abi : Abi) (cvarDef : pattern) (buffer : List Nat)
    (currentReadAddress endOffset : Nat) (fuel : Nat) (h : endOffset ≤ 0 + fuel) (o : Nat)
    (halign : o % 16 = 0) (hlt : o < endOffset)
    (hin : o + cvarDef.size abi ≤ buffer.length)
    (hmatch : cvarDef.match_ abi buffer o = some true) :
    ∃ off, off ≤ o ∧ off % 16 = 0 ∧ cvarDef.match_ abi buffer off = some true ∧
      LookupPage.offsets abi cvarDef buffer currentReadAddress endOffset fuel 0 h =
        .ptr (currentReadAddress + off) := by
  have hspec := offsets_spec abi cvarDef buffer currentReadAddress endOffset fuel 0 h
  cases hres : LookupPage.offsets abi cvarDef buffer currentReadAddress endOffset fuel 0 h with
  | ptr a =>
    rw [hres] at hspec
    obtain ⟨off, ha, _, h2, h3, h4, h5⟩ := hspec
    simp only [Nat.sub_zero] at h3 h5
    refine ⟨off, ?_, h3, h4, by rw [ha]⟩
    by_contra hgt
    have := h5 o (Nat.zero_le _) (by omega) halign
    rw [hmatch] at this
    simp at this
  | nullptr =>
    rw [hres] at hspec
    have := hspec o (Nat.zero_le _) hlt (by simpa using halign)
    rw [hmatch] at this
    simp at this
  | ub =>
    rw [hres] at hspec
    obtain ⟨off, _, h2, h3, h4, h5⟩ := hspec
    simp only [Nat.sub_zero] at h3 h5
    have hout := match_of_none abi cvarDef buffer off h4
    have hgt : o < off := by omega
    have := h5 o (Nat.zero_le _) hgt halign
    rw [hmatch] at this
    simp at this

/-! ## One pass of `LookupPage`, and the loop -/

theorem pass_of_read_none (rpm : ReadProcessMemory) (abi : Abi) (cvarDef : pattern)
    (s : LookupPage.State)
    (h : rpm.read s.currentReadAddress (min s.buffer.length s.remainingBytesInRegion) = none) :
    LookupPage.pass rpm abi cvarDef s = .ret .nullptr s.buffer := by
  unfold LookupPage.pass
  simp only [h]

theorem pass_of_read_nil (rpm : ReadProcessMemory) (abi : Abi) (cvarDef : pattern)
    (s : LookupPage.State)
    (h : rpm.read s.currentReadAddress (min s.buffer.length s.remainingBytesInRegion) = some []) :
    LookupPage.pass rpm abi cvarDef s = .ret .nullptr s.buffer := by
  unfold LookupPage.pass
  simp only [h, List.length_nil, if_true]

theorem pass_of_read (rpm : ReadProcessMemory) (abi : Abi) (cvarDef : pattern)
    (s : LookupPage.State) (bytes : List Nat)
    (h : rpm.read s.currentReadAddress (min s.buffer.length s.remainingBytesInRegion) = some bytes)
    (hne : bytes.length ≠ 0) :
    LookupPage.pass rpm abi cvarDef s =
      match LookupPage.offsets abi cvarDef (LookupPage.copied bytes s.buffer) s.currentReadAddress
          (size_t_sub abi bytes.length (cvarDef.size abi))
          (size_t_sub abi bytes.length (cvarDef.size abi)) 0 (by omega) with
      | .ptr address => .ret (.ptr address) (LookupPage.copied bytes s.buffer)
      | .ub => .ret .ub (LookupPage.copied bytes s.buffer)
      | .nullptr =>
        if bytes.length < s.remainingBytesInRegion then
          .again ⟨s.currentReadAddress + bytes.length, s.remainingBytesInRegion - bytes.length,
            LookupPage.copied bytes s.buffer⟩
        else .ret .nullptr (LookupPage.copied bytes s.buffer) := by
  unfold LookupPage.pass
  simp only [h, hne, if_false]

/-- What a pass that goes round again has done. -/
theorem pass_again (rpm : ReadProcessMemory) (abi : Abi) (cvarDef : pattern)
    (s next : LookupPage.State) (h : LookupPage.pass rpm abi cvarDef s = .again next) :
    ∃ bytes,
      rpm.read s.currentReadAddress (min s.buffer.length s.remainingBytesInRegion) = some bytes ∧
      bytes.length ≠ 0 ∧ bytes.length < s.remainingBytesInRegion ∧
      next = ⟨s.currentReadAddress + bytes.length, s.remainingBytesInRegion - bytes.length,
        LookupPage.copied bytes s.buffer⟩ ∧
      LookupPage.offsets abi cvarDef (LookupPage.copied bytes s.buffer) s.currentReadAddress
          (size_t_sub abi bytes.length (cvarDef.size abi))
          (size_t_sub abi bytes.length (cvarDef.size abi)) 0 (by omega) = .nullptr := by
  cases hrd : rpm.read s.currentReadAddress (min s.buffer.length s.remainingBytesInRegion) with
  | none =>
    rw [pass_of_read_none rpm abi cvarDef s hrd] at h
    simp at h
  | some bytes =>
    by_cases hne : bytes.length = 0
    · have : bytes = [] := List.length_eq_zero.mp hne
      subst this
      rw [pass_of_read_nil rpm abi cvarDef s hrd] at h
      simp at h
    · rw [pass_of_read rpm abi cvarDef s bytes hrd hne] at h
      refine ⟨bytes, rfl, hne, ?_⟩
      split at h
      · simp at h
      · simp at h
      · rename_i heq
        split at h
        · rename_i hlt
          simp only [LookupPage.Pass.again.injEq] at h
          exact ⟨hlt, h.symm, heq⟩
        · simp at h

/-- What a pass that returns a match has done. -/
theorem pass_ret_ptr (rpm : ReadProcessMemory) (abi : Abi) (cvarDef : pattern)
    (s : LookupPage.State) (a : Nat) (buffer : List Nat)
    (h : LookupPage.pass rpm abi cvarDef s = .ret (.ptr a) buffer) :
    ∃ bytes,
      rpm.read s.currentReadAddress (min s.buffer.length s.remainingBytesInRegion) = some bytes ∧
      bytes.length ≠ 0 ∧ buffer = LookupPage.copied bytes s.buffer ∧
      LookupPage.offsets abi cvarDef (LookupPage.copied bytes s.buffer) s.currentReadAddress
          (size_t_sub abi bytes.length (cvarDef.size abi))
          (size_t_sub abi bytes.length (cvarDef.size abi)) 0 (by omega) = .ptr a := by
  cases hrd : rpm.read s.currentReadAddress (min s.buffer.length s.remainingBytesInRegion) with
  | none =>
    rw [pass_of_read_none rpm abi cvarDef s hrd] at h
    simp at h
  | some bytes =>
    by_cases hne : bytes.length = 0
    · have : bytes = [] := List.length_eq_zero.mp hne
      subst this
      rw [pass_of_read_nil rpm abi cvarDef s hrd] at h
      simp at h
    · rw [pass_of_read rpm abi cvarDef s bytes hrd hne] at h
      refine ⟨bytes, rfl, hne, ?_⟩
      split at h
      · rename_i a2 heq
        simp only [LookupPage.Pass.ret.injEq, Lookup.ptr.injEq] at h
        obtain ⟨h1, h2⟩ := h
        subst h1
        exact ⟨h2.symm, heq⟩
      · simp at h
      · split at h
        · simp at h
        · simp at h

theorem loop_fuel_irrel (rpm : ReadProcessMemory) (abi : Abi) (cvarDef : pattern)
    (fuel1 fuel2 : Nat) (s : LookupPage.State) (h1 : s.remainingBytesInRegion ≤ fuel1)
    (h2 : s.remainingBytesInRegion ≤ fuel2) :
    LookupPage.loop rpm abi cvarDef fuel1 s h1 = LookupPage.loop rpm abi cvarDef fuel2 s h2 := by
  induction fuel1 generalizing fuel2 s with
  | zero =>
    cases fuel2 with
    | zero => rfl
    | succ fuel2 =>
      unfold LookupPage.loop
      split
      · rfl
      · rename_i next hp
        have := LookupPage_pass_again_lt rpm abi cvarDef s next hp
        omega
  | succ fuel1 ih =>
    cases fuel2 with
    | zero =>
      unfold LookupPage.loop
      split
      · rfl
      · rename_i next hp
        have := LookupPage_pass_again_lt rpm abi cvarDef s next hp
        omega
    | succ fuel2 =>
      unfold LookupPage.loop
      split
      · rfl
      · rename_i next hp
        simp only
        rw [ih fuel2 next _ _]

theorem loop_ret (rpm : ReadProcessMemory) (abi : Abi) (cvarDef : pattern)
    (fuel : Nat) (s : LookupPage.State) (hle : s.remainingBytesInRegion ≤ fuel)
    (r : Lookup) (b : List Nat) (h : LookupPage.pass rpm abi cvarDef s = .ret r b) :
    LookupPage.loop rpm abi cvarDef fuel s hle = ⟨r, b, [LookupPage.request s]⟩ := by
  cases fuel with
  | zero =>
    unfold LookupPage.loop
    split
    · rename_i r2 b2 hp
      rw [h] at hp
      simp only [LookupPage.Pass.ret.injEq] at hp
      rw [hp.1, hp.2]
    · rename_i next hp
      rw [h] at hp
      simp at hp
  | succ fuel =>
    unfold LookupPage.loop
    split
    · rename_i r2 b2 hp
      rw [h] at hp
      simp only [LookupPage.Pass.ret.injEq] at hp
      rw [hp.1, hp.2]
    · rename_i next hp
      rw [h] at hp
      simp at hp

theorem loop_again (rpm : ReadProcessMemory) (abi : Abi) (cvarDef : pattern)
    (fuel : Nat) (s : LookupPage.State) (hle : s.remainingBytesInRegion ≤ fuel)
    (next : LookupPage.State) (h : LookupPage.pass rpm abi cvarDef s = .again next) :
    LookupPage.loop rpm abi cvarDef fuel s hle =
      ⟨(LookupPage.run rpm abi cvarDef next).result, (LookupPage.run rpm abi cvarDef next).buffer,
        LookupPage.request s :: (LookupPage.run rpm abi cvarDef next).reads⟩ := by
  have hlt := LookupPage_pass_again_lt rpm abi cvarDef s next h
  cases fuel with
  | zero => omega
  | succ fuel =>
    conv_lhs => unfold LookupPage.loop
    split
    · rename_i r2 b2 hp
      rw [h] at hp
      simp at hp
    · rename_i next2 hp
      have hnext : next2 = next := by
        rw [h] at hp
        simpa using hp.symm
      subst hnext
      simp only
      unfold LookupPage.run
      rw [loop_fuel_irrel rpm abi cvarDef fuel next2.remainingBytesInRegion next2 _ (Nat.le_refl _)]

theorem run_ret (rpm : ReadProcessMemory) (abi : Abi) (cvarDef : pattern)
    (s : LookupPage.State) (r : Lookup) (b : List Nat)
    (h : LookupPage.pass rpm abi cvarDef s = .ret r b) :
    LookupPage.run rpm abi cvarDef s = ⟨r, b, [LookupPage.request s]⟩ :=
  loop_ret rpm abi cvarDef _ s _ r b h

theorem run_again (rpm : ReadProcessMemory) (abi : Abi) (cvarDef : pattern)
    (s next : LookupPage.State) (h : LookupPage.pass rpm abi cvarDef s = .again next) :
    LookupPage.run rpm abi cvarDef s =
      ⟨(LookupPage.run rpm abi cvarDef next).result, (LookupPage.run rpm abi cvarDef next).buffer,
        LookupPage.request s :: (LookupPage.run rpm abi cvarDef next).reads⟩ :=
  loop_again rpm abi cvarDef _ s _ next h

/-- Induction over the passes of `LookupPage`. -/
theorem run_induct (rpm : ReadProcessMemory) (abi : Abi) (cvarDef : pattern)
    (motive : LookupPage.State → Prop)
    (ret : ∀ s r b, LookupPage.pass rpm abi cvarDef s = .ret r b → motive s)
    (again : ∀ s next, LookupPage.pass rpm abi cvarDef s = .again next → motive next → motive s)
    (s : LookupPage.State) : motive s := by
  generalize hn : s.remainingBytesInRegion = n
  induction n using Nat.strong_induction_on generalizing s with
  | _ n ih =>
    cases hp : LookupPage.pass rpm abi cvarDef s with
    | ret r b => exact ret s r b hp
    | again next =>
      have hlt := LookupPage_pass_again_lt rpm abi cvarDef s next hp
      exact again s next hp (ih next.remainingBytesInRegion (by omega) next rfl)

/-- The scan from the state in which pass `k` begins is the rest of the
scan: same result, same final buffer, and `k` requests were made before. -/
theorem run_of_stateAt (rpm : ReadProcessMemory) (abi : Abi) (cvarDef : pattern)
    (k : Nat) (s st : LookupPage.State)
    (h : LookupPage.stateAt rpm abi cvarDef k s = some st) :
    (LookupPage.run rpm abi cvarDef s).result = (LookupPage.run rpm abi cvarDef st).result ∧
    (LookupPage.run rpm abi cvarDef s).buffer = (LookupPage.run rpm abi cvarDef st).buffer ∧
    ∃ before, before.length = k ∧
      (LookupPage.run rpm abi cvarDef s).reads =
        before ++ (LookupPage.run rpm abi cvarDef st).reads := by
  induction k generalizing s with
  | zero =>
    simp only [LookupPage.stateAt, Option.some.injEq] at h
    subst h
    exact ⟨rfl, rfl, [], rfl, rfl⟩
  | succ k ih =>
    simp only [LookupPage.stateAt] at h
    cases hp : LookupPage.pass rpm abi cvarDef s with
    | ret r b =>
      rw [hp] at h
      simp at h
    | again next =>
      rw [hp] at h
      simp only at h
      obtain ⟨h1, h2, before, h3, h4⟩ := ih next h
      rw [run_again rpm abi cvarDef s next hp]
      refine ⟨h1, h2, LookupPage.request s :: before, by simp [h3], ?_⟩
      simp [h4]

/-! ## Sizes: no wrap when enough bytes were copied, and a buffer of fixed size -/

theorem size_t_sub_of_le (abi : Abi) (a b : Nat) (hle : b ≤ a) (ha : a < 2 ^ abi.bits) :
    size_t_sub abi a b = a - b := by
  unfold size_t_sub
  cases abi
  · simp only [Abi.bits] at ha ⊢
    omega
  · simp only [Abi.bits] at ha ⊢
    omega

theorem copied_length (bytes buffer : List Nat) (h : bytes.length ≤ buffer.length) :
    (LookupPage.copied bytes buffer).length = buffer.length := by
  unfold LookupPage.copied
  simp only [List.length_append, List.length_drop]
  omega

theorem read_length_le_buffer (rpm : ReadProcessMemory) (s : LookupPage.State) (bytes : List Nat)
    (h : rpm.read s.currentReadAddress (min s.buffer.length s.remainingBytesInRegion) = some bytes) :
    bytes.length ≤ s.buffer.length ∧ bytes.length ≤ s.remainingBytesInRegion := by
  have := rpm.length_le _ _ _ h
  omega

theorem pass_again_buffer_length (rpm : ReadProcessMemory) (abi : Abi) (cvarDef : pattern)
    (s next : LookupPage.State) (h : LookupPage.pass rpm abi cvarDef s = .again next) :
    next.buffer.length = s.buffer.length := by
  obtain ⟨bytes, hrd, _, _, hnext, _⟩ := pass_again rpm abi cvarDef s next h
  subst hnext
  exact copied_length bytes s.buffer (read_length_le_buffer rpm s bytes hrd).1

theorem stateAt_buffer_length (rpm : ReadProcessMemory) (abi : Abi) (cvarDef : pattern)
    (k : Nat) (s st : LookupPage.State)
    (h : LookupPage.stateAt rpm abi cvarDef k s = some st) :
    st.buffer.length = s.buffer.length := by
  induction k generalizing s with
  | zero =>
    simp only [LookupPage.stateAt, Option.some.injEq] at h
    subst h
    rfl
  | succ k ih =>
    simp only [LookupPage.stateAt] at h
    cases hp : LookupPage.pass rpm abi cvarDef s with
    | ret r b =>
      rw [hp] at h
      simp at h
    | again next =>
      rw [hp] at h
      simp only at h
      rw [ih next h, pass_again_buffer_length rpm abi cvarDef s next hp]

/-! ## Claims about `LookupPage` -/

/-- C8. If the read at the current cursor fails or returns zero bytes, the
scan of the region stops at once and `LookupPage` returns `nullptr`: the
failed request is the last one made, and the buffer is left as it was, whatever
the primitive would answer at any other address. -/
theorem LookupPage_stops_on_failed_read (rpm : ReadProcessMemory) (abi : Abi)
    (mbi : MEMORY_BASIC_INFORMATION) (cvarDef : pattern) (buffer : List Nat)
    (k : Nat) (st : LookupPage.State)
    (hreach : LookupPage.stateAt rpm abi cvarDef k ⟨mbi.BaseAddress, mbi.RegionSize, buffer⟩ =
      some st)
    (hfail :
      rpm.read st.currentReadAddress (min st.buffer.length st.remainingBytesInRegion) = none ∨
      rpm.read st.currentReadAddress (min st.buffer.length st.remainingBytesInRegion) = some []) :
    (LookupPage rpm abi mbi cvarDef buffer).result = .nullptr ∧
    (LookupPage rpm abi mbi cvarDef buffer).buffer = st.buffer ∧
    (LookupPage rpm abi mbi cvarDef buffer).reads.length = k + 1 ∧
    (LookupPage rpm abi mbi cvarDef buffer).reads.getLast? =
      some (st.currentReadAddress, min st.buffer.length st.remainingBytesInRegion) := by
  have hpass : LookupPage.pass rpm abi cvarDef st = .ret .nullptr st.buffer := by
    rcases hfail with h | h
    · exact pass_of_read_none rpm abi cvarDef st h
    · exact pass_of_read_nil rpm abi cvarDef st h
  have hrun := run_ret rpm abi cvarDef st _ _ hpass
  obtain ⟨h1, h2, before, h3, h4⟩ := run_of_stateAt rpm abi cvarDef k _ st hreach
  unfold LookupPage
  rw [h1, h2, h4, hrun]
  refine ⟨rfl, rfl, by simp [h3], ?_⟩
  simp [LookupPage.request]

/-- A chunk whose copied bytes hold a matching record at an aligned offset `o`
strictly below `bytes_copied - size()` ends the scan with a match at `o` or
before. -/
theorem run_finds_in_chunk (rpm : ReadProcessMemory) (abi : Abi) (cvarDef : pattern)
    (st : LookupPage.State) (bytes : List Nat) (o : Nat)
    (hcap : st.buffer.length < 2 ^ abi.bits)
    (hread : rpm.read st.currentReadAddress (min st.buffer.length st.remainingBytesInRegion) =
      some bytes)
    (halign : o % 16 = 0)
    (husable : o < bytes.length - cvarDef.size abi)
    (hmatch : cvarDef.match_ abi (LookupPage.copied bytes st.buffer) o = some true) :
    ∃ a, (LookupPage.run rpm abi cvarDef st).result = .ptr a ∧
      st.currentReadAddress ≤ a ∧ a ≤ st.currentReadAddress + o := by
  have hle := read_length_le_buffer rpm st bytes hread
  have hne : bytes.length ≠ 0 := by omega
  have hend : size_t_sub abi bytes.length (cvarDef.size abi) = bytes.length - cvarDef.size abi :=
    size_t_sub_of_le abi _ _ (by omega) (by omega)
  have hcl := copied_length bytes st.buffer hle.1
  obtain ⟨off, hoff, _, _, hfound⟩ := offsets_finds abi cvarDef (LookupPage.copied bytes st.buffer)
    st.currentReadAddress (size_t_sub abi bytes.length (cvarDef.size abi))
    (size_t_sub abi bytes.length (cvarDef.size abi)) (by omega) o halign (by omega) (by omega)
    hmatch
  have hpass := pass_of_read rpm abi cvarDef st bytes hread hne
  rw [hfound] at hpass
  simp only at hpass
  have hrun := run_ret rpm abi cvarDef st _ _ hpass
  exact ⟨st.currentReadAddress + off, by rw [hrun], by omega, by omega⟩

/-- If the scan reaches chunk `k`, the read of that chunk succeeds, and the
bytes it copied hold a matching record at a 16-byte-aligned offset `o` strictly
below `usable = bytes_copied - pattern.size()`, then `LookupPage` returns a
match, at an address of chunk `k` not above the address of that record. Only
the `size()` bytes of the pattern window are looked at: the rest of the record
may lie outside the chunk. (Whether the scan reaches chunk `k` is another
matter: a chunk before it that copies fewer bytes than `size()` can end the
scan.) -/
theorem LookupPage_finds_record_in_chunk (rpm : ReadProcessMemory) (abi : Abi)
    (mbi : MEMORY_BASIC_INFORMATION) (cvarDef : pattern) (buffer : List Nat)
    (k : Nat) (st : LookupPage.State) (bytes : List Nat) (o : Nat)
    (hcap : buffer.length < 2 ^ abi.bits)
    (hreach : LookupPage.stateAt rpm abi cvarDef k ⟨mbi.BaseAddress, mbi.RegionSize, buffer⟩ =
      some st)
    (hread : rpm.read st.currentReadAddress (min st.buffer.length st.remainingBytesInRegion) =
      some bytes)
    (halign : o % 16 = 0)
    (husable : o < bytes.length - cvarDef.size abi)
    (hmatch : cvarDef.match_ abi bytes o = some true) :
    ∃ a, (LookupPage rpm abi mbi cvarDef buffer).result = .ptr a ∧
      st.currentReadAddress ≤ a ∧ a ≤ st.currentReadAddress + o := by
  have hlen := stateAt_buffer_length rpm abi cvarDef k _ st hreach
  simp only at hlen
  have hm2 : cvarDef.match_ abi (LookupPage.copied bytes st.buffer) o = some true :=
    match_append abi cvarDef bytes _ o true hmatch
  obtain ⟨a, ha, hlo, hhi⟩ := run_finds_in_chunk rpm abi cvarDef st bytes o (by omega) hread
    halign husable hm2
  obtain ⟨h1, _, _⟩ := run_of_stateAt rpm abi cvarDef k _ st hreach
  refine ⟨a, ?_, hlo, hhi⟩
  unfold LookupPage
  rw [h1, ha]

theorem stateAt_succ_of_again (rpm : ReadProcessMemory) (abi : Abi) (cvarDef : pattern)
    (k : Nat) (s next : LookupPage.State) (h : LookupPage.pass rpm abi cvarDef s = .again next) :
    LookupPage.stateAt rpm abi cvarDef (k + 1) s = LookupPage.stateAt rpm abi cvarDef k next := by
  simp only [LookupPage.stateAt, h]

theorem stateAt_cursor_le (rpm : ReadProcessMemory) (abi : Abi) (cvarDef : pattern)
    (k : Nat) (s st : LookupPage.State)
    (h : LookupPage.stateAt rpm abi cvarDef k s = some st) :
    s.currentReadAddress ≤ st.currentReadAddress := by
  induction k generalizing s with
  | zero =>
    simp only [LookupPage.stateAt, Option.some.injEq] at h
    subst h
    exact le_refl _
  | succ k ih =>
    cases hp : LookupPage.pass rpm abi cvarDef s with
    | ret r b =>
      simp [LookupPage.stateAt, hp] at h
    | again next =>
      rw [stateAt_succ_of_again rpm abi cvarDef k s next hp] at h
      obtain ⟨bytes, _, _, _, hnext, _⟩ := pass_again rpm abi cvarDef s next hp
      have := ih next h
      subst hnext
      simp only at this
      omega

theorem match_of_append (abi : Abi) (p : pattern) (m rest : List Nat) (var : Nat) (b : Bool)
    (hin : var + p.size abi ≤ m.length) (h : p.match_ abi (m ++ rest) var = some b) :
    p.match_ abi m var = some b := by
  obtain ⟨b2, hb2⟩ := match_defined_of_le abi p m var hin
  have := match_append abi p m rest var b2 hb2
  rw [h] at this
  rw [hb2, ← Option.some.inj this]

/-- When `LookupPage` returns an address `a`, then `a` is the cursor of
some chunk plus a chunk-local offset that is a multiple of 16 and below the
`size_t` difference `bytesRead - size()`, the buffer as that chunk's copy left
it matches the pattern at that offset, and every position tested before did
not match: the lower aligned offsets of this chunk, and the aligned offsets
below that difference of every earlier chunk, each of which ends at or below
the cursor of this one. When the chunk copied at least `size()` bytes, the
matching window lies inside the bytes it copied; when it copied fewer, the
difference has wrapped and the match is on bytes an earlier chunk left. -/
theorem LookupPage_returns_first_match (rpm : ReadProcessMemory) (abi : Abi)
    (mbi : MEMORY_BASIC_INFORMATION) (cvarDef : pattern) (buffer : List Nat) (a : Nat)
    (h : (LookupPage rpm abi mbi cvarDef buffer).result = .ptr a) :
    ∃ k st bytes off,
      LookupPage.stateAt rpm abi cvarDef k ⟨mbi.BaseAddress, mbi.RegionSize, buffer⟩ = some st ∧
      rpm.read st.currentReadAddress (min st.buffer.length st.remainingBytesInRegion) =
        some bytes ∧
      a = st.currentReadAddress + off ∧ off % 16 = 0 ∧
      off < size_t_sub abi bytes.length (cvarDef.size abi) ∧
      cvarDef.match_ abi (LookupPage.copied bytes st.buffer) off = some true ∧
      (∀ off2, off2 < off → off2 % 16 = 0 →
        cvarDef.match_ abi (LookupPage.copied bytes st.buffer) off2 = some false) ∧
      (∀ j sj bytesj, j < k →
        LookupPage.stateAt rpm abi cvarDef j ⟨mbi.BaseAddress, mbi.RegionSize, buffer⟩ =
          some sj →
        rpm.read sj.currentReadAddress (min sj.buffer.length sj.remainingBytesInRegion) =
          some bytesj →
        sj.currentReadAddress + bytesj.length ≤ st.currentReadAddress ∧
        ∀ off2, off2 < size_t_sub abi bytesj.length (cvarDef.size abi) → off2 % 16 = 0 →
          cvarDef.match_ abi (LookupPage.copied bytesj sj.buffer) off2 = some false) ∧
      (cvarDef.size abi ≤ bytes.length → bytes.length < 2 ^ abi.bits →
        off + cvarDef.size abi < bytes.length ∧ cvarDef.match_ abi bytes off = some true) := by
  unfold LookupPage at h
  generalize (⟨mbi.BaseAddress, mbi.RegionSize, buffer⟩ : LookupPage.State) = s at h ⊢
  induction s using run_induct rpm abi cvarDef with
  | ret s r b hp =>
    rw [run_ret rpm abi cvarDef s r b hp] at h
    simp only at h
    subst h
    obtain ⟨bytes, hrd, hne, _, hoffs⟩ := pass_ret_ptr rpm abi cvarDef s a b hp
    have hspec := offsets_spec abi cvarDef (LookupPage.copied bytes s.buffer) s.currentReadAddress
      (size_t_sub abi bytes.length (cvarDef.size abi))
      (size_t_sub abi bytes.length (cvarDef.size abi)) 0 (by omega)
    rw [hoffs] at hspec
    obtain ⟨off, ha, _, h2, h3, h4, h5⟩ := hspec
    simp only [Nat.sub_zero] at h3 h5
    refine ⟨0, s, bytes, off, rfl, hrd, ha, h3, h2, h4,
      fun off2 g1 g2 => h5 off2 (Nat.zero_le _) g1 g2, ?_, ?_⟩
    · intro j sj bytesj hj
      omega
    · intro hsz hw
      rw [size_t_sub_of_le abi _ _ hsz hw] at h2
      have hin : off + cvarDef.size abi ≤ bytes.length := by omega
      exact ⟨by omega, match_of_append abi cvarDef bytes _ off true hin h4⟩
  | again s next hp ih =>
    rw [run_again rpm abi cvarDef s next hp] at h
    simp only at h
    obtain ⟨k, st, bytes, off, h1, h2, h3, h4, h5, h6, h7, h8, h9⟩ := ih h
    refine ⟨k + 1, st, bytes, off, ?_, h2, h3, h4, h5, h6, h7, ?_, h9⟩
    · rw [stateAt_succ_of_again rpm abi cvarDef k s next hp]
      exact h1
    · intro j sj bytesj hj hsj hrdj
      cases j with
      | zero =>
        simp only [LookupPage.stateAt, Option.some.injEq] at hsj
        subst hsj
        obtain ⟨bytes0, hrd0, _, _, hnext, hoffs⟩ := pass_again rpm abi cvarDef s next hp
        rw [hrd0] at hrdj
        simp only [Option.some.injEq] at hrdj
        subst hrdj
        have hcur := stateAt_cursor_le rpm abi cvarDef k next st h1
        subst hnext
        simp only at hcur
        have hspec := offsets_spec abi cvarDef (LookupPage.copied bytes0 s.buffer)
          s.currentReadAddress (size_t_sub abi bytes0.length (cvarDef.size abi))
          (size_t_sub abi bytes0.length (cvarDef.size abi)) 0 (by omega)
        rw [hoffs] at hspec
        simp only at hspec
        exact ⟨hcur, fun off2 g1 g2 => hspec off2 (Nat.zero_le _) g1 (by simpa using g2)⟩
      | succ j =>
        rw [stateAt_succ_of_again rpm abi cvarDef j s next hp] at hsj
        exact h8 j sj bytesj (by omega) hsj hrdj

/-! ## Chunking: a region all of whose bytes are readable -/

theorem memBytes_length (mem : Nat → Nat) (address n : Nat) :
    (memBytes mem address n).length = n := by
  simp [memBytes]

theorem memBytes_getElem? (mem : Nat → Nat) (address n i : Nat) (h : i < n) :
    (memBytes mem address n)[i]? = some (mem (address + i)) := by
  simp [memBytes, List.getElem?_range h]

/-- After a chunk of `n` bytes was copied from `address`, the `sz` bytes of the
buffer at offset `ol` are those of the address space at `address + ol`, as
long as they lie inside the chunk. -/
theorem copied_window (mem : Nat → Nat) (address n : Nat) (buffer : List Nat) (ol sz : Nat)
    (h : ol + sz ≤ n) :
    ((LookupPage.copied (memBytes mem address n) buffer).drop ol).take sz =
      memBytes mem (address + ol) sz := by
  apply List.ext_getElem?
  intro i
  by_cases hi : i < sz
  · rw [List.getElem?_take_of_lt hi, List.getElem?_drop, memBytes_getElem? mem _ _ _ hi]
    unfold LookupPage.copied
    rw [List.getElem?_append_left (by rw [memBytes_length]; omega),
      memBytes_getElem? mem _ _ _ (by omega)]
    congr 2
    omega
  · rw [List.getElem?_eq_none (by simp only [List.length_take]; omega),
      List.getElem?_eq_none (by rw [memBytes_length]; omega)]

/-- A pass over a chunk that fills the buffer, with bytes left in the region
after it: it returns a match inside the chunk or goes round again. -/
theorem pass_full_chunk (rpm : ReadProcessMemory) (abi : Abi) (cvarDef : pattern)
    (s : LookupPage.State) (bytes : List Nat) (hw : s.buffer.length < 2 ^ abi.bits)
    (hsize : cvarDef.size abi ≤ s.buffer.length)
    (hrem : s.buffer.length < s.remainingBytesInRegion)
    (hread : rpm.read s.currentReadAddress (min s.buffer.length s.remainingBytesInRegion) =
      some bytes)
    (hbl : bytes.length = s.buffer.length) :
    (∃ a buffer, LookupPage.pass rpm abi cvarDef s = .ret (.ptr a) buffer ∧
      a < s.currentReadAddress + s.buffer.length) ∨
    LookupPage.pass rpm abi cvarDef s =
      .again ⟨s.currentReadAddress + s.buffer.length,
        s.remainingBytesInRegion - s.buffer.length, LookupPage.copied bytes s.buffer⟩ := by
  have hsz : 1 ≤ cvarDef.size abi := by
    unfold pattern.size
    omega
  have hcl := copied_length bytes s.buffer (by omega)
  have hend : size_t_sub abi bytes.length (cvarDef.size abi) =
      s.buffer.length - cvarDef.size abi := by
    rw [hbl]
    exact size_t_sub_of_le abi _ _ hsize hw
  have hpass := pass_of_read rpm abi cvarDef s bytes hread (by omega)
  have hspec := offsets_spec abi cvarDef (LookupPage.copied bytes s.buffer) s.currentReadAddress
    (size_t_sub abi bytes.length (cvarDef.size abi))
    (size_t_sub abi bytes.length (cvarDef.size abi)) 0 (by omega)
  rw [hpass]
  split
  · rename_i a hres
    rw [hres] at hspec
    obtain ⟨off, ha, _, h2, _⟩ := hspec
    rw [hend] at h2
    exact Or.inl ⟨a, _, rfl, by omega⟩
  · rename_i hres
    rw [hres] at hspec
    obtain ⟨off, _, h2, _, h4, _⟩ := hspec
    rw [hend] at h2
    have := match_of_none abi cvarDef _ off h4
    rw [hcl] at this
    omega
  · right
    rw [hbl]
    simp only [hrem, if_true]

/-- A pass over the chunk that holds a matching record whose window ends
strictly inside the chunk: the scan ends with a match at the record or before. -/
theorem run_finds_here (rpm : ReadProcessMemory) (abi : Abi) (mem : Nat → Nat)
    (cvarDef : pattern) (s : LookupPage.State) (ol : Nat)
    (hw : s.buffer.length < 2 ^ abi.bits) (halign : ol % 16 = 0)
    (hin : ol + cvarDef.size abi < min s.buffer.length s.remainingBytesInRegion)
    (hread : rpm.read s.currentReadAddress (min s.buffer.length s.remainingBytesInRegion) =
      some (memBytes mem s.currentReadAddress (min s.buffer.length s.remainingBytesInRegion)))
    (hmatch : cvarDef.match_ abi (memBytes mem (s.currentReadAddress + ol) (cvarDef.size abi)) 0 =
      some true) :
    ∃ a, (LookupPage.run rpm abi cvarDef s).result = .ptr a ∧
      a ≤ s.currentReadAddress + ol := by
  obtain ⟨n, hn⟩ : ∃ n, n = min s.buffer.length s.remainingBytesInRegion := ⟨_, rfl⟩
  rw [← hn] at hread
  have hbl := memBytes_length mem s.currentReadAddress n
  have hcl := copied_length (memBytes mem s.currentReadAddress n) s.buffer (by rw [hbl]; omega)
  have hm : cvarDef.match_ abi (LookupPage.copied (memBytes mem s.currentReadAddress n)
      s.buffer) ol = some true := by
    rw [match_window abi cvarDef _ ol (by rw [hcl]; omega),
      copied_window mem _ _ _ _ _ (by omega)]
    exact hmatch
  obtain ⟨a, ha, _, hhi⟩ := run_finds_in_chunk rpm abi cvarDef s _ ol hw
    (by rw [← hn]; exact hread) halign (by rw [hbl]; omega) hm
  exact ⟨a, ha, hhi⟩

/-- When the chunk reads of a region all succeed in full, the scan from the
start of chunk `j` finds a record whose pattern window lies strictly inside
the chunk `k` chunks ahead. -/
theorem run_full_reads_finds (rpm : ReadProcessMemory) (abi : Abi) (mem : Nat → Nat)
    (cvarDef : pattern) (base len cap : Nat) (hw : cap < 2 ^ abi.bits)
    (hfull : ∀ j, j * cap < len →
      rpm.read (base + j * cap) (min cap (len - j * cap)) =
        some (memBytes mem (base + j * cap) (min cap (len - j * cap))))
    (k : Nat) :
    ∀ (j : Nat) (buffer : List Nat) (ol : Nat), buffer.length = cap → ol % 16 = 0 →
      ol + cvarDef.size abi < min cap (len - (j + k) * cap) →
      cvarDef.match_ abi (memBytes mem (base + (j + k) * cap + ol) (cvarDef.size abi)) 0 =
        some true →
      ∃ a, (LookupPage.run rpm abi cvarDef ⟨base + j * cap, len - j * cap, buffer⟩).result =
          .ptr a ∧
        a ≤ base + (j + k) * cap + ol := by
  induction k with
  | zero =>
    intro j buffer ol hlen halign hin hmatch
    simp only [Nat.add_zero] at hin hmatch ⊢
    subst hlen
    have hj : j * buffer.length < len := by omega
    exact run_finds_here rpm abi mem cvarDef
      ⟨base + j * buffer.length, len - j * buffer.length, buffer⟩ ol hw halign hin
      (hfull j hj) hmatch
  | succ k ih =>
    intro j buffer ol hlen halign hin hmatch
    subst hlen
    have hmul : (j + (k + 1)) * buffer.length = (j + 1 + k) * buffer.length := by
      rw [Nat.add_assoc, Nat.add_comm k 1, ← Nat.add_assoc]
    have hmul2 : (j + 1 + k) * buffer.length =
        j * buffer.length + buffer.length + k * buffer.length := by
      rw [Nat.add_mul, Nat.add_mul, Nat.one_mul]
    have hmul3 : (j + 1) * buffer.length = j * buffer.length + buffer.length := by
      rw [Nat.add_mul, Nat.one_mul]
    rw [hmul] at hin hmatch ⊢
    have hj : j * buffer.length < len := by omega
    have hmin : min buffer.length (len - j * buffer.length) = buffer.length := by omega
    have hread := hfull j hj
    rcases pass_full_chunk rpm abi cvarDef
      ⟨base + j * buffer.length, len - j * buffer.length, buffer⟩
      (memBytes mem (base + j * buffer.length) (min buffer.length (len - j * buffer.length)))
      hw (by simp only; omega) (by simp only; omega) hread
      (by simp only; rw [memBytes_length, hmin]) with ⟨a, b, hp, hlt⟩ | hp
    · refine ⟨a, by rw [run_ret rpm abi cvarDef _ _ _ hp], ?_⟩
      simp only at hlt
      omega
    · rw [run_again rpm abi cvarDef _ _ hp]
      simp only
      have hcl := copied_length
        (memBytes mem (base + j * buffer.length) (min buffer.length (len - j * buffer.length)))
        buffer (by rw [memBytes_length]; omega)
      have e1 : base + j * buffer.length + buffer.length = base + (j + 1) * buffer.length := by
        rw [hmul3]
        omega
      have e2 : len - j * buffer.length - buffer.length = len - (j + 1) * buffer.length := by
        rw [hmul3]
        omega
      rw [e1, e2]
      exact ih (j + 1) (LookupPage.copied
        (memBytes mem (base + j * buffer.length) (min buffer.length (len - j * buffer.length)))
        buffer) ol hcl halign hin hmatch

/-- C4, as stated, fails on the code: a region of 64 bytes whose chunk reads
all succeed in full, a buffer of 32 bytes (a multiple of 16, at least
`size() = 18`) and a record at offset 16 whose window ends at offset 34,
inside the region. The window straddles the two chunks, and `LookupPage`
returns `nullptr`. -/
theorem LookupPage_misses_record_across_chunks :
    (∀ j, j * 32 < 64 →
      (readAll (memAt 4096 record12 7)).read (4096 + j * 32) (min 32 (64 - j * 32)) =
        some (memBytes (memAt 4096 record12 7) (4096 + j * 32) (min 32 (64 - j * 32)))) ∧
    (List.replicate 32 0).length % 16 = 0 ∧
    name12.size .x86 ≤ (List.replicate 32 0).length ∧
    16 % 16 = 0 ∧ 16 + name12.size .x86 ≤ 64 ∧
    name12.match_ .x86
      (memBytes (memAt 4096 record12 7) (4096 + 16) (name12.size .x86)) 0 = some true ∧
    (LookupPage (readAll (memAt 4096 record12 7)) .x86 ⟨4096, 64, MEM_COMMIT, PAGE_READWRITE,
      MEM_PRIVATE⟩ name12 (List.replicate 32 0)).result = .nullptr :=
  ⟨fun _ _ => rfl, by decide, by decide, by decide, by decide, by decide, by decide⟩

/-- C4, amended. On a region whose chunk reads all succeed in full, with a
buffer whose capacity is a multiple of 16, a record that matches at an offset
`o` of the region (a multiple of 16) is found, `LookupPage` returning an
address not above the record, whenever the pattern window of the record ends
strictly inside the chunk that holds `o`: `o mod capacity + size()` is below
the number of bytes copied for that chunk. -/
theorem LookupPage_finds_record_inside_chunk (rpm : ReadProcessMemory) (abi : Abi)
    (mem : Nat → Nat) (mbi : MEMORY_BASIC_INFORMATION) (cvarDef : pattern) (buffer : List Nat)
    (o : Nat)
    (hfull : ∀ j, j * buffer.length < mbi.RegionSize →
      rpm.read (mbi.BaseAddress + j * buffer.length)
          (min buffer.length (mbi.RegionSize - j * buffer.length)) =
        some (memBytes mem (mbi.BaseAddress + j * buffer.length)
          (min buffer.length (mbi.RegionSize - j * buffer.length))))
    (hcap16 : buffer.length % 16 = 0)
    (hcapw : buffer.length < 2 ^ abi.bits)
    (halign : o % 16 = 0)
    (hinside : o % buffer.length + cvarDef.size abi <
      min buffer.length (mbi.RegionSize - o / buffer.length * buffer.length))
    (hmatch : cvarDef.match_ abi (memBytes mem (mbi.BaseAddress + o) (cvarDef.size abi)) 0 =
      some true) :
    ∃ a, (LookupPage rpm abi mbi cvarDef buffer).result = .ptr a ∧
      a ≤ mbi.BaseAddress + o := by
  have hdm : o / buffer.length * buffer.length + o % buffer.length = o := by
    rw [Nat.mul_comm]
    exact Nat.div_add_mod o buffer.length
  have hmod16 : o % buffer.length % 16 = 0 := by
    have h1 : 16 ∣ o := Nat.dvd_of_mod_eq_zero halign
    have h2 : 16 ∣ o / buffer.length * buffer.length :=
      Dvd.dvd.mul_left (Nat.dvd_of_mod_eq_zero hcap16) _
    have h3 : 16 ∣ o % buffer.length := by
      have := (Nat.dvd_add_right h2).mp (by rw [hdm]; exact h1)
      exact this
    exact Nat.mod_eq_zero_of_dvd h3
  have hm2 : cvarDef.match_ abi (memBytes mem
      (mbi.BaseAddress + (0 + o / buffer.length) * buffer.length + o % buffer.length)
      (cvarDef.size abi)) 0 = some true := by
    rw [Nat.zero_add, Nat.add_assoc, hdm]
    exact hmatch
  obtain ⟨a, ha, hle⟩ := run_full_reads_finds rpm abi mem cvarDef mbi.BaseAddress
    mbi.RegionSize buffer.length hcapw hfull (o / buffer.length) 0 buffer (o % buffer.length)
    rfl hmod16 (by rw [Nat.zero_add]; exact hinside) hm2
  simp only [Nat.zero_mul, Nat.add_zero, Nat.sub_zero, Nat.zero_add] at ha hle
  refine ⟨a, ha, ?_⟩
  omega

/-- C4, amended, at a concrete input: the region and record of the
counterexample, scanned with a buffer of 48 bytes, so that the window of the
record (offsets 16 to 34) ends inside the first chunk. -/
theorem LookupPage_finds_record_inside_chunk_witness :
    ∃ a, (LookupPage (readAll (memAt 4096 record12 7)) .x86 ⟨4096, 64, MEM_COMMIT,
      PAGE_READWRITE, MEM_PRIVATE⟩ name12 (List.replicate 48 0)).result = .ptr a ∧
      a ≤ 4096 + 16 :=
  LookupPage_finds_record_inside_chunk (readAll (memAt 4096 record12 7)) .x86
    (memAt 4096 record12 7) ⟨4096, 64, MEM_COMMIT, PAGE_READWRITE, MEM_PRIVATE⟩ name12
    (List.replicate 48 0) 16 (fun _ _ => rfl)
    (by decide) (by decide) (by decide) (by decide) (by decide)

/-- A region of 96 bytes scanned with a buffer of 48 bytes; the record starts
at offset 48, the first byte of the second chunk, and reaches far past the end
of that chunk. -/
theorem LookupPage_finds_record_in_chunk_witness :
    ∃ a, (LookupPage (readAll (memAt 4128 record12 7)) .x86 ⟨4096, 96, MEM_COMMIT,
      PAGE_READWRITE, MEM_PRIVATE⟩ name12 (List.replicate 48 0)).result = .ptr a ∧
      4144 ≤ a ∧ a ≤ 4144 + 0 :=
  LookupPage_finds_record_in_chunk (readAll (memAt 4128 record12 7)) .x86
    ⟨4096, 96, MEM_COMMIT, PAGE_READWRITE, MEM_PRIVATE⟩ name12 (List.replicate 48 0) 1
    ⟨4144, 48, memBytes (memAt 4128 record12 7) 4096 48⟩
    (memBytes (memAt 4128 record12 7) 4144 48) 0
    (by decide) (by decide) (by decide) (by decide) (by decide) (by decide)

/-- C6 fails on the code. A fully readable region of 36 bytes is scanned with
a fresh buffer of 32 bytes for a pattern of `size() = 16`. The second chunk
copies 4 bytes, fewer than `size()`; `bytesRead - size()` wraps, offsets 0 and
16 of the buffer are tested, and the bytes the first chunk left at offset 16
make `LookupPage` return `4128 + 16`, an address past the end of the region. -/
theorem LookupPage_short_chunk_is_tested :
    (LookupPage (readAll (memAt 4096 record10 7)) .x86 ⟨4096, 36, MEM_COMMIT, PAGE_READWRITE,
      MEM_PRIVATE⟩ name10 (List.replicate 32 0)).reads = [(4096, 32), (4128, 4)] ∧
    4 < name10.size .x86 ∧
    size_t_sub .x86 4 (name10.size .x86) = 4294967284 ∧
    (LookupPage (readAll (memAt 4096 record10 7)) .x86 ⟨4096, 36, MEM_COMMIT, PAGE_READWRITE,
      MEM_PRIVATE⟩ name10 (List.replicate 32 0)).result = .ptr 4144 := by
  decide

/-- The scan of a region of 96 bytes with a buffer of 48 bytes, which returns
the address 4144, the cursor of its second chunk plus the offset 0. -/
theorem LookupPage_returns_first_match_witness :
    ∃ k st bytes off,
      LookupPage.stateAt (readAll (memAt 4128 record12 7)) .x86 name12 k
        ⟨4096, 96, List.replicate 48 0⟩ = some st ∧
      (readAll (memAt 4128 record12 7)).read st.currentReadAddress
        (min st.buffer.length st.remainingBytesInRegion) = some bytes ∧
      4144 = st.currentReadAddress + off ∧ off % 16 = 0 ∧
      off < size_t_sub .x86 bytes.length (name12.size .x86) ∧
      name12.match_ .x86 (LookupPage.copied bytes st.buffer) off = some true := by
  obtain ⟨k, st, bytes, off, h1, h2, h3, h4, h5, h6, _⟩ :=
    LookupPage_returns_first_match (readAll (memAt 4128 record12 7)) .x86
      ⟨4096, 96, MEM_COMMIT, PAGE_READWRITE, MEM_PRIVATE⟩ name12 (List.replicate 48 0) 4144
      (by decide)
  exact ⟨k, st, bytes, off, h1, h2, h3, h4, h5, h6⟩

/-- C8 at a concrete input: a region of 96 bytes with a record at its offset
48, readable below that offset only. The read of the second chunk fails and the scan returns
`nullptr` after two requests, though a record lies in that chunk. -/
theorem LookupPage_stops_on_failed_read_witness :
    (LookupPage (readBelow (memAt 4128 record12 7) 4144) .x86 ⟨4096, 96, MEM_COMMIT,
      PAGE_READWRITE, MEM_PRIVATE⟩ name12 (List.replicate 48 0)).result = .nullptr ∧
    (LookupPage (readBelow (memAt 4128 record12 7) 4144) .x86 ⟨4096, 96, MEM_COMMIT,
      PAGE_READWRITE, MEM_PRIVATE⟩ name12 (List.replicate 48 0)).buffer =
      memBytes (memAt 4128 record12 7) 4096 48 ∧
    (LookupPage (readBelow (memAt 4128 record12 7) 4144) .x86 ⟨4096, 96, MEM_COMMIT,
      PAGE_READWRITE, MEM_PRIVATE⟩ name12 (List.replicate 48 0)).reads.length = 1 + 1 ∧
    (LookupPage (readBelow (memAt 4128 record12 7) 4144) .x86 ⟨4096, 96, MEM_COMMIT,
      PAGE_READWRITE, MEM_PRIVATE⟩ name12 (List.replicate 48 0)).reads.getLast? =
      some (4144, 48) :=
  LookupPage_stops_on_failed_read (readBelow (memAt 4128 record12 7) 4144) .x86
    ⟨4096, 96, MEM_COMMIT, PAGE_READWRITE, MEM_PRIVATE⟩ name12 (List.replicate 48 0) 1
    ⟨4144, 48, memBytes (memAt 4128 record12 7) 4096 48⟩ (by decide) (Or.inl (by decide))

/-! ## One pass of `find_cvar_ptr`, and the loop -/

theorem advance_cases (abi : Abi) (visit : Visit) (mbi : MEMORY_BASIC_INFORMATION)
    (buffer : List Nat) :
    find_cvar_ptr.advance abi visit mbi buffer = .ret visit .nullptr buffer ∨
    ∃ next, find_cvar_ptr.advance abi visit mbi buffer = .again visit next := by
  unfold find_cvar_ptr.advance
  simp only
  split
  · exact Or.inl rfl
  · split
    · exact Or.inl rfl
    · exact Or.inr ⟨_, rfl⟩

/-- What one pass of `find_cvar_ptr` does: the visit it makes, and how the way
it ends depends on the scan of that visit. -/
theorem sweep_pass_spec (vq : VirtualQueryEx) (rpm : ReadProcessMemory) (abi : Abi)
    (cvarDef : pattern) (s : find_cvar_ptr.State) :
    (find_cvar_ptr.pass vq rpm abi cvarDef s).visit.readAddress = s.readAddress ∧
    (find_cvar_ptr.pass vq rpm abi cvarDef s).visit.buffer = s.buffer ∧
    (find_cvar_ptr.pass vq rpm abi cvarDef s).visit.region = vq s.readAddress ∧
    (∀ mbi, vq s.readAddress = some mbi →
      ((mbi.Type_ = MEM_PRIVATE ∧ mbi.State = MEM_COMMIT ∧
          (mbi.Protect = PAGE_READWRITE ∨ mbi.Protect = PAGE_EXECUTE_READWRITE)) →
        (find_cvar_ptr.pass vq rpm abi cvarDef s).visit.scan =
          some (LookupPage rpm abi mbi cvarDef s.buffer)) ∧
      (¬ (mbi.Type_ = MEM_PRIVATE ∧ mbi.State = MEM_COMMIT ∧
          (mbi.Protect = PAGE_READWRITE ∨ mbi.Protect = PAGE_EXECUTE_READWRITE)) →
        (find_cvar_ptr.pass vq rpm abi cvarDef s).visit.scan = none)) ∧
    (vq s.readAddress = none → (find_cvar_ptr.pass vq rpm abi cvarDef s).visit.scan = none) ∧
    (match find_cvar_ptr.pass vq rpm abi cvarDef s with
      | .ret v (.ptr a) _ => a ≠ 0 ∧ ∃ sc, v.scan = some sc ∧ sc.result = .ptr a
      | .ret v .ub _ => ∃ sc, v.scan = some sc ∧ sc.result = .ub
      | .ret v .nullptr _ => ∀ sc, v.scan = some sc → sc.result = .nullptr ∨ sc.result = .ptr 0
      | .again v _ => ∀ sc, v.scan = some sc → sc.result = .nullptr ∨ sc.result = .ptr 0) := by
  cases hq : vq s.readAddress with
  | none =>
    have hp : find_cvar_ptr.pass vq rpm abi cvarDef s =
        .ret ⟨s.readAddress, s.buffer, none, none⟩ .nullptr s.buffer := by
      unfold find_cvar_ptr.pass
      rw [hq]
    rw [hp]
    refine ⟨rfl, rfl, rfl, fun mbi hm => by simp at hm, fun _ => rfl, ?_⟩
    intro sc hsc
    simp at hsc
  | some mbi =>
    by_cases hc : mbi.Type_ = MEM_PRIVATE ∧ mbi.State = MEM_COMMIT ∧
        (mbi.Protect = PAGE_READWRITE ∨ mbi.Protect = PAGE_EXECUTE_READWRITE)
    · have hA : ∀ mbi2, some mbi = some mbi2 →
          ((mbi2.Type_ = MEM_PRIVATE ∧ mbi2.State = MEM_COMMIT ∧
              (mbi2.Protect = PAGE_READWRITE ∨ mbi2.Protect = PAGE_EXECUTE_READWRITE)) →
            some (LookupPage rpm abi mbi cvarDef s.buffer) =
              some (LookupPage rpm abi mbi2 cvarDef s.buffer)) ∧
          (¬ (mbi2.Type_ = MEM_PRIVATE ∧ mbi2.State = MEM_COMMIT ∧
              (mbi2.Protect = PAGE_READWRITE ∨ mbi2.Protect = PAGE_EXECUTE_READWRITE)) →
            some (LookupPage rpm abi mbi cvarDef s.buffer) = none) := by
        intro mbi2 hm
        simp only [Option.some.injEq] at hm
        subst hm
        exact ⟨fun _ => rfl, fun hn => absurd hc hn⟩
      have hB : some mbi = none → some (LookupPage rpm abi mbi cvarDef s.buffer) = none :=
        fun h => by simp at h
      have hp : find_cvar_ptr.pass vq rpm abi cvarDef s =
          match (LookupPage rpm abi mbi cvarDef s.buffer).result with
          | .ptr a =>
            if a ≠ 0 then .ret ⟨s.readAddress, s.buffer, some mbi,
                some (LookupPage rpm abi mbi cvarDef s.buffer)⟩ (.ptr a)
                (LookupPage rpm abi mbi cvarDef s.buffer).buffer
            else find_cvar_ptr.advance abi ⟨s.readAddress, s.buffer, some mbi,
                some (LookupPage rpm abi mbi cvarDef s.buffer)⟩ mbi
                (LookupPage rpm abi mbi cvarDef s.buffer).buffer
          | .ub => .ret ⟨s.readAddress, s.buffer, some mbi,
                some (LookupPage rpm abi mbi cvarDef s.buffer)⟩ .ub
                (LookupPage rpm abi mbi cvarDef s.buffer).buffer
          | .nullptr => find_cvar_ptr.advance abi ⟨s.readAddress, s.buffer, some mbi,
                some (LookupPage rpm abi mbi cvarDef s.buffer)⟩ mbi
                (LookupPage rpm abi mbi cvarDef s.buffer).buffer := by
        unfold find_cvar_ptr.pass
        rw [hq]
        simp only
        rw [if_pos hc]
      rw [hp]
      cases hres : (LookupPage rpm abi mbi cvarDef s.buffer).result with
      | ptr a =>
        simp only
        by_cases ha : a = 0
        · rw [if_neg (by simpa using ha)]
          rcases advance_cases abi ⟨s.readAddress, s.buffer, some mbi,
            some (LookupPage rpm abi mbi cvarDef s.buffer)⟩ mbi
            (LookupPage rpm abi mbi cvarDef s.buffer).buffer with h | ⟨next, h⟩
          · rw [h]
            refine ⟨rfl, rfl, rfl, hA, hB, ?_⟩
            intro sc hsc
            have : sc = LookupPage rpm abi mbi cvarDef s.buffer := (Option.some.inj hsc).symm
            subst this
            right
            rw [hres, ha]
          · rw [h]
            refine ⟨rfl, rfl, rfl, hA, hB, ?_⟩
            intro sc hsc
            have : sc = LookupPage rpm abi mbi cvarDef s.buffer := (Option.some.inj hsc).symm
            subst this
            right
            rw [hres, ha]
        · rw [if_pos ha]
          exact ⟨rfl, rfl, rfl, hA, hB, ha, _, rfl, hres⟩
      | nullptr =>
        simp only
        rcases advance_cases abi ⟨s.readAddress, s.buffer, some mbi,
          some (LookupPage rpm abi mbi cvarDef s.buffer)⟩ mbi
          (LookupPage rpm abi mbi cvarDef s.buffer).buffer with h | ⟨next, h⟩
        · rw [h]
          refine ⟨rfl, rfl, rfl, hA, hB, ?_⟩
          intro sc hsc
          have : sc = LookupPage rpm abi mbi cvarDef s.buffer := (Option.some.inj hsc).symm
          subst this
          left
          exact hres
        · rw [h]
          refine ⟨rfl, rfl, rfl, hA, hB, ?_⟩
          intro sc hsc
          have : sc = LookupPage rpm abi mbi cvarDef s.buffer := (Option.some.inj hsc).symm
          subst this
          left
          exact hres
      | ub =>
        simp only
        exact ⟨rfl, rfl, rfl, hA, hB, _, rfl, hres⟩
    · have hA : ∀ mbi2, some mbi = some mbi2 →
          ((mbi2.Type_ = MEM_PRIVATE ∧ mbi2.State = MEM_COMMIT ∧
              (mbi2.Protect = PAGE_READWRITE ∨ mbi2.Protect = PAGE_EXECUTE_READWRITE)) →
            (none : Option Scan) = some (LookupPage rpm abi mbi2 cvarDef s.buffer)) ∧
          (¬ (mbi2.Type_ = MEM_PRIVATE ∧ mbi2.State = MEM_COMMIT ∧
              (mbi2.Protect = PAGE_READWRITE ∨ mbi2.Protect = PAGE_EXECUTE_READWRITE)) →
            (none : Option Scan) = none) := by
        intro mbi2 hm
        simp only [Option.some.injEq] at hm
        subst hm
        exact ⟨fun h => absurd h hc, fun _ => rfl⟩
      have hp : find_cvar_ptr.pass vq rpm abi cvarDef s =
          find_cvar_ptr.advance abi ⟨s.readAddress, s.buffer, some mbi, none⟩ mbi s.buffer := by
        unfold find_cvar_ptr.pass
        rw [hq]
        simp only
        rw [if_neg hc]
      rw [hp]
      rcases advance_cases abi ⟨s.readAddress, s.buffer, some mbi, none⟩ mbi s.buffer with
        h | ⟨next, h⟩
      · rw [h]
        refine ⟨rfl, rfl, rfl, hA, fun _ => rfl, ?_⟩
        intro sc hsc
        simp at hsc
      · rw [h]
        refine ⟨rfl, rfl, rfl, hA, fun _ => rfl, ?_⟩
        intro sc hsc
        simp at hsc

theorem sweep_fuel_irrel (vq : VirtualQueryEx) (rpm : ReadProcessMemory) (abi : Abi)
    (cvarDef : pattern) (fuel1 fuel2 : Nat) (s : find_cvar_ptr.State)
    (h1 : VirtualMemoryMax abi ≤ s.readAddress + fuel1)
    (h2 : VirtualMemoryMax abi ≤ s.readAddress + fuel2) :
    find_cvar_ptr.loop vq rpm abi cvarDef fuel1 s h1 =
      find_cvar_ptr.loop vq rpm abi cvarDef fuel2 s h2 := by
  induction fuel1 generalizing fuel2 s with
  | zero =>
    cases fuel2 with
    | zero => rfl
    | succ fuel2 =>
      unfold find_cvar_ptr.loop
      split
      · rfl
      · rename_i visit next hp
        have := find_cvar_ptr_pass_again_lt vq rpm abi cvarDef s next visit hp
        omega
  | succ fuel1 ih =>
    cases fuel2 with
    | zero =>
      unfold find_cvar_ptr.loop
      split
      · rfl
      · rename_i visit next hp
        have := find_cvar_ptr_pass_again_lt vq rpm abi cvarDef s next visit hp
        omega
    | succ fuel2 =>
      unfold find_cvar_ptr.loop
      split
      · rfl
      · rename_i visit next hp
        simp only
        rw [ih fuel2 next _ _]

theorem sweep_ret (vq : VirtualQueryEx) (rpm : ReadProcessMemory) (abi : Abi)
    (cvarDef : pattern) (s : find_cvar_ptr.State) (visit : Visit) (r : Lookup) (b : List Nat)
    (h : find_cvar_ptr.pass vq rpm abi cvarDef s = .ret visit r b) :
    find_cvar_ptr.run vq rpm abi cvarDef s = ⟨r, b, [visit]⟩ := by
  unfold find_cvar_ptr.run
  have hpos : 0 < VirtualMemoryMax abi := by cases abi <;> decide
  obtain ⟨fuel, hfuel⟩ : ∃ fuel, VirtualMemoryMax abi = fuel + 1 := ⟨VirtualMemoryMax abi - 1, by omega⟩
  rw [sweep_fuel_irrel vq rpm abi cvarDef (VirtualMemoryMax abi) (fuel + 1) s _ (by omega)]
  conv_lhs => unfold find_cvar_ptr.loop
  split
  · rename_i v2 r2 b2 hp
    rw [h] at hp
    simp only [find_cvar_ptr.Pass.ret.injEq] at hp
    rw [hp.1, hp.2.1, hp.2.2]
  · rename_i v2 next hp
    rw [h] at hp
    simp at hp

theorem sweep_again (vq : VirtualQueryEx) (rpm : ReadProcessMemory) (abi : Abi)
    (cvarDef : pattern) (s next : find_cvar_ptr.State) (visit : Visit)
    (h : find_cvar_ptr.pass vq rpm abi cvarDef s = .again visit next) :
    find_cvar_ptr.run vq rpm abi cvarDef s =
      ⟨(find_cvar_ptr.run vq rpm abi cvarDef next).cvarPtr,
        (find_cvar_ptr.run vq rpm abi cvarDef next).buffer,
        visit :: (find_cvar_ptr.run vq rpm abi cvarDef next).visits⟩ := by
  have hpos : 0 < VirtualMemoryMax abi := by cases abi <;> decide
  obtain ⟨fuel, hfuel⟩ : ∃ fuel, VirtualMemoryMax abi = fuel + 1 := ⟨VirtualMemoryMax abi - 1, by omega⟩
  have hlt := find_cvar_ptr_pass_again_lt vq rpm abi cvarDef s next visit h
  have hL : find_cvar_ptr.run vq rpm abi cvarDef s =
      find_cvar_ptr.loop vq rpm abi cvarDef (fuel + 1) s (by omega) := by
    unfold find_cvar_ptr.run
    exact sweep_fuel_irrel vq rpm abi cvarDef _ _ s _ _
  have hR : find_cvar_ptr.run vq rpm abi cvarDef next =
      find_cvar_ptr.loop vq rpm abi cvarDef fuel next (by omega) := by
    unfold find_cvar_ptr.run
    exact sweep_fuel_irrel vq rpm abi cvarDef _ _ next _ _
  rw [hL, hR]
  conv_lhs => unfold find_cvar_ptr.loop
  split
  · rename_i v2 r2 b2 hp
    rw [h] at hp
    simp at hp
  · rename_i v2 next2 hp
    rw [h] at hp
    simp only [find_cvar_ptr.Pass.again.injEq] at hp
    obtain ⟨hv, hn⟩ := hp
    subst hv hn
    rfl

/-- Induction over the passes of `find_cvar_ptr`. -/
theorem sweep_induct (vq : VirtualQueryEx) (rpm : ReadProcessMemory) (abi : Abi)
    (cvarDef : pattern) (motive : find_cvar_ptr.State → Prop)
    (ret : ∀ s visit r b, find_cvar_ptr.pass vq rpm abi cvarDef s = .ret visit r b → motive s)
    (again : ∀ s visit next, find_cvar_ptr.pass vq rpm abi cvarDef s = .again visit next →
      motive next → motive s)
    (s : find_cvar_ptr.State) : motive s := by
  generalize hn : VirtualMemoryMax abi - s.readAddress = n
  induction n using Nat.strong_induction_on generalizing s with
  | _ n ih =>
    cases hp : find_cvar_ptr.pass vq rpm abi cvarDef s with
    | ret visit r b => exact ret s visit r b hp
    | again visit next =>
      have hlt := find_cvar_ptr_pass_again_lt vq rpm abi cvarDef s next visit hp
      exact again s visit next hp
        (ih (VirtualMemoryMax abi - next.readAddress) (by omega) next rfl)

/-! ## Claims about `find_cvar_ptr` -/

theorem reads_of_scan_none (v : Visit) (h : v.scan = none) : v.reads = [] := by
  unfold Visit.reads
  rw [h]

theorem matched_false_of_null (v : Visit)
    (h : ∀ sc, v.scan = some sc → sc.result = .nullptr ∨ sc.result = .ptr 0) :
    v.matched = false := by
  unfold Visit.matched
  cases hs : v.scan with
  | none => rfl
  | some sc =>
    rcases h sc hs with h1 | h1
    · simp [h1]
    · simp [h1]

/-- The visit of a pass, whichever way the pass ends. -/
theorem visit_of_pass (vq : VirtualQueryEx) (rpm : ReadProcessMemory) (abi : Abi)
    (cvarDef : pattern) (s : find_cvar_ptr.State) (visit : Visit)
    (h : (∃ r b, find_cvar_ptr.pass vq rpm abi cvarDef s = .ret visit r b) ∨
      (∃ next, find_cvar_ptr.pass vq rpm abi cvarDef s = .again visit next)) :
    (find_cvar_ptr.pass vq rpm abi cvarDef s).visit = visit := by
  rcases h with ⟨r, b, h⟩ | ⟨next, h⟩
  · rw [h]
    rfl
  · rw [h]
    rfl

/-- C9. In a sweep of `find_cvar_ptr`, a region returned by `VirtualQueryEx`
is handed to `LookupPage` if and only if its type is `MEM_PRIVATE`, its state
is `MEM_COMMIT` and its protection is `PAGE_READWRITE` or
`PAGE_EXECUTE_READWRITE`; it is then scanned with the buffer as it stands, and
for every other region no request to `ReadProcessMemory` is made. -/
theorem find_cvar_ptr_scans_candidates_only (vq : VirtualQueryEx) (rpm : ReadProcessMemory)
    (abi : Abi) (cvarDef : pattern) (buffer : List Nat) :
    ∀ v ∈ (find_cvar_ptr vq rpm abi cvarDef buffer).visits,
      v.region = vq v.readAddress ∧
      ∀ mbi, v.region = some mbi →
        (v.scan.isSome = true ↔
          (mbi.Type_ = MEM_PRIVATE ∧ mbi.State = MEM_COMMIT ∧
            (mbi.Protect = PAGE_READWRITE ∨ mbi.Protect = PAGE_EXECUTE_READWRITE))) ∧
        ((mbi.Type_ = MEM_PRIVATE ∧ mbi.State = MEM_COMMIT ∧
            (mbi.Protect = PAGE_READWRITE ∨ mbi.Protect = PAGE_EXECUTE_READWRITE)) →
          v.scan = some (LookupPage rpm abi mbi cvarDef v.buffer)) ∧
        (¬ (mbi.Type_ = MEM_PRIVATE ∧ mbi.State = MEM_COMMIT ∧
            (mbi.Protect = PAGE_READWRITE ∨ mbi.Protect = PAGE_EXECUTE_READWRITE)) →
          v.reads = []) := by
  have hvisit : ∀ (s : find_cvar_ptr.State) (v : Visit),
      (find_cvar_ptr.pass vq rpm abi cvarDef s).visit = v →
      v.region = vq v.readAddress ∧
      ∀ mbi, v.region = some mbi →
        (v.scan.isSome = true ↔
          (mbi.Type_ = MEM_PRIVATE ∧ mbi.State = MEM_COMMIT ∧
            (mbi.Protect = PAGE_READWRITE ∨ mbi.Protect = PAGE_EXECUTE_READWRITE))) ∧
        ((mbi.Type_ = MEM_PRIVATE ∧ mbi.State = MEM_COMMIT ∧
            (mbi.Protect = PAGE_READWRITE ∨ mbi.Protect = PAGE_EXECUTE_READWRITE)) →
          v.scan = some (LookupPage rpm abi mbi cvarDef v.buffer)) ∧
        (¬ (mbi.Type_ = MEM_PRIVATE ∧ mbi.State = MEM_COMMIT ∧
            (mbi.Protect = PAGE_READWRITE ∨ mbi.Protect = PAGE_EXECUTE_READWRITE)) →
          v.reads = []) := by
    intro s v hv
    obtain ⟨h1, h2, h3, h4, _, _⟩ := sweep_pass_spec vq rpm abi cvarDef s
    rw [hv] at h1 h2 h3 h4
    refine ⟨by rw [h3, h1], ?_⟩
    intro mbi hm
    rw [h3] at hm
    obtain ⟨hyes, hno⟩ := h4 mbi hm
    refine ⟨⟨?_, ?_⟩, ?_, ?_⟩
    · intro hsome
      by_contra hn
      rw [hno hn] at hsome
      simp at hsome
    · intro hc
      rw [hyes hc]
      rfl
    · intro hc
      rw [hyes hc, h2]
    · intro hn
      exact reads_of_scan_none v (hno hn)
  unfold find_cvar_ptr
  generalize (⟨0, buffer⟩ : find_cvar_ptr.State) = s
  induction s using sweep_induct vq rpm abi cvarDef with
  | ret s visit r b hp =>
    rw [sweep_ret vq rpm abi cvarDef s visit r b hp]
    intro v hv
    simp only [List.mem_singleton] at hv
    subst hv
    exact hvisit s v (visit_of_pass vq rpm abi cvarDef s v (Or.inl ⟨r, b, hp⟩))
  | again s visit next hp ih =>
    rw [sweep_again vq rpm abi cvarDef s next visit hp]
    intro v hv
    simp only [List.mem_cons] at hv
    rcases hv with hv | hv
    · subst hv
      exact hvisit s v (visit_of_pass vq rpm abi cvarDef s v (Or.inr ⟨next, hp⟩))
    · exact ih v hv

/-- C9 at a concrete input: the first visit of a sweep over `demoRegions`. -/
theorem find_cvar_ptr_scans_candidates_only_witness :
    demoVisit ∈ (find_cvar_ptr demoRegions (readAll (memAt 4096 record12 7)) .x86 name12
      (List.replicate 48 0)).visits ∧
    demoVisit.region = demoRegions demoVisit.readAddress ∧
    ∀ mbi, demoVisit.region = some mbi →
      (demoVisit.scan.isSome = true ↔
        (mbi.Type_ = MEM_PRIVATE ∧ mbi.State = MEM_COMMIT ∧
          (mbi.Protect = PAGE_READWRITE ∨ mbi.Protect = PAGE_EXECUTE_READWRITE))) ∧
      ((mbi.Type_ = MEM_PRIVATE ∧ mbi.State = MEM_COMMIT ∧
          (mbi.Protect = PAGE_READWRITE ∨ mbi.Protect = PAGE_EXECUTE_READWRITE)) →
        demoVisit.scan = some (LookupPage (readAll (memAt 4096 record12 7)) .x86 mbi name12
          demoVisit.buffer)) ∧
      (¬ (mbi.Type_ = MEM_PRIVATE ∧ mbi.State = MEM_COMMIT ∧
          (mbi.Protect = PAGE_READWRITE ∨ mbi.Protect = PAGE_EXECUTE_READWRITE)) →
        demoVisit.reads = []) :=
  ⟨by decide,
    find_cvar_ptr_scans_candidates_only demoRegions (readAll (memAt 4096 record12 7)) .x86 name12
      (List.replicate 48 0) demoVisit (by decide)⟩

/-- The addresses queried in a sweep go up. -/
theorem sweep_ascending (vq : VirtualQueryEx) (rpm : ReadProcessMemory) (abi : Abi)
    (cvarDef : pattern) (s : find_cvar_ptr.State) :
    (∀ u ∈ (find_cvar_ptr.run vq rpm abi cvarDef s).visits, s.readAddress ≤ u.readAddress) ∧
    List.Pairwise (· < ·)
      ((find_cvar_ptr.run vq rpm abi cvarDef s).visits.map (·.readAddress)) := by
  induction s using sweep_induct vq rpm abi cvarDef with
  | ret s visit r b hp =>
    rw [sweep_ret vq rpm abi cvarDef s visit r b hp]
    have hv := visit_of_pass vq rpm abi cvarDef s visit (Or.inl ⟨r, b, hp⟩)
    have h1 := (sweep_pass_spec vq rpm abi cvarDef s).1
    rw [hv] at h1
    simp [h1]
  | again s visit next hp ih =>
    rw [sweep_again vq rpm abi cvarDef s next visit hp]
    have hv := visit_of_pass vq rpm abi cvarDef s visit (Or.inr ⟨next, hp⟩)
    have h1 := (sweep_pass_spec vq rpm abi cvarDef s).1
    rw [hv] at h1
    have hlt := (find_cvar_ptr_pass_again_lt vq rpm abi cvarDef s next visit hp).1
    obtain ⟨ih1, ih2⟩ := ih
    constructor
    · intro u hu
      simp only [List.mem_cons] at hu
      rcases hu with hu | hu
      · rw [hu, h1]
      · have := ih1 u hu
        omega
    · simp only [List.map_cons, List.pairwise_cons]
      refine ⟨?_, ih2⟩
      intro x hx
      simp only [List.mem_map] at hx
      obtain ⟨u, hu, rfl⟩ := hx
      have := ih1 u hu
      omega

/-- A sweep that returns an address ends with the visit whose scan returned
it; no visit before it matched. -/
theorem sweep_found (vq : VirtualQueryEx) (rpm : ReadProcessMemory) (abi : Abi)
    (cvarDef : pattern) (s : find_cvar_ptr.State) (a : Nat)
    (h : (find_cvar_ptr.run vq rpm abi cvarDef s).cvarPtr = .ptr a) :
    a ≠ 0 ∧ ∃ before v mbi,
      (find_cvar_ptr.run vq rpm abi cvarDef s).visits = before ++ [v] ∧
      vq v.readAddress = some mbi ∧
      (mbi.Type_ = MEM_PRIVATE ∧ mbi.State = MEM_COMMIT ∧
        (mbi.Protect = PAGE_READWRITE ∨ mbi.Protect = PAGE_EXECUTE_READWRITE)) ∧
      v.scan = some (LookupPage rpm abi mbi cvarDef v.buffer) ∧
      (LookupPage rpm abi mbi cvarDef v.buffer).result = .ptr a ∧
      ∀ u ∈ before, u.matched = false := by
  induction s using sweep_induct vq rpm abi cvarDef with
  | ret s visit r b hp =>
    rw [sweep_ret vq rpm abi cvarDef s visit r b hp] at h ⊢
    simp only at h
    subst h
    obtain ⟨h1, h2, h3, h4, h5, h6⟩ := sweep_pass_spec vq rpm abi cvarDef s
    rw [hp] at h1 h2 h3 h4 h5 h6
    simp only [find_cvar_ptr.Pass.visit] at h1 h2 h3 h4 h5 h6
    obtain ⟨ha, sc, hsc, hres⟩ := h6
    refine ⟨ha, [], visit, ?_⟩
    cases hq : vq s.readAddress with
    | none =>
      rw [h5 hq] at hsc
      simp at hsc
    | some mbi =>
      obtain ⟨hyes, hno⟩ := h4 mbi hq
      by_cases hc : mbi.Type_ = MEM_PRIVATE ∧ mbi.State = MEM_COMMIT ∧
          (mbi.Protect = PAGE_READWRITE ∨ mbi.Protect = PAGE_EXECUTE_READWRITE)
      · have hscan := hyes hc
        rw [hscan] at hsc
        simp only [Option.some.injEq] at hsc
        refine ⟨mbi, rfl, by rw [h1]; exact hq, hc, by rw [h2]; exact hscan, ?_, ?_⟩
        · rw [h2, hsc]
          exact hres
        · intro u hu
          simp at hu
      · rw [hno hc] at hsc
        simp at hsc
  | again s visit next hp ih =>
    rw [sweep_again vq rpm abi cvarDef s next visit hp] at h ⊢
    simp only at h
    obtain ⟨ha, before, v, mbi, hvis, hq, hc, hscan, hres, hbefore⟩ := ih h
    obtain ⟨_, _, _, _, _, h6⟩ := sweep_pass_spec vq rpm abi cvarDef s
    rw [hp] at h6
    simp only at h6
    refine ⟨ha, visit :: before, v, mbi, by simp [hvis], hq, hc, hscan, hres, ?_⟩
    intro u hu
    simp only [List.mem_cons] at hu
    rcases hu with hu | hu
    · rw [hu]
      exact matched_false_of_null visit h6
    · exact hbefore u hu

/-- A sweep in which every scan returned a null pointer returns `nullptr`. -/
theorem sweep_not_found (vq : VirtualQueryEx) (rpm : ReadProcessMemory) (abi : Abi)
    (cvarDef : pattern) (s : find_cvar_ptr.State)
    (h : ∀ u ∈ (find_cvar_ptr.run vq rpm abi cvarDef s).visits, ∀ sc, u.scan = some sc →
      sc.result = .nullptr ∨ sc.result = .ptr 0) :
    (find_cvar_ptr.run vq rpm abi cvarDef s).cvarPtr = .nullptr := by
  induction s using sweep_induct vq rpm abi cvarDef with
  | ret s visit r b hp =>
    rw [sweep_ret vq rpm abi cvarDef s visit r b hp] at h ⊢
    simp only [List.mem_singleton, forall_eq] at h
    obtain ⟨_, _, _, _, _, h6⟩ := sweep_pass_spec vq rpm abi cvarDef s
    rw [hp] at h6
    cases r with
    | nullptr => rfl
    | ptr a =>
      simp only at h6
      obtain ⟨ha, sc, hsc, hres⟩ := h6
      rcases h sc hsc with h1 | h1
      · rw [hres] at h1
        simp at h1
      · rw [hres] at h1
        simp only [Lookup.ptr.injEq] at h1
        exact absurd h1 ha
    | ub =>
      simp only at h6
      obtain ⟨sc, hsc, hres⟩ := h6
      rcases h sc hsc with h1 | h1
      · rw [hres] at h1
        simp at h1
      · rw [hres] at h1
        simp at h1
  | again s visit next hp ih =>
    rw [sweep_again vq rpm abi cvarDef s next visit hp] at h ⊢
    simp only
    apply ih
    intro u hu
    exact h u (by simp [hu])

theorem matched_true (v : Visit) (h : v.matched = true) :
    ∃ sc a, v.scan = some sc ∧ sc.result = .ptr a ∧ a ≠ 0 := by
  unfold Visit.matched at h
  cases hs : v.scan with
  | none =>
    rw [hs] at h
    simp at h
  | some sc =>
    rw [hs] at h
    simp only at h
    cases hr : sc.result with
    | nullptr =>
      rw [hr] at h
      simp at h
    | ub =>
      rw [hr] at h
      simp at h
    | ptr a =>
      rw [hr] at h
      simp only [bne_iff_ne, ne_eq] at h
      exact ⟨sc, a, rfl, hr, h⟩

/-- A visit of a sweep whose scan returned an address other than null is the
last visit of the sweep, and the sweep returns that address. -/
theorem sweep_matched (vq : VirtualQueryEx) (rpm : ReadProcessMemory) (abi : Abi)
    (cvarDef : pattern) (s : find_cvar_ptr.State) :
    ∀ u ∈ (find_cvar_ptr.run vq rpm abi cvarDef s).visits, u.matched = true →
      ∃ sc a, u.scan = some sc ∧ sc.result = .ptr a ∧ a ≠ 0 ∧
        (find_cvar_ptr.run vq rpm abi cvarDef s).cvarPtr = .ptr a ∧
        (find_cvar_ptr.run vq rpm abi cvarDef s).visits.getLast? = some u := by
  induction s using sweep_induct vq rpm abi cvarDef with
  | ret s visit r b hp =>
    intro u hu hm
    rw [sweep_ret vq rpm abi cvarDef s visit r b hp] at hu ⊢
    simp only [List.mem_singleton] at hu
    subst hu
    obtain ⟨sc, a, hsc, hres, ha⟩ := matched_true u hm
    obtain ⟨_, _, _, _, _, h6⟩ := sweep_pass_spec vq rpm abi cvarDef s
    rw [hp] at h6
    refine ⟨sc, a, hsc, hres, ha, ?_, rfl⟩
    cases r with
    | ptr a2 =>
      simp only at h6
      obtain ⟨_, sc2, hsc2, hres2⟩ := h6
      rw [hsc] at hsc2
      simp only [Option.some.injEq] at hsc2
      subst hsc2
      rw [hres] at hres2
      simp only [Lookup.ptr.injEq] at hres2
      subst hres2
      rfl
    | ub =>
      simp only at h6
      obtain ⟨sc2, hsc2, hres2⟩ := h6
      rw [hsc] at hsc2
      simp only [Option.some.injEq] at hsc2
      subst hsc2
      rw [hres] at hres2
      simp at hres2
    | nullptr =>
      simp only at h6
      rcases h6 sc hsc with h7 | h7
      · rw [hres] at h7
        simp at h7
      · rw [hres] at h7
        simp only [Lookup.ptr.injEq] at h7
        exact absurd h7 ha
  | again s visit next hp ih =>
    intro u hu hm
    rw [sweep_again vq rpm abi cvarDef s next visit hp] at hu ⊢
    simp only [List.mem_cons] at hu
    obtain ⟨_, _, _, _, _, h6⟩ := sweep_pass_spec vq rpm abi cvarDef s
    rw [hp] at h6
    simp only at h6
    rcases hu with hu | hu
    · subst hu
      rw [matched_false_of_null u h6] at hm
      simp at hm
    · obtain ⟨sc, a, hsc, hres, ha, hptr, hlast⟩ := ih u hu hm
      refine ⟨sc, a, hsc, hres, ha, hptr, ?_⟩
      simp only
      cases hv : (find_cvar_ptr.run vq rpm abi cvarDef next).visits with
      | nil =>
        rw [hv] at hu
        simp at hu
      | cons x xs =>
        rw [hv] at hlast
        rw [List.getLast?_cons_cons]
        exact hlast

/-- C10. `find_cvar_ptr` visits regions at ascending addresses and returns
the result of `LookupPage` for the first candidate region whose scan returns
a (non-null) address: that visit is the last of the sweep, so no region
after it is enumerated or scanned, and no visit before it matched. If every
scan of the sweep returned a null pointer, the result is `nullptr`. And a
visit whose scan returned a (non-null) address is the last of the sweep, and
that address is what `find_cvar_ptr` returns. -/
theorem find_cvar_ptr_returns_first_match (vq : VirtualQueryEx) (rpm : ReadProcessMemory)
    (abi : Abi) (cvarDef : pattern) (buffer : List Nat) :
    List.Pairwise (· < ·)
      ((find_cvar_ptr vq rpm abi cvarDef buffer).visits.map (·.readAddress)) ∧
    (∀ a, (find_cvar_ptr vq rpm abi cvarDef buffer).cvarPtr = .ptr a →
      a ≠ 0 ∧ ∃ before v mbi,
        (find_cvar_ptr vq rpm abi cvarDef buffer).visits = before ++ [v] ∧
        vq v.readAddress = some mbi ∧
        (mbi.Type_ = MEM_PRIVATE ∧ mbi.State = MEM_COMMIT ∧
          (mbi.Protect = PAGE_READWRITE ∨ mbi.Protect = PAGE_EXECUTE_READWRITE)) ∧
        v.scan = some (LookupPage rpm abi mbi cvarDef v.buffer) ∧
        (LookupPage rpm abi mbi cvarDef v.buffer).result = .ptr a ∧
        ∀ u ∈ before, u.matched = false) ∧
    ((∀ u ∈ (find_cvar_ptr vq rpm abi cvarDef buffer).visits, ∀ sc, u.scan = some sc →
        sc.result = .nullptr ∨ sc.result = .ptr 0) →
      (find_cvar_ptr vq rpm abi cvarDef buffer).cvarPtr = .nullptr) ∧
    (∀ u ∈ (find_cvar_ptr vq rpm abi cvarDef buffer).visits, u.matched = true →
      ∃ sc a, u.scan = some sc ∧ sc.result = .ptr a ∧ a ≠ 0 ∧
        (find_cvar_ptr vq rpm abi cvarDef buffer).cvarPtr = .ptr a ∧
        (find_cvar_ptr vq rpm abi cvarDef buffer).visits.getLast? = some u) := by
  unfold find_cvar_ptr
  exact ⟨(sweep_ascending vq rpm abi cvarDef ⟨0, buffer⟩).2,
    fun a h => sweep_found vq rpm abi cvarDef ⟨0, buffer⟩ a h,
    fun h => sweep_not_found vq rpm abi cvarDef ⟨0, buffer⟩ h,
    sweep_matched vq rpm abi cvarDef ⟨0, buffer⟩⟩

/-- C10 at a concrete input: the sweep over `demoRegions` returns 4112, the
address `LookupPage` found in the candidate region at 4096. -/
theorem find_cvar_ptr_returns_first_match_witness :
    (find_cvar_ptr demoRegions (readAll (memAt 4096 record12 7)) .x86 name12
      (List.replicate 48 0)).cvarPtr = .ptr 4112 ∧
    ∃ before v mbi,
      (find_cvar_ptr demoRegions (readAll (memAt 4096 record12 7)) .x86 name12
        (List.replicate 48 0)).visits = before ++ [v] ∧
      demoRegions v.readAddress = some mbi ∧
      (mbi.Type_ = MEM_PRIVATE ∧ mbi.State = MEM_COMMIT ∧
        (mbi.Protect = PAGE_READWRITE ∨ mbi.Protect = PAGE_EXECUTE_READWRITE)) ∧
      v.scan = some (LookupPage (readAll (memAt 4096 record12 7)) .x86 mbi name12 v.buffer) ∧
      (LookupPage (readAll (memAt 4096 record12 7)) .x86 mbi name12 v.buffer).result =
        .ptr 4112 ∧
      ∀ u ∈ before, u.matched = false :=
  ⟨by decide,
    ((find_cvar_ptr_returns_first_match demoRegions (readAll (memAt 4096 record12 7)) .x86
      name12 (List.replicate 48 0)).2.1 4112 (by decide)).2⟩

/-! ## Where a sweep without a match stops -/

/-- A sweep that reaches a state goes on from there: its result is the result
of the loop entered in that state, after as many visits as passes were made,
none of which matched. -/
theorem sweep_of_stateAt (vq : VirtualQueryEx) (rpm : ReadProcessMemory) (abi : Abi)
    (cvarDef : pattern) (k : Nat) (s0 s : find_cvar_ptr.State)
    (h : find_cvar_ptr.stateAt vq rpm abi cvarDef k s0 = some s) :
    (find_cvar_ptr.run vq rpm abi cvarDef s0).cvarPtr =
      (find_cvar_ptr.run vq rpm abi cvarDef s).cvarPtr ∧
    ∃ before, before.length = k ∧
      (find_cvar_ptr.run vq rpm abi cvarDef s0).visits =
        before ++ (find_cvar_ptr.run vq rpm abi cvarDef s).visits ∧
      ∀ u ∈ before, u.matched = false := by
  induction k generalizing s0 with
  | zero =>
    simp only [find_cvar_ptr.stateAt, Option.some.injEq] at h
    subst h
    exact ⟨rfl, [], rfl, rfl, fun u hu => by simp at hu⟩
  | succ k ih =>
    unfold find_cvar_ptr.stateAt at h
    cases hp : find_cvar_ptr.pass vq rpm abi cvarDef s0 with
    | ret visit r b =>
      rw [hp] at h
      simp at h
    | again visit next =>
      rw [hp] at h
      simp only at h
      obtain ⟨h1, before, hlen, hvis, hbefore⟩ := ih next h
      rw [sweep_again vq rpm abi cvarDef s0 next visit hp]
      refine ⟨h1, visit :: before, by simp [hlen], by simp [hvis], ?_⟩
      intro u hu
      simp only [List.mem_cons] at hu
      rcases hu with hu | hu
      · obtain ⟨_, _, _, _, _, h6⟩ := sweep_pass_spec vq rpm abi cvarDef s0
        rw [hp] at h6
        rw [hu]
        exact matched_false_of_null visit h6
      · exact hbefore u hu

/-- The three ways in which a pass whose region holds no match ends the sweep
with a null pointer. -/
theorem pass_stops (vq : VirtualQueryEx) (rpm : ReadProcessMemory) (abi : Abi)
    (cvarDef : pattern) (s : find_cvar_ptr.State)
    (hstop : vq s.readAddress = none ∨
      ∃ mbi, vq s.readAddress = some mbi ∧
        (¬ (mbi.Type_ = MEM_PRIVATE ∧ mbi.State = MEM_COMMIT ∧
            (mbi.Protect = PAGE_READWRITE ∨ mbi.Protect = PAGE_EXECUTE_READWRITE)) ∨
          (LookupPage rpm abi mbi cvarDef s.buffer).result = .nullptr ∨
          (LookupPage rpm abi mbi cvarDef s.buffer).result = .ptr 0) ∧
        (VirtualMemoryMax abi ≤ (mbi.BaseAddress + mbi.RegionSize) % 2 ^ abi.bits ∨
          (mbi.BaseAddress + mbi.RegionSize) % 2 ^ abi.bits ≤ s.readAddress)) :
    ∃ visit b, find_cvar_ptr.pass vq rpm abi cvarDef s = .ret visit .nullptr b := by
  have hadv : ∀ (visit : Visit) (mbi : MEMORY_BASIC_INFORMATION) (b : List Nat),
      visit.readAddress = s.readAddress →
      (VirtualMemoryMax abi ≤ (mbi.BaseAddress + mbi.RegionSize) % 2 ^ abi.bits ∨
        (mbi.BaseAddress + mbi.RegionSize) % 2 ^ abi.bits ≤ s.readAddress) →
      find_cvar_ptr.advance abi visit mbi b = .ret visit .nullptr b := by
    intro visit mbi b hv hnext
    unfold find_cvar_ptr.advance
    simp only
    rcases hnext with hnext | hnext
    · rw [if_pos hnext]
    · split
      · rfl
      · rw [if_pos (by rw [hv]; exact hnext)]
  rcases hstop with hq | ⟨mbi, hq, hno, hnext⟩
  · refine ⟨⟨s.readAddress, s.buffer, none, none⟩, s.buffer, ?_⟩
    unfold find_cvar_ptr.pass
    rw [hq]
  · by_cases hc : mbi.Type_ = MEM_PRIVATE ∧ mbi.State = MEM_COMMIT ∧
        (mbi.Protect = PAGE_READWRITE ∨ mbi.Protect = PAGE_EXECUTE_READWRITE)
    · have hres : (LookupPage rpm abi mbi cvarDef s.buffer).result = .nullptr ∨
          (LookupPage rpm abi mbi cvarDef s.buffer).result = .ptr 0 := by
        rcases hno with hno | hno
        · exact absurd hc hno
        · exact hno
      refine ⟨⟨s.readAddress, s.buffer, some mbi, some (LookupPage rpm abi mbi cvarDef s.buffer)⟩,
        (LookupPage rpm abi mbi cvarDef s.buffer).buffer, ?_⟩
      unfold find_cvar_ptr.pass
      rw [hq]
      simp only
      rw [if_pos hc]
      rcases hres with hres | hres
      · rw [hres]
        exact hadv _ mbi _ rfl hnext
      · rw [hres]
        simp only [ne_eq, not_true_eq_false, if_false]
        exact hadv _ mbi _ rfl hnext
    · refine ⟨⟨s.readAddress, s.buffer, some mbi, none⟩, s.buffer, ?_⟩
      unfold find_cvar_ptr.pass
      rw [hq]
      simp only
      rw [if_neg hc]
      exact hadv _ mbi _ rfl hnext

/-- C11. In a sweep of `find_cvar_ptr` that has reached its pass number `k`
without a match, and whose region at that pass holds no match either (it is
not a candidate, or its scan returned a null pointer), the loop ends at that
pass and `nullptr` is returned when (a) `VirtualQueryEx` fails, (b) the next
address `BaseAddress + RegionSize`, as the pointer the code computes, is at or
above `VirtualMemoryMax` (0x7fffffff0000 on x64, 0x78000000 on x86), or (c)
that next address is not above the address just queried. -/
theorem find_cvar_ptr_stops_without_match (vq : VirtualQueryEx) (rpm : ReadProcessMemory)
    (abi : Abi) (cvarDef : pattern) (buffer : List Nat) (k : Nat) (s : find_cvar_ptr.State)
    (hreach : find_cvar_ptr.stateAt vq rpm abi cvarDef k ⟨0, buffer⟩ = some s)
    (hstop : vq s.readAddress = none ∨
      ∃ mbi, vq s.readAddress = some mbi ∧
        (¬ (mbi.Type_ = MEM_PRIVATE ∧ mbi.State = MEM_COMMIT ∧
            (mbi.Protect = PAGE_READWRITE ∨ mbi.Protect = PAGE_EXECUTE_READWRITE)) ∨
          (LookupPage rpm abi mbi cvarDef s.buffer).result = .nullptr ∨
          (LookupPage rpm abi mbi cvarDef s.buffer).result = .ptr 0) ∧
        (VirtualMemoryMax abi ≤ (mbi.BaseAddress + mbi.RegionSize) % 2 ^ abi.bits ∨
          (mbi.BaseAddress + mbi.RegionSize) % 2 ^ abi.bits ≤ s.readAddress)) :
    (find_cvar_ptr vq rpm abi cvarDef buffer).cvarPtr = .nullptr ∧
    (find_cvar_ptr vq rpm abi cvarDef buffer).visits.length = k + 1 ∧
    ((find_cvar_ptr vq rpm abi cvarDef buffer).visits.map (·.readAddress)).getLast? =
      some s.readAddress ∧
    (∀ u ∈ (find_cvar_ptr vq rpm abi cvarDef buffer).visits, u.matched = false) ∧
    VirtualMemoryMax .x64 = 0x7fffffff0000 ∧ VirtualMemoryMax .x86 = 0x78000000 := by
  obtain ⟨visit, b, hp⟩ := pass_stops vq rpm abi cvarDef s hstop
  obtain ⟨h1, before, hlen, hvis, hbefore⟩ :=
    sweep_of_stateAt vq rpm abi cvarDef k ⟨0, buffer⟩ s hreach
  have hrun := sweep_ret vq rpm abi cvarDef s visit .nullptr b hp
  have hv := visit_of_pass vq rpm abi cvarDef s visit (Or.inl ⟨_, _, hp⟩)
  obtain ⟨ha, _, _, _, _, h6⟩ := sweep_pass_spec vq rpm abi cvarDef s
  rw [hv] at ha
  rw [hp] at h6
  unfold find_cvar_ptr
  rw [h1, hvis, hrun]
  refine ⟨rfl, by simp [hlen], by simp [ha], ?_, rfl, rfl⟩
  intro u hu
  simp only [List.mem_append, List.mem_singleton] at hu
  rcases hu with hu | hu
  · exact hbefore u hu
  · rw [hu]
    exact matched_false_of_null visit h6

/-- C11 at a concrete input: over `demoRegions` and a memory without the
record, the fourth query, at 8192, fails and the sweep returns `nullptr`. -/
theorem find_cvar_ptr_stops_without_match_witness :
    find_cvar_ptr.stateAt demoRegions (readAll (memAt 4096 [] 7)) .x86 name12 3
      ⟨0, List.replicate 64 0⟩ = some ⟨8192, List.replicate 64 7⟩ ∧
    demoRegions 8192 = none ∧
    (find_cvar_ptr demoRegions (readAll (memAt 4096 [] 7)) .x86 name12
      (List.replicate 64 0)).cvarPtr = .nullptr ∧
    (find_cvar_ptr demoRegions (readAll (memAt 4096 [] 7)) .x86 name12
      (List.replicate 64 0)).visits.length = 4 :=
  ⟨by decide, by decide,
    (find_cvar_ptr_stops_without_match demoRegions (readAll (memAt 4096 [] 7)) .x86 name12
      (List.replicate 64 0) 3 ⟨8192, List.replicate 64 7⟩ (by decide) (Or.inl (by decide))).1,
    (find_cvar_ptr_stops_without_match demoRegions (readAll (memAt 4096 [] 7)) .x86 name12
      (List.replicate 64 0) 3 ⟨8192, List.replicate 64 7⟩ (by decide) (Or.inl (by decide))).2.1⟩

/-! ## Decimal text of an `int` -/

theorem digits_fuel_irrel (fuel1 fuel2 n : Nat) (h1 : n ≤ fuel1) (h2 : n ≤ fuel2) :
    std.digits fuel1 n h1 = std.digits fuel2 n h2 := by
  induction fuel1 generalizing fuel2 n with
  | zero =>
    have hn : n = 0 := by omega
    subst hn
    cases fuel2 with
    | zero => rfl
    | succ fuel2 => simp [std.digits]
  | succ fuel1 ih =>
    cases fuel2 with
    | zero =>
      have hn : n = 0 := by omega
      subst hn
      simp [std.digits]
    | succ fuel2 =>
      unfold std.digits
      by_cases hn : n < 10
      · simp only [hn, dif_pos]
      · simp only [hn, dif_neg, not_false_eq_true]
        rw [ih fuel2 (n / 10) _ _]

theorem digits_small (fuel n : Nat) (h : n ≤ fuel) (hn : n < 10) :
    std.digits fuel n h = [48 + n] := by
  cases fuel with
  | zero =>
    have h0 : n = 0 := by omega
    subst h0
    rfl
  | succ fuel =>
    unfold std.digits
    simp only [hn, dif_pos]

theorem digits_step (fuel n : Nat) (h : n ≤ fuel) (hn : 10 ≤ n) :
    std.digits fuel n h =
      std.digits (n / 10) (n / 10) (Nat.le_refl _) ++ [48 + n % 10] := by
  cases fuel with
  | zero => omega
  | succ fuel =>
    conv_lhs => unfold std.digits
    have hn2 : ¬ n < 10 := by omega
    simp only [hn2, dif_neg, not_false_eq_true]
    rw [digits_fuel_irrel fuel (n / 10) (n / 10) _ (Nat.le_refl _)]

/-- The digits of a number: bytes `'0'`..`'9'`, at least one, and the number
they denote is the number. -/
theorem digits_spec (n : Nat) :
    (∀ d ∈ std.digits n n (Nat.le_refl _), std.isdigit d = true) ∧
    std.digits n n (Nat.le_refl _) ≠ [] ∧
    std.decimal (std.digits n n (Nat.le_refl _)) = n := by
  induction n using Nat.strong_induction_on with
  | _ n ih =>
    by_cases hn : n < 10
    · rw [digits_small n n _ hn]
      refine ⟨?_, by simp, ?_⟩
      · intro d hd
        simp only [List.mem_singleton] at hd
        subst hd
        simp only [std.isdigit, decide_eq_true_eq]
        omega
      · simp [std.decimal]
    · rw [digits_step n n _ (by omega)]
      obtain ⟨h1, h2, h3⟩ := ih (n / 10) (by omega)
      refine ⟨?_, by simp, ?_⟩
      · intro d hd
        simp only [List.mem_append, List.mem_singleton] at hd
        rcases hd with hd | hd
        · exact h1 d hd
        · subst hd
          simp only [std.isdigit, decide_eq_true_eq]
          omega
      · unfold std.decimal at h3 ⊢
        rw [List.foldl_append, h3]
        simp only [List.foldl_cons, List.foldl_nil]
        omega

theorem digits_length (k n : Nat) (hk : 0 < k) (hn : n < 10 ^ k) :
    (std.digits n n (Nat.le_refl _)).length ≤ k := by
  induction k generalizing n with
  | zero => omega
  | succ k ih =>
    by_cases h10 : n < 10
    · rw [digits_small n n _ h10]
      simp
    · rw [digits_step n n _ (by omega)]
      have hk0 : 0 < k := by
        rcases Nat.eq_zero_or_pos k with h | h
        · subst h
          simp at hn
          omega
        · exact h
      have : n / 10 < 10 ^ k := by
        rw [Nat.div_lt_iff_lt_mul (by decide)]
        rw [pow_succ] at hn
        exact hn
      have := ih (n / 10) hk0 this
      simp only [List.length_append, List.length_singleton]
      omega

theorem takeWhile_all {α : Type} (p : α → Bool) (xs : List α) (h : ∀ x ∈ xs, p x = true) :
    xs.takeWhile p = xs := by
  induction xs with
  | nil => rfl
  | cons x xs ih =>
    rw [List.takeWhile_cons, h x (by simp)]
    simp only [if_true]
    rw [ih (fun y hy => h y (by simp [hy]))]

/-- Parsing the decimal text of an `int` gives the `int` back. -/
theorem from_chars_to_string (i value : Int) (h1 : INT_MIN ≤ i) (h2 : i ≤ INT_MAX) :
    std.from_chars (std.to_string i) value = i := by
  obtain ⟨hd, hne, hdec⟩ := digits_spec i.natAbs
  by_cases hi : i < 0
  · have hs : std.to_string i = 45 :: std.digits i.natAbs i.natAbs (Nat.le_refl _) := by
      unfold std.to_string
      rw [if_pos hi]
    rw [hs]
    unfold std.from_chars
    simp only [List.head?_cons, decide_True, if_true, List.drop_succ_cons, List.drop_zero]
    rw [takeWhile_all _ _ hd, if_neg hne, hdec]
    have : (-(i.natAbs : Int)) = i := by omega
    rw [this, if_pos ⟨h1, h2⟩]
  · have hs : std.to_string i = std.digits i.natAbs i.natAbs (Nat.le_refl _) := by
      unfold std.to_string
      rw [if_neg hi]
    rw [hs]
    have hhead : (std.digits i.natAbs i.natAbs (Nat.le_refl _)).head? ≠ some 45 := by
      cases hl : std.digits i.natAbs i.natAbs (Nat.le_refl _) with
      | nil => simp
      | cons d ds =>
        have := hd d (by rw [hl]; simp)
        simp only [std.isdigit, decide_eq_true_eq] at this
        simp only [List.head?_cons, ne_eq, Option.some.injEq]
        omega
    unfold std.from_chars
    simp only [hhead, decide_False, Bool.false_eq_true, if_false]
    rw [takeWhile_all _ _ hd, if_neg hne, hdec]
    have : ((i.natAbs : Nat) : Int) = i := by omega
    rw [this, if_pos ⟨h1, h2⟩]

/-! ## The text-to-integer coercion -/

theorem takeWhile_append_stop {α : Type} (p : α → Bool) (xs rest : List α)
    (h : ∀ x ∈ xs, p x = true) (hrest : ∀ c, rest.head? = some c → p c = false) :
    (xs ++ rest).takeWhile p = xs := by
  induction xs with
  | nil =>
    cases rest with
    | nil => rfl
    | cons c rest =>
      rw [List.nil_append, List.takeWhile_cons, hrest c rfl]
      simp
  | cons x xs ih =>
    rw [List.cons_append, List.takeWhile_cons, h x (by simp)]
    simp only [if_true]
    rw [ih (fun y hy => h y (by simp [hy]))]

theorem from_chars_minus (t : List Nat) (value : Int) :
    std.from_chars (45 :: t) value =
      if t.takeWhile std.isdigit = [] then value
      else if INT_MIN ≤ -(std.decimal (t.takeWhile std.isdigit) : Int) ∧
          -(std.decimal (t.takeWhile std.isdigit) : Int) ≤ INT_MAX
        then -(std.decimal (t.takeWhile std.isdigit) : Int) else value := by
  unfold std.from_chars
  simp

theorem from_chars_plain (s : List Nat) (value : Int) (h : s.head? ≠ some 45) :
    std.from_chars s value =
      if s.takeWhile std.isdigit = [] then value
      else if INT_MIN ≤ (std.decimal (s.takeWhile std.isdigit) : Int) ∧
          (std.decimal (s.takeWhile std.isdigit) : Int) ≤ INT_MAX
        then (std.decimal (s.takeWhile std.isdigit) : Int) else value := by
  unfold std.from_chars
  simp [h]

/-- A text that starts with a number: an optional minus sign, then digits, at
least one and as many as there are. -/
theorem from_chars_of_number (negative : Bool) (digits rest : List Nat) (value : Int)
    (hne : digits ≠ []) (hd : ∀ d ∈ digits, std.isdigit d = true)
    (hrest : ∀ c, rest.head? = some c → std.isdigit c = false) :
    std.from_chars ((if negative then [45] else []) ++ digits ++ rest) value =
      if INT_MIN ≤ (if negative then -(std.decimal digits : Int) else (std.decimal digits : Int)) ∧
          (if negative then -(std.decimal digits : Int) else (std.decimal digits : Int)) ≤ INT_MAX
      then (if negative then -(std.decimal digits : Int) else (std.decimal digits : Int))
      else value := by
  cases negative with
  | true =>
    simp only [if_true, List.append_assoc, List.singleton_append, List.cons_append,
      List.nil_append]
    rw [from_chars_minus, takeWhile_append_stop _ _ _ hd hrest, if_neg hne]
  | false =>
    have hhead : (digits ++ rest).head? ≠ some 45 := by
      cases digits with
      | nil => exact absurd rfl hne
      | cons d ds =>
        have := hd d (by simp)
        simp only [std.isdigit, decide_eq_true_eq] at this
        simp only [List.cons_append, List.head?_cons, ne_eq, Option.some.injEq]
        omega
    simp only [Bool.false_eq_true, if_false, List.nil_append]
    rw [from_chars_plain _ _ hhead, takeWhile_append_stop _ _ _ hd hrest, if_neg hne]

/-- A text that does not start with a number is no number. -/
theorem from_chars_of_no_number (s : List Nat) (value : Int)
    (h : ¬ ∃ (negative : Bool) (digits rest : List Nat),
      s = (if negative then [45] else []) ++ digits ++ rest ∧ digits ≠ [] ∧
        ∀ d ∈ digits, std.isdigit d = true) :
    std.from_chars s value = value := by
  by_cases hneg : s.head? = some 45
  · cases s with
    | nil => simp at hneg
    | cons c t =>
      simp only [List.head?_cons, Option.some.injEq] at hneg
      subst hneg
      rw [from_chars_minus]
      split
      · rfl
      · rename_i hne
        exfalso
        apply h
        refine ⟨true, t.takeWhile std.isdigit, t.dropWhile std.isdigit, by simp, hne, ?_⟩
        intro d hd
        exact List.mem_takeWhile_imp hd
  · rw [from_chars_plain _ _ hneg]
    split
    · rfl
    · rename_i hne
      exfalso
      apply h
      refine ⟨false, s.takeWhile std.isdigit, s.dropWhile std.isdigit, by simp, hne, ?_⟩
      intro d hd
      exact List.mem_takeWhile_imp hd

/-! ## `std::stoi` in the older copy -/

theorem dropWhile_append_stop {α : Type} (p : α → Bool) (xs rest : List α)
    (h : ∀ x ∈ xs, p x = true) (hrest : ∀ c, rest.head? = some c → p c = false) :
    (xs ++ rest).dropWhile p = rest := by
  induction xs with
  | nil =>
    cases rest with
    | nil => rfl
    | cons c rest =>
      rw [List.nil_append, List.dropWhile_cons, hrest c rfl]
      simp
  | cons x xs ih =>
    rw [List.cons_append, List.dropWhile_cons, h x (by simp)]
    simp only [if_true]
    exact ih (fun y hy => h y (by simp [hy]))

/-- What `std::stoi` does with a text from which the white space at its start
has been taken: a sign `-` or `+` may come, then the digits are read. -/
theorem stoi_after_space (t : List Nat) (h : ∀ c, t.head? = some c → std.isspace c = false) :
    std.stoi t =
      if ((if t.head? = some 45 ∨ t.head? = some 43 then t.drop 1 else t).takeWhile
          std.isdigit) = [] then none
      else if INT_MIN ≤ (if t.head? = some 45 then
            -(std.decimal ((if t.head? = some 45 ∨ t.head? = some 43 then t.drop 1
              else t).takeWhile std.isdigit) : Int)
          else (std.decimal ((if t.head? = some 45 ∨ t.head? = some 43 then t.drop 1
              else t).takeWhile std.isdigit) : Int)) ∧
          (if t.head? = some 45 then
            -(std.decimal ((if t.head? = some 45 ∨ t.head? = some 43 then t.drop 1
              else t).takeWhile std.isdigit) : Int)
          else (std.decimal ((if t.head? = some 45 ∨ t.head? = some 43 then t.drop 1
              else t).takeWhile std.isdigit) : Int)) ≤ INT_MAX
        then some (if t.head? = some 45 then
            -(std.decimal ((if t.head? = some 45 ∨ t.head? = some 43 then t.drop 1
              else t).takeWhile std.isdigit) : Int)
          else (std.decimal ((if t.head? = some 45 ∨ t.head? = some 43 then t.drop 1
              else t).takeWhile std.isdigit) : Int))
        else none := by
  have hdrop : t.dropWhile std.isspace = t := by
    have := dropWhile_append_stop std.isspace [] t (fun x hx => by simp at hx) h
    simpa using this
  unfold std.stoi
  simp only [hdrop, decide_eq_true_eq]

theorem stoi_space (ws t : List Nat) (hws : ∀ c ∈ ws, std.isspace c = true)
    (h : ∀ c, t.head? = some c → std.isspace c = false) :
    std.stoi (ws ++ t) = std.stoi t := by
  have h1 : (ws ++ t).dropWhile std.isspace = t := dropWhile_append_stop _ ws t hws h
  have h2 : t.dropWhile std.isspace = t := by
    have := dropWhile_append_stop std.isspace [] t (fun x hx => by simp at hx) h
    simpa using this
  unfold std.stoi
  simp only [h1, h2]

/-- A text that starts with a number for `std::stoi`: white space, as much as
there is, an optional sign `-` or `+`, then digits, at least one and as many
as there are. -/
theorem stoi_of_number (ws sign digits rest : List Nat)
    (hws : ∀ c ∈ ws, std.isspace c = true)
    (hsign : sign = [] ∨ sign = [45] ∨ sign = [43]) (hne : digits ≠ [])
    (hd : ∀ d ∈ digits, std.isdigit d = true)
    (hrest : ∀ c, rest.head? = some c → std.isdigit c = false) :
    std.stoi (ws ++ sign ++ digits ++ rest) =
      if INT_MIN ≤ (if sign = [45] then -(std.decimal digits : Int)
            else (std.decimal digits : Int)) ∧
          (if sign = [45] then -(std.decimal digits : Int) else (std.decimal digits : Int)) ≤
            INT_MAX
      then some (if sign = [45] then -(std.decimal digits : Int) else (std.decimal digits : Int))
      else none := by
  have htake := takeWhile_append_stop std.isdigit digits rest hd hrest
  obtain ⟨d0, ds, hds⟩ : ∃ d0 ds, digits = d0 :: ds := by
    cases digits with
    | nil => exact absurd rfl hne
    | cons d0 ds => exact ⟨d0, ds, rfl⟩
  have hd0 : 48 ≤ d0 ∧ d0 ≤ 57 := by
    have := hd d0 (by rw [hds]; simp)
    simpa [std.isdigit] using this
  rw [List.append_assoc, List.append_assoc]
  rcases hsign with hs | hs | hs
  · subst hs
    have hhead : ∀ c, ([] ++ (digits ++ rest)).head? = some c → std.isspace c = false := by
      intro c hc
      rw [hds] at hc
      simp only [List.nil_append, List.cons_append, List.head?_cons, Option.some.injEq] at hc
      subst hc
      simp only [std.isspace, decide_eq_false_iff_not]
      omega
    rw [stoi_space ws _ hws hhead, stoi_after_space _ hhead]
    have h1 : ([] ++ (digits ++ rest)).head? = some d0 := by rw [hds]; rfl
    have h45 : ¬ (([] ++ (digits ++ rest)).head? = some 45) := by
      rw [h1]
      simp only [Option.some.injEq]
      omega
    have h43 : ¬ (([] ++ (digits ++ rest)).head? = some 43) := by
      rw [h1]
      simp only [Option.some.injEq]
      omega
    simp only [h45, h43, or_self, if_false]
    simp only [List.nil_append, htake, if_neg hne]
    simp
  · subst hs
    have hhead : ∀ c, ([45] ++ (digits ++ rest)).head? = some c → std.isspace c = false := by
      intro c hc
      simp only [List.singleton_append, List.head?_cons, Option.some.injEq] at hc
      subst hc
      decide
    rw [stoi_space ws _ hws hhead, stoi_after_space _ hhead]
    simp only [List.singleton_append, List.head?_cons, true_or, if_true, List.drop_succ_cons,
      List.drop_zero, htake, if_neg hne]
  · subst hs
    have hhead : ∀ c, ([43] ++ (digits ++ rest)).head? = some c → std.isspace c = false := by
      intro c hc
      simp only [List.singleton_append, List.head?_cons, Option.some.injEq] at hc
      subst hc
      decide
    rw [stoi_space ws _ hws hhead, stoi_after_space _ hhead]
    have h45 : ¬ ((some 43 : Option Nat) = some 45) := by decide
    have h4345 : ¬ ([43] = ([45] : List Nat)) := by decide
    simp only [List.singleton_append, List.head?_cons, h45, or_true, if_true, if_false,
      List.drop_succ_cons, List.drop_zero, htake, if_neg hne, h4345]

/-- A text that does not start with a number for `std::stoi` makes it throw. -/
theorem stoi_of_no_number (s : List Nat)
    (h : ¬ ∃ ws sign digits rest : List Nat,
      s = ws ++ sign ++ digits ++ rest ∧ (∀ c ∈ ws, std.isspace c = true) ∧
        (sign = [] ∨ sign = [45] ∨ sign = [43]) ∧ digits ≠ [] ∧
        ∀ d ∈ digits, std.isdigit d = true) :
    std.stoi s = none := by
  have hsplit : s = s.takeWhile std.isspace ++ s.dropWhile std.isspace :=
    (List.takeWhile_append_dropWhile std.isspace s).symm
  have hws : ∀ c ∈ s.takeWhile std.isspace, std.isspace c = true :=
    fun c hc => List.mem_takeWhile_imp hc
  have hhead : ∀ c, (s.dropWhile std.isspace).head? = some c → std.isspace c = false := by
    intro c hc
    have := List.head?_dropWhile_not std.isspace s
    rw [hc] at this
    simpa using this
  rw [hsplit, stoi_space _ _ hws hhead, stoi_after_space _ hhead]
  generalize s.dropWhile std.isspace = t at hsplit
  generalize s.takeWhile std.isspace = ws at hsplit hws
  by_cases hne : ((if t.head? = some 45 ∨ t.head? = some 43 then t.drop 1 else t).takeWhile
      std.isdigit) = []
  · rw [if_pos hne]
  · exfalso
    apply h
    by_cases hsg : t.head? = some 45 ∨ t.head? = some 43
    · rw [if_pos hsg] at hne
      cases t with
      | nil => simp at hsg
      | cons c t2 =>
        simp only [List.head?_cons, Option.some.injEq] at hsg
        simp only [List.drop_succ_cons, List.drop_zero] at hne
        refine ⟨ws, [c], t2.takeWhile std.isdigit, t2.dropWhile std.isdigit, ?_, hws, ?_, hne,
          fun d hd => List.mem_takeWhile_imp hd⟩
        · rw [hsplit]
          simp
        · rcases hsg with hsg | hsg
          · exact Or.inr (Or.inl (by rw [hsg]))
          · exact Or.inr (Or.inr (by rw [hsg]))
    · rw [if_neg hsg] at hne
      refine ⟨ws, [], t.takeWhile std.isdigit, t.dropWhile std.isdigit, ?_, hws, Or.inl rfl, hne,
        fun d hd => List.mem_takeWhile_imp hd⟩
      rw [hsplit]
      simp

/-- C15, as the code has it. The text-to-integer coercion gives a value for
every text, in both copies of the code. In `cvar.hpp` it is `std::from_chars`
into an `int` that starts as 0: for a text that starts with a number (an
optional minus sign, then decimal digits, what follows being ignored) it
gives that number when the number is an `int` and 0 when it is not, and it
gives 0 for a text that does not start with a number. In the older copy
`cryengine_cvar.hpp` it is `std::stoi`, with 0 for each exception: a number
is there white space, as much as there is, an optional sign `-` or `+`, then
decimal digits, what follows being ignored; the coercion gives that number
when it is an `int` and 0 when it is not, and 0 for a text that does not
start with a number. -/
theorem text_to_int_yields_leading_number (s : List Nat) :
    (∀ (negative : Bool) (digits rest : List Nat),
      s = (if negative then [45] else []) ++ digits ++ rest → digits ≠ [] →
      (∀ d ∈ digits, std.isdigit d = true) →
      (∀ c, rest.head? = some c → std.isdigit c = false) →
      std.from_chars s 0 =
        if INT_MIN ≤ (if negative then -(std.decimal digits : Int) else (std.decimal digits : Int)) ∧
            (if negative then -(std.decimal digits : Int) else (std.decimal digits : Int)) ≤ INT_MAX
        then (if negative then -(std.decimal digits : Int) else (std.decimal digits : Int))
        else 0) ∧
    ((¬ ∃ (negative : Bool) (digits rest : List Nat),
        s = (if negative then [45] else []) ++ digits ++ rest ∧ digits ≠ [] ∧
          ∀ d ∈ digits, std.isdigit d = true) →
      std.from_chars s 0 = 0) ∧
    (∀ ws sign digits rest : List Nat,
      s = ws ++ sign ++ digits ++ rest → (∀ c ∈ ws, std.isspace c = true) →
      (sign = [] ∨ sign = [45] ∨ sign = [43]) → digits ≠ [] →
      (∀ d ∈ digits, std.isdigit d = true) →
      (∀ c, rest.head? = some c → std.isdigit c = false) →
      assign.int_value s =
        if INT_MIN ≤ (if sign = [45] then -(std.decimal digits : Int)
              else (std.decimal digits : Int)) ∧
            (if sign = [45] then -(std.decimal digits : Int) else (std.decimal digits : Int)) ≤
              INT_MAX
        then (if sign = [45] then -(std.decimal digits : Int) else (std.decimal digits : Int))
        else 0) ∧
    ((¬ ∃ ws sign digits rest : List Nat,
        s = ws ++ sign ++ digits ++ rest ∧ (∀ c ∈ ws, std.isspace c = true) ∧
          (sign = [] ∨ sign = [45] ∨ sign = [43]) ∧ digits ≠ [] ∧
          ∀ d ∈ digits, std.isdigit d = true) →
      assign.int_value s = 0) := by
  refine ⟨?_, from_chars_of_no_number s 0, ?_, ?_⟩
  · intro negative digits rest hs hne hd hrest
    rw [hs]
    exact from_chars_of_number negative digits rest 0 hne hd hrest
  · intro ws sign digits rest hs hws hsign hne hd hrest
    unfold assign.int_value
    rw [hs, stoi_of_number ws sign digits rest hws hsign hne hd hrest]
    by_cases hr : INT_MIN ≤ (if sign = [45] then -(std.decimal digits : Int)
          else (std.decimal digits : Int)) ∧
        (if sign = [45] then -(std.decimal digits : Int) else (std.decimal digits : Int)) ≤
          INT_MAX
    · rw [if_pos hr, if_pos hr]
    · rw [if_neg hr, if_neg hr]
  · intro h
    unfold assign.int_value
    rw [stoi_of_no_number s h]

/-- C15 at the text `-42a`, which gives -42 in `cvar.hpp`, and at the text
` +7x`, which gives 7 in the older copy. -/
theorem text_to_int_yields_leading_number_witness :
    std.from_chars [45, 52, 50, 97] 0 = -42 ∧ assign.int_value [32, 43, 55, 120] = 7 :=
  ⟨(text_to_int_yields_leading_number [45, 52, 50, 97]).1 true [52, 50] [97] (by decide)
      (by decide) (by decide) (by decide),
    (text_to_int_yields_leading_number [32, 43, 55, 120]).2.2.1 [32] [43] [55] [120]
      (by decide) (by decide) (by decide) (by decide) (by decide) (by decide)⟩

/-- C15 as stated fails. The text `2147483648` starts with the number
2147483648, and the coercion gives 0, in `cvar.hpp` and in the older copy.
In the older copy the texts ` 42` and `+7`, which start with neither a minus
sign nor a digit, give 42 and 7; in `cvar.hpp` they give 0. -/
theorem text_to_int_not_as_stated :
    std.decimal [50, 49, 52, 55, 52, 56, 51, 54, 52, 56] = 2147483648 ∧
    (∀ d ∈ [50, 49, 52, 55, 52, 56, 51, 54, 52, 56], std.isdigit d = true) ∧
    std.from_chars [50, 49, 52, 55, 52, 56, 51, 54, 52, 56] 0 = 0 ∧
    assign.int_value [50, 49, 52, 55, 52, 56, 51, 54, 52, 56] = 0 ∧
    std.isdigit 32 = false ∧ (32 : Nat) ≠ 45 ∧ assign.int_value [32, 52, 50] = 42 ∧
    std.from_chars [32, 52, 50] 0 = 0 ∧
    std.isdigit 43 = false ∧ (43 : Nat) ≠ 45 ∧ assign.int_value [43, 55] = 7 ∧
    std.from_chars [43, 55] 0 = 0 := by
  decide

set_option maxRecDepth 8192

/-! ## Writing a record -/

theorem strlen_c_str (s : List Nat) (h : ∀ b ∈ s, b ≠ 0) : strlen (s ++ [0]) = s.length := by
  unfold strlen
  rw [takeWhile_append_stop (fun b => decide (b ≠ 0)) s [0] (fun b hb => by simpa using h b hb)
    (fun c hc => by
      simp only [List.head?_cons, Option.some.injEq] at hc
      subst hc
      simp)]

theorem strlen_long (s : List Nat) (n : Nat) (hn : n ≤ s.length) (h : ∀ b ∈ s.take n, b ≠ 0) :
    n ≤ strlen (s ++ [0]) := by
  unfold strlen
  have hs : s ++ [0] = s.take n ++ (s.drop n ++ [0]) := by
    rw [← List.append_assoc, List.take_append_drop]
  rw [hs, List.takeWhile_append_of_pos (fun b hb => by simpa using h b hb)]
  simp only [List.length_append, List.length_take]
  omega

/-- `set` with a text of at most 255 bytes, none of them NUL: the text and a
terminator are copied to the front of `string_value`. -/
theorem set_done (v : cvar) (i : Int) (f : float) (s : List Nat) (h : ∀ b ∈ s, b ≠ 0)
    (hlen : s.length ≤ 255) :
    v.set i f s = .done ⟨i, f, s ++ [0] ++ v.string_value.drop (s.length + 1)⟩ := by
  unfold cvar.set strncpy_s
  rw [strlen_c_str s h]
  simp only [min_self]
  rw [if_pos (by omega)]
  simp

/-- `set` with a text whose first 256 bytes hold no NUL: `strncpy_s` ends in
the invalid-parameter handler. -/
theorem set_invalid_parameter (v : cvar) (i : Int) (f : float) (s : List Nat)
    (hlen : 256 ≤ s.length) (h : ∀ b ∈ s.take 256, b ≠ 0) :
    v.set i f s = .invalid_parameter := by
  unfold cvar.set strncpy_s
  have := strlen_long s 256 hlen h
  simp only
  rw [if_neg (by simp only [not_lt, le_min_iff]; exact ⟨hlen, this⟩)]

theorem to_string_nul (i : Int) : ∀ b ∈ std.to_string i, b ≠ 0 := by
  obtain ⟨hd, _, _⟩ := digits_spec i.natAbs
  have hd2 : ∀ b ∈ std.digits i.natAbs i.natAbs (Nat.le_refl _), b ≠ 0 := by
    intro b hb
    have := hd b hb
    simp only [std.isdigit, decide_eq_true_eq] at this
    omega
  intro b hb
  unfold std.to_string at hb
  split at hb
  · simp only [List.mem_cons] at hb
    rcases hb with hb | hb
    · omega
    · exact hd2 b hb
  · exact hd2 b hb

theorem to_string_length (i : Int) (h1 : INT_MIN ≤ i) (h2 : i ≤ INT_MAX) :
    (std.to_string i).length ≤ 11 := by
  have hn : i.natAbs < 10 ^ 10 := by
    unfold INT_MIN at h1
    unfold INT_MAX at h2
    omega
  have := digits_length 10 i.natAbs (by decide) hn
  unfold std.to_string
  split
  · simp only [List.length_cons]
    omega
  · omega

theorem c_string_of_terminated (s rest : List Nat) (h : ∀ b ∈ s, b ≠ 0) :
    c_string (s ++ [0] ++ rest) = some s := by
  unfold c_string
  rw [if_pos (by simp)]
  rw [List.append_assoc, takeWhile_append_stop (fun b => decide (b ≠ 0)) s ([0] ++ rest)
    (fun b hb => by simpa using h b hb)
    (fun c hc => by
      simp only [List.singleton_append, List.head?_cons, Option.some.injEq] at hc
      subst hc
      simp)]

theorem length_after_copy (s field : List Nat) (hlen : s.length < field.length) :
    (s ++ [0] ++ field.drop (s.length + 1)).length = field.length := by
  simp only [List.length_append, List.length_singleton, List.length_drop]
  omega

/-- C13. For every `int` `i`, from `INT_MIN` to `INT_MAX`: the text of `i`
(`to_string`, which is `std::to_string(i)`), parsed by `std::from_chars` as
`operator=(const std::string&)` does (into an `int` that starts as 0), gives
`i`; so a record that text is written to holds `i` in `int_value`, and the
text of what it holds is the text written. -/
theorem to_string_from_chars_roundtrip (rt : Runtime) (v : cvar) (i : Int)
    (hmin : INT_MIN ≤ i) (hmax : i ≤ INT_MAX) :
    std.from_chars (std.to_string i) 0 = i ∧
    std.to_string (std.from_chars (std.to_string i) 0) = std.to_string i ∧
    ∃ w, v.assign_string rt (to_string rt (.int i)) = .done w ∧ w.int_value = i ∧
      to_string rt (.int w.int_value) = to_string rt (.int i) := by
  have h := from_chars_to_string i 0 hmin hmax
  refine ⟨h, by rw [h], ?_⟩
  have hlen := to_string_length i hmin hmax
  have hw := set_done v (std.from_chars (std.to_string i) 0)
    (rt.from_chars_float (std.to_string i) float.zero) (std.to_string i) (to_string_nul i)
    (by omega)
  refine ⟨_, hw, ?_, ?_⟩
  · exact h
  · simp only [to_string]
    rw [h]

/-- C13 at `INT_MIN`, whose text is `-2147483648`. -/
theorem to_string_from_chars_roundtrip_witness :
    std.to_string (-2147483648) = [45, 50, 49, 52, 55, 52, 56, 51, 54, 52, 56] ∧
    std.from_chars (std.to_string (-2147483648)) 0 = -2147483648 ∧
    std.to_string (std.from_chars (std.to_string (-2147483648)) 0) =
      std.to_string (-2147483648) :=
  ⟨by decide,
    (to_string_from_chars_roundtrip demoRuntime demoRecord (-2147483648) (by decide)
      (by decide)).1,
    (to_string_from_chars_roundtrip demoRuntime demoRecord (-2147483648) (by decide)
      (by decide)).2.1⟩

/-- C12. A write sets the three value fields of the record, each from the
value written. After `operator=(int i)`: `int_value` is `i`, `float_value` is
`float(i)`, and `string_value` holds the decimal text of `i`, which denotes
`i`, and a NUL. After `operator=(const std::string& s)`, for `s` of at most
255 bytes without a NUL: `string_value` holds `s` and a NUL, `int_value` is
the number `std::from_chars` reads from `s` and `float_value` the one it reads
as a `float`. After `operator=(float f)`: `float_value` is `f`, `int_value` is
`int(f)` and `string_value` holds `std::to_string(f)` and a NUL. The bytes of
`string_value` after the NUL stay as they were. -/
theorem assign_sets_all_fields (rt : Runtime) (v : cvar) :
    (∀ i, INT_MIN ≤ i → i ≤ INT_MAX →
      v.assign_int i = .done ⟨i, float.of_int i,
        std.to_string i ++ [0] ++ v.string_value.drop ((std.to_string i).length + 1)⟩ ∧
      std.from_chars (std.to_string i) 0 = i) ∧
    (∀ s, (∀ b ∈ s, b ≠ 0) → s.length ≤ 255 →
      v.assign_string rt s = .done ⟨std.from_chars s 0, rt.from_chars_float s float.zero,
        s ++ [0] ++ v.string_value.drop (s.length + 1)⟩) ∧
    (∀ f, v.assign_float rt f = .done ⟨f.to_int rt.indefinite, f,
        rt.to_string_float f ++ [0] ++
          v.string_value.drop ((rt.to_string_float f).length + 1)⟩) := by
  refine ⟨?_, ?_, ?_⟩
  · intro i h1 h2
    refine ⟨?_, from_chars_to_string i 0 h1 h2⟩
    unfold cvar.assign_int
    exact set_done v i _ _ (to_string_nul i) (by have := to_string_length i h1 h2; omega)
  · intro s hs hlen
    unfold cvar.assign_string
    exact set_done v _ _ s hs hlen
  · intro f
    unfold cvar.assign_float
    exact set_done v _ f _ (rt.to_string_float_nul f)
      (by have := rt.to_string_float_length f; omega)

/-- C12 at a concrete input: writing -42, and writing the text `12ab`, to
`demoRecord`. -/
theorem assign_sets_all_fields_witness :
    demoRecord.assign_int (-42) = .done ⟨-42, .finite true 42 0,
      [45, 52, 50, 0] ++ List.replicate 252 9⟩ ∧
    demoRecord.assign_string demoRuntime [49, 50, 97, 98] = .done ⟨12, float.zero,
      [49, 50, 97, 98, 0] ++ List.replicate 251 9⟩ :=
  ⟨((assign_sets_all_fields demoRuntime demoRecord).1 (-42) (by decide) (by decide)).1.trans
      (by decide),
    ((assign_sets_all_fields demoRuntime demoRecord).2.1 [49, 50, 97, 98] (by decide)
      (by decide)).trans (by decide)⟩

/-- C16 as stated fails: a text of 256 bytes `a` is not cut to 255 bytes; the
write of it ends in the invalid-parameter handler. -/
theorem assign_string_256_bytes_fails :
    (List.replicate 256 97).length = 256 ∧
    demoRecord.string_value.length = 256 ∧
    demoRecord.assign_string demoRuntime (List.replicate 256 97) = .invalid_parameter :=
  ⟨List.length_replicate _ _, List.length_replicate _ _,
    set_invalid_parameter demoRecord _ _ _ (List.length_replicate _ _).ge
      (fun b hb => by
        have := List.mem_of_mem_take hb
        rw [List.mem_replicate] at this
        omega)⟩

/-- C16, as the code has it. A text of 256 bytes or more with no NUL among
its first 256 bytes is not cut to the capacity of `string_value`: `strncpy_s`
finds that the text and a terminator do not fit in 256 bytes, and the write
ends in the invalid-parameter handler. A text of 255 bytes without a NUL is
the longest that is stored. -/
theorem assign_string_too_long (rt : Runtime) (v : cvar) (s : List Nat)
    (hlen : 256 ≤ s.length) (h : ∀ b ∈ s.take 256, b ≠ 0) :
    v.assign_string rt s = .invalid_parameter ∧
    (v.assign_string rt (s.take 255)).done? = true := by
  constructor
  · unfold cvar.assign_string
    exact set_invalid_parameter v _ _ s hlen h
  · unfold cvar.assign_string
    have h255 : ∀ b ∈ s.take 255, b ≠ 0 := by
      intro b hb
      exact h b (List.mem_of_mem_take (by
        have : s.take 255 = (s.take 256).take 255 := by
          rw [List.take_take]
          simp
        rw [this] at hb
        exact hb))
    rw [set_done v _ _ (s.take 255) h255 (by rw [List.length_take]; omega)]
    rfl

/-- C16 at a concrete input: a text of 300 bytes `a`. -/
theorem assign_string_too_long_witness :
    demoRecord.assign_string demoRuntime (List.replicate 300 97) = .invalid_parameter :=
  (assign_string_too_long demoRuntime demoRecord (List.replicate 300 97)
    (by rw [List.length_replicate]; omega)
    (fun b hb => by
      have := List.mem_of_mem_take hb
      rw [List.mem_replicate] at this
      omega)).1

/-! ## Comparing a record with a value -/

/-- `strncmp` of an array with a text and its terminator, over the length of
the text and one byte more: it returns, and it returns 0 exactly when the
array starts with the text and a NUL. -/
theorem strncmp_c_str (s field : List Nat) (hs : ∀ b ∈ s, b ≠ 0)
    (hlen : s.length < field.length) :
    ∃ c, strncmp field (s ++ [0]) (s.length + 1) = some c ∧
      (c = 0 ↔ field.take (s.length + 1) = s ++ [0]) := by
  induction s generalizing field with
  | nil =>
    cases field with
    | nil => simp at hlen
    | cons a rest =>
      simp only [List.nil_append, List.length_nil, Nat.zero_add, strncmp, Nat.not_lt_zero,
        if_false, List.take_succ_cons, List.take_zero, List.cons.injEq, and_true]
      by_cases ha : a = 0
      · subst ha
        exact ⟨0, by simp, by simp⟩
      · refine ⟨1, by simp [Nat.pos_of_ne_zero ha], by simp [ha]⟩
  | cons b s ih =>
    cases field with
    | nil => simp at hlen
    | cons a rest =>
      have hb : b ≠ 0 := hs b (by simp)
      simp only [List.cons_append, List.length_cons, strncmp, List.take_succ_cons,
        List.cons.injEq]
      by_cases h1 : a < b
      · exact ⟨-1, by simp [h1], by simp; omega⟩
      · by_cases h2 : b < a
        · exact ⟨1, by simp [h1, h2], by simp; omega⟩
        · have hab : a = b := by omega
          subst hab
          simp only [lt_self_iff_false, if_false, hb, true_and]
          exact ih rest (fun x hx => hs x (by simp [hx])) (by simpa using hlen)

/-- An array starts with a text and a NUL exactly when the bytes before its
first NUL are the text. -/
theorem take_eq_c_str_iff (s field : List Nat) (hs : ∀ b ∈ s, b ≠ 0)
    (hlen : s.length < field.length) :
    field.take (s.length + 1) = s ++ [0] ↔ field.takeWhile (· ≠ 0) = s := by
  constructor
  · intro h
    have hf : field = (s ++ [0]) ++ field.drop (s.length + 1) := by
      conv_lhs => rw [← List.take_append_drop (s.length + 1) field, h]
    rw [hf, List.append_assoc]
    exact takeWhile_append_stop (fun b => decide (b ≠ 0)) s _ (fun b hb => by simpa using hs b hb)
      (fun c hc => by
        simp only [List.singleton_append, List.head?_cons, Option.some.injEq] at hc
        subst hc
        simp)
  · intro h
    have hsplit := List.takeWhile_append_dropWhile (fun b => decide (b ≠ 0)) field
    rw [h] at hsplit
    cases hd : field.dropWhile (fun b => decide (b ≠ 0)) with
    | nil =>
      rw [hd] at hsplit
      have : field.length = s.length := by rw [← hsplit]; simp
      omega
    | cons c rest =>
      have hc : c = 0 := by
        have := List.head_dropWhile_not (fun b => decide (b ≠ 0)) field (by rw [hd]; simp)
        simp only [hd, List.head_cons, decide_eq_true_eq, ne_eq, not_not] at this
        simpa using this
      subst hc
      rw [hd] at hsplit
      rw [← hsplit]
      have : s ++ 0 :: rest = (s ++ [0]) ++ rest := by simp
      rw [this, List.take_append_of_le_length (by simp), List.take_of_length_le (by simp)]

/-- What `record == s` returns for a text of at most 255 bytes without a
NUL. -/
theorem eq_string_spec (w : cvar) (x : List Nat) (hw : w.string_value.length = 256)
    (hx : ∀ b ∈ x, b ≠ 0) (hxl : x.length ≤ 255) :
    ∃ r, w.eq_string x = some r ∧ (r = true ↔ w.string_value.takeWhile (· ≠ 0) = x) := by
  obtain ⟨c, hc, hiff⟩ := strncmp_c_str x w.string_value hx (by omega)
  refine ⟨decide (c = 0), ?_, ?_⟩
  · unfold cvar.eq_string
    rw [min_eq_right (by omega), hc]
    rfl
  · rw [decide_eq_true_iff, hiff]
    exact take_eq_c_str_iff x w.string_value hx (by omega)

theorem eq_string_true_iff (w : cvar) (x : List Nat) (hw : w.string_value.length = 256)
    (hx : ∀ b ∈ x, b ≠ 0) (hxl : x.length ≤ 255) :
    w.eq_string x = some true ↔ w.string_value.takeWhile (· ≠ 0) = x := by
  obtain ⟨r, hr, hiff⟩ := eq_string_spec w x hw hx hxl
  rw [hr, ← hiff]
  simp

theorem eq_string_false (w : cvar) (x : List Nat) (hw : w.string_value.length = 256)
    (hx : ∀ b ∈ x, b ≠ 0) (hxl : x.length ≤ 255)
    (hne : w.string_value.takeWhile (· ≠ 0) ≠ x) : w.eq_string x = some false := by
  obtain ⟨r, hr, hiff⟩ := eq_string_spec w x hw hx hxl
  rw [hr]
  cases r with
  | true => exact absurd (hiff.1 rfl) hne
  | false => rfl

theorem takeWhile_terminated (s rest : List Nat) (hs : ∀ b ∈ s, b ≠ 0) :
    (s ++ [0] ++ rest).takeWhile (· ≠ 0) = s := by
  rw [List.append_assoc]
  exact takeWhile_append_stop (fun b => decide (b ≠ 0)) s _
    (fun b hb => by simpa using hs b hb)
    (fun c hc => by
      simp only [List.singleton_append, List.head?_cons, Option.some.injEq] at hc
      subst hc
      simp)

/-- C17. For a record and a text `s` of at most 255 bytes without a NUL,
`record == s` is true exactly when the bytes of `string_value` before its
first NUL are `s`. So the bytes after that NUL do not matter, and a record
whose text is `s` does not equal a text that `s` is a proper start of, nor a
proper start of `s`. -/
theorem eq_string_iff_text (v : cvar) (s : List Nat) (hv : v.string_value.length = 256)
    (hs : ∀ b ∈ s, b ≠ 0) (hlen : s.length ≤ 255) :
    (∃ r, v.eq_string s = some r ∧ (r = true ↔ v.string_value.takeWhile (· ≠ 0) = s)) ∧
    (∀ rest1 rest2 i1 i2 f1 f2, (s ++ [0] ++ rest1).length = 256 →
      (s ++ [0] ++ rest2).length = 256 →
      cvar.eq_string ⟨i1, f1, s ++ [0] ++ rest1⟩ s = some true ∧
      cvar.eq_string ⟨i2, f2, s ++ [0] ++ rest2⟩ s = some true) ∧
    (∀ t, t ≠ [] → v.eq_string s = some true →
      (s ++ t).length ≤ 255 → (∀ b ∈ t, b ≠ 0) → v.eq_string (s ++ t) = some false) ∧
    (∀ t u, s = t ++ u → u ≠ [] → v.eq_string s = some true → v.eq_string t = some false) := by
  refine ⟨eq_string_spec v s hv hs hlen, ?_, ?_, ?_⟩
  · intro rest1 rest2 i1 i2 f1 f2 h1 h2
    exact ⟨(eq_string_true_iff ⟨i1, f1, s ++ [0] ++ rest1⟩ s h1 hs hlen).2
        (takeWhile_terminated s rest1 hs),
      (eq_string_true_iff ⟨i2, f2, s ++ [0] ++ rest2⟩ s h2 hs hlen).2
        (takeWhile_terminated s rest2 hs)⟩
  · intro t ht heq htl htn
    have h1 := (eq_string_true_iff v s hv hs hlen).1 heq
    apply eq_string_false v (s ++ t) hv _ htl
    · rw [h1]
      intro h
      have := congrArg List.length h
      simp only [List.length_append] at this
      have : t.length = 0 := by omega
      exact ht (List.length_eq_zero.1 this)
    · intro b hb
      simp only [List.mem_append] at hb
      rcases hb with hb | hb
      · exact hs b hb
      · exact htn b hb
  · intro t u hsu hu heq
    have h1 := (eq_string_true_iff v s hv hs hlen).1 heq
    have htl : t.length ≤ 255 := by
      rw [hsu] at hlen
      simp only [List.length_append] at hlen
      omega
    apply eq_string_false v t hv (fun b hb => hs b (by rw [hsu]; simp [hb])) htl
    rw [h1, hsu]
    intro h
    have := congrArg List.length h
    simp only [List.length_append] at this
    have : u.length = 0 := by omega
    exact hu (List.length_eq_zero.1 this)

/-- C17 at a concrete input: `demoText`, whose text is `ab`, equals `ab`. -/
theorem eq_string_iff_text_witness :
    demoText.eq_string [97, 98] = some true ∧
    ∃ r, demoText.eq_string [97, 98] = some r ∧
      (r = true ↔ demoText.string_value.takeWhile (· ≠ 0) = [97, 98]) :=
  ⟨by decide,
    (eq_string_iff_text demoText [97, 98] (by decide) (by decide) (by decide)).1⟩

/-! ## `int(f)` -/

theorem floor_dyadic (m : Nat) (e : Int) :
    ⌊(m : ℚ) * (2 : ℚ) ^ e⌋ =
      ((if 0 ≤ e then m * 2 ^ e.toNat else m / 2 ^ (-e).toNat : Nat) : Int) := by
  by_cases he : 0 ≤ e
  · rw [if_pos he]
    obtain ⟨k, rfl⟩ := Int.eq_ofNat_of_zero_le he
    simp only [Int.toNat_ofNat, zpow_natCast]
    have : (m : ℚ) * 2 ^ k = ((m * 2 ^ k : Nat) : ℚ) := by push_cast; ring
    rw [this, Int.floor_natCast]
  · rw [if_neg he]
    obtain ⟨k, hk⟩ : ∃ k : Nat, e = -(k : Int) := ⟨(-e).toNat, by omega⟩
    subst hk
    simp only [neg_neg, Int.toNat_ofNat, zpow_neg, zpow_natCast]
    have : (m : ℚ) * ((2 : ℚ) ^ k)⁻¹ = ((m : Nat) : ℚ) / ((2 ^ k : Nat) : ℚ) := by
      push_cast
      rw [div_eq_mul_inv]
    rw [this]
    have h2 : ⌊((m : Nat) : ℚ) / ((2 ^ k : Nat) : ℚ)⌋ = ((m / 2 ^ k : Nat) : Int) := by
      rw [← Int.natCast_floor_eq_floor (by positivity), Nat.floor_div_eq_div]
    exact h2

/-- The integer part of a finite datum is its value rounded toward zero:
down for a positive value, up for a negative one. -/
theorem trunc_toward_zero (f : float) (x : ℚ) (hx : f.value = some x) :
    f.trunc = some (if 0 ≤ x then ⌊x⌋ else ⌈x⌉) := by
  cases f with
  | inf n => simp [float.value] at hx
  | nan => simp [float.value] at hx
  | finite negative m e =>
    simp only [float.value, Option.some.injEq] at hx
    have hy : (0 : ℚ) ≤ (m : ℚ) * (2 : ℚ) ^ e := by positivity
    have hfl := floor_dyadic m e
    unfold float.trunc
    simp only [Option.some.injEq]
    cases negative with
    | false =>
      simp only [Bool.false_eq_true, if_false, one_mul] at hx ⊢
      rw [← hx, if_pos hy, hfl]
    | true =>
      simp only [if_true, neg_mul, one_mul] at hx ⊢
      rw [← hx]
      by_cases h0 : (0 : ℚ) ≤ -((m : ℚ) * (2 : ℚ) ^ e)
      · rw [if_pos h0]
        have hz : (m : ℚ) * (2 : ℚ) ^ e = 0 := by linarith
        rw [hz] at hfl
        simp only [Int.floor_zero] at hfl
        rw [hz, ← hfl]
        simp
      · rw [if_neg h0, Int.ceil_neg, hfl]

/-- C14 as stated fails: `2 ^ 31` is a `float` whose integer part,
2147483648, is no `int`; whatever a write of it stores in `int_value`, it is
not that. -/
theorem assign_float_out_of_range :
    float.value (.finite false 1 31) = some 2147483648 ∧
    float.trunc (.finite false 1 31) = some 2147483648 ∧
    ∀ (rt : Runtime) (v w : cvar), v.assign_float rt (.finite false 1 31) = .done w →
      w.int_value ≠ 2147483648 := by
  refine ⟨by norm_num [float.value], by decide, ?_⟩
  intro rt v w hw
  have h := set_done v (float.to_int rt.indefinite (.finite false 1 31)) (.finite false 1 31)
    (rt.to_string_float (.finite false 1 31)) (rt.to_string_float_nul _)
    (by have := rt.to_string_float_length (.finite false 1 31); omega)
  unfold cvar.assign_float at hw
  rw [h] at hw
  simp only [Write.done.injEq] at hw
  rw [← hw]
  have ht : float.trunc (.finite false 1 31) = some 2147483648 := by decide
  simp only [float.to_int, ht]
  rw [if_neg (by decide)]
  have := rt.indefinite_int.2
  unfold INT_MAX at this
  omega

/-- C14, as the code has it. For every finite `float` `f` whose integer part
is an `int`, `operator=(float f)` sets `int_value` to that integer part, which
is the value of `f` rounded toward zero. -/
theorem assign_float_truncates (rt : Runtime) (v : cvar) (f : float) (t : Int)
    (ht : f.trunc = some t) (hmin : INT_MIN ≤ t) (hmax : t ≤ INT_MAX) :
    (∃ w, v.assign_float rt f = .done w ∧ w.int_value = t) ∧
    ∃ x, f.value = some x ∧ t = if 0 ≤ x then ⌊x⌋ else ⌈x⌉ := by
  constructor
  · refine ⟨_, set_done v _ f _ (rt.to_string_float_nul f)
      (by have := rt.to_string_float_length f; omega), ?_⟩
    simp only [float.to_int, ht]
    rw [if_pos ⟨hmin, hmax⟩]
  · cases f with
    | inf n => simp [float.trunc] at ht
    | nan => simp [float.trunc] at ht
    | finite negative m e =>
      refine ⟨_, rfl, ?_⟩
      have := trunc_toward_zero (.finite negative m e) _ rfl
      rw [ht] at this
      exact Option.some.inj this

/-- C14 at 3.9 and at -3.9, as `float`: the writes set `int_value` to 3 and
to -3. -/
theorem assign_float_truncates_witness :
    (∃ w, demoRecord.assign_float demoRuntime float_3_9 = .done w ∧ w.int_value = 3) ∧
    (∃ w, demoRecord.assign_float demoRuntime (.finite true 16357786 (-22)) = .done w ∧
      w.int_value = -3) :=
  ⟨(assign_float_truncates demoRuntime demoRecord float_3_9 3 (by decide) (by decide)
      (by decide)).1,
    (assign_float_truncates demoRuntime demoRecord (.finite true 16357786 (-22)) (-3)
      (by decide) (by decide) (by decide)).1⟩

theorem float_eq_self (f : float) (h : f ≠ .nan) : f.eq f = true := by
  cases f with
  | nan => exact absurd rfl h
  | inf n => simp [float.eq]
  | finite n m e => simp [float.eq]

/-- C18. Write then read: for a value that is an `int`, a `float` other than
NaN, or a text of at most 255 bytes without a NUL, the write to a record
succeeds, `to_value` at the type of the value then returns the value, and
`record == value` is true. -/
theorem write_then_read (rt : Runtime) (v : cvar) (hv : v.string_value.length = 256) :
    (∀ i, INT_MIN ≤ i → i ≤ INT_MAX →
      ∃ w, v.assign rt (.int i) = .done w ∧
        w.to_value (cvar.value.int i).type = some (.int i) ∧ w.eq (.int i) = some true) ∧
    (∀ f, f ≠ .nan →
      ∃ w, v.assign rt (.float f) = .done w ∧
        w.to_value (cvar.value.float f).type = some (.float f) ∧
        w.eq (.float f) = some true) ∧
    (∀ s, (∀ b ∈ s, b ≠ 0) → s.length ≤ 255 →
      ∃ w, v.assign rt (.string s) = .done w ∧
        w.to_value (cvar.value.string s).type = some (.string s) ∧
        w.eq (.string s) = some true) := by
  refine ⟨?_, ?_, ?_⟩
  · intro i h1 h2
    refine ⟨_, set_done v i _ _ (to_string_nul i)
      (by have := to_string_length i h1 h2; omega), rfl, ?_⟩
    simp [cvar.eq]
  · intro f hf
    refine ⟨_, set_done v _ f _ (rt.to_string_float_nul f)
      (by have := rt.to_string_float_length f; omega), rfl, ?_⟩
    simp [cvar.eq, float_eq_self f hf]
  · intro s hs hlen
    refine ⟨_, set_done v _ _ s hs hlen, ?_, ?_⟩
    · simp only [cvar.value.type, cvar.to_value]
      rw [c_string_of_terminated s _ hs]
      rfl
    · simp only [cvar.eq]
      exact (eq_string_true_iff _ s (by
        simp only
        rw [length_after_copy s v.string_value (by omega)]
        exact hv) hs hlen).2 (takeWhile_terminated s _ hs)

/-- C18 at a concrete input: the text `ab` written to `demoRecord`. -/
theorem write_then_read_witness :
    demoRecord.assign demoRuntime (.string [97, 98]) =
      .done ⟨0, float.zero, [97, 98, 0] ++ List.replicate 253 9⟩ ∧
    ∃ w, demoRecord.assign demoRuntime (.string [97, 98]) = .done w ∧
      w.to_value (cvar.value.string [97, 98]).type = some (.string [97, 98]) ∧
      w.eq (.string [97, 98]) = some true :=
  ⟨by decide,
    (write_then_read demoRuntime demoRecord (by decide)).2.2 [97, 98] (by decide) (by decide)⟩

/-! ## Reads and writes that end well -/

theorem strncmp_some (lhs rhs : List Nat) (count : Nat) (h1 : count ≤ lhs.length)
    (h2 : count ≤ rhs.length) : ∃ c, strncmp lhs rhs count = some c := by
  induction count generalizing lhs rhs with
  | zero => exact ⟨0, by simp [strncmp]⟩
  | succ count ih =>
    cases lhs with
    | nil => simp at h1
    | cons a lhs =>
      cases rhs with
      | nil => simp at h2
      | cons b rhs =>
        simp only [strncmp]
        by_cases hab : a < b
        · exact ⟨-1, by simp [hab]⟩
        · by_cases hba : b < a
          · exact ⟨1, by simp [hab, hba]⟩
          · have hb : b = a := by omega
            subst hb
            by_cases h0 : b = 0
            · exact ⟨0, by simp [h0]⟩
            · simp only [lt_self_iff_false, h0, if_false]
              exact ih lhs rhs (by simpa using h1) (by simpa using h2)

/-- On a record whose `string_value` has its 256 bytes, `record == value`
returns. -/
theorem eq_some (v : cvar) (val : cvar.value) (hv : v.string_value.length = 256) :
    ∃ r, v.eq val = some r := by
  cases val with
  | int i => exact ⟨_, rfl⟩
  | float f => exact ⟨_, rfl⟩
  | string s =>
    obtain ⟨c, hc⟩ := strncmp_some v.string_value (s ++ [0]) (min 256 (s.length + 1))
      (by rw [hv]; exact min_le_left _ _) (by simp)
    exact ⟨decide (c = 0), by simp [cvar.eq, cvar.eq_string, hc]⟩

theorem strlen_le (s : List Nat) : strlen (s ++ [0]) ≤ s.length := by
  unfold strlen
  induction s with
  | nil => simp
  | cons a s ih =>
    rw [List.cons_append, List.takeWhile_cons]
    split
    · simp only [List.length_cons]
      omega
    · simp

/-- `set` with a text of at most 255 bytes ends with the record written. -/
theorem set_done_of_short (v : cvar) (i : Int) (f : float) (s : List Nat)
    (hlen : s.length ≤ 255) :
    ∃ w, v.set i f s = .done w ∧ w.int_value = i ∧ w.float_value = f := by
  unfold cvar.set strncpy_s
  have := strlen_le s
  simp only
  rw [if_pos (by rw [min_def]; split <;> omega)]
  exact ⟨_, rfl, rfl, rfl⟩

/-- A write of a value that fits ends with the record written. -/
theorem assign_done (rt : Runtime) (v : cvar) (val : cvar.value) (h : val.fits = true) :
    ∃ w, v.assign rt val = .done w := by
  cases val with
  | int i =>
    simp only [cvar.value.fits, decide_eq_true_eq] at h
    obtain ⟨h1, h2⟩ := h
    obtain ⟨w, hw, _⟩ := set_done_of_short v i (float.of_int i) (std.to_string i)
      (by have := to_string_length i h1 h2; omega)
    exact ⟨w, hw⟩
  | float f =>
    obtain ⟨w, hw, _⟩ := set_done_of_short v (f.to_int rt.indefinite) f (rt.to_string_float f)
      (by have := rt.to_string_float_length f; omega)
    exact ⟨w, hw⟩
  | string s =>
    simp only [cvar.value.fits, decide_eq_true_eq] at h
    obtain ⟨w, hw, _⟩ := set_done_of_short v (std.from_chars s 0)
      (rt.from_chars_float s float.zero) s h
    exact ⟨w, hw⟩

/-! ## The places of the members of a record -/

/-- C33. The members of `struct cvar`, as declared (a pointer, the category
byte, the 128 bytes of the name, a pointer, three `int`, two pointers, the
`int` value, the `float` value, the 256 bytes of the text), laid out one
after another, each aligned to its alignment, come to lie at the offsets
that the header asserts: the category at 4, the name at 5, the `int` value
at 160, the `float` value at 164 and the text at 168 with pointers of 4
bytes, and at 8, 9, 184, 188 and 192 with pointers of 8 bytes. -/
theorem layout_gives_asserted_offsets :
    (∀ abi : Abi,
      cvar.member.offset abi .cat = some (offsetof_cat abi) ∧
      cvar.member.offset abi .name = some (offsetof_name abi) ∧
      cvar.member.offset abi .int_value = some (offsetof_int_value abi) ∧
      cvar.member.offset abi .float_value = some (offsetof_float_value abi) ∧
      cvar.member.offset abi .string_value = some (offsetof_string_value abi)) ∧
    (layout .x86 0 cvar.members).map (·.2) =
      [0, 4, 5, 136, 140, 144, 148, 152, 156, 160, 164, 168] ∧
    (layout .x64 0 cvar.members).map (·.2) =
      [0, 8, 9, 144, 152, 156, 160, 168, 176, 184, 188, 192] ∧
    (offsetof_cat .x86, offsetof_name .x86, offsetof_int_value .x86, offsetof_float_value .x86,
      offsetof_string_value .x86) = (4, 5, 160, 164, 168) ∧
    (offsetof_cat .x64, offsetof_name .x64, offsetof_int_value .x64, offsetof_float_value .x64,
      offsetof_string_value .x64) = (8, 9, 184, 188, 192) ∧
    Abi.bits .x86 / 8 = 4 ∧ Abi.bits .x64 / 8 = 8 := by
  refine ⟨?_, by decide, by decide, by decide, by decide, by decide, by decide⟩
  intro abi
  cases abi <;> decide

/-! ## `float(i)` for an `int` -/

theorem excess_small (fuel a : Nat) (h : a ≤ fuel) (ha : a < 2 ^ 24) :
    float.excess fuel a h = 0 := by
  cases fuel with
  | zero => rfl
  | succ fuel =>
    unfold float.excess
    rw [dif_pos ha]

/-- What `float.excess` counts: so many halvings bring `a` below `2 ^ 24`,
and not below `2 ^ 23` when one was needed. -/
theorem excess_spec (fuel : Nat) : ∀ (a : Nat) (h : a ≤ fuel),
    a / 2 ^ float.excess fuel a h < 2 ^ 24 ∧
    (2 ^ 24 ≤ a → 1 ≤ float.excess fuel a h ∧ 2 ^ 23 ≤ a / 2 ^ float.excess fuel a h) := by
  induction fuel with
  | zero =>
    intro a h
    have ha : a = 0 := by omega
    subst ha
    simp [float.excess]
  | succ fuel ih =>
    intro a h
    by_cases ha : a < 2 ^ 24
    · rw [excess_small _ a h ha]
      simp only [pow_zero, Nat.div_one]
      exact ⟨ha, fun h2 => absurd ha (by omega)⟩
    · have hdef : float.excess (fuel + 1) a h = float.excess fuel (a / 2) (by omega) + 1 := by
        conv_lhs => unfold float.excess
        rw [dif_neg ha]
      rw [hdef]
      have hdiv : a / 2 ^ (float.excess fuel (a / 2) (by omega) + 1) =
          a / 2 / 2 ^ float.excess fuel (a / 2) (by omega) := by
        rw [pow_succ, Nat.mul_comm, Nat.div_div_eq_div_mul]
      rw [hdiv]
      obtain ⟨h1, h2⟩ := ih (a / 2) (by omega)
      refine ⟨h1, fun _ => ⟨by omega, ?_⟩⟩
      by_cases hb : 2 ^ 24 ≤ a / 2
      · exact (h2 hb).2
      · rw [excess_small _ (a / 2) (by omega) (by omega)]
        simp only [pow_zero, Nat.div_one]
        omega

theorem int_cast_sign (i : Int) :
    (i : ℚ) = (if decide (i < 0) = true then -1 else 1) * ((i.natAbs : ℕ) : ℚ) := by
  by_cases h : i < 0
  · simp only [h, decide_True, if_true]
    rw [Nat.cast_natAbs, abs_of_neg h]
    push_cast
    ring
  · simp only [h, decide_False, if_false, Bool.false_eq_true]
    rw [Nat.cast_natAbs, abs_of_nonneg (by omega), one_mul]

/-- When a datum with the sign of `i` has the value `i`. -/
theorem value_eq_int_iff (i : Int) (m k : Nat) :
    float.value (.finite (decide (i < 0)) m (k : Int)) = some (i : ℚ) ↔
      m * 2 ^ k = i.natAbs := by
  simp only [float.value, Option.some.injEq, zpow_natCast]
  rw [int_cast_sign i]
  have hs : ((if decide (i < 0) = true then -1 else 1 : ℚ)) ≠ 0 := by
    split <;> norm_num
  rw [mul_right_inj' hs]
  constructor
  · intro h
    exact_mod_cast h
  · intro h
    exact_mod_cast h

/-- `float(i)` has the value `i` exactly when `i` can be written with 24
binary digits followed by zeros. -/
theorem of_int_exact_iff (i : Int) :
    (float.of_int i).value = some (i : ℚ) ↔
      ∃ m e : Nat, m < 2 ^ 24 ∧ i.natAbs = m * 2 ^ e := by
  by_cases ha : i.natAbs < 2 ^ 24
  · have hdef : float.of_int i = .finite (decide (i < 0)) i.natAbs ((0 : Nat) : Int) := by
      simp only [float.of_int, if_pos ha]
      rfl
    rw [hdef, value_eq_int_iff]
    simp only [pow_zero, Nat.mul_one, true_iff]
    exact ⟨i.natAbs, 0, ha, by simp⟩
  · obtain ⟨h1, h2⟩ := excess_spec i.natAbs i.natAbs (Nat.le_refl _)
    obtain ⟨hk, h3⟩ := h2 (by omega)
    generalize hkdef : float.excess i.natAbs i.natAbs (Nat.le_refl _) = k at h1 hk h3
    have hdef : float.of_int i = .finite (decide (i < 0))
        (if 2 ^ (k - 1) < i.natAbs % 2 ^ k ∨
            (i.natAbs % 2 ^ k = 2 ^ (k - 1) ∧ i.natAbs / 2 ^ k % 2 = 1)
          then i.natAbs / 2 ^ k + 1 else i.natAbs / 2 ^ k) ((k : Nat) : Int) := by
      simp only [float.of_int, if_neg ha, hkdef]
    rw [hdef, value_eq_int_iff]
    have hpos : 0 < 2 ^ k := Nat.two_pow_pos _
    have hpos1 : 0 < 2 ^ (k - 1) := Nat.two_pow_pos _
    have hsplit := Nat.div_add_mod i.natAbs (2 ^ k)
    have hr := Nat.mod_lt i.natAbs hpos
    generalize i.natAbs / 2 ^ k = q at *
    generalize i.natAbs % 2 ^ k = r at *
    generalize i.natAbs = a at *
    constructor
    · intro h
      refine ⟨q, k, h1, ?_⟩
      split at h
      · rw [Nat.add_mul] at h
        rw [Nat.mul_comm] at hsplit
        omega
      · rw [Nat.mul_comm] at hsplit
        rw [Nat.mul_comm]
        rw [Nat.mul_comm] at h
        omega
    · rintro ⟨m, e, hm, he⟩
      have hke : k ≤ e := by
        by_contra hlt
        have hlt2 : e + 1 ≤ k := by omega
        have hp : 2 ^ (e + 1) ≤ 2 ^ k := Nat.pow_le_pow_right (by norm_num) hlt2
        have hq : 2 ^ 23 * 2 ^ k ≤ a := by
          calc 2 ^ 23 * 2 ^ k ≤ q * 2 ^ k := Nat.mul_le_mul_right _ h3
            _ ≤ a := by rw [Nat.mul_comm]; omega
        have hm2 : m * 2 ^ e < 2 ^ 24 * 2 ^ e :=
          Nat.mul_lt_mul_of_pos_right hm (Nat.two_pow_pos _)
        have h24 : 2 ^ 24 * 2 ^ e = 2 ^ 23 * 2 ^ (e + 1) := by
          rw [pow_succ]
          ring
        have : 2 ^ 23 * 2 ^ (e + 1) ≤ 2 ^ 23 * 2 ^ k := Nat.mul_le_mul_left _ hp
        omega
      have hdvd : 2 ^ k ∣ a := by
        rw [he]
        exact Dvd.dvd.mul_left (Nat.pow_dvd_pow 2 hke) m
      have hr0 : r = 0 := by
        obtain ⟨c, hc⟩ := hdvd
        have : a % 2 ^ k = 0 := by rw [hc]; exact Nat.mul_mod_right _ _
        have hsplit2 : 2 ^ k * q + r = a := hsplit
        have hmod : (2 ^ k * q + r) % 2 ^ k = r := by
          rw [Nat.mul_add_mod]
          exact Nat.mod_eq_of_lt hr
        rw [hsplit2, this] at hmod
        exact hmod.symm
      subst hr0
      rw [if_neg (by omega)]
      rw [Nat.mul_comm]
      omega

/-- `float(i)` for an `int` is a `float`: it can be written with a mantissa
below `2 ^ 24` and an exponent from 0 to 9. -/
theorem of_int_is_float (i : Int) (h1 : INT_MIN ≤ i) (h2 : i ≤ INT_MAX) :
    ∃ n m e, m < 2 ^ 24 ∧ (0 : Int) ≤ e ∧ e ≤ 9 ∧
      (float.of_int i).value = float.value (.finite n m e) := by
  by_cases ha : i.natAbs < 2 ^ 24
  · refine ⟨decide (i < 0), i.natAbs, 0, ha, le_refl _, by norm_num, ?_⟩
    simp only [float.of_int, if_pos ha]
  · obtain ⟨h3, h4⟩ := excess_spec i.natAbs i.natAbs (Nat.le_refl _)
    obtain ⟨hk, h5⟩ := h4 (by omega)
    generalize hkdef : float.excess i.natAbs i.natAbs (Nat.le_refl _) = k at h3 hk h5
    have hdef : float.of_int i = .finite (decide (i < 0))
        (if 2 ^ (k - 1) < i.natAbs % 2 ^ k ∨
            (i.natAbs % 2 ^ k = 2 ^ (k - 1) ∧ i.natAbs / 2 ^ k % 2 = 1)
          then i.natAbs / 2 ^ k + 1 else i.natAbs / 2 ^ k) ((k : Nat) : Int) := by
      simp only [float.of_int, if_neg ha, hkdef]
    have hk8 : k ≤ 8 := by
      by_contra hlt
      have hp : 2 ^ 9 ≤ 2 ^ k := Nat.pow_le_pow_right (by norm_num) (by omega)
      have hle : 2 ^ 23 * 2 ^ k ≤ i.natAbs := by
        calc 2 ^ 23 * 2 ^ k ≤ i.natAbs / 2 ^ k * 2 ^ k := Nat.mul_le_mul_right _ h5
          _ ≤ i.natAbs := Nat.div_mul_le_self _ _
      have : 2 ^ 23 * 2 ^ 9 ≤ 2 ^ 23 * 2 ^ k := Nat.mul_le_mul_left _ hp
      unfold INT_MIN at h1
      unfold INT_MAX at h2
      omega
    rw [hdef]
    generalize i.natAbs / 2 ^ k = q at *
    split
    · by_cases hq : q + 1 < 2 ^ 24
      · exact ⟨_, q + 1, k, hq, by omega, by omega, rfl⟩
      · have hq2 : q + 1 = 2 ^ 24 := by omega
        refine ⟨decide (i < 0), 2 ^ 23, ((k + 1 : Nat) : Int), by norm_num, by omega, by omega, ?_⟩
        simp only [float.value, Option.some.injEq, zpow_natCast, hq2]
        rw [pow_succ]
        push_cast
        ring
    · exact ⟨_, q, k, h3, by omega, by omega, rfl⟩

/-- C34 as stated fails: 16777217 is an `int`, and writing it sets the
`float` field to `8388608 * 2`, whose value is 16777216. -/
theorem assign_int_16777217_is_rounded :
    INT_MIN ≤ 16777217 ∧ (16777217 : Int) ≤ INT_MAX ∧
    float.of_int 16777217 = .finite false 8388608 1 ∧
    float.value (.finite false 8388608 1) = some 16777216 ∧
    ∀ v w : cvar, v.assign_int 16777217 = .done w →
      w.float_value.value = some 16777216 ∧ w.float_value.value ≠ some 16777217 := by
  have hv : float.value (.finite false 8388608 1) = some 16777216 := by
    norm_num [float.value]
  refine ⟨by decide, by decide, by decide, hv, ?_⟩
  intro v w hw
  obtain ⟨w2, hw2, _, hf⟩ := set_done_of_short v 16777217 (float.of_int 16777217)
    (std.to_string 16777217) (by decide)
  unfold cvar.assign_int at hw
  rw [hw2] at hw
  simp only [Write.done.injEq] at hw
  subst hw
  rw [hf, show float.of_int 16777217 = .finite false 8388608 1 from by decide, hv]
  exact ⟨rfl, by norm_num⟩

/-- C34, as the code has it. For every `int` `i`, `operator=(int i)` sets the
`float` field to `float(i)`, which is a `float`; its value is `i` exactly
when `i` can be written with 24 binary digits followed by zeros
(`|i| = m * 2 ^ e` with `m < 2 ^ 24`), as every `i` with `|i| ≤ 2 ^ 24` can,
and only then. -/
theorem assign_int_float_exact_iff (v : cvar) (i : Int) (h1 : INT_MIN ≤ i)
    (h2 : i ≤ INT_MAX) :
    ∃ w, v.assign_int i = .done w ∧ w.int_value = i ∧ w.float_value = float.of_int i ∧
      (∃ n m e, m < 2 ^ 24 ∧ (0 : Int) ≤ e ∧ e ≤ 9 ∧
        w.float_value.value = float.value (.finite n m e)) ∧
      (w.float_value.value = some (i : ℚ) ↔ ∃ m e : Nat, m < 2 ^ 24 ∧ i.natAbs = m * 2 ^ e) ∧
      (i.natAbs ≤ 2 ^ 24 → w.float_value.value = some (i : ℚ)) := by
  obtain ⟨w, hw, hi, hf⟩ := set_done_of_short v i (float.of_int i) (std.to_string i)
    (by have := to_string_length i h1 h2; omega)
  refine ⟨w, hw, hi, hf, ?_, ?_, ?_⟩
  · rw [hf]
    exact of_int_is_float i h1 h2
  · rw [hf]
    exact of_int_exact_iff i
  · intro hle
    rw [hf]
    apply (of_int_exact_iff i).2
    by_cases hlt : i.natAbs < 2 ^ 24
    · exact ⟨i.natAbs, 0, hlt, by simp⟩
    · exact ⟨1, 24, by norm_num, by omega⟩

/-- C34 at 16777216, which is `2 ^ 24`, written to `demoRecord`: the `float`
field has the value 16777216. -/
theorem assign_int_float_exact_iff_witness :
    INT_MIN ≤ 16777216 ∧ (16777216 : Int) ≤ INT_MAX ∧
    ∃ w, demoRecord.assign_int 16777216 = .done w ∧ w.int_value = 16777216 ∧
      w.float_value = float.of_int 16777216 ∧
      w.float_value.value = some ((16777216 : Int) : ℚ) :=
  ⟨by decide, by decide,
    (assign_int_float_exact_iff demoRecord 16777216 (by decide) (by decide)).elim
      (fun w h => ⟨w, h.1, h.2.1, h.2.2.1, h.2.2.2.2.2 (by decide)⟩)⟩

/-! ## The offsets tested in a chunk -/

theorem size_t_sub_le (abi : Abi) (a b : Nat) (hle : b ≤ a) :
    size_t_sub abi a b ≤ a - b := by
  unfold size_t_sub
  cases abi <;> simp only [Abi.bits] <;> omega

theorem offsetof_cat_lt_name (abi : Abi) : offsetof_cat abi < offsetof_name abi := by
  cases abi <;> decide

/-- C36. In a pass of `LookupPage` whose read copied `bytesRead` bytes, at
least `cvarDef.size()` of them, for a name of at most 127 bytes: `bytesRead`
is not above the size of the buffer; every offset below `endOffset`, so every
offset tested, has `offset + size() ≤ bytesRead`; the category byte and the
`|name| + 1` bytes of the name that `match` looks at there lie among the
bytes just copied, the latter inside the 128 bytes of the name field; `match`
answers, and answers what it would on the copied bytes alone; so the pass
does not read outside the buffer. -/
theorem LookupPage_tests_inside_chunk (rpm : ReadProcessMemory) (abi : Abi)
    (cvarDef : pattern) (s : LookupPage.State) (bytes : List Nat)
    (hread : rpm.read s.currentReadAddress (min s.buffer.length s.remainingBytesInRegion) =
      some bytes)
    (hsize : cvarDef.size abi ≤ bytes.length) (hname : cvarDef.name_.length ≤ 127) :
    bytes.length ≤ s.buffer.length ∧
    (∀ offset, offset < size_t_sub abi bytes.length (cvarDef.size abi) →
      offset + cvarDef.size abi ≤ bytes.length ∧
      offset + offsetof_cat abi < bytes.length ∧
      offset + offsetof_name abi + (cvarDef.name_.length + 1) ≤ bytes.length ∧
      cvarDef.name_.length + 1 ≤ 128 ∧
      ∃ b, cvarDef.match_ abi bytes offset = some b ∧
        cvarDef.match_ abi (LookupPage.copied bytes s.buffer) offset = some b) ∧
    (∀ fuel h, LookupPage.offsets abi cvarDef (LookupPage.copied bytes s.buffer)
      s.currentReadAddress (size_t_sub abi bytes.length (cvarDef.size abi)) fuel 0 h ≠ .ub) ∧
    (∀ buffer, LookupPage.pass rpm abi cvarDef s ≠ .ret .ub buffer) := by
  have hcap := (read_length_le_buffer rpm s bytes hread).1
  have hend := size_t_sub_le abi bytes.length (cvarDef.size abi) hsize
  have hoff : ∀ offset, offset < size_t_sub abi bytes.length (cvarDef.size abi) →
      offset + cvarDef.size abi ≤ bytes.length := by
    intro offset h
    omega
  have hdefined : ∀ offset, offset < size_t_sub abi bytes.length (cvarDef.size abi) →
      ∃ b, cvarDef.match_ abi bytes offset = some b ∧
        cvarDef.match_ abi (LookupPage.copied bytes s.buffer) offset = some b := by
    intro offset h
    obtain ⟨b, hb⟩ := match_defined_of_le abi cvarDef bytes offset (hoff offset h)
    exact ⟨b, hb, match_append abi cvarDef bytes _ offset b hb⟩
  have hub : ∀ fuel h, LookupPage.offsets abi cvarDef (LookupPage.copied bytes s.buffer)
      s.currentReadAddress (size_t_sub abi bytes.length (cvarDef.size abi)) fuel 0 h ≠ .ub := by
    intro fuel h heq
    have hspec := offsets_spec abi cvarDef (LookupPage.copied bytes s.buffer)
      s.currentReadAddress (size_t_sub abi bytes.length (cvarDef.size abi)) fuel 0 h
    rw [heq] at hspec
    obtain ⟨off, _, hlt, _, hnone, _⟩ := hspec
    obtain ⟨b, _, hb⟩ := hdefined off hlt
    rw [hnone] at hb
    exact absurd hb (by simp)
  refine ⟨hcap, ?_, hub, ?_⟩
  · intro offset h
    have h1 := hoff offset h
    have h2 := offsetof_cat_lt_name abi
    unfold pattern.size at h1
    exact ⟨hoff offset h, by omega, by omega, by omega, hdefined offset h⟩
  · intro buffer hpass
    have hne : bytes.length ≠ 0 := by
      unfold pattern.size at hsize
      omega
    rw [pass_of_read rpm abi cvarDef s bytes hread hne] at hpass
    split at hpass
    · simp at hpass
    · rename_i heq
      exact hub _ _ heq
    · split at hpass <;> simp at hpass

/-- C36 at a concrete input: a chunk of 48 bytes read at 4096 for `name12`,
whose `size()` is 18; the offsets below `endOffset = 30` leave room for 18
bytes. -/
theorem LookupPage_tests_inside_chunk_witness :
    name12.size .x86 ≤ (memBytes (memAt 4096 record12 7) 4096 48).length ∧
    name12.name_.length ≤ 127 ∧
    size_t_sub .x86 (memBytes (memAt 4096 record12 7) 4096 48).length (name12.size .x86) = 30 ∧
    ∀ offset,
      offset < size_t_sub .x86 (memBytes (memAt 4096 record12 7) 4096 48).length
        (name12.size .x86) →
      offset + name12.size .x86 ≤ (memBytes (memAt 4096 record12 7) 4096 48).length :=
  ⟨by decide, by decide, by decide, fun offset h =>
    ((LookupPage_tests_inside_chunk (readAll (memAt 4096 record12 7)) .x86 name12
      ⟨4096, 64, List.replicate 48 0⟩ (memBytes (memAt 4096 record12 7) 4096 48) rfl
      (by decide) (by decide)).2.1 offset h).1⟩

/-! ## The loops of the scanner end -/

theorem pass_ret_or_again (rpm : ReadProcessMemory) (abi : Abi) (cvarDef : pattern)
    (s : LookupPage.State) :
    (∃ r b, LookupPage.pass rpm abi cvarDef s = .ret r b) ∨
    ∃ next, LookupPage.pass rpm abi cvarDef s = .again next := by
  cases h : LookupPage.pass rpm abi cvarDef s with
  | ret r b => exact Or.inl ⟨r, b, rfl⟩
  | again next => exact Or.inr ⟨next, rfl⟩

/-- What a pass that goes round again does to the cursor and to the count of
bytes left. -/
theorem pass_again_progress (rpm : ReadProcessMemory) (abi : Abi) (cvarDef : pattern)
    (s next : LookupPage.State) (h : LookupPage.pass rpm abi cvarDef s = .again next) :
    ∃ bytesRead, 1 ≤ bytesRead ∧ bytesRead ≤ min s.buffer.length s.remainingBytesInRegion ∧
      next.remainingBytesInRegion + bytesRead = s.remainingBytesInRegion ∧
      next.currentReadAddress = s.currentReadAddress + bytesRead ∧
      next.buffer.length = s.buffer.length ∧ 1 ≤ next.remainingBytesInRegion := by
  obtain ⟨bytes, hread, hne, hlt, hnext, _⟩ := pass_again rpm abi cvarDef s next h
  have hle := rpm.length_le _ _ _ hread
  refine ⟨bytes.length, by omega, hle, ?_, ?_,
    pass_again_buffer_length rpm abi cvarDef s next h, ?_⟩
  · rw [hnext]
    simp only
    omega
  · rw [hnext]
  · rw [hnext]
    simp only
    omega

theorem stateAt_invariant (rpm : ReadProcessMemory) (abi : Abi) (cvarDef : pattern) (k : Nat) :
    ∀ s st : LookupPage.State, LookupPage.stateAt rpm abi cvarDef k s = some st →
    st.currentReadAddress + st.remainingBytesInRegion =
      s.currentReadAddress + s.remainingBytesInRegion ∧
    k + st.remainingBytesInRegion ≤ s.remainingBytesInRegion := by
  induction k with
  | zero =>
    intro s st h
    simp only [LookupPage.stateAt, Option.some.injEq] at h
    subst h
    exact ⟨rfl, by omega⟩
  | succ k ih =>
    intro s st h
    rcases pass_ret_or_again rpm abi cvarDef s with ⟨r, b, hp⟩ | ⟨next, hp⟩
    · simp [LookupPage.stateAt, hp] at h
    · rw [stateAt_succ_of_again rpm abi cvarDef k s next hp] at h
      obtain ⟨h1, h2⟩ := ih next st h
      obtain ⟨n, hn1, _, hn2, hn3, _, _⟩ := pass_again_progress rpm abi cvarDef s next hp
      constructor
      · rw [h1, hn3]
        omega
      · omega

/-- The scan from a state on ends, at a pass that returns; its requests lie
between the cursor and the end of the bytes left, and are no more than the
bytes left (one, when none is left). -/
theorem run_ends (rpm : ReadProcessMemory) (abi : Abi) (cvarDef : pattern)
    (s : LookupPage.State) :
    (∀ r ∈ (LookupPage.run rpm abi cvarDef s).reads,
      s.currentReadAddress ≤ r.1 ∧
      r.1 + r.2 ≤ s.currentReadAddress + s.remainingBytesInRegion ∧
      r.2 ≤ s.buffer.length) ∧
    (LookupPage.run rpm abi cvarDef s).reads.length ≤ max 1 s.remainingBytesInRegion ∧
    ∃ k st b, LookupPage.stateAt rpm abi cvarDef k s = some st ∧
      LookupPage.pass rpm abi cvarDef st = .ret (LookupPage.run rpm abi cvarDef s).result b ∧
      (LookupPage.run rpm abi cvarDef s).buffer = b ∧
      (LookupPage.run rpm abi cvarDef s).reads.length = k + 1 := by
  refine run_induct rpm abi cvarDef (fun s =>
    (∀ r ∈ (LookupPage.run rpm abi cvarDef s).reads,
      s.currentReadAddress ≤ r.1 ∧
      r.1 + r.2 ≤ s.currentReadAddress + s.remainingBytesInRegion ∧
      r.2 ≤ s.buffer.length) ∧
    (LookupPage.run rpm abi cvarDef s).reads.length ≤ max 1 s.remainingBytesInRegion ∧
    ∃ k st b, LookupPage.stateAt rpm abi cvarDef k s = some st ∧
      LookupPage.pass rpm abi cvarDef st = .ret (LookupPage.run rpm abi cvarDef s).result b ∧
      (LookupPage.run rpm abi cvarDef s).buffer = b ∧
      (LookupPage.run rpm abi cvarDef s).reads.length = k + 1) ?_ ?_ s
  · intro s r b hp
    rw [run_ret rpm abi cvarDef s r b hp]
    refine ⟨?_, ?_, 0, s, b, rfl, hp, rfl, rfl⟩
    · intro q hq
      simp only [List.mem_singleton] at hq
      subst hq
      simp only [LookupPage.request]
      omega
    · simp only [List.length_singleton]
      omega
  · intro s next hp ih
    obtain ⟨ih1, ih2, k, st, b, hk, hst, hb, hlen⟩ := ih
    obtain ⟨n, hn1, hn0, hn2, hn3, hn4, hn5⟩ := pass_again_progress rpm abi cvarDef s next hp
    rw [run_again rpm abi cvarDef s next hp]
    refine ⟨?_, ?_, k + 1, st, b, ?_, hst, hb, ?_⟩
    · intro q hq
      simp only [List.mem_cons] at hq
      rcases hq with hq | hq
      · subst hq
        simp only [LookupPage.request]
        omega
      · obtain ⟨h1, h2, h3⟩ := ih1 q hq
        omega
    · simp only [List.length_cons]
      omega
    · rw [stateAt_succ_of_again rpm abi cvarDef k s next hp]
      exact hk
    · simp only [List.length_cons]
      omega

/-- The loop `for (;;)` of `LookupPage` does not go round for ever, for any
region and any `ReadProcessMemory` (which copies no more bytes than asked
for): the scan comes to a pass that returns, breaks, or reads outside the
buffer (the result `ub`), and the result of `LookupPage` is what that pass
gives. A pass either ends the scan so, or makes the count of bytes left smaller by
`bytesRead`, which is at least 1, and moves the cursor on by as much; at the
start of every pass the cursor plus the count of bytes left is the base of
the region plus its size; so every request lies inside the region and asks
for no more than the buffer holds, and a region of at least one byte is
scanned in no more passes than it has bytes (a region of no bytes in one). -/
theorem LookupPage_ends (rpm : ReadProcessMemory) (abi : Abi)
    (memoryBasicInformation : MEMORY_BASIC_INFORMATION) (cvarDef : pattern)
    (buffer : List Nat) :
    (∃ k st b,
      LookupPage.stateAt rpm abi cvarDef k
        ⟨memoryBasicInformation.BaseAddress, memoryBasicInformation.RegionSize, buffer⟩ =
          some st ∧
      LookupPage.pass rpm abi cvarDef st =
        .ret (LookupPage rpm abi memoryBasicInformation cvarDef buffer).result b ∧
      (LookupPage rpm abi memoryBasicInformation cvarDef buffer).buffer = b ∧
      (LookupPage rpm abi memoryBasicInformation cvarDef buffer).reads.length = k + 1) ∧
    (∀ k st,
      LookupPage.stateAt rpm abi cvarDef k
        ⟨memoryBasicInformation.BaseAddress, memoryBasicInformation.RegionSize, buffer⟩ =
          some st →
      st.currentReadAddress + st.remainingBytesInRegion =
        memoryBasicInformation.BaseAddress + memoryBasicInformation.RegionSize ∧
      k + st.remainingBytesInRegion ≤ memoryBasicInformation.RegionSize ∧
      ((∃ r b, LookupPage.pass rpm abi cvarDef st = .ret r b) ∨
        ∃ next bytesRead, LookupPage.pass rpm abi cvarDef st = .again next ∧
          1 ≤ bytesRead ∧
          next.remainingBytesInRegion + bytesRead = st.remainingBytesInRegion ∧
          next.currentReadAddress = st.currentReadAddress + bytesRead ∧
          next.remainingBytesInRegion < st.remainingBytesInRegion)) ∧
    (∀ r ∈ (LookupPage rpm abi memoryBasicInformation cvarDef buffer).reads,
      memoryBasicInformation.BaseAddress ≤ r.1 ∧
      r.1 + r.2 ≤ memoryBasicInformation.BaseAddress + memoryBasicInformation.RegionSize ∧
      r.2 ≤ buffer.length) ∧
    (LookupPage rpm abi memoryBasicInformation cvarDef buffer).reads.length ≤
      max 1 memoryBasicInformation.RegionSize ∧
    (0 < memoryBasicInformation.RegionSize →
      (LookupPage rpm abi memoryBasicInformation cvarDef buffer).reads.length ≤
        memoryBasicInformation.RegionSize) := by
  obtain ⟨h1, h2, h3⟩ := run_ends rpm abi cvarDef
    ⟨memoryBasicInformation.BaseAddress, memoryBasicInformation.RegionSize, buffer⟩
  refine ⟨h3, ?_, h1, h2, ?_⟩
  · intro k st hk
    obtain ⟨h4, h5⟩ := stateAt_invariant rpm abi cvarDef k _ st hk
    refine ⟨h4, h5, ?_⟩
    rcases pass_ret_or_again rpm abi cvarDef st with hp | ⟨next, hp⟩
    · exact Or.inl hp
    · obtain ⟨n, hn1, _, hn2, hn3, _, _⟩ := pass_again_progress rpm abi cvarDef st next hp
      exact Or.inr ⟨next, n, hp, hn1, hn2, hn3, by omega⟩
  · intro hpos
    have : (LookupPage.run rpm abi cvarDef
        ⟨memoryBasicInformation.BaseAddress, memoryBasicInformation.RegionSize, buffer⟩).reads.length
        ≤ max 1 memoryBasicInformation.RegionSize := h2
    unfold LookupPage
    omega

theorem sweep_pass_ret_or_again (vq : VirtualQueryEx) (rpm : ReadProcessMemory) (abi : Abi)
    (cvarDef : pattern) (s : find_cvar_ptr.State) :
    (∃ visit r b, find_cvar_ptr.pass vq rpm abi cvarDef s = .ret visit r b) ∨
    ∃ visit next, find_cvar_ptr.pass vq rpm abi cvarDef s = .again visit next := by
  cases h : find_cvar_ptr.pass vq rpm abi cvarDef s with
  | ret visit r b => exact Or.inl ⟨visit, r, b, rfl⟩
  | again visit next => exact Or.inr ⟨visit, next, rfl⟩

theorem sweep_stateAt_lt (vq : VirtualQueryEx) (rpm : ReadProcessMemory) (abi : Abi)
    (cvarDef : pattern) (k : Nat) :
    ∀ s st : find_cvar_ptr.State, find_cvar_ptr.stateAt vq rpm abi cvarDef k s = some st →
    s.readAddress + k ≤ st.readAddress ∧
    (s.readAddress < VirtualMemoryMax abi → st.readAddress < VirtualMemoryMax abi) := by
  induction k with
  | zero =>
    intro s st h
    simp only [find_cvar_ptr.stateAt, Option.some.injEq] at h
    subst h
    exact ⟨by omega, fun h => h⟩
  | succ k ih =>
    intro s st h
    rcases sweep_pass_ret_or_again vq rpm abi cvarDef s with ⟨visit, r, b, hp⟩ | ⟨visit, next, hp⟩
    · simp [find_cvar_ptr.stateAt, hp] at h
    · simp only [find_cvar_ptr.stateAt, hp] at h
      obtain ⟨h1, h2⟩ := ih next st h
      obtain ⟨h3, h4⟩ := find_cvar_ptr_pass_again_lt vq rpm abi cvarDef s next visit hp
      exact ⟨by omega, fun _ => h2 h4⟩

/-- The sweep from a state on ends, at a pass that breaks; the addresses it
queries are below the ceiling when the first one is. -/
theorem sweep_ends (vq : VirtualQueryEx) (rpm : ReadProcessMemory) (abi : Abi)
    (cvarDef : pattern) (s : find_cvar_ptr.State) :
    (s.readAddress < VirtualMemoryMax abi →
      ∀ u ∈ (find_cvar_ptr.run vq rpm abi cvarDef s).visits,
        u.readAddress < VirtualMemoryMax abi) ∧
    ∃ k st visit b, find_cvar_ptr.stateAt vq rpm abi cvarDef k s = some st ∧
      find_cvar_ptr.pass vq rpm abi cvarDef st =
        .ret visit (find_cvar_ptr.run vq rpm abi cvarDef s).cvarPtr b ∧
      (find_cvar_ptr.run vq rpm abi cvarDef s).buffer = b ∧
      (find_cvar_ptr.run vq rpm abi cvarDef s).visits.length = k + 1 := by
  refine sweep_induct vq rpm abi cvarDef (fun s =>
    (s.readAddress < VirtualMemoryMax abi →
      ∀ u ∈ (find_cvar_ptr.run vq rpm abi cvarDef s).visits,
        u.readAddress < VirtualMemoryMax abi) ∧
    ∃ k st visit b, find_cvar_ptr.stateAt vq rpm abi cvarDef k s = some st ∧
      find_cvar_ptr.pass vq rpm abi cvarDef st =
        .ret visit (find_cvar_ptr.run vq rpm abi cvarDef s).cvarPtr b ∧
      (find_cvar_ptr.run vq rpm abi cvarDef s).buffer = b ∧
      (find_cvar_ptr.run vq rpm abi cvarDef s).visits.length = k + 1) ?_ ?_ s
  · intro s visit r b hp
    have hv := visit_of_pass vq rpm abi cvarDef s visit (Or.inl ⟨r, b, hp⟩)
    have ha := (sweep_pass_spec vq rpm abi cvarDef s).1
    rw [hv] at ha
    rw [sweep_ret vq rpm abi cvarDef s visit r b hp]
    refine ⟨?_, 0, s, visit, b, rfl, hp, rfl, rfl⟩
    intro hs u hu
    simp only [List.mem_singleton] at hu
    subst hu
    omega
  · intro s visit next hp ih
    obtain ⟨ih1, k, st, visit2, b, hk, hst, hb, hlen⟩ := ih
    have hv := visit_of_pass vq rpm abi cvarDef s visit (Or.inr ⟨next, hp⟩)
    have ha := (sweep_pass_spec vq rpm abi cvarDef s).1
    rw [hv] at ha
    obtain ⟨h3, h4⟩ := find_cvar_ptr_pass_again_lt vq rpm abi cvarDef s next visit hp
    rw [sweep_again vq rpm abi cvarDef s next visit hp]
    refine ⟨?_, k + 1, st, visit2, b, ?_, hst, hb, ?_⟩
    · intro hs u hu
      simp only [List.mem_cons] at hu
      rcases hu with hu | hu
      · subst hu
        omega
      · exact ih1 h4 u hu
    · simp only [find_cvar_ptr.stateAt, hp]
      exact hk
    · simp only [List.length_cons]
      omega

theorem length_le_of_ascending_below (l : List Nat) (bound : Nat)
    (hasc : List.Pairwise (· < ·) l) (hlt : ∀ x ∈ l, x < bound) : l.length ≤ bound := by
  have hnodup : l.Nodup := hasc.imp (fun h => Nat.ne_of_lt h)
  have hsub : l ⊆ List.range bound := by
    intro x hx
    exact List.mem_range.2 (hlt x hx)
  have := (List.subperm_of_subset hnodup hsub).length_le
  simpa using this

/-- The loop `for (;;)` of `find_cvar_ptr` does not go round for ever, for any
`VirtualQueryEx` and any `ReadProcessMemory`: the sweep comes to a pass that
breaks or whose scan reads outside the buffer (the result `ub`), and the
result of `find_cvar_ptr` is what that pass gives. The addresses given to
`VirtualQueryEx`, in order, go strictly up and are all below
`VirtualMemoryMax`, from one pass to the next as over the whole sweep, so
there are no more queries in a sweep than `VirtualMemoryMax`. -/
theorem find_cvar_ptr_sweep_ends (vq : VirtualQueryEx) (rpm : ReadProcessMemory) (abi : Abi)
    (cvarDef : pattern) (buffer : List Nat) :
    (∃ k st visit b, find_cvar_ptr.stateAt vq rpm abi cvarDef k ⟨0, buffer⟩ = some st ∧
      find_cvar_ptr.pass vq rpm abi cvarDef st =
        .ret visit (find_cvar_ptr vq rpm abi cvarDef buffer).cvarPtr b ∧
      (find_cvar_ptr vq rpm abi cvarDef buffer).buffer = b ∧
      (find_cvar_ptr vq rpm abi cvarDef buffer).visits.length = k + 1) ∧
    List.Pairwise (· < ·)
      ((find_cvar_ptr vq rpm abi cvarDef buffer).visits.map (·.readAddress)) ∧
    (∀ u ∈ (find_cvar_ptr vq rpm abi cvarDef buffer).visits,
      u.readAddress < VirtualMemoryMax abi) ∧
    (∀ k st, find_cvar_ptr.stateAt vq rpm abi cvarDef k ⟨0, buffer⟩ = some st →
      k ≤ st.readAddress ∧ st.readAddress < VirtualMemoryMax abi ∧
      ∀ visit next, find_cvar_ptr.pass vq rpm abi cvarDef st = .again visit next →
        st.readAddress < next.readAddress ∧ next.readAddress < VirtualMemoryMax abi) ∧
    (find_cvar_ptr vq rpm abi cvarDef buffer).visits.length ≤ VirtualMemoryMax abi := by
  have hpos : (0 : Nat) < VirtualMemoryMax abi := by cases abi <;> decide
  obtain ⟨h1, h2⟩ := sweep_ends vq rpm abi cvarDef ⟨0, buffer⟩
  have hasc := (sweep_ascending vq rpm abi cvarDef ⟨0, buffer⟩).2
  have hbelow := h1 hpos
  refine ⟨h2, hasc, hbelow, ?_, ?_⟩
  · intro k st hk
    obtain ⟨h3, h4⟩ := sweep_stateAt_lt vq rpm abi cvarDef k _ st hk
    refine ⟨by simpa using h3, h4 hpos, ?_⟩
    intro visit next hp
    exact find_cvar_ptr_pass_again_lt vq rpm abi cvarDef st next visit hp
  · have := length_le_of_ascending_below _ (VirtualMemoryMax abi) hasc (by
      intro x hx
      simp only [List.mem_map] at hx
      obtain ⟨u, hu, rfl⟩ := hx
      exact hbelow u hu)
    simpa using this

/-! ## A record just written equals the value written -/

theorem plain_fits (val : cvar.value) (h : val.plain = true) : val.fits = true := by
  cases val with
  | int i => exact h
  | float f => rfl
  | string s =>
    simp only [cvar.value.plain, decide_eq_true_eq] at h
    simp only [cvar.value.fits, decide_eq_true_eq]
    exact h.1

/-- A write of an `int`, of a `float` other than NaN, or of a text of at most
255 bytes without NUL ends well and leaves a record that equals the value
and has its 256 bytes of text. -/
theorem assign_then_eq (rt : Runtime) (v : cvar) (val : cvar.value)
    (hv : v.string_value.length = 256) (h : val.plain = true) :
    ∃ w, v.assign rt val = .done w ∧ w.eq val = some true ∧ w.string_value.length = 256 := by
  cases val with
  | int i =>
    simp only [cvar.value.plain, decide_eq_true_eq] at h
    have hlen := to_string_length i h.1 h.2
    refine ⟨_, set_done v i _ _ (to_string_nul i) (by omega), ?_, ?_⟩
    · simp [cvar.eq]
    · simp only
      rw [length_after_copy _ v.string_value (by omega)]
      exact hv
  | float f =>
    simp only [cvar.value.plain, decide_eq_true_eq] at h
    have hlen := rt.to_string_float_length f
    refine ⟨_, set_done v _ f _ (rt.to_string_float_nul f) (by omega), ?_, ?_⟩
    · simp [cvar.eq, float_eq_self f h]
    · simp only
      rw [length_after_copy _ v.string_value (by omega)]
      exact hv
  | string s =>
    simp only [cvar.value.plain, decide_eq_true_eq] at h
    have hlen2 : (s ++ [0] ++ v.string_value.drop (s.length + 1)).length = 256 := by
      rw [length_after_copy s v.string_value (by omega)]
      exact hv
    refine ⟨_, set_done v _ _ s h.2 h.1, ?_, hlen2⟩
    simp only [cvar.eq]
    exact (eq_string_true_iff _ s hlen2 h.2 h.1).2 (takeWhile_terminated s _ h.2)


/-! ## A chunk that copies fewer bytes than `size()` -/

/-- C5 fails on the code. A region of 36 bytes at 4096 is scanned with a
fresh buffer of 32 bytes for a pattern of `size() = 16`. The read of chunk 0
succeeds and copies 4 bytes; the read of chunk 1, at 4100, would succeed and
copy 32 bytes, which hold a matching record at the offset 0, below
`usable = 32 - 16`. But chunk 0 is shorter than `size()`: `bytesRead - size()`
wraps, the loop over the offsets of chunk 0 leaves the buffer at offset 32,
and chunk 1 is never read. -/
theorem LookupPage_short_chunk_hides_record :
    name10.size .x86 ≤ (List.replicate 32 0).length ∧
    (readShortAt (memAt 4096 record10at4 7) 4096 4).read 4096 (min 32 36) =
      some (memBytes (memAt 4096 record10at4 7) 4096 4) ∧
    (readShortAt (memAt 4096 record10at4 7) 4096 4).read 4100 (min 32 32) =
      some (memBytes (memAt 4096 record10at4 7) 4100 32) ∧
    name10.match_ .x86 (memBytes (memAt 4096 record10at4 7) 4100 32) 0 = some true ∧
    0 < (memBytes (memAt 4096 record10at4 7) 4100 32).length - name10.size .x86 ∧
    size_t_sub .x86 4 (name10.size .x86) = 4294967284 ∧
    (LookupPage (readShortAt (memAt 4096 record10at4 7) 4096 4) .x86
      ⟨4096, 36, MEM_COMMIT, PAGE_READWRITE, MEM_PRIVATE⟩ name10 (List.replicate 32 0)).reads =
      [(4096, 32)] ∧
    (LookupPage (readShortAt (memAt 4096 record10at4 7) 4096 4) .x86
      ⟨4096, 36, MEM_COMMIT, PAGE_READWRITE, MEM_PRIVATE⟩ name10 (List.replicate 32 0)).result =
      .ub := by
  decide

/-- C7 fails on the code. A fully readable region of 36 bytes at 4096 is
scanned with a fresh buffer of 32 bytes for a pattern of `size() = 16`, the
record being at 4112. `LookupPage` returns 4144, the cursor 4128 of the
second chunk plus 16. That chunk copied 4 bytes, fewer than `size()`, so it
has no offset below `usable`; the 4 bytes it copied do not reach the offset
16; what matched there are bytes the first chunk left in the buffer; and the
memory at 4144, which is past the end of the region at 4132, holds no
match. -/
theorem LookupPage_returns_stale_match :
    (LookupPage (readAll (memAt 4096 record10 7)) .x86 ⟨4096, 36, MEM_COMMIT, PAGE_READWRITE,
      MEM_PRIVATE⟩ name10 (List.replicate 32 0)).result = .ptr (4128 + 16) ∧
    (LookupPage (readAll (memAt 4096 record10 7)) .x86 ⟨4096, 36, MEM_COMMIT, PAGE_READWRITE,
      MEM_PRIVATE⟩ name10 (List.replicate 32 0)).reads = [(4096, 32), (4128, 4)] ∧
    (memBytes (memAt 4096 record10 7) 4128 4).length < name10.size .x86 ∧
    name10.match_ .x86 (memBytes (memAt 4096 record10 7) 4128 4) 16 = none ∧
    name10.match_ .x86
      (LookupPage.copied (memBytes (memAt 4096 record10 7) 4128 4)
        (memBytes (memAt 4096 record10 7) 4096 32)) 16 = some true ∧
    4096 + 36 ≤ 4128 + 16 ∧
    name10.match_ .x86 (memBytes (memAt 4096 record10 7) (4128 + 16) (name10.size .x86)) 0 =
      some false := by
  decide

/-- C37 fails on the code. On x64 a fully readable region of 36 bytes at 4096
is scanned with a fresh buffer of 32 bytes for a pattern of `size() = 20`.
The second read is asked for 4 bytes and copies 4; `bytesRead - size()` wraps
to `2 ^ 64 - 16`, the loop over the offsets goes on to the offset 32, and
`match` reads outside the buffer there: the pass does not return, break or go
round, it is undefined behaviour. -/
theorem LookupPage_short_chunk_leaves_buffer :
    (LookupPage (readAll (memAt 4096 record10 7)) .x64 ⟨4096, 36, MEM_COMMIT, PAGE_READWRITE,
      MEM_PRIVATE⟩ name10 (List.replicate 32 0)).reads = [(4096, 32), (4128, 4)] ∧
    (readAll (memAt 4096 record10 7)).read 4128 4 =
      some (memBytes (memAt 4096 record10 7) 4128 4) ∧
    (memBytes (memAt 4096 record10 7) 4128 4).length ≤ 4 ∧
    name10.size .x64 = 20 ∧
    size_t_sub .x64 4 (name10.size .x64) = 2 ^ 64 - 16 ∧
    name10.match_ .x64
      (LookupPage.copied (memBytes (memAt 4096 record10 7) 4128 4)
        (memBytes (memAt 4096 record10 7) 4096 32)) 32 = none ∧
    (LookupPage (readAll (memAt 4096 record10 7)) .x64 ⟨4096, 36, MEM_COMMIT, PAGE_READWRITE,
      MEM_PRIVATE⟩ name10 (List.replicate 32 0)).result = .ub := by
  decide

/-- C38 fails on the code. On x64 `VirtualQueryEx` describes a free region
below 4096 and a candidate region of 36 bytes at 4096, all of it readable;
the sweep, with a fresh buffer of 32 bytes and a pattern of `size() = 20`,
queries the addresses 0 and 4096 and scans the second region, whose last
chunk has 4 bytes: the scan reads outside the buffer, and the sweep does not
come to a `break`. -/
theorem find_cvar_ptr_sweep_leaves_buffer :
    demoOddRegion 0 = some ⟨0, 4096, 0x10000, 0x01, 0⟩ ∧
    demoOddRegion 4096 = some ⟨4096, 36, MEM_COMMIT, PAGE_READWRITE, MEM_PRIVATE⟩ ∧
    (find_cvar_ptr demoOddRegion (readAll (memAt 4096 record10 7)) .x64 name10
      (List.replicate 32 0)).visits.map (·.readAddress) = [0, 4096] ∧
    (find_cvar_ptr demoOddRegion (readAll (memAt 4096 record10 7)) .x64 name10
      (List.replicate 32 0)).visits.map (·.reads) = [[], [(4096, 32), (4128, 4)]] ∧
    (find_cvar_ptr demoOddRegion (readAll (memAt 4096 record10 7)) .x64 name10
      (List.replicate 32 0)).cvarPtr = .ub := by
  decide

end shugoconsole.cry

namespace shugoconsole.config

/-! ## The validators of `boolean` and of `integer` -/

theorem static_cast_int_of_int (i : Int) (h1 : cry.INT_MIN ≤ i) (h2 : i ≤ cry.INT_MAX) :
    static_cast_int i = i := by
  unfold cry.INT_MIN at h1
  unfold cry.INT_MAX at h2
  unfold static_cast_int
  omega

/-- What `boolean::from_toml` does with an integer that is an `int`, with a
boolean, and with a value of another kind. -/
theorem boolean_from_toml_of_int (format : toml.value → String) :
    (∀ i, cry.INT_MIN ≤ i → i ≤ cry.INT_MAX →
      ((i = 0 ∨ i = 1) → types.boolean.from_toml format (.integer i) = .value (.int i)) ∧
      (¬ (i = 0 ∨ i = 1) → ∃ e, types.boolean.from_toml format (.integer i) = .error e)) ∧
    types.boolean.from_toml format (.boolean false) = .value (.int 0) ∧
    types.boolean.from_toml format (.boolean true) = .value (.int 1) ∧
    (∀ d, ∃ e, types.boolean.from_toml format (.floating d) = .error e) ∧
    (∀ s, ∃ e, types.boolean.from_toml format (.string s) = .error e) := by
  refine ⟨?_, rfl, rfl, fun d => ⟨_, rfl⟩, fun s => ⟨_, rfl⟩⟩
  intro i h1 h2
  simp only [types.boolean.from_toml, static_cast_int_of_int i h1 h2, types.boolean.check_int]
  constructor
  · intro h
    rw [if_neg (by omega)]
  · intro h
    rw [if_pos (by omega)]
    exact ⟨_, rfl⟩

/-- C19 at the integer literals 4294967296 and 4294967297, which are neither
0 nor 1: `boolean::from_toml` accepts them, as the values 0 and 1, because
`static_cast<int>` keeps their low 32 bits only. -/
theorem boolean_from_toml_accepts_4294967296 (format : toml.value → String) :
    types.boolean.from_toml format (.integer 4294967296) = .value (.int 0) ∧
    types.boolean.from_toml format (.integer 4294967297) = .value (.int 1) :=
  ⟨rfl, rfl⟩

/-- What `integer::with_min_max(min, max).from_toml` does with an integer
that is an `int`: it is accepted, as itself, exactly when it is in the range. -/
theorem integer_from_toml_of_int (format : toml.value → String) (min max i : Int)
    (h1 : cry.INT_MIN ≤ i) (h2 : i ≤ cry.INT_MAX) :
    ((min ≤ i ∧ i ≤ max) →
      (types.integer.with_min_max min max).from_toml format (.integer i) = .value (.int i)) ∧
    (¬ (min ≤ i ∧ i ≤ max) →
      ∃ e, (types.integer.with_min_max min max).from_toml format (.integer i) = .error e) := by
  simp only [types.integer.from_toml, static_cast_int_of_int i h1 h2, types.integer.with_min_max,
    types.integer.check, types.detail.check_bounds]
  constructor
  · intro h
    rw [if_neg (by simp; omega)]
  · intro h
    rw [if_pos (by simp; omega)]
    exact ⟨_, rfl⟩

/-- C20 at `min = 0`, `max = 10` and the integer literal 4294967301, which
is above `max`: `from_toml` accepts it, as the value 5, because
`static_cast<int>` keeps its low 32 bits only. -/
theorem integer_from_toml_accepts_4294967301 (format : toml.value → String) :
    (types.integer.with_min_max 0 10).from_toml format (.integer 4294967301) =
      .value (.int 5) :=
  rfl

set_option maxRecDepth 8192

/-! ## Ranges and allow-sets -/

/-- The message of `check_bounds` for a value outside the range: the
arguments fill the three places in the order `m.min`, `m.max`, `v`. -/
theorem check_bounds_message {T : Type} (lt : T → T → Bool) (text : T → String)
    (alternative : T → cry.cvar.value) (m : types.detail.minmax T) (v : T)
    (h : lt v m.min = true ∨ lt m.max v = true) :
    types.detail.check_bounds lt text alternative m v =
      .error ⟨text m.min ++ " is not a valid value. Value must be between " ++ text m.max ++
        " and " ++ text v ++ "."⟩ := by
  unfold types.detail.check_bounds
  rw [if_pos (by simpa using h)]

/-- C21 at `min = 0`, `max = 10` and the value 11, which is above `max`: the
message of `check_bounds` names `min` as the value that is not valid, and
`max` and the value as the limits. -/
theorem check_bounds_names_min_as_value :
    (types.integer.with_min_max 0 10).check 11 =
      .error ⟨"0 is not a valid value. Value must be between 10 and 11."⟩ ∧
    (types.integer.with_min_max 0 10).check 11 ≠
      .error ⟨"11 is not a valid value. Value must be between 0 and 10."⟩ := by
  decide

theorem any_eq_iff_mem {α : Type} [DecidableEq α] (x : α) (xs : List α) :
    xs.any (fun value => decide (x = value)) = true ↔ x ∈ xs := by
  simp only [List.any_eq_true, decide_eq_true_eq]
  constructor
  · rintro ⟨y, hy, rfl⟩
    exact hy
  · intro h
    exact ⟨x, h, rfl⟩

theorem empty_or_any_iff {α : Type} [DecidableEq α] (x : α) (xs : List α) :
    (xs.isEmpty || xs.any (fun value => decide (x = value))) = true ↔ (xs = [] ∨ x ∈ xs) := by
  rw [Bool.or_eq_true, any_eq_iff_mem, List.isEmpty_iff]

/-- C22. For every list `S` of `int` and every `int` `i`,
`integer::with_values(S)` accepts `i`, as the value `i`, exactly when `S` is
empty or `i` is in `S`. When it rejects `i`, the message is the text of `i`,
then ` is not a valid value. It should be one of: `, then the texts of the
elements of `S` in their order with `, ` between them, then a full stop. A
literal that is an `int` is checked as itself. -/
theorem integer_with_values_accepts (format : toml.value → String) (S : List Int) (i : Int) :
    ((types.integer.with_values S).check i = .value (.int i) ↔ (S = [] ∨ i ∈ S)) ∧
    (¬ (S = [] ∨ i ∈ S) →
      (types.integer.with_values S).check i =
        .error ⟨fmt.int i ++ " is not a valid value. It should be one of: " ++
          ", ".intercalate (S.map fmt.int) ++ "."⟩) ∧
    (cry.INT_MIN ≤ i → i ≤ cry.INT_MAX →
      (types.integer.with_values S).from_toml format (.integer i) =
        (types.integer.with_values S).check i) ∧
    (types.integer.with_values [0, 2, 4, 8, 16]).check 3 =
      .error ⟨"3 is not a valid value. It should be one of: 0, 2, 4, 8, 16."⟩ := by
  have hdef : (types.integer.with_values S).check i =
      if (S.isEmpty || S.any (fun value => decide (i = value))) = true then .value (.int i)
      else .error ⟨fmt.int i ++ " is not a valid value. It should be one of: " ++
        fmt.join (S.map fmt.int) ", " ++ "."⟩ := rfl
  refine ⟨?_, ?_, ?_, by decide⟩
  · rw [hdef, ← empty_or_any_iff]
    constructor
    · intro h
      by_contra hn
      rw [if_neg hn] at h
      simp at h
    · intro h
      rw [if_pos h]
  · intro h
    rw [hdef, if_neg (by rw [empty_or_any_iff]; exact h)]
    rfl
  · intro h1 h2
    simp only [types.integer.from_toml, static_cast_int_of_int i h1 h2]

/-- C23. For every string literal `s`, `string::from_toml` returns the value
`s` exactly when `s` has at most 255 bytes and the type has no constraint, or
an empty list of values, or a list that `s` is in; it returns no other value;
and a literal of 256 bytes or more is rejected, whatever the list of values
holds. -/
theorem string_from_toml_accepts (format : toml.value → String) (c : types.string)
    (s : List Nat) :
    (c.from_toml format (.string s) = .value (.string s) ↔
      s.length ≤ 255 ∧
        (c = .no_constraint ∨ ∃ v, c = .constraint_values v ∧ (v = [] ∨ s ∈ v))) ∧
    (∀ x, c.from_toml format (.string s) = .value x → x = .string s) ∧
    (256 ≤ s.length → ∃ e, c.from_toml format (.string s) = .error e) := by
  have hdef : c.from_toml format (.string s) = c.check s := rfl
  rw [hdef]
  by_cases hlen : s.length ≥ 256
  · have herr : c.check s = .error ⟨"\x27" ++ fmt.string s ++
        "\x27 is not a valid value. String values must contain 255 characters or less."⟩ := by
      unfold types.string.check
      rw [if_pos hlen]
    rw [herr]
    refine ⟨?_, ?_, fun _ => ⟨_, rfl⟩⟩
    · constructor
      · intro h
        simp at h
      · intro h
        omega
    · intro x h
      simp at h
  · cases c with
    | no_constraint =>
      have hok : types.string.no_constraint.check s = .value (.string s) := by
        unfold types.string.check
        rw [if_neg hlen]
      rw [hok]
      refine ⟨?_, ?_, fun h => absurd h hlen⟩
      · constructor
        · intro _
          exact ⟨by omega, Or.inl rfl⟩
        · intro _
          rfl
      · intro x h
        simp only [result.value.injEq] at h
        exact h.symm
    | constraint_values v =>
      have hval : (types.string.constraint_values v).check s =
          if (v.isEmpty || v.any (fun value => decide (s = value))) = true then
            .value (.string s)
          else .error ⟨fmt.string s ++ " is not a valid value. It should be one of: " ++
            fmt.join (v.map fmt.string) ", " ++ "."⟩ := by
        unfold types.string.check
        rw [if_neg hlen]
      rw [hval]
      refine ⟨?_, ?_, fun h => absurd h hlen⟩
      · constructor
        · intro h
          refine ⟨by omega, Or.inr ⟨v, rfl, ?_⟩⟩
          rw [← empty_or_any_iff]
          by_contra hn
          rw [if_neg hn] at h
          simp at h
        · rintro ⟨_, h | ⟨w, hw, h⟩⟩
          · simp at h
          · simp only [types.string.constraint_values.injEq] at hw
            subst hw
            rw [if_pos ((empty_or_any_iff s v).2 h)]
      · intro x h
        split at h
        · simp only [result.value.injEq] at h
          exact h.symm
        · simp at h

/-! ## The order of `float` and the range of `floating` -/

theorem value_scaled (n : Bool) (m : Nat) (e e0 : Int) (h : e0 ≤ e) :
    (if n then -1 else 1) * ((m : ℚ) * (2 : ℚ) ^ e) =
      (((if n then -(m * 2 ^ (e - e0).toNat : Int) else (m * 2 ^ (e - e0).toNat : Int)) : Int) : ℚ) *
        (2 : ℚ) ^ e0 := by
  obtain ⟨k, hk⟩ : ∃ k : Nat, e = e0 + k := ⟨(e - e0).toNat, by omega⟩
  subst hk
  have hk2 : (e0 + (k : Int) - e0).toNat = k := by omega
  rw [hk2, zpow_add₀ (by norm_num : (2 : ℚ) ≠ 0), zpow_natCast]
  cases n with
  | true =>
    simp only [if_true]
    push_cast
    ring
  | false =>
    simp only [Bool.false_eq_true, if_false]
    push_cast
    ring

/-- On finite data `a < b` is the order of their values. -/
theorem float_lt_iff (a b : cry.float) (x y : ℚ) (ha : a.value = some x) (hb : b.value = some y) :
    a.lt b = true ↔ x < y := by
  cases a with
  | inf n => simp [cry.float.value] at ha
  | nan => simp [cry.float.value] at ha
  | finite n1 m1 e1 =>
    cases b with
    | inf n => simp [cry.float.value] at hb
    | nan => simp [cry.float.value] at hb
    | finite n2 m2 e2 =>
      simp only [cry.float.value, Option.some.injEq] at ha hb
      rw [value_scaled n1 m1 e1 (min e1 e2) (min_le_left _ _)] at ha
      rw [value_scaled n2 m2 e2 (min e1 e2) (min_le_right _ _)] at hb
      rw [← ha, ← hb]
      simp only [cry.float.lt, decide_eq_true_eq]
      have hpos : (0 : ℚ) < (2 : ℚ) ^ (min e1 e2) := by positivity
      rw [mul_lt_mul_right hpos, Int.cast_lt]

theorem float_lt_false_iff (a b : cry.float) (x y : ℚ) (ha : a.value = some x)
    (hb : b.value = some y) : a.lt b = false ↔ y ≤ x := by
  rw [← not_lt, ← float_lt_iff a b x y ha hb]
  simp

/-- On data other than NaN, `a < b` is the order of the line with its two
ends. -/
theorem float_lt_extended_iff (a b : cry.float) (x y : WithBot (WithTop ℚ))
    (ha : a.extended = some x) (hb : b.extended = some y) : a.lt b = true ↔ x < y := by
  cases a with
  | nan => simp [cry.float.extended] at ha
  | inf n1 =>
    cases b with
    | nan => simp [cry.float.extended] at hb
    | inf n2 =>
      cases n1 <;> cases n2 <;>
        simp only [cry.float.extended, Option.some.injEq] at ha hb <;>
        subst ha <;> subst hb <;> simp [cry.float.lt]
    | finite n2 m2 e2 =>
      cases n1 <;>
        simp only [cry.float.extended, Option.some.injEq] at ha hb <;>
        subst ha <;> subst hb <;> simp [cry.float.lt, WithBot.bot_lt_coe]
  | finite n1 m1 e1 =>
    cases b with
    | nan => simp [cry.float.extended] at hb
    | inf n2 =>
      cases n2 with
      | true =>
        simp only [cry.float.extended, Option.some.injEq] at ha hb
        subst ha
        subst hb
        simp [cry.float.lt]
      | false =>
        simp only [cry.float.extended, Option.some.injEq] at ha hb
        subst ha
        subst hb
        simp only [cry.float.lt, Bool.not_false, true_iff]
        exact WithBot.coe_lt_coe.2 (WithTop.coe_lt_top _)
    | finite n2 m2 e2 =>
      simp only [cry.float.extended, Option.some.injEq] at ha hb
      subst ha
      subst hb
      rw [WithBot.coe_lt_coe, WithTop.coe_lt_coe]
      exact float_lt_iff (.finite n1 m1 e1) (.finite n2 m2 e2) _ _ rfl rfl

theorem float_lt_extended_false_iff (a b : cry.float) (x y : WithBot (WithTop ℚ))
    (ha : a.extended = some x) (hb : b.extended = some y) : a.lt b = false ↔ y ≤ x := by
  rw [← not_lt, ← float_lt_extended_iff a b x y ha hb]
  simp

theorem width_le (k m : Nat) (h : m < 2 ^ k) : cry.float.width m m (Nat.le_refl _) ≤ k := by
  have aux : ∀ (fuel k m : Nat) (hf : m ≤ fuel), m < 2 ^ k → cry.float.width fuel m hf ≤ k := by
    intro fuel
    induction fuel with
    | zero =>
      intro k m hf _
      simp [cry.float.width]
    | succ fuel ih =>
      intro k m hf hm
      unfold cry.float.width
      by_cases h0 : m = 0
      · simp [h0]
      · simp only [h0, dif_neg, not_false_eq_true]
        cases k with
        | zero =>
          simp at hm
          exact absurd hm h0
        | succ k =>
          have : m / 2 < 2 ^ k := by
            rw [Nat.div_lt_iff_lt_mul (by decide)]
            rw [pow_succ] at hm
            exact hm
          have := ih k (m / 2) (by omega) this
          omega
  exact aux m k m _ h

/-- `static_cast<float>` leaves a `float` as it is. -/
theorem static_cast_float_exact (negative : Bool) (m : Nat) (e : Int) (h0 : 0 < m)
    (hm : m < 2 ^ 24) (he1 : -149 ≤ e) (he2 : e ≤ 104) :
    static_cast_float (.finite negative m e) = .finite negative m e := by
  have hw := width_le 24 m hm
  simp only [static_cast_float]
  rw [if_neg (by omega), if_pos (by rw [max_le_iff]; omega), if_neg (by omega)]

/-- What `floating::check` returns for a range, in terms of `lt`. -/
theorem floating_check_minmax (text : cry.float → String) (min max f : cry.float) :
    ((types.floating.with_min_max min max).check text f = .value (.float f) ↔
      (f.lt min = false ∧ max.lt f = false)) ∧
    (¬ (f.lt min = false ∧ max.lt f = false) →
      ∃ e, (types.floating.with_min_max min max).check text f = .error e) := by
  have hdef : (types.floating.with_min_max min max).check text f =
      if (f.lt min || max.lt f) = true then
        .error ⟨text min ++ " is not a valid value. Value must be between " ++ text max ++
          " and " ++ text f ++ "."⟩
      else .value (.float f) := rfl
  rw [hdef]
  by_cases h : (f.lt min || max.lt f) = true
  · rw [if_pos h]
    have h2 : ¬ (f.lt min = false ∧ max.lt f = false) := by
      rw [Bool.or_eq_true] at h
      rintro ⟨h3, h4⟩
      rcases h with h | h
      · rw [h3] at h
        simp at h
      · rw [h4] at h
        simp at h
    exact ⟨⟨fun hh => by simp at hh, fun hh => absurd hh h2⟩, fun _ => ⟨_, rfl⟩⟩
  · rw [if_neg h]
    have h2 : f.lt min = false ∧ max.lt f = false := by
      rw [Bool.or_eq_true, not_or] at h
      exact ⟨by simpa using h.1, by simpa using h.2⟩
    exact ⟨⟨fun _ => h2, fun _ => rfl⟩, fun hh => absurd h2 hh⟩

/-- C24 as stated fails: with `min = 60` and `max = 170`, the floating
literal `170 + 2 ^ -40`, a `double` above `max`, is accepted; the value
returned is the `float` nearest to it, which is 170. -/
theorem floating_accepts_literal_above_max :
    cry.float.lt (.finite false 170 0) (.finite false 186916976721921 (-40)) = true ∧
    static_cast_float (.finite false 186916976721921 (-40)) = .finite false 11141120 (-16) ∧
    cry.float.eq (.finite false 11141120 (-16)) (.finite false 170 0) = true ∧
    (types.floating.with_min_max (.finite false 60 0) (.finite false 170 0)).from_toml
        (fun _ => "") (fun _ => "") (.floating (.finite false 186916976721921 (-40))) =
      .value (.float (.finite false 11141120 (-16))) := by
  decide

/-- C24, as the code has it. For `float` bounds `min` and `max`, neither of
them NaN, `floating::with_min_max(min, max).from_toml` judges a floating
literal by the `float` nearest to it, `static_cast<float>` of the literal,
which is the literal itself when that is a `float`: when this `float` is not
NaN, the literal is accepted, as this `float`, exactly when
`min ≤ float ≤ max`, and rejected otherwise. An integer literal `n` that is
an `int` is accepted, as `float(n)`, exactly when `min ≤ float(n) ≤ max`, and
rejected otherwise. -/
theorem floating_with_min_max_accepts (format : toml.value → String)
    (text : cry.float → String) (min max : cry.float) (lo hi : WithBot (WithTop ℚ))
    (hmin : min.extended = some lo) (hmax : max.extended = some hi) :
    (∀ d x, (static_cast_float d).extended = some x →
      ((types.floating.with_min_max min max).from_toml format text (.floating d) =
          .value (.float (static_cast_float d)) ↔ (lo ≤ x ∧ x ≤ hi)) ∧
      (¬ (lo ≤ x ∧ x ≤ hi) →
        ∃ e, (types.floating.with_min_max min max).from_toml format text (.floating d) =
          .error e)) ∧
    (∀ n y, cry.INT_MIN ≤ n → n ≤ cry.INT_MAX → (cry.float.of_int n).extended = some y →
      ((types.floating.with_min_max min max).from_toml format text (.integer n) =
          .value (.float (cry.float.of_int n)) ↔ (lo ≤ y ∧ y ≤ hi)) ∧
      (¬ (lo ≤ y ∧ y ≤ hi) →
        ∃ e, (types.floating.with_min_max min max).from_toml format text (.integer n) =
          .error e)) ∧
    (∀ negative m e, 0 < m → m < 2 ^ 24 → -149 ≤ e → e ≤ 104 →
      static_cast_float (.finite negative m e) = .finite negative m e) := by
  have hfin : ∀ (f : cry.float) (x : WithBot (WithTop ℚ)), f.extended = some x →
      ((f.lt min = false ∧ max.lt f = false) ↔ (lo ≤ x ∧ x ≤ hi)) := by
    intro f x hx
    rw [float_lt_extended_false_iff f min x lo hx hmin,
      float_lt_extended_false_iff max f hi x hmax hx]
  refine ⟨?_, ?_, static_cast_float_exact⟩
  · intro d x hx
    have hc := floating_check_minmax text min max (static_cast_float d)
    rw [hfin _ x hx] at hc
    exact hc
  · intro n y h1 h2 hy
    have hc := floating_check_minmax text min max (cry.float.of_int n)
    rw [hfin _ y hy] at hc
    have hdef : (types.floating.with_min_max min max).from_toml format text (.integer n) =
        (types.floating.with_min_max min max).check text (cry.float.of_int n) := by
      simp only [types.floating.from_toml, types.floating.check_int,
        static_cast_int_of_int n h1 h2]
    rw [hdef]
    exact hc

/-- C24 at `min = 60`, `max = 170` and the literal 90.5, which is a `float`:
it is accepted, as 90.5. -/
theorem floating_with_min_max_accepts_witness :
    static_cast_float (.finite false 181 (-1)) = .finite false 181 (-1) ∧
    (types.floating.with_min_max (.finite false 60 0) (.finite false 170 0)).from_toml
        (fun _ => "") (fun _ => "") (.floating (.finite false 181 (-1))) =
      .value (.float (static_cast_float (.finite false 181 (-1)))) :=
  ⟨by decide,
    ((floating_with_min_max_accepts (fun _ => "") (fun _ => "") (.finite false 60 0)
      (.finite false 170 0) (((60 : ℚ) : WithTop ℚ) : WithBot (WithTop ℚ))
      (((170 : ℚ) : WithTop ℚ) : WithBot (WithTop ℚ))
      (by norm_num [cry.float.extended])
      (by norm_num [cry.float.extended])).1 (.finite false 181 (-1))
      (((181 / 2 : ℚ) : WithTop ℚ) : WithBot (WithTop ℚ))
      (by rw [show static_cast_float (.finite false 181 (-1)) = .finite false 181 (-1) from
            by decide]
          norm_num [cry.float.extended])).1.2
      (by rw [WithBot.coe_le_coe, WithBot.coe_le_coe, WithTop.coe_le_coe, WithTop.coe_le_coe]
          norm_num)⟩

/-! ## The kinds of literal a type takes -/

/-- C25. A literal of a kind that the type does not take is rejected:
`boolean` takes an integer or a boolean, `integer` an integer, `floating` an
integer or a floating-point number, `string` a string; for a literal of any
other kind `from_toml` returns an error and no value. -/
theorem from_toml_rejects_other_kinds (format : toml.value → String)
    (text : cry.float → String) (t : configuration.type_variant) (toml_value : toml.value)
    (h : t.takes toml_value = false) :
    (∃ e, t.from_toml format text toml_value = .error e) ∧
    ∀ v, t.from_toml format text toml_value ≠ .value v := by
  have key : ∃ e, t.from_toml format text toml_value = .error e := by
    cases t <;> cases toml_value <;> first
      | exact ⟨_, rfl⟩
      | exact absurd h (Bool.noConfusion)
  obtain ⟨e, he⟩ := key
  exact ⟨⟨e, he⟩, fun v hv => by rw [he] at hv; simp at hv⟩

/-- C25 at a concrete input: `integer` and the boolean literal `true`. -/
theorem from_toml_rejects_other_kinds_witness :
    ∃ e, (configuration.type_variant.integer .no_constraint).from_toml (fun _ => "true")
      (fun _ => "") (.boolean true) = .error e :=
  (from_toml_rejects_other_kinds (fun _ => "true") (fun _ => "")
    (.integer .no_constraint) (.boolean true) rfl).1

/-! ## `configuration::from_file` -/

theorem of_set_vars (varSet : List configuration.variable_definition) :
    (configuration.of_set varSet).vars.map (·.definition) = varSet ∧
    ∀ var ∈ (configuration.of_set varSet).vars, var.opt_value = none := by
  unfold configuration.of_set
  constructor
  · simp only [List.map_map]
    conv_rhs => rw [← List.map_id varSet]
    rfl
  · intro var hvar
    simp only [List.mem_map] at hvar
    obtain ⟨d, _, rfl⟩ := hvar
    rfl

theorem read_definition (format : toml.value → String) (text : cry.float → String)
    (root : List Nat → toml.found) (var : configuration.variable) :
    (configuration.from_file.read format text root var).definition = var.definition := by
  unfold configuration.from_file.read
  split
  · split <;> rfl
  · rfl
  · rfl

/-- The value `from_file` gives a variable it reads from a parsed file. -/
theorem read_opt_value (format : toml.value → String) (text : cry.float → String)
    (root : List Nat → toml.found) (var : configuration.variable) (x : cry.cvar.value) :
    (configuration.from_file.read format text root var).opt_value = some x ↔
      ∃ toml_value, root var.definition.name = .value toml_value ∧
        var.definition.type.from_toml format text toml_value = .value x := by
  unfold configuration.from_file.read
  cases hr : root var.definition.name with
  | value toml_value =>
    simp only
    cases hf : var.definition.type.from_toml format text toml_value with
    | value v =>
      simp only [Option.some.injEq]
      constructor
      · intro h
        exact ⟨toml_value, rfl, by rw [hf, h]⟩
      · rintro ⟨tv, htv, hx⟩
        simp only [toml.found.value.injEq] at htv
        subst htv
        rw [hf] at hx
        simpa using hx
    | error e =>
      simp only
      constructor
      · intro h
        simp at h
      · rintro ⟨tv, htv, hx⟩
        simp only [toml.found.value.injEq] at htv
        subst htv
        rw [hf] at hx
        simp at hx
  | out_of_range =>
    simp only
    constructor
    · intro h
      simp at h
    · rintro ⟨tv, htv, _⟩
      simp at htv
  | exception =>
    simp only
    constructor
    · intro h
      simp at h
    · rintro ⟨tv, htv, _⟩
      simp at htv

theorem from_file_definitions (format : toml.value → String) (text : cry.float → String)
    (varSet : List configuration.variable_definition) (file : document) :
    (configuration.from_file format text varSet file).vars.map (·.definition) = varSet := by
  cases file with
  | unopenable => exact (of_set_vars varSet).1
  | unparsable => exact (of_set_vars varSet).1
  | parsed root =>
    simp only [configuration.from_file, List.map_map]
    have : ((fun x : configuration.variable => x.definition) ∘
        configuration.from_file.read format text root) = (fun x => x.definition) := by
      funext var
      exact read_definition format text root var
    rw [this]
    exact (of_set_vars varSet).1

/-- C26. For every list of definitions and every state of the file (it
cannot be opened, it cannot be parsed, or it is parsed, with or without
values that are rejected), `from_file` returns one variable for each
definition, in the order of the definitions: as many variables as
definitions, the variable at each place holding the definition at that place. -/
theorem from_file_one_entry_per_definition (format : toml.value → String)
    (text : cry.float → String) (varSet : List configuration.variable_definition)
    (file : document) :
    (configuration.from_file format text varSet file).vars.length = varSet.length ∧
    (configuration.from_file format text varSet file).vars.map (·.definition) = varSet ∧
    ∀ i : Nat,
      ((configuration.from_file format text varSet file).vars[i]?).map
        (fun var => var.definition) = varSet[i]? := by
  have h := from_file_definitions format text varSet file
  refine ⟨?_, h, ?_⟩
  · have := congrArg List.length h
    simpa using this
  · intro i
    rw [← List.getElem?_map, h]

/-- The variable `from_file` returns at a place, in terms of the definition
at that place. -/
theorem from_file_entry (format : toml.value → String) (text : cry.float → String)
    (varSet : List configuration.variable_definition) (file : document) (i : Nat)
    (d : configuration.variable_definition) (hd : varSet[i]? = some d) :
    (configuration.from_file format text varSet file).vars[i]? =
      some (match file with
        | .parsed root => configuration.from_file.read format text root ⟨d, none⟩
        | .unopenable => ⟨d, none⟩
        | .unparsable => ⟨d, none⟩) := by
  have hset : (configuration.of_set varSet).vars[i]? = some ⟨d, none⟩ := by
    unfold configuration.of_set
    rw [List.getElem?_map, hd]
    rfl
  cases file with
  | unopenable => exact hset
  | unparsable => exact hset
  | parsed root =>
    simp only [configuration.from_file]
    rw [List.getElem?_map, hset]
    rfl

/-- C27. In what `from_file` returns, the variable at a place holds a value
exactly when the file is opened and parsed, `toml::find` returns a literal for
the name of the definition at that place, and `from_toml` of that definition
accepts the literal; the value is then the one `from_toml` returns, and in
every other case there is none. The value depends on the definition and on
what `toml::find` does for its name only: the same definition, at any place of
any list, with a file that does the same for its name, gets the same value. -/
theorem from_file_entry_value (format : toml.value → String) (text : cry.float → String)
    (varSet : List configuration.variable_definition) (file : document) (i : Nat)
    (d : configuration.variable_definition) (hd : varSet[i]? = some d) :
    ∃ var, (configuration.from_file format text varSet file).vars[i]? = some var ∧
      var.definition = d ∧
      (∀ x, var.opt_value = some x ↔
        ∃ root toml_value, file = .parsed root ∧ root d.name = .value toml_value ∧
          d.type.from_toml format text toml_value = .value x) ∧
      ∀ (varSet2 : List configuration.variable_definition) (file2 : document) (j : Nat),
        varSet2[j]? = some d → file2.find d.name = file.find d.name →
        ((configuration.from_file format text varSet2 file2).vars[j]?).map (·.opt_value) =
          some var.opt_value := by
  have hentry := from_file_entry format text varSet file i d hd
  refine ⟨_, hentry, ?_, ?_, ?_⟩
  · cases file with
    | unopenable => rfl
    | unparsable => rfl
    | parsed root => exact read_definition format text root ⟨d, none⟩
  · intro x
    cases file with
    | unopenable => simp
    | unparsable => simp
    | parsed root =>
      simp only
      rw [read_opt_value]
      constructor
      · rintro ⟨tv, h1, h2⟩
        exact ⟨root, tv, rfl, h1, h2⟩
      · rintro ⟨root2, tv, h0, h1, h2⟩
        simp only [document.parsed.injEq] at h0
        subst h0
        exact ⟨tv, h1, h2⟩
  · intro varSet2 file2 j hj hfind
    rw [from_file_entry format text varSet2 file2 j d hj]
    simp only [Option.map_some', Option.some.injEq]
    cases file with
    | unopenable =>
      cases file2 with
      | unopenable => rfl
      | unparsable => rfl
      | parsed root2 => simp [document.find] at hfind
    | unparsable =>
      cases file2 with
      | unopenable => rfl
      | unparsable => rfl
      | parsed root2 => simp [document.find] at hfind
    | parsed root =>
      cases file2 with
      | unopenable => simp [document.find] at hfind
      | unparsable => simp [document.find] at hfind
      | parsed root2 =>
        simp only [document.find, Option.some.injEq] at hfind
        simp only [configuration.from_file.read, hfind]

/-- C27 at a concrete input: `CONSOLE_VARS` and `demoFile`. The variables get
the values 90.5 and 60 that the file sets and the types accept; the value 3,
which `r_Texture_Anisotropic_Level` does not allow, and the names the file
does not hold leave the other variables without a value. -/
theorem from_file_entry_value_witness :
    (configuration.from_file (fun _ => "") (fun _ => "") CONSOLE_VARS demoFile).vars.map
        (·.opt_value) =
      [some (.float (.finite false 181 (-1))), none, none, none, some (.int 60), none] ∧
    ∃ var, (configuration.from_file (fun _ => "") (fun _ => "") CONSOLE_VARS
        demoFile).vars[4]? = some var ∧
      var.definition = ⟨cry.std.string "g_maxfps", .integer (.with_min_max 0 1000)⟩ ∧
      var.opt_value = some (.int 60) :=
  ⟨by decide,
    (from_file_entry_value (fun _ => "") (fun _ => "") CONSOLE_VARS demoFile 4
      ⟨cry.std.string "g_maxfps", .integer (.with_min_max 0 1000)⟩ rfl).imp
      (fun var h => ⟨h.1, h.2.1,
        (h.2.2.1 (.int 60)).2 ⟨_, .integer 60, rfl, by decide, by decide⟩⟩)⟩


/-! ## The values the validators return -/

theorem static_cast_int_range (x : Int) :
    cry.INT_MIN ≤ static_cast_int x ∧ static_cast_int x ≤ cry.INT_MAX := by
  unfold static_cast_int cry.INT_MIN cry.INT_MAX
  omega

theorem check_bounds_value {T : Type} (lt : T → T → Bool) (text : T → String)
    (alternative : T → cry.cvar.value) (m : types.detail.minmax T) (v : T)
    (x : cry.cvar.value)
    (h : types.detail.check_bounds lt text alternative m v = .value x) : x = alternative v := by
  unfold types.detail.check_bounds at h
  split at h
  · simp at h
  · simp only [result.value.injEq] at h
    exact h.symm

theorem integer_check_value (c : types.integer) (i : Int) (x : cry.cvar.value)
    (h : c.check i = .value x) : x = .int i := by
  cases c with
  | no_constraint =>
    simp only [types.integer.check, result.value.injEq] at h
    exact h.symm
  | constraint_minmax m =>
    simp only [types.integer.check] at h
    exact check_bounds_value _ _ _ m i x h
  | constraint_values v =>
    simp only [types.integer.check] at h
    split at h
    · simp only [result.value.injEq] at h
      exact h.symm
    · simp at h

theorem boolean_check_value (i : Int) (x : cry.cvar.value)
    (h : types.boolean.check_int i = .value x) : x = .int i := by
  unfold types.boolean.check_int at h
  split at h
  · simp at h
  · simp only [result.value.injEq] at h
    exact h.symm

theorem floating_check_value (text : cry.float → String) (c : types.floating) (f : cry.float)
    (x : cry.cvar.value) (h : c.check text f = .value x) : x = .float f := by
  cases c with
  | no_constraint =>
    simp only [types.floating.check, result.value.injEq] at h
    exact h.symm
  | constraint_minmax m =>
    simp only [types.floating.check] at h
    exact check_bounds_value _ _ _ m f x h

/-- A value that a validator returns fits a record: its `int` is an `int`,
its text has at most 255 bytes. -/
theorem from_toml_fits (format : toml.value → String) (text : cry.float → String)
    (t : configuration.type_variant) (toml_value : toml.value) (x : cry.cvar.value)
    (h : t.from_toml format text toml_value = .value x) : x.fits = true := by
  have hint : ∀ i : Int, cry.cvar.value.fits (.int (static_cast_int i)) = true := by
    intro i
    simp only [cry.cvar.value.fits, decide_eq_true_eq]
    exact static_cast_int_range i
  cases t with
  | boolean =>
    cases toml_value with
    | integer i =>
      have := boolean_check_value _ x h
      rw [this]
      exact hint i
    | boolean b =>
      simp only [configuration.type_variant.from_toml, types.boolean.from_toml,
        types.boolean.check_bool, result.value.injEq] at h
      rw [← h]
      cases b <;> decide
    | floating d => simp [configuration.type_variant.from_toml, types.boolean.from_toml] at h
    | string s => simp [configuration.type_variant.from_toml, types.boolean.from_toml] at h
    | other => simp [configuration.type_variant.from_toml, types.boolean.from_toml] at h
  | integer c =>
    cases toml_value with
    | integer i =>
      have := integer_check_value c _ x h
      rw [this]
      exact hint i
    | boolean b => simp [configuration.type_variant.from_toml, types.integer.from_toml] at h
    | floating d => simp [configuration.type_variant.from_toml, types.integer.from_toml] at h
    | string s => simp [configuration.type_variant.from_toml, types.integer.from_toml] at h
    | other => simp [configuration.type_variant.from_toml, types.integer.from_toml] at h
  | floating c =>
    cases toml_value with
    | integer i =>
      have := floating_check_value text c _ x h
      rw [this]
      rfl
    | floating d =>
      have := floating_check_value text c _ x h
      rw [this]
      rfl
    | boolean b => simp [configuration.type_variant.from_toml, types.floating.from_toml] at h
    | string s => simp [configuration.type_variant.from_toml, types.floating.from_toml] at h
    | other => simp [configuration.type_variant.from_toml, types.floating.from_toml] at h
  | string c =>
    cases toml_value with
    | string s =>
      have h2 := (string_from_toml_accepts format c s).2.1 x h
      rw [h2] at h
      have h3 := ((string_from_toml_accepts format c s).1.1 h).1
      rw [h2]
      simp only [cry.cvar.value.fits, decide_eq_true_eq]
      exact h3
    | integer i => simp [configuration.type_variant.from_toml, types.string.from_toml] at h
    | boolean b => simp [configuration.type_variant.from_toml, types.string.from_toml] at h
    | floating d => simp [configuration.type_variant.from_toml, types.string.from_toml] at h
    | other => simp [configuration.type_variant.from_toml, types.string.from_toml] at h

/-! ## The alternative of the value a validator returns -/

/-- The value a validator returns holds the alternative that `cvar_type()`
of the type names. -/
theorem from_toml_type (format : toml.value → String) (text : cry.float → String)
    (t : configuration.type_variant) (toml_value : toml.value) (x : cry.cvar.value)
    (h : t.from_toml format text toml_value = .value x) : x.type = t.cvar_type := by
  cases t with
  | boolean =>
    cases toml_value with
    | integer i =>
      have := boolean_check_value _ x h
      rw [this]
      rfl
    | boolean b =>
      simp only [configuration.type_variant.from_toml, types.boolean.from_toml,
        types.boolean.check_bool, result.value.injEq] at h
      rw [← h]
      rfl
    | floating d => simp [configuration.type_variant.from_toml, types.boolean.from_toml] at h
    | string s => simp [configuration.type_variant.from_toml, types.boolean.from_toml] at h
    | other => simp [configuration.type_variant.from_toml, types.boolean.from_toml] at h
  | integer c =>
    cases toml_value with
    | integer i =>
      have := integer_check_value c _ x h
      rw [this]
      rfl
    | boolean b => simp [configuration.type_variant.from_toml, types.integer.from_toml] at h
    | floating d => simp [configuration.type_variant.from_toml, types.integer.from_toml] at h
    | string s => simp [configuration.type_variant.from_toml, types.integer.from_toml] at h
    | other => simp [configuration.type_variant.from_toml, types.integer.from_toml] at h
  | floating c =>
    cases toml_value with
    | integer i =>
      have := floating_check_value text c _ x h
      rw [this]
      rfl
    | floating d =>
      have := floating_check_value text c _ x h
      rw [this]
      rfl
    | boolean b => simp [configuration.type_variant.from_toml, types.floating.from_toml] at h
    | string s => simp [configuration.type_variant.from_toml, types.floating.from_toml] at h
    | other => simp [configuration.type_variant.from_toml, types.floating.from_toml] at h
  | string c =>
    cases toml_value with
    | string s =>
      have h2 := (string_from_toml_accepts format c s).2.1 x h
      rw [h2]
      rfl
    | integer i => simp [configuration.type_variant.from_toml, types.string.from_toml] at h
    | boolean b => simp [configuration.type_variant.from_toml, types.string.from_toml] at h
    | floating d => simp [configuration.type_variant.from_toml, types.string.from_toml] at h
    | other => simp [configuration.type_variant.from_toml, types.string.from_toml] at h

/-- Every value in what `from_file` returns holds the alternative that the
definition of its variable names, and fits a record. -/
theorem from_file_typed (format : toml.value → String) (text : cry.float → String)
    (varSet : List configuration.variable_definition) (file : document) :
    ∀ var ∈ (configuration.from_file format text varSet file).vars, ∀ v,
      var.opt_value = some v → v.type = var.definition.cvar_type ∧ v.fits = true := by
  intro var hvar v hv
  cases file with
  | unopenable =>
    rw [(of_set_vars varSet).2 var hvar] at hv
    simp at hv
  | unparsable =>
    rw [(of_set_vars varSet).2 var hvar] at hv
    simp at hv
  | parsed root =>
    simp only [configuration.from_file, List.mem_map] at hvar
    obtain ⟨var0, _, rfl⟩ := hvar
    obtain ⟨toml_value, _, hx⟩ := (read_opt_value format text root var0 v).1 hv
    rw [read_definition]
    exact ⟨from_toml_type format text _ toml_value v hx,
      from_toml_fits format text _ toml_value v hx⟩


end shugoconsole.config

namespace shugoconsole

set_option maxRecDepth 8192

/-! ## The loop over the tasks -/

/-- What the body of the loop over the tasks does for one task that is bound,
at a record with its 256 bytes of text, with a value that fits. -/
theorem sync_task_spec (runtime : cry.Runtime) (memory : Nat → cry.cvar)
    (task : console_var_task) (hb : task.cvar ≠ 0)
    (hf : (memory task.cvar).string_value.length = 256)
    (hv : ∀ v, task.cfg.opt_value = some v → v.fits = true) :
    (task.cfg.opt_value = none → sync_task runtime memory task = .done memory []) ∧
    (∀ v, task.cfg.opt_value = some v → (memory task.cvar).eq v = some true →
      sync_task runtime memory task = .done memory [.compare task.cvar v]) ∧
    (∀ v, task.cfg.opt_value = some v → (memory task.cvar).eq v = some false →
      ∃ written, (memory task.cvar).assign runtime v = .done written ∧
        sync_task runtime memory task =
          .done (fun address => if address = task.cvar then written else memory address)
            [.compare task.cvar v, .write task.cvar v]) ∧
    (∀ v, task.cfg.opt_value = some v →
      (memory task.cvar).eq v = some true ∨ (memory task.cvar).eq v = some false) := by
  refine ⟨?_, ?_, ?_, ?_⟩
  · intro h
    unfold sync_task
    rw [h]
  · intro v h he
    unfold sync_task
    rw [h]
    simp only
    rw [if_neg hb, he]
  · intro v h he
    obtain ⟨written, hw⟩ := cry.assign_done runtime (memory task.cvar) v (hv v h)
    refine ⟨written, hw, ?_⟩
    unfold sync_task
    rw [h]
    simp only
    rw [if_neg hb, he]
    simp only
    rw [hw]
  · intro v _
    obtain ⟨r, hr⟩ := cry.eq_some (memory task.cvar) v hf
    cases r with
    | true => exact Or.inl hr
    | false => exact Or.inr hr

/-- What the loop over the tasks does, for tasks bound at different
addresses: it ends; a record is written exactly when a task at its address
has a value and the record does not equal it; the other records stay. -/
theorem sync_pass_spec (runtime : cry.Runtime) (tasks : List console_var_task) :
    ∀ (memory : Nat → cry.cvar), (∀ task ∈ tasks, task.cvar ≠ 0) →
    (tasks.map (·.cvar)).Nodup →
    (∀ task ∈ tasks, (memory task.cvar).string_value.length = 256) →
    (∀ task ∈ tasks, ∀ v, task.cfg.opt_value = some v → v.fits = true) →
    ∃ memory2 events, sync_pass runtime memory tasks = .done memory2 events ∧
      (∀ a, (∀ task ∈ tasks, task.cvar ≠ a) → memory2 a = memory a) ∧
      (∀ task ∈ tasks, (task.cfg.opt_value = none ∨
          ∃ v, task.cfg.opt_value = some v ∧ (memory task.cvar).eq v = some true) →
        memory2 task.cvar = memory task.cvar) ∧
      (∀ task ∈ tasks, ∀ v, task.cfg.opt_value = some v →
        (memory task.cvar).eq v = some false →
        (memory task.cvar).assign runtime v = .done (memory2 task.cvar)) ∧
      (∀ a v, Event.write a v ∈ events ↔
        ∃ task ∈ tasks, task.cvar = a ∧ task.cfg.opt_value = some v ∧
          (memory a).eq v = some false) ∧
      (∀ a v, Event.compare a v ∈ events ↔
        ∃ task ∈ tasks, task.cvar = a ∧ task.cfg.opt_value = some v) ∧
      (∀ e ∈ events, (∃ a v, e = .compare a v) ∨ ∃ a v, e = .write a v) := by
  induction tasks with
  | nil =>
    intro memory _ _ _ _
    refine ⟨memory, [], rfl, fun _ _ => rfl, ?_, ?_, ?_, ?_, ?_⟩
    · intro task ht
      simp at ht
    · intro task ht
      simp at ht
    · intro a v
      simp
    · intro a v
      simp
    · intro e he
      simp at he
  | cons task tasks ih =>
    intro memory hb hn hf hv
    have hb0 := hb task (by simp)
    have hf0 := hf task (by simp)
    have hv0 := hv task (by simp)
    simp only [List.map_cons, List.nodup_cons, List.mem_map, not_exists, not_and] at hn
    obtain ⟨hn0, hn1⟩ := hn
    have hne : ∀ t ∈ tasks, t.cvar ≠ task.cvar := fun t ht h => hn0 t ht h
    obtain ⟨s1, s2, s3, s4⟩ := sync_task_spec runtime memory task hb0 hf0 hv0
    -- the step for the head: the memory after it, and the events
    have hstep : ∃ memory1 events1, sync_task runtime memory task = .done memory1 events1 ∧
        (∀ a, a ≠ task.cvar → memory1 a = memory a) ∧
        ((task.cfg.opt_value = none ∨
            ∃ v, task.cfg.opt_value = some v ∧ (memory task.cvar).eq v = some true) →
          memory1 task.cvar = memory task.cvar) ∧
        (∀ v, task.cfg.opt_value = some v → (memory task.cvar).eq v = some false →
          (memory task.cvar).assign runtime v = .done (memory1 task.cvar)) ∧
        (∀ a v, Event.write a v ∈ events1 ↔
          (task.cvar = a ∧ task.cfg.opt_value = some v ∧ (memory a).eq v = some false)) ∧
        (∀ a v, Event.compare a v ∈ events1 ↔ (task.cvar = a ∧ task.cfg.opt_value = some v)) ∧
        (∀ e ∈ events1, (∃ a v, e = .compare a v) ∨ ∃ a v, e = .write a v) := by
      cases hopt : task.cfg.opt_value with
      | none =>
        refine ⟨memory, [], s1 hopt, fun _ _ => rfl, fun _ => rfl, ?_, ?_, ?_, ?_⟩
        · intro v h
          simp at h
        · intro a v
          simp
        · intro a v
          simp
        · intro e he
          simp at he
      | some v0 =>
        rcases s4 v0 hopt with he | he
        · refine ⟨memory, [.compare task.cvar v0], s2 v0 hopt he, fun _ _ => rfl,
            fun _ => rfl, ?_, ?_, ?_, ?_⟩
          · intro v h hfalse
            simp only [Option.some.injEq] at h
            subst h
            rw [he] at hfalse
            simp at hfalse
          · intro a v
            simp only [List.mem_singleton, Option.some.injEq]
            constructor
            · intro h
              simp at h
            · rintro ⟨h1, h2, h3⟩
              subst h1 h2
              rw [he] at h3
              simp at h3
          · intro a v
            simp only [List.mem_singleton, Event.compare.injEq, Option.some.injEq]
            constructor
            · rintro ⟨h1, h2⟩
              exact ⟨h1.symm, h2.symm⟩
            · rintro ⟨h1, h2⟩
              exact ⟨h1.symm, h2.symm⟩
          · intro e he2
            simp only [List.mem_singleton] at he2
            exact Or.inl ⟨_, _, he2⟩
        · obtain ⟨written, hw, hst⟩ := s3 v0 hopt he
          refine ⟨_, _, hst, ?_, ?_, ?_, ?_, ?_, ?_⟩
          · intro a ha
            simp only [ha, if_false]
          · rintro (h | ⟨v, h, htrue⟩)
            · simp at h
            · simp only [Option.some.injEq] at h
              subst h
              rw [he] at htrue
              simp at htrue
          · intro v h _
            simp only [Option.some.injEq] at h
            subst h
            simp only [if_true]
            exact hw
          · intro a v
            simp only [List.mem_cons, List.mem_singleton, Event.write.injEq, Option.some.injEq,
              List.not_mem_nil, or_false]
            constructor
            · rintro (h | ⟨h1, h2⟩)
              · simp at h
              · subst h1 h2
                exact ⟨rfl, rfl, he⟩
            · rintro ⟨h1, h2, _⟩
              exact Or.inr ⟨h1.symm, h2.symm⟩
          · intro a v
            simp only [List.mem_cons, List.mem_singleton, Event.compare.injEq,
              Option.some.injEq, List.not_mem_nil, or_false]
            constructor
            · rintro (⟨h1, h2⟩ | h)
              · exact ⟨h1.symm, h2.symm⟩
              · simp at h
            · rintro ⟨h1, h2⟩
              exact Or.inl ⟨h1.symm, h2.symm⟩
          · intro e he2
            simp only [List.mem_cons, List.mem_singleton, List.not_mem_nil, or_false] at he2
            rcases he2 with he2 | he2
            · exact Or.inl ⟨_, _, he2⟩
            · exact Or.inr ⟨_, _, he2⟩
    obtain ⟨memory1, events1, hs, hframe1, hkeep1, hwrite1, hw1, hc1, hk1⟩ := hstep
    have hsame : ∀ t ∈ tasks, memory1 t.cvar = memory t.cvar :=
      fun t ht => hframe1 t.cvar (hne t ht)
    obtain ⟨memory2, events2, hp, hframe2, hkeep2, hwrite2, hw2, hc2, hk2⟩ :=
      ih memory1 (fun t ht => hb t (by simp [ht])) hn1
        (fun t ht => by rw [hsame t ht]; exact hf t (by simp [ht]))
        (fun t ht => hv t (by simp [ht]))
    have hhead : memory2 task.cvar = memory1 task.cvar :=
      hframe2 task.cvar (fun t ht => hne t ht)
    refine ⟨memory2, events1 ++ events2, ?_, ?_, ?_, ?_, ?_, ?_, ?_⟩
    · simp only [sync_pass, hs, hp]
    · intro a ha
      rw [hframe2 a (fun t ht => ha t (by simp [ht])), hframe1 a (fun h => ha task (by simp) h.symm)]
    · intro t ht hcond
      simp only [List.mem_cons] at ht
      rcases ht with ht | ht
      · subst ht
        rw [hhead]
        exact hkeep1 hcond
      · rw [hkeep2 t ht (by rw [hsame t ht]; exact hcond), hsame t ht]
    · intro t ht v hopt he
      simp only [List.mem_cons] at ht
      rcases ht with ht | ht
      · subst ht
        rw [hhead]
        exact hwrite1 v hopt he
      · have := hwrite2 t ht v hopt (by rw [hsame t ht]; exact he)
        rw [hsame t ht] at this
        exact this
    · intro a v
      rw [List.mem_append, hw1, hw2]
      constructor
      · rintro (⟨h1, h2, h3⟩ | ⟨t, ht, h1, h2, h3⟩)
        · exact ⟨task, by simp, h1, h2, h3⟩
        · refine ⟨t, by simp [ht], h1, h2, ?_⟩
          rw [← h1, hsame t ht] at h3
          rw [← h1]
          exact h3
      · rintro ⟨t, ht, h1, h2, h3⟩
        simp only [List.mem_cons] at ht
        rcases ht with ht | ht
        · subst ht
          exact Or.inl ⟨h1, h2, h3⟩
        · refine Or.inr ⟨t, ht, h1, h2, ?_⟩
          rw [← h1, hsame t ht]
          rw [← h1] at h3
          exact h3
    · intro a v
      rw [List.mem_append, hc1, hc2]
      constructor
      · rintro (⟨h1, h2⟩ | ⟨t, ht, h1, h2⟩)
        · exact ⟨task, by simp, h1, h2⟩
        · exact ⟨t, by simp [ht], h1, h2⟩
      · rintro ⟨t, ht, h1, h2⟩
        simp only [List.mem_cons] at ht
        rcases ht with ht | ht
        · subst ht
          exact Or.inl ⟨h1, h2⟩
        · exact Or.inr ⟨t, ht, h1, h2⟩
    · intro e he
      rw [List.mem_append] at he
      rcases he with he | he
      · exact hk1 e he
      · exact hk2 e he

/-- C28. In one pass of the loop over the tasks, with the tasks bound at
different addresses: the pass ends; the record of a task is written exactly
when the task has a value and the record does not equal it (`record ==
value` is false), and it is written with that value; a task with no value
is not written, and its record is, after the pass, as it was before, whatever
it holds; and no record other than those of the tasks is written. -/
theorem sync_pass_writes_iff (runtime : cry.Runtime) (memory : Nat → cry.cvar)
    (tasks : List console_var_task) (hbound : ∀ task ∈ tasks, task.cvar ≠ 0)
    (hdistinct : (tasks.map (·.cvar)).Nodup)
    (hfields : ∀ task ∈ tasks, (memory task.cvar).string_value.length = 256)
    (hvalues : ∀ task ∈ tasks, ∀ v, task.cfg.opt_value = some v → v.fits = true) :
    ∃ memory2 events, sync_pass runtime memory tasks = .done memory2 events ∧
      (∀ task ∈ tasks, ((∃ v, Event.write task.cvar v ∈ events) ↔
        ∃ v, task.cfg.opt_value = some v ∧ (memory task.cvar).eq v = some false)) ∧
      (∀ task ∈ tasks, ∀ v, task.cfg.opt_value = some v →
        (memory task.cvar).eq v = some false →
        Event.write task.cvar v ∈ events ∧
          (memory task.cvar).assign runtime v = .done (memory2 task.cvar)) ∧
      (∀ task ∈ tasks, task.cfg.opt_value = none →
        memory2 task.cvar = memory task.cvar ∧ ∀ v, Event.write task.cvar v ∉ events) ∧
      (∀ a, (∀ task ∈ tasks, task.cvar ≠ a) →
        memory2 a = memory a ∧ ∀ v, Event.write a v ∉ events) := by
  obtain ⟨memory2, events, hp, hframe, hkeep, hwrite, hw, _, _⟩ :=
    sync_pass_spec runtime tasks memory hbound hdistinct hfields hvalues
  have hsame : ∀ t ∈ tasks, ∀ u ∈ tasks, t.cvar = u.cvar → t = u :=
    fun t ht u hu h => List.inj_on_of_nodup_map hdistinct ht hu h
  refine ⟨memory2, events, hp, ?_, ?_, ?_, ?_⟩
  · intro task ht
    constructor
    · rintro ⟨v, hv⟩
      obtain ⟨t, ht2, h1, h2, h3⟩ := (hw task.cvar v).1 hv
      have := hsame t ht2 task ht h1
      subst this
      exact ⟨v, h2, h3⟩
    · rintro ⟨v, h2, h3⟩
      exact ⟨v, (hw task.cvar v).2 ⟨task, ht, rfl, h2, h3⟩⟩
  · intro task ht v h2 h3
    exact ⟨(hw task.cvar v).2 ⟨task, ht, rfl, h2, h3⟩, hwrite task ht v h2 h3⟩
  · intro task ht hnone
    refine ⟨hkeep task ht (Or.inl hnone), ?_⟩
    intro v hv
    obtain ⟨t, ht2, h1, h2, _⟩ := (hw task.cvar v).1 hv
    have := hsame t ht2 task ht h1
    subst this
    rw [hnone] at h2
    simp at h2
  · intro a ha
    refine ⟨hframe a ha, ?_⟩
    intro v hv
    obtain ⟨t, ht2, h1, _, _⟩ := (hw a v).1 hv
    exact ha t ht2 h1

/-- C28 at a concrete input: `demoTasks` over records that hold 7; the
record at 4112 is compared with 5 and written, the one at 8208 is not
touched. -/
theorem sync_pass_writes_iff_witness :
    (sync_pass cry.demoRuntime (fun _ => cry.demoRecord) demoTasks).events =
      some [.compare 4112 (.int 5), .write 4112 (.int 5)] ∧
    ∃ memory2 events,
      sync_pass cry.demoRuntime (fun _ => cry.demoRecord) demoTasks = .done memory2 events ∧
      (∀ task ∈ demoTasks, ((∃ v, Event.write task.cvar v ∈ events) ↔
        ∃ v, task.cfg.opt_value = some v ∧ cry.demoRecord.eq v = some false)) :=
  ⟨by decide,
    (sync_pass_writes_iff cry.demoRuntime (fun _ => cry.demoRecord) demoTasks (by decide)
      (by decide) (by decide)
      (by
        intro task ht v hv
        simp only [demoTasks, List.mem_cons, List.mem_singleton, List.not_mem_nil,
          or_false] at ht
        rcases ht with rfl | rfl
        · simp only [Option.some.injEq] at hv
          subst hv
          decide
        · simp at hv)).imp
      (fun _ h => h.imp (fun _ h2 => ⟨h2.1, h2.2.1⟩))⟩

/-! ## The first loop of `run` -/

theorem find_if_some (tasks : List console_var_task) (k : Nat) (h : find_if tasks = some k) :
    ∃ task, tasks[k]? = some task ∧ task.cvar = 0 := by
  induction tasks generalizing k with
  | nil => simp [find_if] at h
  | cons t tasks ih =>
    unfold find_if at h
    by_cases h0 : t.cvar = 0
    · rw [if_pos h0] at h
      simp only [Option.some.injEq] at h
      subst h
      exact ⟨t, by simp, h0⟩
    · rw [if_neg h0] at h
      cases hf : find_if tasks with
      | none =>
        rw [hf] at h
        simp at h
      | some j =>
        rw [hf] at h
        simp only [Option.map_some', Option.some.injEq] at h
        subst h
        obtain ⟨task, h1, h2⟩ := ih j hf
        exact ⟨task, by simpa using h1, h2⟩

theorem wait_spec (monitor : win.file_monitor) (i : Input) (tasks : List console_var_task)
    (buffer : List Nat) (events : List Event) :
    (discover.wait monitor i tasks buffer events).1.console_var_tasks = tasks ∧
    (discover.wait monitor i tasks buffer events).1.configFileMonitor = monitor ∧
    ((all_of tasks = true ∧ (discover.wait monitor i tasks buffer events).1.phase = .syncing ∧
        (discover.wait monitor i tasks buffer events).2 = events ++ [.found_all]) ∨
      (all_of tasks = false ∧ (discover.wait monitor i tasks buffer events).2 = events ∧
        ((i.wait = WAIT_OBJECT_0 ∧
            (discover.wait monitor i tasks buffer events).1.phase = .quit) ∨
          (i.wait ≠ WAIT_OBJECT_0 ∧
            ((discover.wait monitor i tasks buffer events).1.phase = .discovering ∨
              (discover.wait monitor i tasks buffer events).1.phase = .wait_error))))) := by
  unfold discover.wait
  by_cases hall : all_of tasks = true
  · rw [if_pos hall]
    exact ⟨rfl, rfl, Or.inl ⟨hall, rfl, rfl⟩⟩
  · rw [if_neg hall]
    have hall2 : all_of tasks = false := by simpa using hall
    by_cases hq : i.wait = WAIT_OBJECT_0
    · rw [if_pos hq]
      exact ⟨rfl, rfl, Or.inr ⟨hall2, rfl, Or.inl ⟨hq, rfl⟩⟩⟩
    · rw [if_neg hq]
      by_cases ht : i.wait = WAIT_TIMEOUT
      · rw [if_pos ht]
        exact ⟨rfl, rfl, Or.inr ⟨hall2, rfl, Or.inr ⟨hq, Or.inl rfl⟩⟩⟩
      · rw [if_neg ht]
        exact ⟨rfl, rfl, Or.inr ⟨hall2, rfl, Or.inr ⟨hq, Or.inr rfl⟩⟩⟩

/-- The ways a pass through the first loop goes: it ends in undefined
behaviour, or it comes to the test and the wait; the tasks are by then as
they were, but for the first one not bound, which may have been assigned. -/
theorem discover_cases (build : Build) (s : State) (i : Input) :
    ∃ tasks buffer events,
      (tasks = s.console_var_tasks ∨
        ∃ k task c, find_if s.console_var_tasks = some k ∧
          s.console_var_tasks[k]? = some task ∧ task.cvar = 0 ∧
          tasks = s.console_var_tasks.set k ⟨task.cfg, c⟩) ∧
      (∀ e ∈ events, e.quiet) ∧
      (discover build s i = (⟨.undefined, tasks, buffer, s.configFileMonitor⟩, events) ∨
        discover build s i = discover.wait s.configFileMonitor i tasks buffer events) := by
  unfold discover
  cases hf : find_if s.console_var_tasks with
  | none =>
    exact ⟨_, _, [], Or.inl rfl, fun e he => by simp at he, Or.inl rfl⟩
  | some k =>
    obtain ⟨task, hget, h0⟩ := find_if_some _ k hf
    simp only [hget]
    cases hsw : cry.find_cvar_ptr i.vq i.rpm build.abi ⟨task.name⟩ s.buffer with
    | mk cvarPtr buffer visits =>
      cases cvarPtr with
      | ub =>
        refine ⟨_, buffer, [.sweep task.name .ub], Or.inl rfl, ?_, Or.inl rfl⟩
        intro e he
        simp only [List.mem_singleton] at he
        subst he
        trivial
      | nullptr =>
        refine ⟨_, buffer, [.sweep task.name .nullptr],
          Or.inr ⟨k, task, 0, rfl, hget, h0, rfl⟩, ?_, Or.inr rfl⟩
        intro e he
        simp only [List.mem_singleton] at he
        subst he
        trivial
      | ptr address =>
        simp only
        by_cases ha : address = 0
        · rw [if_pos ha]
          refine ⟨_, buffer, [.sweep task.name (.ptr address)],
            Or.inr ⟨k, task, 0, rfl, hget, h0, rfl⟩, ?_, Or.inr rfl⟩
          intro e he
          simp only [List.mem_singleton] at he
          subst he
          trivial
        · rw [if_neg ha]
          cases hv : (i.memory address).to_value task.type with
          | none =>
            refine ⟨_, buffer, [.sweep task.name (.ptr address)],
              Or.inr ⟨k, task, address, rfl, hget, h0, rfl⟩, ?_, Or.inl rfl⟩
            intro e he
            simp only [List.mem_singleton] at he
            subst he
            trivial
          | some val =>
            refine ⟨_, buffer, [.sweep task.name (.ptr address), .read address task.type],
              Or.inr ⟨k, task, address, rfl, hget, h0, rfl⟩, ?_, Or.inr rfl⟩
            intro e he
            simp only [List.mem_cons, List.mem_singleton, List.not_mem_nil, or_false] at he
            rcases he with he | he
            · subst he
              trivial
            · subst he
              trivial

/-- What a pass through the first loop leaves: its events are sweeps and
reads for the log, followed by the message that all are found exactly when
the second loop is entered, which is when all tasks are bound; and a signaled
quit event at the wait, with a task not bound, makes `run` return. -/
theorem discover_spec (build : Build) (s : State) (i : Input) :
    ∃ events, (∀ e ∈ events, e.quiet) ∧
      (((discover build s i).1.phase = .syncing ∧
          all_of (discover build s i).1.console_var_tasks = true ∧
          (discover build s i).2 = events ++ [.found_all]) ∨
        ((discover build s i).2 = events ∧
          ((discover build s i).1.phase = .undefined ∨
            (all_of (discover build s i).1.console_var_tasks = false ∧
              ((i.wait = WAIT_OBJECT_0 ∧ (discover build s i).1.phase = .quit) ∨
                (i.wait ≠ WAIT_OBJECT_0 ∧
                  ((discover build s i).1.phase = .discovering ∨
                    (discover build s i).1.phase = .wait_error))))))) := by
  obtain ⟨tasks, buffer, events, _, hq, h | h⟩ := discover_cases build s i
  · rw [h]
    exact ⟨events, hq, Or.inr ⟨rfl, Or.inl rfl⟩⟩
  · rw [h]
    obtain ⟨h1, _, h3⟩ := wait_spec s.configFileMonitor i tasks buffer events
    rw [h1]
    rcases h3 with ⟨ha, hp, he⟩ | ⟨ha, he, hw⟩
    · exact ⟨events, hq, Or.inl ⟨hp, ha, he⟩⟩
    · exact ⟨events, hq, Or.inr ⟨he, Or.inr ⟨ha, hw⟩⟩⟩

theorem run_nil (build : Build) (s : State) : run build s [] = (s, []) := rfl

theorem run_cons (build : Build) (s : State) (i : Input) (inputs : List Input) :
    run build s (i :: inputs) =
      ((run build (step build s i).1 inputs).1,
        (step build s i).2 ++ (run build (step build s i).1 inputs).2) := rfl

/-- Once `run` has returned or ended, nothing more is done. -/
theorem run_stopped (build : Build) (s : State) (inputs : List Input)
    (h1 : s.phase ≠ .discovering) (h2 : s.phase ≠ .syncing) :
    run build s inputs = (s, []) := by
  induction inputs with
  | nil => rfl
  | cons i inputs ih =>
    have hstep : step build s i = (s, []) := by
      unfold step
      cases hp : s.phase with
      | discovering => exact absurd hp h1
      | syncing => exact absurd hp h2
      | quit => rfl
      | wait_error => rfl
      | undefined => rfl
      | invalid_parameter => rfl
    rw [run_cons, hstep]
    simp only [List.nil_append]
    rw [ih]

theorem run_append (build : Build) (s : State) (xs ys : List Input) :
    run build s (xs ++ ys) =
      ((run build (run build s xs).1 ys).1,
        (run build s xs).2 ++ (run build (run build s xs).1 ys).2) := by
  induction xs generalizing s with
  | nil => simp [run_nil]
  | cons i xs ih =>
    rw [List.cons_append, run_cons, run_cons, ih]
    simp only [List.append_assoc]

/-- From the first loop on, what `run` does is sweeps and reads for the log,
until the message that all are found, if it comes. -/
theorem run_discovering (build : Build) (inputs : List Input) :
    ∀ s : State, s.phase = .discovering →
    ∃ before rest, (run build s inputs).2 = before ++ rest ∧ (∀ e ∈ before, e.quiet) ∧
      ((rest = [] ∧ (run build s inputs).1.phase ≠ .syncing ∧
          (run build s inputs).1.phase ≠ .invalid_parameter) ∨
        ∃ rest2, rest = .found_all :: rest2) := by
  induction inputs with
  | nil =>
    intro s hs
    refine ⟨[], [], rfl, fun e he => by simp at he, Or.inl ⟨rfl, ?_, ?_⟩⟩
    · rw [run_nil, hs]
      simp
    · rw [run_nil, hs]
      simp
  | cons i inputs ih =>
    intro s hs
    have hstep : step build s i = discover build s i := by
      unfold step
      rw [hs]
    rw [run_cons, hstep]
    obtain ⟨events, hq, h | ⟨he, h⟩⟩ := discover_spec build s i
    · obtain ⟨_, _, he⟩ := h
      rw [he]
      exact ⟨events, .found_all :: (run build (discover build s i).1 inputs).2,
        by simp, hq, Or.inr ⟨_, rfl⟩⟩
    · rw [he]
      have hstop : ∀ (h1 : (discover build s i).1.phase ≠ .discovering)
          (h2 : (discover build s i).1.phase ≠ .syncing)
          (_ : (discover build s i).1.phase ≠ .invalid_parameter),
          ∃ before rest,
            events ++ (run build (discover build s i).1 inputs).2 = before ++ rest ∧
            (∀ e ∈ before, e.quiet) ∧
            ((rest = [] ∧ (run build (discover build s i).1 inputs).1.phase ≠ .syncing ∧
                (run build (discover build s i).1 inputs).1.phase ≠ .invalid_parameter) ∨
              ∃ rest2, rest = .found_all :: rest2) := by
        intro h1 h2 h3
        rw [run_stopped build _ inputs h1 h2]
        exact ⟨events, [], rfl, hq, Or.inl ⟨rfl, h2, h3⟩⟩
      rcases h with h | ⟨_, ⟨_, h⟩ | ⟨_, h | h⟩⟩
      · exact hstop (by rw [h]; simp) (by rw [h]; simp) (by rw [h]; simp)
      · exact hstop (by rw [h]; simp) (by rw [h]; simp) (by rw [h]; simp)
      · obtain ⟨before, rest, h1, h2, h3⟩ := ih _ h
        refine ⟨events ++ before, rest, by rw [h1, List.append_assoc], ?_, h3⟩
        intro e he2
        rw [List.mem_append] at he2
        rcases he2 with he2 | he2
        · exact hq e he2
        · exact h2 e he2
      · exact hstop (by rw [h]; simp) (by rw [h]; simp) (by rw [h]; simp)

/-! ## The second loop never leads back to the first -/

theorem sync_phase (build : Build) (s : State) (i : Input) :
    (sync build s i).1.phase ≠ .discovering := by
  unfold sync
  simp only
  split
  · simp
  · split
    · simp
    · simp
    · split
      · simp
      · split
        · simp
        · split
          · simp
          · simp

theorem run_syncing_phase (build : Build) (inputs : List Input) :
    ∀ s : State, s.phase ≠ .discovering → (run build s inputs).1.phase ≠ .discovering := by
  induction inputs with
  | nil =>
    intro s hs
    exact hs
  | cons i inputs ih =>
    intro s hs
    rw [run_cons]
    apply ih
    unfold step
    cases hp : s.phase with
    | discovering => exact absurd hp hs
    | syncing => exact sync_phase build s i
    | quit => simp [hp]
    | wait_error => simp [hp]
    | undefined => simp [hp]
    | invalid_parameter => simp [hp]

/-- From the first loop on: while `run` is in the first loop, all it has done
is sweeps and reads for the log. -/
theorem run_discovering_quiet (build : Build) (inputs : List Input) :
    ∀ s : State, s.phase = .discovering →
    (run build s inputs).1.phase = .discovering → ∀ e ∈ (run build s inputs).2, e.quiet := by
  induction inputs with
  | nil =>
    intro s _ _ e he
    simp [run_nil] at he
  | cons i inputs ih =>
    intro s hs hend e he
    have hstep : step build s i = discover build s i := by
      unfold step
      rw [hs]
    rw [run_cons, hstep] at hend he
    have hd : (discover build s i).1.phase = .discovering := by
      by_contra hn
      exact run_syncing_phase build inputs _ hn hend
    obtain ⟨events, hq, h | ⟨hev, _⟩⟩ := discover_spec build s i
    · rw [h.1] at hd
      simp at hd
    · rw [hev] at he
      simp only [List.mem_append] at he
      rcases he with he | he
      · exact hq e he
      · exact ih _ hd hend e he

/-- C29. No record is written while `run` is in its first loop: from the
first loop on, every write comes after the message that all variables are
found, with which the second loop is entered, and while `run` is in the first
loop all it has done is sweeps and reads for the log. If the quit event is
found signaled at the wait of the first loop, a task being still not bound,
`run` returns there: it does not enter the second loop and has written
nothing, whatever comes after. -/
theorem no_write_while_discovering (build : Build) (s : State) (inputs : List Input)
    (hs : s.phase = .discovering) :
    (∀ before after a v, (run build s inputs).2 = before ++ Event.write a v :: after →
      Event.found_all ∈ before) ∧
    ((run build s inputs).1.phase = .discovering → ∀ e ∈ (run build s inputs).2, e.quiet) ∧
    (∀ i more, (run build s inputs).1.phase = .discovering → i.wait = WAIT_OBJECT_0 →
      all_of (step build (run build s inputs).1 i).1.console_var_tasks = false →
      (step build (run build s inputs).1 i).1.phase ≠ .undefined →
      (run build s (inputs ++ i :: more)).1.phase = .quit ∧
      ∀ e ∈ (run build s (inputs ++ i :: more)).2, e.quiet) := by
  refine ⟨?_, run_discovering_quiet build inputs s hs, ?_⟩
  · intro before after a v hsplit
    obtain ⟨b0, rest, hrun, hq, h | ⟨rest2, h⟩⟩ := run_discovering build inputs s hs
    · obtain ⟨hrest, _, _⟩ := h
      rw [hrun, hrest, List.append_nil] at hsplit
      have : Event.write a v ∈ b0 := by rw [hsplit]; simp
      exact absurd (hq _ this) (by simp [Event.quiet])
    · rw [hrun, h] at hsplit
      rcases List.append_eq_append_iff.1 hsplit with ⟨a2, h1, h2⟩ | ⟨c2, h1, h2⟩
      · cases a2 with
        | nil =>
          simp only [List.nil_append, List.cons.injEq] at h2
          exact absurd h2.1 (by simp)
        | cons x a2 =>
          simp only [List.cons_append, List.cons.injEq] at h2
          rw [h1, ← h2.1]
          simp
      · cases c2 with
        | nil =>
          simp only [List.nil_append, List.cons.injEq] at h2
          exact absurd h2.1 (by simp)
        | cons x c2 =>
          simp only [List.cons_append, List.cons.injEq] at h2
          have : Event.write a v ∈ b0 := by rw [h1, ← h2.1]; simp
          exact absurd (hq _ this) (by simp [Event.quiet])
  · intro i more hreach hwait hunbound hdef
    have hquiet := run_discovering_quiet build inputs s hs hreach
    have hstep : step build (run build s inputs).1 i = discover build (run build s inputs).1 i := by
      unfold step
      rw [hreach]
    rw [hstep] at hunbound hdef
    obtain ⟨events, hq, h | ⟨hev, h⟩⟩ := discover_spec build (run build s inputs).1 i
    · rw [h.2.1] at hunbound
      simp at hunbound
    · have hquit : (discover build (run build s inputs).1 i).1.phase = .quit := by
        rcases h with h | ⟨_, ⟨_, h⟩ | ⟨h, _⟩⟩
        · exact absurd h hdef
        · exact h
        · exact absurd hwait h
      rw [run_append, run_cons, hstep,
        run_stopped build _ more (by rw [hquit]; simp) (by rw [hquit]; simp)]
      refine ⟨hquit, ?_⟩
      intro e he
      simp only [List.append_nil, List.mem_append] at he
      rcases he with he | he
      · exact hquiet e he
      · rw [hev] at he
        exact hq e he

/-- C29 at a concrete input: of the three variables of `demoBuild` two are
found, at 4112 and at 4144; the quit event is signaled at the wait after the
sweep for the third, and `run` returns having done sweeps and reads only. -/
theorem no_write_while_discovering_witness :
    (run demoBuild demoState [demoInput 258, demoInput 258]).1.console_var_tasks.map
      (·.cvar) = [4112, 4144, 0] ∧
    (run demoBuild demoState ([demoInput 258, demoInput 258] ++ demoInput 0 :: [])).2 =
      [.sweep (cry.std.string "g_maxfps") (.ptr 4112), .read 4112 .integer,
        .sweep (cry.std.string "g_chatlog") (.ptr 4144), .read 4144 .integer,
        .sweep (cry.std.string "g_minFov") .nullptr] ∧
    (run demoBuild demoState ([demoInput 258, demoInput 258] ++ demoInput 0 :: [])).1.phase =
      .quit ∧
    ∀ e ∈ (run demoBuild demoState ([demoInput 258, demoInput 258] ++ demoInput 0 :: [])).2,
      e.quiet :=
  ⟨by decide, by decide,
    (no_write_while_discovering demoBuild demoState [demoInput 258, demoInput 258] rfl).2.2
      (demoInput 0) [] (by decide) rfl (by decide) (by decide)⟩

/-! ## The addresses of the tasks -/

theorem take_values_spec (tasks : List console_var_task) :
    ∀ (vars : List config.configuration.variable) (tasks2 : List console_var_task),
    take_values tasks vars = some tasks2 →
    tasks2.length = tasks.length ∧
    ∀ (k : Nat) (task : console_var_task), tasks[k]? = some task →
      ∃ task2, tasks2[k]? = some task2 ∧ task2.cfg.definition = task.cfg.definition ∧
        task2.cvar = task.cvar := by
  induction tasks with
  | nil =>
    intro vars tasks2 h
    simp only [take_values, Option.some.injEq] at h
    subst h
    exact ⟨rfl, fun k task hk => by simp at hk⟩
  | cons t tasks ih =>
    intro vars tasks2 h
    cases vars with
    | nil => simp [take_values] at h
    | cons var vars =>
      simp only [take_values] at h
      cases hr : take_values tasks vars with
      | none =>
        rw [hr] at h
        simp at h
      | some rest =>
        rw [hr] at h
        simp only [Option.map_some', Option.some.injEq] at h
        subst h
        obtain ⟨hl, hk⟩ := ih vars rest hr
        refine ⟨by simp [hl], ?_⟩
        intro k task hget
        cases k with
        | zero =>
          simp only [List.getElem?_cons_zero, Option.some.injEq] at hget
          rw [← hget]
          exact ⟨⟨⟨t.cfg.definition, var.opt_value⟩, t.cvar⟩, List.getElem?_cons_zero,
            rfl, rfl⟩
        | succ k =>
          simp only [List.getElem?_cons_succ] at hget
          obtain ⟨task2, h1, h2, h3⟩ := hk k task hget
          exact ⟨task2, by simpa using h1, h2, h3⟩

theorem sync_tasks (build : Build) (s : State) (i : Input) :
    (sync build s i).1.console_var_tasks = s.console_var_tasks ∨
    ∃ vars, take_values s.console_var_tasks vars = some (sync build s i).1.console_var_tasks := by
  unfold sync
  simp only
  by_cases hc : s.configFileMonitor.changed i.now = true
  · rw [if_pos hc]
    cases ht : take_values s.console_var_tasks
        (config.configuration.from_file build.format build.text build.varSet i.file).vars with
    | none => exact Or.inl rfl
    | some tasks =>
      right
      refine ⟨(config.configuration.from_file build.format build.text build.varSet
        i.file).vars, ?_⟩
      rw [ht]
      simp only
      split
      · rfl
      · rfl
      · split
        · rfl
        · split
          · rfl
          · split
            · rfl
            · rfl
  · rw [if_neg hc]
    left
    simp only
    split
    · rfl
    · rfl
    · split
      · rfl
      · split
        · rfl
        · split
          · rfl
          · rfl

/-- One pass through a loop of `run` keeps the number of tasks, the
definition of each, and the address of each task that is bound; a task whose
address differs after the pass was not bound and was the first such, in the
first loop. -/
theorem step_keeps (build : Build) (s : State) (i : Input) :
    (step build s i).1.console_var_tasks.length = s.console_var_tasks.length ∧
    ∀ (k : Nat) (task : console_var_task), s.console_var_tasks[k]? = some task →
      ∃ task2, (step build s i).1.console_var_tasks[k]? = some task2 ∧
        task2.cfg.definition = task.cfg.definition ∧
        (task2.cvar ≠ task.cvar →
          task.cvar = 0 ∧ s.phase = .discovering ∧ find_if s.console_var_tasks = some k) := by
  have hsame : ∀ tasks2 : List console_var_task, tasks2 = s.console_var_tasks →
      tasks2.length = s.console_var_tasks.length ∧
      ∀ (k : Nat) (task : console_var_task), s.console_var_tasks[k]? = some task →
        ∃ task2, tasks2[k]? = some task2 ∧ task2.cfg.definition = task.cfg.definition ∧
          (task2.cvar ≠ task.cvar →
            task.cvar = 0 ∧ s.phase = .discovering ∧ find_if s.console_var_tasks = some k) := by
    intro tasks2 h
    subst h
    exact ⟨rfl, fun k task hk => ⟨task, hk, rfl, fun hne => absurd rfl hne⟩⟩
  cases hp : s.phase with
  | discovering =>
    have hstep : step build s i = discover build s i := by
      unfold step
      rw [hp]
    rw [hstep]
    obtain ⟨tasks, buffer, events, hshape, _, hd⟩ := discover_cases build s i
    have htasks : (discover build s i).1.console_var_tasks = tasks := by
      rcases hd with hd | hd
      · rw [hd]
      · rw [hd]
        exact (wait_spec _ _ _ _ _).1
    rw [htasks]
    rcases hshape with h | ⟨k0, task0, c, hfind, hget0, hzero, h⟩
    · have := hsame tasks h
      rw [hp] at this
      exact this
    · subst h
      refine ⟨by simp, ?_⟩
      intro k task hget
      by_cases hk : k0 = k
      · subst hk
        rw [hget0] at hget
        simp only [Option.some.injEq] at hget
        subst hget
        have hlt : k0 < s.console_var_tasks.length := by
          by_contra hn
          rw [List.getElem?_eq_none (by omega)] at hget0
          simp at hget0
        refine ⟨⟨task0.cfg, c⟩, by simp [List.getElem?_set, hlt], rfl, ?_⟩
        intro _
        exact ⟨hzero, rfl, hfind⟩
      · refine ⟨task, ?_, rfl, fun hne => absurd rfl hne⟩
        rw [List.getElem?_set_ne hk]
        exact hget
  | syncing =>
    have hstep : step build s i = sync build s i := by
      unfold step
      rw [hp]
    rw [hstep]
    rcases sync_tasks build s i with h | ⟨vars, h⟩
    · have := hsame _ h
      rw [hp] at this
      exact this
    · obtain ⟨hl, hk⟩ := take_values_spec _ vars _ h
      refine ⟨hl, ?_⟩
      intro k task hget
      obtain ⟨task2, h1, h2, h3⟩ := hk k task hget
      exact ⟨task2, h1, h2, fun hne => absurd h3 hne⟩
  | quit =>
    have hstep : step build s i = (s, []) := by
      unfold step
      rw [hp]
    rw [hstep]
    have := hsame s.console_var_tasks rfl
    rw [hp] at this
    exact this
  | wait_error =>
    have hstep : step build s i = (s, []) := by
      unfold step
      rw [hp]
    rw [hstep]
    have := hsame s.console_var_tasks rfl
    rw [hp] at this
    exact this
  | undefined =>
    have hstep : step build s i = (s, []) := by
      unfold step
      rw [hp]
    rw [hstep]
    have := hsame s.console_var_tasks rfl
    rw [hp] at this
    exact this
  | invalid_parameter =>
    have hstep : step build s i = (s, []) := by
      unfold step
      rw [hp]
    rw [hstep]
    have := hsame s.console_var_tasks rfl
    rw [hp] at this
    exact this

/-- C30. The address of a task, once it is that of a record found, stays:
through any number of passes of the loops of `run` (sweeps that find
something or nothing, a file read again, passes over the tasks), the tasks
stay as many, each keeps its definition, and a task that is bound keeps its
address, so it stays bound. In a single pass the only task whose address is
assigned is the first one not bound, in the first loop. -/
theorem bound_address_is_kept (build : Build) (s : State) (inputs : List Input) :
    (run build s inputs).1.console_var_tasks.length = s.console_var_tasks.length ∧
    (∀ (k : Nat) (task : console_var_task), s.console_var_tasks[k]? = some task →
      ∃ task2, (run build s inputs).1.console_var_tasks[k]? = some task2 ∧
        task2.cfg.definition = task.cfg.definition ∧
        (task.cvar ≠ 0 → task2.cvar = task.cvar)) ∧
    (∀ (i : Input) (k : Nat) (task task2 : console_var_task),
      s.console_var_tasks[k]? = some task →
      (step build s i).1.console_var_tasks[k]? = some task2 → task2.cvar ≠ task.cvar →
      task.cvar = 0 ∧ s.phase = .discovering ∧ find_if s.console_var_tasks = some k) := by
  refine ⟨?_, ?_, ?_⟩
  · induction inputs generalizing s with
    | nil => rfl
    | cons i inputs ih =>
      rw [run_cons]
      simp only
      rw [ih, (step_keeps build s i).1]
  · induction inputs generalizing s with
    | nil =>
      intro k task hget
      exact ⟨task, hget, rfl, fun _ => rfl⟩
    | cons i inputs ih =>
      intro k task hget
      rw [run_cons]
      simp only
      obtain ⟨task1, h1, hd1, hc1⟩ := (step_keeps build s i).2 k task hget
      obtain ⟨task2, h2, hd2, hc2⟩ := ih (step build s i).1 k task1 h1
      refine ⟨task2, h2, by rw [hd2, hd1], ?_⟩
      intro hb
      have h11 : task1.cvar = task.cvar := by
        by_contra hne
        exact hb (hc1 hne).1
      rw [hc2 (by rw [h11]; exact hb), h11]
  · intro i k task task2 hget hget2 hne
    obtain ⟨task3, h3, _, hc⟩ := (step_keeps build s i).2 k task hget
    rw [hget2] at h3
    simp only [Option.some.injEq] at h3
    subst h3
    exact hc hne

/-! ## The second loop of `run` -/

/-- What the loop over the tasks does, when it ends: every event is the
comparison or the write of a task that has a value and is bound, at the
address of that task and with that value. -/
theorem sync_pass_events (runtime : cry.Runtime) (tasks : List console_var_task) :
    ∀ (memory memory2 : Nat → cry.cvar) (events : List Event),
    sync_pass runtime memory tasks = .done memory2 events →
    ∀ e ∈ events, ∃ task ∈ tasks, ∃ v, task.cfg.opt_value = some v ∧ task.cvar ≠ 0 ∧
      (e = .compare task.cvar v ∨ e = .write task.cvar v) := by
  induction tasks with
  | nil =>
    intro memory memory2 events h e he
    simp only [sync_pass, Pass.done.injEq] at h
    rw [← h.2] at he
    simp at he
  | cons task tasks ih =>
    intro memory memory2 events h e he
    simp only [sync_pass] at h
    cases h1 : sync_task runtime memory task with
    | undefined => simp [h1] at h
    | invalid_parameter => simp [h1] at h
    | done memory1 events1 =>
      rw [h1] at h
      simp only at h
      cases h2 : sync_pass runtime memory1 tasks with
      | undefined => simp [h2] at h
      | invalid_parameter => simp [h2] at h
      | done memory3 events2 =>
        rw [h2] at h
        simp only [Pass.done.injEq] at h
        rw [← h.2] at he
        rcases List.mem_append.1 he with he1 | he2
        · refine ⟨task, List.mem_cons_self _ _, ?_⟩
          unfold sync_task at h1
          cases hv : task.cfg.opt_value with
          | none =>
            rw [hv] at h1
            simp only [Pass.done.injEq] at h1
            rw [← h1.2] at he1
            simp at he1
          | some value =>
            rw [hv] at h1
            simp only at h1
            by_cases hz : task.cvar = 0
            · rw [if_pos hz] at h1
              simp at h1
            · rw [if_neg hz] at h1
              refine ⟨value, rfl, hz, ?_⟩
              cases heq : cry.cvar.eq (memory task.cvar) value with
              | none =>
                rw [heq] at h1
                simp at h1
              | some b =>
                rw [heq] at h1
                cases b with
                | true =>
                  simp only [Pass.done.injEq] at h1
                  rw [← h1.2] at he1
                  simp only [List.mem_singleton] at he1
                  exact Or.inl he1
                | false =>
                  simp only at h1
                  cases hw : (memory task.cvar).assign runtime value with
                  | invalid_parameter =>
                    rw [hw] at h1
                    simp at h1
                  | done written =>
                    rw [hw] at h1
                    simp only [Pass.done.injEq] at h1
                    rw [← h1.2] at he1
                    simp only [List.mem_cons, List.mem_singleton, List.not_mem_nil,
                      or_false] at he1
                    exact he1
        · obtain ⟨t, ht, v, hv, hz, hev⟩ := ih memory1 memory3 events2 h2 e he2
          exact ⟨t, List.mem_cons_of_mem _ ht, v, hv, hz, hev⟩

/-- The wait at the end of a pass through the second loop, by what
`WaitForMultipleObjects` returns. -/
theorem sync_wait_cases (i : Input) (tasks : List console_var_task) (buffer : List Nat)
    (monitor : win.file_monitor) (events : List Event) :
    ∃ phase monitor2,
      (if i.wait = WAIT_OBJECT_0 then
          ((⟨.quit, tasks, buffer, monitor⟩ : State), events)
        else if i.wait = WAIT_OBJECT_0 + 1 then
          (⟨.syncing, tasks, buffer, monitor.on_event_signaled i.last_write i.now_signaled⟩,
            events)
        else if i.wait = WAIT_TIMEOUT then (⟨.syncing, tasks, buffer, monitor⟩, events)
        else (⟨.wait_error, tasks, buffer, monitor⟩, events)) =
        (⟨phase, tasks, buffer, monitor2⟩, events) ∧
      (phase = .quit ∨ phase = .syncing ∨ phase = .wait_error) ∧
      (phase = .syncing → i.wait = WAIT_OBJECT_0 + 1 ∨ i.wait = WAIT_TIMEOUT) ∧
      monitor2 = (if i.wait = WAIT_OBJECT_0 + 1 then
        monitor.on_event_signaled i.last_write i.now_signaled else monitor) := by
  by_cases h0 : i.wait = WAIT_OBJECT_0
  · refine ⟨.quit, monitor, by rw [if_pos h0], Or.inl rfl, fun h => by simp at h, ?_⟩
    rw [if_neg]
    rw [h0]
    decide
  · by_cases h1 : i.wait = WAIT_OBJECT_0 + 1
    · exact ⟨.syncing, _, by rw [if_neg h0, if_pos h1], Or.inr (Or.inl rfl),
        fun _ => Or.inl h1, by rw [if_pos h1]⟩
    · by_cases h2 : i.wait = WAIT_TIMEOUT
      · exact ⟨.syncing, monitor, by rw [if_neg h0, if_neg h1, if_pos h2], Or.inr (Or.inl rfl),
          fun _ => Or.inr h2, by rw [if_neg h1]⟩
      · exact ⟨.wait_error, monitor, by rw [if_neg h0, if_neg h1, if_neg h2],
          Or.inr (Or.inr rfl), fun h => by simp at h, by rw [if_neg h1]⟩

/-- The ways a pass through the second loop goes. When the monitor says the
file has changed, the file is read again and the tasks take its values, and
the monitor is reset; then the loop over the tasks is made; when that ends,
the wait decides how `run` goes on, and a signal of the monitor's event is
handed to the monitor. -/
theorem sync_cases (build : Build) (s : State) (i : Input) :
    (s.configFileMonitor.changed i.now = true ∧
      take_values s.console_var_tasks
        (config.configuration.from_file build.format build.text build.varSet i.file).vars =
          none ∧
      sync build s i =
        (⟨.undefined, s.console_var_tasks, s.buffer, s.configFileMonitor.reset⟩, [.reload])) ∨
    ∃ monitor tasks events,
      ((s.configFileMonitor.changed i.now = true ∧ monitor = s.configFileMonitor.reset ∧
          events = [Event.reload] ∧
          take_values s.console_var_tasks
            (config.configuration.from_file build.format build.text build.varSet i.file).vars =
              some tasks) ∨
        (s.configFileMonitor.changed i.now = false ∧ monitor = s.configFileMonitor ∧
          events = [] ∧ tasks = s.console_var_tasks)) ∧
      ((sync_pass build.runtime i.memory tasks = .undefined ∧
          sync build s i = (⟨.undefined, tasks, s.buffer, monitor⟩, events)) ∨
        (sync_pass build.runtime i.memory tasks = .invalid_parameter ∧
          sync build s i = (⟨.invalid_parameter, tasks, s.buffer, monitor⟩, events)) ∨
        ∃ memory2 events2 phase monitor2,
          sync_pass build.runtime i.memory tasks = .done memory2 events2 ∧
          sync build s i = (⟨phase, tasks, s.buffer, monitor2⟩, events ++ events2) ∧
          (phase = .quit ∨ phase = .syncing ∨ phase = .wait_error) ∧
          (phase = .syncing → i.wait = WAIT_OBJECT_0 + 1 ∨ i.wait = WAIT_TIMEOUT) ∧
          monitor2 = (if i.wait = WAIT_OBJECT_0 + 1 then
            monitor.on_event_signaled i.last_write i.now_signaled else monitor)) := by
  have hpass : ∀ (monitor : win.file_monitor) (tasks : List console_var_task)
      (events : List Event),
      sync build s i =
        (match sync_pass build.runtime i.memory tasks with
          | .undefined => (⟨.undefined, tasks, s.buffer, monitor⟩, events)
          | .invalid_parameter => (⟨.invalid_parameter, tasks, s.buffer, monitor⟩, events)
          | .done _ events2 =>
            if i.wait = WAIT_OBJECT_0 then
              ((⟨.quit, tasks, s.buffer, monitor⟩ : State), events ++ events2)
            else if i.wait = WAIT_OBJECT_0 + 1 then
              (⟨.syncing, tasks, s.buffer,
                  monitor.on_event_signaled i.last_write i.now_signaled⟩, events ++ events2)
            else if i.wait = WAIT_TIMEOUT then
              (⟨.syncing, tasks, s.buffer, monitor⟩, events ++ events2)
            else (⟨.wait_error, tasks, s.buffer, monitor⟩, events ++ events2)) →
      (sync_pass build.runtime i.memory tasks = .undefined ∧
          sync build s i = (⟨.undefined, tasks, s.buffer, monitor⟩, events)) ∨
        (sync_pass build.runtime i.memory tasks = .invalid_parameter ∧
          sync build s i = (⟨.invalid_parameter, tasks, s.buffer, monitor⟩, events)) ∨
        ∃ memory2 events2 phase monitor2,
          sync_pass build.runtime i.memory tasks = .done memory2 events2 ∧
          sync build s i = (⟨phase, tasks, s.buffer, monitor2⟩, events ++ events2) ∧
          (phase = .quit ∨ phase = .syncing ∨ phase = .wait_error) ∧
          (phase = .syncing → i.wait = WAIT_OBJECT_0 + 1 ∨ i.wait = WAIT_TIMEOUT) ∧
          monitor2 = (if i.wait = WAIT_OBJECT_0 + 1 then
            monitor.on_event_signaled i.last_write i.now_signaled else monitor) := by
    intro monitor tasks events h
    cases hp : sync_pass build.runtime i.memory tasks with
    | undefined =>
      rw [hp] at h
      exact Or.inl ⟨rfl, h⟩
    | invalid_parameter =>
      rw [hp] at h
      exact Or.inr (Or.inl ⟨rfl, h⟩)
    | done memory2 events2 =>
      rw [hp] at h
      obtain ⟨phase, monitor2, heq, h1, h2, h3⟩ :=
        sync_wait_cases i tasks s.buffer monitor (events ++ events2)
      simp only at h
      rw [heq] at h
      exact Or.inr (Or.inr ⟨memory2, events2, phase, monitor2, rfl, h, h1, h2, h3⟩)
  by_cases hc : s.configFileMonitor.changed i.now = true
  · cases ht : take_values s.console_var_tasks
        (config.configuration.from_file build.format build.text build.varSet i.file).vars with
    | none =>
      left
      refine ⟨hc, rfl, ?_⟩
      unfold sync
      simp only [hc, if_true, ht]
    | some tasks =>
      right
      refine ⟨s.configFileMonitor.reset, tasks, [.reload], Or.inl ⟨hc, rfl, rfl, rfl⟩, ?_⟩
      apply hpass
      unfold sync
      simp only [hc, if_true, ht]
  · right
    have hc2 : s.configFileMonitor.changed i.now = false := by simpa using hc
    refine ⟨s.configFileMonitor, s.console_var_tasks, [], Or.inr ⟨hc2, rfl, rfl, rfl⟩, ?_⟩
    apply hpass
    unfold sync
    simp only [hc2, Bool.false_eq_true, if_false]

/-- A pass through the second loop after which `run` is still in it: the
loop over the tasks ended, the wait timed out or the monitor's event was
signaled, and the events are the reload, if the monitor said so, and those
of the loop over the tasks. -/
theorem sync_stays (build : Build) (s : State) (i : Input)
    (h : (sync build s i).1.phase = .syncing) :
    ∃ tasks memory2 events2,
      ((s.configFileMonitor.changed i.now = true ∧
          take_values s.console_var_tasks
            (config.configuration.from_file build.format build.text build.varSet i.file).vars =
              some tasks) ∨
        (s.configFileMonitor.changed i.now = false ∧ tasks = s.console_var_tasks)) ∧
      sync_pass build.runtime i.memory tasks = .done memory2 events2 ∧
      (sync build s i).1.console_var_tasks = tasks ∧
      (sync build s i).1.buffer = s.buffer ∧
      (sync build s i).2 =
        (if s.configFileMonitor.changed i.now = true then [Event.reload] else []) ++ events2 ∧
      (sync build s i).1.configFileMonitor =
        (if i.wait = WAIT_OBJECT_0 + 1 then
          (if s.configFileMonitor.changed i.now = true then s.configFileMonitor.reset
            else s.configFileMonitor).on_event_signaled i.last_write i.now_signaled
        else (if s.configFileMonitor.changed i.now = true then s.configFileMonitor.reset
          else s.configFileMonitor)) ∧
      (i.wait = WAIT_OBJECT_0 + 1 ∨ i.wait = WAIT_TIMEOUT) := by
  rcases sync_cases build s i with ⟨_, _, heq⟩ | ⟨monitor, tasks, events, hre, hrest⟩
  · rw [heq] at h
    simp at h
  · rcases hrest with ⟨_, heq⟩ | ⟨_, heq⟩ | ⟨memory2, events2, phase, monitor2, hp, heq, _, hw, hm⟩
    · rw [heq] at h
      simp at h
    · rw [heq] at h
      simp at h
    · rw [heq] at h
      simp only at h
      subst h
      rw [heq]
      rcases hre with ⟨hc, hmon, hev, ht⟩ | ⟨hc, hmon, hev, ht⟩
      · subst hmon hev
        refine ⟨tasks, memory2, events2, Or.inl ⟨hc, ht⟩, hp, rfl, rfl, ?_, ?_, hw rfl⟩
        · simp only [hc, if_true]
        · simp only [hc, if_true]
          exact hm
      · subst hmon hev
        refine ⟨tasks, memory2, events2, Or.inr ⟨hc, ht⟩, hp, rfl, rfl, ?_, ?_, hw rfl⟩
        · simp only [hc, Bool.false_eq_true, if_false]
        · simp only [hc, Bool.false_eq_true, if_false]
          exact hm

theorem sync_pass_count_reload (runtime : cry.Runtime) (tasks : List console_var_task)
    (memory memory2 : Nat → cry.cvar) (events : List Event)
    (h : sync_pass runtime memory tasks = .done memory2 events) :
    events.count .reload = 0 := by
  apply List.count_eq_zero.2
  intro hmem
  obtain ⟨task, _, v, _, _, he⟩ := sync_pass_events runtime tasks memory memory2 events h _ hmem
  rcases he with he | he <;> simp at he

/-- In a pass through the second loop after which `run` is still in it, the
file is read again exactly when the monitor says it has changed. -/
theorem sync_count_reload (build : Build) (s : State) (i : Input)
    (h : (sync build s i).1.phase = .syncing) :
    (sync build s i).2.count .reload =
      if s.configFileMonitor.changed i.now = true then 1 else 0 := by
  obtain ⟨tasks, memory2, events2, _, hp, _, _, hev, _, _⟩ := sync_stays build s i h
  rw [hev, List.count_append, sync_pass_count_reload _ _ _ _ _ hp]
  split <;> simp

theorem step_syncing (build : Build) (s : State) (i : Input) (h : s.phase = .syncing) :
    step build s i = sync build s i := by
  unfold step
  rw [h]

/-- While `run` is in its second loop after some passes, it was in it after
fewer. -/
theorem run_phase_before (build : Build) (s : State) (xs ys : List Input)
    (hs : s.phase = .syncing) (h : (run build s (xs ++ ys)).1.phase = .syncing) :
    (run build s xs).1.phase = .syncing := by
  by_contra hne
  have hd := run_syncing_phase build xs s (by rw [hs]; simp)
  rw [run_append] at h
  rw [run_stopped build _ ys hd hne] at h
  exact hne h

theorem step_phase_before (build : Build) (s : State) (i : Input) (rest : List Input)
    (hs : s.phase = .syncing) (h : (run build s (i :: rest)).1.phase = .syncing) :
    (sync build s i).1.phase = .syncing := by
  have := run_phase_before build s [i] rest hs h
  rw [run_cons, run_nil, step_syncing build s i hs] at this
  exact this

/-! ## The file is read again once the changes have come to rest -/

/-- Passes through the second loop in none of which the monitor's event is
signaled: the file is read again once, in the first pass that finds a change
noted and the clock more than the interval past the time it was noted at,
after which no change is noted; it is not read again when there is no such
pass, and the monitor then stays as it is. -/
theorem run_without_signal (build : Build) (inputs : List Input) :
    ∀ s : State, s.phase = .syncing → (∀ i ∈ inputs, i.wait ≠ WAIT_OBJECT_0 + 1) →
    (run build s inputs).1.phase = .syncing →
    ((s.configFileMonitor.changed_ = true ∧
        ∃ i ∈ inputs, i.now - s.configFileMonitor.last_time_point_ >
          s.configFileMonitor.interval_) →
      (run build s inputs).2.count .reload = 1 ∧
      (run build s inputs).1.configFileMonitor = s.configFileMonitor.reset) ∧
    (¬ (s.configFileMonitor.changed_ = true ∧
        ∃ i ∈ inputs, i.now - s.configFileMonitor.last_time_point_ >
          s.configFileMonitor.interval_) →
      (run build s inputs).2.count .reload = 0 ∧
      (run build s inputs).1.configFileMonitor = s.configFileMonitor) := by
  induction inputs with
  | nil =>
    intro s _ _ _
    rw [run_nil]
    constructor
    · rintro ⟨_, i, hi, _⟩
      simp at hi
    · intro _
      exact ⟨rfl, rfl⟩
  | cons i rest ih =>
    intro s hs hwait hfinal
    have hstep := step_phase_before build s i rest hs hfinal
    obtain ⟨_, _, _, _, _, _, _, _, hmon, _⟩ := sync_stays build s i hstep
    rw [if_neg (hwait i (List.mem_cons_self _ _))] at hmon
    have hcount := sync_count_reload build s i hstep
    rw [run_cons, step_syncing build s i hs] at hfinal ⊢
    simp only at hfinal ⊢
    obtain ⟨ih1, ih2⟩ := ih (sync build s i).1 hstep
      (fun j hj => hwait j (List.mem_cons_of_mem _ hj)) hfinal
    rw [List.count_append, hcount]
    by_cases hc : s.configFileMonitor.changed i.now = true
    · rw [if_pos hc] at hmon ⊢
      have hnot : ¬ ((sync build s i).1.configFileMonitor.changed_ = true ∧
          ∃ j ∈ rest, j.now - (sync build s i).1.configFileMonitor.last_time_point_ >
            (sync build s i).1.configFileMonitor.interval_) := by
        rw [hmon]
        simp [win.file_monitor.reset]
      obtain ⟨h1, h2⟩ := ih2 hnot
      rw [h1, h2, hmon]
      have hA : s.configFileMonitor.changed_ = true ∧
          ∃ j ∈ i :: rest, j.now - s.configFileMonitor.last_time_point_ >
            s.configFileMonitor.interval_ := by
        simp only [win.file_monitor.changed, Bool.and_eq_true, decide_eq_true_eq] at hc
        exact ⟨hc.1, i, List.mem_cons_self _ _, hc.2⟩
      exact ⟨fun _ => ⟨rfl, rfl⟩, fun hn => absurd hA hn⟩
    · rw [if_neg hc] at hmon ⊢
      rw [hmon] at ih1 ih2
      have hiff : (s.configFileMonitor.changed_ = true ∧
          ∃ j ∈ i :: rest, j.now - s.configFileMonitor.last_time_point_ >
            s.configFileMonitor.interval_) ↔
          (s.configFileMonitor.changed_ = true ∧
            ∃ j ∈ rest, j.now - s.configFileMonitor.last_time_point_ >
              s.configFileMonitor.interval_) := by
        constructor
        · rintro ⟨h1, j, hj, hlate⟩
          rcases List.mem_cons.1 hj with hj | hj
          · subst hj
            exfalso
            apply hc
            simp only [win.file_monitor.changed, Bool.and_eq_true, decide_eq_true_eq]
            exact ⟨h1, hlate⟩
          · exact ⟨h1, j, hj, hlate⟩
        · rintro ⟨h1, j, hj, hlate⟩
          exact ⟨h1, j, List.mem_cons_of_mem _ hj, hlate⟩
      rw [hiff]
      constructor
      · intro hA
        obtain ⟨h1, h2⟩ := ih1 hA
        rw [h1, h2]
        exact ⟨rfl, rfl⟩
      · intro hA
        obtain ⟨h1, h2⟩ := ih2 hA
        rw [h1, h2]
        exact ⟨rfl, rfl⟩

/-- A pass through the second loop at whose wait the monitor's event is
signaled, with no reload due in it: the file is not read again, and the
monitor is told. -/
theorem sync_signaled (build : Build) (s : State) (i : Input)
    (hstep : (sync build s i).1.phase = .syncing) (hwait : i.wait = WAIT_OBJECT_0 + 1)
    (hc : s.configFileMonitor.changed i.now = false) :
    (sync build s i).2.count .reload = 0 ∧
    (sync build s i).1.configFileMonitor =
      s.configFileMonitor.on_event_signaled i.last_write i.now_signaled := by
  obtain ⟨_, _, _, _, _, _, _, _, hmon, _⟩ := sync_stays build s i hstep
  have hcount := sync_count_reload build s i hstep
  rw [hc] at hmon hcount
  simp only [Bool.false_eq_true, if_false] at hmon hcount
  rw [if_pos hwait] at hmon
  exact ⟨hcount, hmon⟩

theorem on_event_signaled_changed (monitor : win.file_monitor) (last_write : Option Int)
    (now : Int) (h : last_write ≠ monitor.last_write_) :
    monitor.on_event_signaled last_write now = ⟨true, now, last_write, monitor.interval_⟩ := by
  unfold win.file_monitor.on_event_signaled
  rw [if_pos h]

/-- Two signals of the monitor's event, each for a new time of last write,
the second less than the interval after the first, with passes before and
between in which the event is not signaled: up to the second signal the file
is not read again, and the monitor then holds the time of the second. -/
theorem run_two_signals (build : Build) (s : State) (pre mid : List Input)
    (sig1 sig2 : Input) (hs : s.phase = .syncing)
    (hidle : s.configFileMonitor.changed_ = false)
    (hpre : ∀ i ∈ pre, i.wait ≠ WAIT_OBJECT_0 + 1)
    (hmid : ∀ i ∈ mid, i.wait ≠ WAIT_OBJECT_0 + 1)
    (hsig1 : sig1.wait = WAIT_OBJECT_0 + 1) (hsig2 : sig2.wait = WAIT_OBJECT_0 + 1)
    (hw1 : sig1.last_write ≠ s.configFileMonitor.last_write_)
    (hw2 : sig2.last_write ≠ sig1.last_write)
    (hclose : sig2.now_signaled - sig1.now_signaled < s.configFileMonitor.interval_)
    (hclock : ∀ i ∈ mid ++ [sig2], i.now ≤ sig2.now_signaled)
    (hruns : (run build s (pre ++ sig1 :: (mid ++ [sig2]))).1.phase = .syncing) :
    (run build s (pre ++ sig1 :: (mid ++ [sig2]))).2.count .reload = 0 ∧
    (run build s (pre ++ sig1 :: (mid ++ [sig2]))).1.configFileMonitor =
      ⟨true, sig2.now_signaled, sig2.last_write, s.configFileMonitor.interval_⟩ := by
  have hp1 := run_phase_before build s pre _ hs hruns
  obtain ⟨c1, m1⟩ := (run_without_signal build pre s hs hpre hp1).2 (by simp [hidle])
  rw [run_append] at hruns ⊢
  simp only at hruns ⊢
  have hstep1 := step_phase_before build _ sig1 _ hp1 hruns
  have hc1 : (run build s pre).1.configFileMonitor.changed sig1.now = false := by
    rw [m1]
    simp [win.file_monitor.changed, hidle]
  obtain ⟨c2, m2⟩ := sync_signaled build _ sig1 hstep1 hsig1 hc1
  rw [m1, on_event_signaled_changed _ _ _ hw1] at m2
  rw [run_cons, step_syncing build _ sig1 hp1] at hruns ⊢
  simp only at hruns ⊢
  have hp3 := run_phase_before build _ mid [sig2] hstep1 hruns
  obtain ⟨c3, m3⟩ := (run_without_signal build mid _ hstep1 hmid hp3).2 (by
    rw [m2]
    rintro ⟨_, i, hi, hlate⟩
    have := hclock i (List.mem_append_left _ hi)
    simp only at hlate
    omega)
  rw [m2] at m3
  rw [run_append] at hruns ⊢
  simp only at hruns ⊢
  have hstep2 := step_phase_before build _ sig2 [] hp3 hruns
  have hc2 : (run build (sync build (run build s pre).1 sig1).1 mid).1.configFileMonitor.changed
      sig2.now = false := by
    rw [m3]
    have := hclock sig2 (List.mem_append_right _ (List.mem_singleton_self _))
    simp only [win.file_monitor.changed, Bool.true_and, decide_eq_false_iff_not]
    omega
  obtain ⟨c4, m4⟩ := sync_signaled build _ sig2 hstep2 hsig2 hc2
  rw [m3, on_event_signaled_changed _ _ _ hw2] at m4
  rw [run_cons, run_nil, step_syncing build _ sig2 hp3]
  simp only [List.count_append, c1, c2, c3, c4, List.append_nil]
  exact ⟨trivial, m4⟩

/-- C31. Time is what the clock reads in `changed()` (`now`) and in
`on_event_signaled()` (`now_signaled`). `run` is in its second loop with no
change noted; the monitor's event is signaled at the wait of two passes, each
time for a new time of last write, the second less than the interval after
the first, and in no other pass; the clock does not go back between the
signals. Then, as long as `run` stays in the loop: up to the second signal
the file is not read again; after it, it is not read again while no pass
finds the clock more than the interval past the second signal; it is read
again in the first pass that does; and it has been read again exactly once
from then on. -/
theorem reload_once_after_quiet_period (build : Build) (s : State)
    (pre mid post : List Input) (sig1 sig2 : Input) (hs : s.phase = .syncing)
    (hidle : s.configFileMonitor.changed_ = false)
    (hpre : ∀ i ∈ pre, i.wait ≠ WAIT_OBJECT_0 + 1)
    (hmid : ∀ i ∈ mid, i.wait ≠ WAIT_OBJECT_0 + 1)
    (hpost : ∀ i ∈ post, i.wait ≠ WAIT_OBJECT_0 + 1)
    (hsig1 : sig1.wait = WAIT_OBJECT_0 + 1) (hsig2 : sig2.wait = WAIT_OBJECT_0 + 1)
    (hw1 : sig1.last_write ≠ s.configFileMonitor.last_write_)
    (hw2 : sig2.last_write ≠ sig1.last_write)
    (hclose : sig2.now_signaled - sig1.now_signaled < s.configFileMonitor.interval_)
    (hclock : ∀ i ∈ mid ++ [sig2], i.now ≤ sig2.now_signaled)
    (hruns : (run build s ((pre ++ sig1 :: (mid ++ [sig2])) ++ post)).1.phase = .syncing) :
    Event.reload ∉ (run build s (pre ++ sig1 :: (mid ++ [sig2]))).2 ∧
    ((∀ i ∈ post, i.now - sig2.now_signaled ≤ s.configFileMonitor.interval_) →
      Event.reload ∉ (run build s ((pre ++ sig1 :: (mid ++ [sig2])) ++ post)).2) ∧
    ((∃ i ∈ post, i.now - sig2.now_signaled > s.configFileMonitor.interval_) →
      (run build s ((pre ++ sig1 :: (mid ++ [sig2])) ++ post)).2.count .reload = 1) ∧
    (∀ before i after, post = before ++ i :: after →
      (∀ j ∈ before, j.now - sig2.now_signaled ≤ s.configFileMonitor.interval_) →
      i.now - sig2.now_signaled > s.configFileMonitor.interval_ →
      Event.reload ∉ (run build s ((pre ++ sig1 :: (mid ++ [sig2])) ++ before)).2 ∧
      Event.reload ∈
        (step build (run build s ((pre ++ sig1 :: (mid ++ [sig2])) ++ before)).1 i).2) := by
  have hp := run_phase_before build s _ post hs hruns
  obtain ⟨c0, m0⟩ := run_two_signals build s pre mid sig1 sig2 hs hidle hpre hmid hsig1 hsig2
    hw1 hw2 hclose hclock hp
  have hpart : ∀ part more : List Input, post = part ++ more →
      ((∀ i ∈ part, i.now - sig2.now_signaled ≤ s.configFileMonitor.interval_) →
        (run build s ((pre ++ sig1 :: (mid ++ [sig2])) ++ part)).2.count .reload = 0 ∧
        (run build s ((pre ++ sig1 :: (mid ++ [sig2])) ++ part)).1.configFileMonitor =
          ⟨true, sig2.now_signaled, sig2.last_write, s.configFileMonitor.interval_⟩ ∧
        (run build s ((pre ++ sig1 :: (mid ++ [sig2])) ++ part)).1.phase = .syncing) ∧
      ((∃ i ∈ part, i.now - sig2.now_signaled > s.configFileMonitor.interval_) →
        (run build s ((pre ++ sig1 :: (mid ++ [sig2])) ++ part)).2.count .reload = 1) := by
    intro part more hsplit
    have hph : (run build s ((pre ++ sig1 :: (mid ++ [sig2])) ++ part)).1.phase = .syncing := by
      apply run_phase_before build s _ more hs
      rw [List.append_assoc, ← hsplit]
      exact hruns
    have hwait : ∀ i ∈ part, i.wait ≠ WAIT_OBJECT_0 + 1 := by
      intro i hi
      exact hpost i (by rw [hsplit]; exact List.mem_append_left _ hi)
    rw [run_append] at hph ⊢
    simp only at hph ⊢
    obtain ⟨h1, h2⟩ := run_without_signal build part _ hp hwait hph
    rw [m0] at h1 h2
    simp only [win.file_monitor.reset] at h1 h2
    constructor
    · intro hearly
      obtain ⟨c, m⟩ := h2 (by
        rintro ⟨_, i, hi, hlate⟩
        have := hearly i hi
        omega)
      rw [List.count_append, c0, c, m]
      exact ⟨rfl, rfl, hph⟩
    · intro hlate
      obtain ⟨c, _⟩ := h1 ⟨trivial, hlate⟩
      rw [List.count_append, c0, c]
  refine ⟨List.count_eq_zero.1 c0, ?_, ?_, ?_⟩
  · intro hearly
    exact List.count_eq_zero.1 ((hpart post [] (by simp)).1 hearly).1
  · intro hlate
    exact (hpart post [] (by simp)).2 hlate
  · intro before i after hsplit hearly hlate
    obtain ⟨c, m, hph⟩ := (hpart before (i :: after) hsplit).1 hearly
    refine ⟨List.count_eq_zero.1 c, ?_⟩
    have hph2 : (run build s (((pre ++ sig1 :: (mid ++ [sig2])) ++ before) ++ i :: after)).1.phase =
        .syncing := by
      rw [List.append_assoc, ← hsplit]
      exact hruns
    rw [run_append] at hph2
    simp only at hph2
    have hstep := step_phase_before build _ i after hph hph2
    have hcount := sync_count_reload build _ i hstep
    rw [step_syncing build _ i hph]
    have hc : (run build s ((pre ++ sig1 :: (mid ++ [sig2])) ++ before)).1.configFileMonitor.changed
        i.now = true := by
      rw [m]
      simp only [win.file_monitor.changed, Bool.true_and, decide_eq_true_eq]
      exact hlate
    rw [if_pos hc] at hcount
    apply List.count_pos_iff.1
    rw [hcount]
    exact Nat.one_pos

/-! ## The second loop is entered with every task bound -/

theorem all_of_iff (tasks : List console_var_task) :
    all_of tasks = true ↔ ∀ task ∈ tasks, task.cvar ≠ 0 := by
  simp [all_of, List.all_eq_true]

/-- A pass through the first loop, with the sweep it makes: it is for the
name of the first task not bound, and an address other than null that the
task is assigned is the one the sweep returned. -/
theorem discover_detail (build : Build) (s : State) (i : Input) :
    ∃ tasks buffer events,
      (tasks = s.console_var_tasks ∨
        ∃ k task c, find_if s.console_var_tasks = some k ∧
          s.console_var_tasks[k]? = some task ∧ task.cvar = 0 ∧
          tasks = s.console_var_tasks.set k ⟨task.cfg, c⟩ ∧
          (c ≠ 0 → Event.sweep task.name (.ptr c) ∈ events)) ∧
      (∀ k task, find_if s.console_var_tasks = some k → s.console_var_tasks[k]? = some task →
        ∃ cvarPtr rest, events = .sweep task.name cvarPtr :: rest) ∧
      (discover build s i = (⟨.undefined, tasks, buffer, s.configFileMonitor⟩, events) ∨
        discover build s i = discover.wait s.configFileMonitor i tasks buffer events) := by
  unfold discover
  cases hf : find_if s.console_var_tasks with
  | none =>
    exact ⟨_, _, [], Or.inl rfl, fun k task hk => by simp at hk, Or.inl rfl⟩
  | some k =>
    obtain ⟨task, hget, h0⟩ := find_if_some _ k hf
    simp only [hget]
    have hfirst : ∀ (events : List Event) (cvarPtr : cry.Lookup) (rest : List Event),
        events = .sweep task.name cvarPtr :: rest →
        ∀ k2 task2, some k = some k2 → s.console_var_tasks[k2]? = some task2 →
          ∃ cvarPtr rest, events = .sweep task2.name cvarPtr :: rest := by
      intro events cvarPtr rest hev k2 task2 hk hget2
      simp only [Option.some.injEq] at hk
      subst hk
      rw [hget] at hget2
      simp only [Option.some.injEq] at hget2
      subst hget2
      exact ⟨cvarPtr, rest, hev⟩
    cases hsw : cry.find_cvar_ptr i.vq i.rpm build.abi ⟨task.name⟩ s.buffer with
    | mk cvarPtr buffer visits =>
      cases cvarPtr with
      | ub =>
        exact ⟨_, buffer, [.sweep task.name .ub], Or.inl rfl, hfirst _ _ _ rfl, Or.inl rfl⟩
      | nullptr =>
        exact ⟨_, buffer, [.sweep task.name .nullptr],
          Or.inr ⟨k, task, 0, rfl, hget, h0, rfl, fun h => absurd rfl h⟩, hfirst _ _ _ rfl,
          Or.inr rfl⟩
      | ptr address =>
        simp only
        by_cases ha : address = 0
        · rw [if_pos ha]
          exact ⟨_, buffer, [.sweep task.name (.ptr address)],
            Or.inr ⟨k, task, 0, rfl, hget, h0, rfl, fun h => absurd rfl h⟩, hfirst _ _ _ rfl,
            Or.inr rfl⟩
        · rw [if_neg ha]
          cases hv : (i.memory address).to_value task.type with
          | none =>
            exact ⟨_, buffer, [.sweep task.name (.ptr address)],
              Or.inr ⟨k, task, address, rfl, hget, h0, rfl, fun _ => List.mem_singleton_self _⟩,
              hfirst _ _ _ rfl, Or.inl rfl⟩
          | some val =>
            exact ⟨_, buffer, [.sweep task.name (.ptr address), .read address task.type],
              Or.inr ⟨k, task, address, rfl, hget, h0, rfl, fun _ => List.mem_cons_self _ _⟩,
              hfirst _ _ _ rfl, Or.inr rfl⟩

/-- The tasks and the events of a pass through the first loop, whichever way
it ends: the events of `discover_detail`, with the message that all are found
after them when the second loop is entered. -/
theorem discover_result (build : Build) (s : State) (i : Input) :
    ∃ tasks events,
      (tasks = s.console_var_tasks ∨
        ∃ k task c, find_if s.console_var_tasks = some k ∧
          s.console_var_tasks[k]? = some task ∧ task.cvar = 0 ∧
          tasks = s.console_var_tasks.set k ⟨task.cfg, c⟩ ∧
          (c ≠ 0 → Event.sweep task.name (.ptr c) ∈ events)) ∧
      (∀ k task, find_if s.console_var_tasks = some k → s.console_var_tasks[k]? = some task →
        ∃ cvarPtr rest, events = .sweep task.name cvarPtr :: rest) ∧
      (discover build s i).1.console_var_tasks = tasks ∧
      ((discover build s i).2 = events ∨ (discover build s i).2 = events ++ [.found_all]) := by
  obtain ⟨tasks, buffer, events, h1, h2, h3⟩ := discover_detail build s i
  refine ⟨tasks, events, h1, h2, ?_, ?_⟩
  · rcases h3 with h3 | h3
    · rw [h3]
    · rw [h3]
      exact (wait_spec _ _ _ _ _).1
  · rcases h3 with h3 | h3
    · rw [h3]
      exact Or.inl rfl
    · rw [h3]
      rcases (wait_spec s.configFileMonitor i tasks buffer events).2.2 with h | h
      · exact Or.inr h.2.2
      · exact Or.inl h.2.1

theorem step_discovering (build : Build) (s : State) (i : Input) (h : s.phase = .discovering) :
    step build s i = discover build s i := by
  unfold step
  rw [h]

theorem step_stopped (build : Build) (s : State) (i : Input) (h1 : s.phase ≠ .discovering)
    (h2 : s.phase ≠ .syncing) : step build s i = (s, []) := by
  unfold step
  cases hp : s.phase with
  | discovering => exact absurd hp h1
  | syncing => exact absurd hp h2
  | quit => rfl
  | wait_error => rfl
  | undefined => rfl
  | invalid_parameter => rfl

/-- Where the address of a bound task comes from: the task had it before the
pass, or a sweep of the pass returned it. -/
theorem step_origin (build : Build) (s : State) (i : Input) :
    ∀ task2 ∈ (step build s i).1.console_var_tasks, task2.cvar ≠ 0 →
      (∃ task ∈ s.console_var_tasks, task.cvar = task2.cvar) ∨
      ∃ name, Event.sweep name (.ptr task2.cvar) ∈ (step build s i).2 := by
  intro task2 hmem hne
  by_cases hp : s.phase = .discovering
  · rw [step_discovering build s i hp] at hmem ⊢
    obtain ⟨tasks, events, h1, _, h3, h4⟩ := discover_result build s i
    rw [h3] at hmem
    rcases h1 with h1 | ⟨k, task, c, _, _, _, h1, hc⟩
    · subst h1
      exact Or.inl ⟨task2, hmem, rfl⟩
    · subst h1
      rcases List.mem_or_eq_of_mem_set hmem with h | h
      · exact Or.inl ⟨task2, h, rfl⟩
      · right
        subst h
        refine ⟨task.name, ?_⟩
        rcases h4 with h4 | h4
        · rw [h4]
          exact hc hne
        · rw [h4]
          exact List.mem_append_left _ (hc hne)
  · left
    obtain ⟨k, hk⟩ := List.mem_iff_getElem?.1 hmem
    obtain ⟨hlen, hkeep⟩ := step_keeps build s i
    have hlt : k < s.console_var_tasks.length := by
      rw [← hlen]
      by_contra hn
      rw [List.getElem?_eq_none (by omega)] at hk
      simp at hk
    obtain ⟨task3, h1, _, h3⟩ := hkeep k (s.console_var_tasks[k]) (List.getElem?_eq_getElem hlt)
    rw [hk] at h1
    simp only [Option.some.injEq] at h1
    subst h1
    refine ⟨s.console_var_tasks[k], List.getElem_mem _, ?_⟩
    by_contra hdiff
    exact hp (h3 (fun h => hdiff h.symm)).2.1

/-- Outside the first loop a pass keeps every task bound. -/
theorem step_all_bound (build : Build) (s : State) (i : Input) (hp : s.phase ≠ .discovering)
    (hall : all_of s.console_var_tasks = true) :
    all_of (step build s i).1.console_var_tasks = true := by
  rw [all_of_iff] at hall ⊢
  intro task2 hmem hzero
  obtain ⟨k, hk⟩ := List.mem_iff_getElem?.1 hmem
  obtain ⟨hlen, hkeep⟩ := step_keeps build s i
  have hlt : k < s.console_var_tasks.length := by
    rw [← hlen]
    by_contra hn
    rw [List.getElem?_eq_none (by omega)] at hk
    simp at hk
  obtain ⟨task3, h1, _, h3⟩ := hkeep k (s.console_var_tasks[k]) (List.getElem?_eq_getElem hlt)
  rw [hk] at h1
  simp only [Option.some.injEq] at h1
  subst h1
  have hb := hall (s.console_var_tasks[k]) (List.getElem_mem _)
  by_cases hdiff : task2.cvar = (s.console_var_tasks[k]).cvar
  · exact hb (hdiff ▸ hzero)
  · exact hp (h3 hdiff).2.1

/-- A pass leads into the second loop, or goes on in it, only with every task
bound. -/
theorem step_syncing_bound (build : Build) (s : State) (i : Input)
    (hinv : s.phase = .syncing → all_of s.console_var_tasks = true)
    (h : (step build s i).1.phase = .syncing) :
    all_of (step build s i).1.console_var_tasks = true := by
  by_cases hp : s.phase = .discovering
  · rw [step_discovering build s i hp] at h ⊢
    obtain ⟨events, _, h1 | ⟨_, h1⟩⟩ := discover_spec build s i
    · exact h1.2.1
    · rw [h] at h1
      rcases h1 with h1 | ⟨_, ⟨_, h1⟩ | ⟨_, h1 | h1⟩⟩ <;> simp at h1
  · by_cases hp2 : s.phase = .syncing
    · exact step_all_bound build s i hp (hinv hp2)
    · rw [step_stopped build s i hp hp2] at h
      exact absurd h hp2

theorem run_syncing_bound (build : Build) (inputs : List Input) :
    ∀ s : State, (s.phase = .syncing → all_of s.console_var_tasks = true) →
    (run build s inputs).1.phase = .syncing →
    all_of (run build s inputs).1.console_var_tasks = true := by
  induction inputs with
  | nil =>
    intro s hinv h
    exact hinv h
  | cons i rest ih =>
    intro s hinv h
    rw [run_cons] at h ⊢
    exact ih _ (step_syncing_bound build s i hinv) h

theorem run_all_bound (build : Build) (inputs : List Input) :
    ∀ s : State, s.phase ≠ .discovering → all_of s.console_var_tasks = true →
    all_of (run build s inputs).1.console_var_tasks = true := by
  induction inputs with
  | nil =>
    intro s _ hall
    exact hall
  | cons i rest ih =>
    intro s hp hall
    rw [run_cons]
    refine ih _ ?_ (step_all_bound build s i hp hall)
    by_cases hp2 : s.phase = .syncing
    · rw [step_syncing build s i hp2]
      exact sync_phase build s i
    · rw [step_stopped build s i hp hp2]
      exact hp

theorem step_keeps_cvar (build : Build) (s : State) (i : Input) (hp : s.phase ≠ .discovering) :
    ∀ task2 ∈ (step build s i).1.console_var_tasks,
      ∃ task ∈ s.console_var_tasks, task.cvar = task2.cvar := by
  intro task2 hmem
  obtain ⟨k, hk⟩ := List.mem_iff_getElem?.1 hmem
  obtain ⟨hlen, hkeep⟩ := step_keeps build s i
  have hlt : k < s.console_var_tasks.length := by
    rw [← hlen]
    by_contra hn
    rw [List.getElem?_eq_none (by omega)] at hk
    simp at hk
  obtain ⟨task3, h1, _, h3⟩ := hkeep k (s.console_var_tasks[k]) (List.getElem?_eq_getElem hlt)
  rw [hk] at h1
  simp only [Option.some.injEq] at h1
  subst h1
  refine ⟨s.console_var_tasks[k], List.getElem_mem _, ?_⟩
  by_contra hdiff
  exact hp (h3 (fun h => hdiff h.symm)).2.1

/-- The comparisons and writes of a pass are at addresses, none of them
null, that tasks held before the pass. -/
theorem step_touches_bound (build : Build) (s : State) (i : Input) :
    ∀ e ∈ (step build s i).2, ∀ a v, (e = .compare a v ∨ e = .write a v) →
      s.phase = .syncing ∧ a ≠ 0 ∧ ∃ task ∈ s.console_var_tasks, task.cvar = a := by
  intro e he a v hev
  have hloud : ¬ e.quiet ∧ e ≠ .found_all ∧ e ≠ .reload := by
    rcases hev with h | h <;> subst h <;> simp [Event.quiet]
  by_cases hp : s.phase = .discovering
  · exfalso
    rw [step_discovering build s i hp] at he
    obtain ⟨events, hq, h1 | h1⟩ := discover_spec build s i
    · rw [h1.2.2] at he
      rcases List.mem_append.1 he with h | h
      · exact hloud.1 (hq e h)
      · simp only [List.mem_singleton] at h
        exact hloud.2.1 h
    · rw [h1.1] at he
      exact hloud.1 (hq e he)
  · by_cases hp2 : s.phase = .syncing
    · refine ⟨hp2, ?_⟩
      have hkeep := step_keeps_cvar build s i hp
      rw [step_syncing build s i hp2] at he hkeep
      have hin : ∀ (events events2 : List Event) (tasks : List console_var_task)
          (memory2 : Nat → cry.cvar), (events = [Event.reload] ∨ events = []) →
          sync_pass build.runtime i.memory tasks = .done memory2 events2 →
          (sync build s i).1.console_var_tasks = tasks → e ∈ events ++ events2 →
          a ≠ 0 ∧ ∃ task ∈ s.console_var_tasks, task.cvar = a := by
        intro events events2 tasks memory2 hevs hpass htasks hmem
        rcases List.mem_append.1 hmem with h | h
        · rcases hevs with h2 | h2
          · rw [h2] at h
            simp only [List.mem_singleton] at h
            exact absurd h hloud.2.2
          · rw [h2] at h
            simp at h
        · obtain ⟨task, htask, w, _, hz, hew⟩ :=
            sync_pass_events build.runtime tasks i.memory memory2 events2 hpass e h
          have ha : a = task.cvar := by
            rcases hev with h1 | h1 <;> rcases hew with h2 | h2 <;> rw [h1] at h2 <;>
              simp at h2 <;> exact h2.1
          rw [ha]
          rw [← htasks] at htask
          exact ⟨hz, hkeep task htask⟩
      rcases sync_cases build s i with ⟨_, _, heq⟩ | ⟨monitor, tasks, events, hre, hrest⟩
      · rw [heq] at he
        simp only [List.mem_singleton] at he
        exact absurd he hloud.2.2
      · have hevs : events = [Event.reload] ∨ events = [] := by
          rcases hre with h | h
          · exact Or.inl h.2.2.1
          · exact Or.inr h.2.2.1
        rcases hrest with ⟨_, heq⟩ | ⟨_, heq⟩ | ⟨memory2, events2, phase, monitor2, hpass, heq, _⟩
        · rw [heq] at he
          rcases hevs with h | h <;> rw [h] at he <;> simp at he
          exact absurd he hloud.2.2
        · rw [heq] at he
          rcases hevs with h | h <;> rw [h] at he <;> simp at he
          exact absurd he hloud.2.2
        · rw [heq] at he
          exact hin events events2 tasks memory2 hevs hpass (by rw [heq]) he
    · rw [step_stopped build s i hp hp2] at he
      simp at he

/-- Every comparison and every write `run` makes is at an address, not null,
that a task held at the start or that a sweep returned before. -/
theorem run_touches_bound (build : Build) (inputs : List Input) :
    ∀ (s : State) (before after : List Event) (e : Event) (a : Nat) (v : cry.cvar.value),
    (run build s inputs).2 = before ++ e :: after → (e = .compare a v ∨ e = .write a v) →
    a ≠ 0 ∧ ((∃ task ∈ s.console_var_tasks, task.cvar = a) ∨
      ∃ name, Event.sweep name (.ptr a) ∈ before) := by
  induction inputs with
  | nil =>
    intro s before after e a v h _
    rw [run_nil] at h
    simp at h
  | cons i rest ih =>
    intro s before after e a v h hev
    rw [run_cons] at h
    simp only at h
    rcases List.append_eq_append_iff.1 h with ⟨a2, h1, h2⟩ | ⟨c2, h1, h2⟩
    · obtain ⟨hz, hor⟩ := ih _ a2 after e a v h2 hev
      refine ⟨hz, ?_⟩
      rcases hor with ⟨task2, hmem, hc⟩ | ⟨name, hsw⟩
      · rcases step_origin build s i task2 hmem (by rw [hc]; exact hz) with h3 | ⟨name, h3⟩
        · obtain ⟨task, ht, hc2⟩ := h3
          exact Or.inl ⟨task, ht, by rw [hc2, hc]⟩
        · right
          rw [hc] at h3
          exact ⟨name, by rw [h1]; exact List.mem_append_left _ h3⟩
      · right
        exact ⟨name, by rw [h1]; exact List.mem_append_right _ hsw⟩
    · cases c2 with
      | nil =>
        simp only [List.nil_append] at h2
        simp only [List.append_nil] at h1
        obtain ⟨hz, hor⟩ := ih _ [] after e a v h2.symm hev
        refine ⟨hz, ?_⟩
        rcases hor with ⟨task2, hmem, hc⟩ | ⟨name, hsw⟩
        · rcases step_origin build s i task2 hmem (by rw [hc]; exact hz) with h3 | ⟨name, h3⟩
          · obtain ⟨task, ht, hc2⟩ := h3
            exact Or.inl ⟨task, ht, by rw [hc2, hc]⟩
          · right
            rw [hc] at h3
            exact ⟨name, by rw [← h1]; exact h3⟩
        · simp at hsw
      | cons x c2 =>
        simp only [List.cons_append, List.cons.injEq] at h2
        have hmem : e ∈ (step build s i).2 := by
          rw [h1, h2.1]
          simp
        obtain ⟨_, hz, htask⟩ := step_touches_bound build s i e hmem a v hev
        exact ⟨hz, Or.inl htask⟩

/-- From the first loop on, whatever `run` does that is neither a sweep nor a
read for the log comes after the message that all variables are found. -/
theorem loud_after_found_all (build : Build) (inputs : List Input) (s : State)
    (hs : s.phase = .discovering) (before after : List Event) (e : Event)
    (h : (run build s inputs).2 = before ++ e :: after) (hq : ¬ e.quiet)
    (hne : e ≠ .found_all) : Event.found_all ∈ before := by
  obtain ⟨b0, rest, hrun, hquiet, h1 | ⟨rest2, h1⟩⟩ := run_discovering build inputs s hs
  · rw [hrun, h1.1, List.append_nil] at h
    have : e ∈ b0 := by rw [h]; simp
    exact absurd (hquiet _ this) hq
  · rw [hrun, h1] at h
    rcases List.append_eq_append_iff.1 h with ⟨a2, h2, h3⟩ | ⟨c2, h2, h3⟩
    · cases a2 with
      | nil =>
        simp only [List.nil_append, List.cons.injEq] at h3
        exact absurd h3.1.symm hne
      | cons x a2 =>
        simp only [List.cons_append, List.cons.injEq] at h3
        rw [h2, ← h3.1]
        simp
    · cases c2 with
      | nil =>
        simp only [List.nil_append, List.cons.injEq] at h3
        exact absurd h3.1 hne
      | cons x c2 =>
        simp only [List.cons_append, List.cons.injEq] at h3
        have : e ∈ b0 := by rw [h2, ← h3.1]; simp
        exact absurd (hquiet _ this) hq

/-- C31 at a concrete input, with the interval of one second: the event is
signaled at 300 and at 600 ticks; the pass at 700 does not read the file
again, the pass at 1000000601 does, the pass after it does not. -/
theorem reload_once_after_quiet_period_witness :
    (run demoBuild2 demoSyncing
      (([demoPass 258 100 none 0] ++ demoPass 1 200 (some 1) 300 ::
          ([demoPass 258 400 none 0] ++ [demoPass 1 500 (some 2) 600])) ++
        [demoPass 258 700 none 0, demoPass 258 1000000601 none 0,
          demoPass 258 1000000700 none 0])).2.count .reload = 1 ∧
    (run demoBuild2 demoSyncing
      (([demoPass 258 100 none 0] ++ demoPass 1 200 (some 1) 300 ::
          ([demoPass 258 400 none 0] ++ [demoPass 1 500 (some 2) 600])) ++
        [demoPass 258 700 none 0, demoPass 258 1000000601 none 0,
          demoPass 258 1000000700 none 0])).2 =
      [.reload, .compare 4112 (.int 60), .write 4112 (.int 60), .compare 4112 (.int 60),
        .write 4112 (.int 60)] :=
  ⟨(reload_once_after_quiet_period demoBuild2 demoSyncing [demoPass 258 100 none 0]
      [demoPass 258 400 none 0]
      [demoPass 258 700 none 0, demoPass 258 1000000601 none 0, demoPass 258 1000000700 none 0]
      (demoPass 1 200 (some 1) 300) (demoPass 1 500 (some 2) 600) (by decide) (by decide)
      (by decide) (by decide) (by decide) (by decide) (by decide) (by decide) (by decide)
      (by decide) (by decide) (by decide)).2.2.1 (by decide),
    by decide⟩

/-- C32. From the first loop on, with no task bound at the start: whenever
`run` is in the second loop, every task is bound; a pass leads into the
second loop, or goes on in it, only with every task bound; once in the second
loop, `run` is never in the first again, and every task stays bound; and
every comparison and every write of a record is at an address that is not
null and that a sweep returned before, after the message that all variables
are found. -/
theorem syncing_only_with_all_bound (build : Build) (s : State) (inputs : List Input)
    (hs : s.phase = .discovering) (hunbound : ∀ task ∈ s.console_var_tasks, task.cvar = 0) :
    ((run build s inputs).1.phase = .syncing →
      all_of (run build s inputs).1.console_var_tasks = true) ∧
    (∀ i, (step build (run build s inputs).1 i).1.phase = .syncing →
      all_of (step build (run build s inputs).1 i).1.console_var_tasks = true) ∧
    (∀ more, (run build s inputs).1.phase = .syncing →
      (run build s (inputs ++ more)).1.phase ≠ .discovering ∧
      all_of (run build s (inputs ++ more)).1.console_var_tasks = true) ∧
    (∀ before e after a v, (run build s inputs).2 = before ++ e :: after →
      (e = .compare a v ∨ e = .write a v) →
      a ≠ 0 ∧ Event.found_all ∈ before ∧ ∃ name, Event.sweep name (.ptr a) ∈ before) := by
  have hinv : s.phase = .syncing → all_of s.console_var_tasks = true := by
    intro h
    rw [hs] at h
    simp at h
  have h1 := run_syncing_bound build inputs s hinv
  refine ⟨h1, ?_, ?_, ?_⟩
  · intro i hi
    exact step_syncing_bound build _ i h1 hi
  · intro more hp
    rw [run_append]
    exact ⟨run_syncing_phase build more _ (by rw [hp]; simp),
      run_all_bound build more _ (by rw [hp]; simp) (h1 hp)⟩
  · intro before e after a v hsplit hev
    obtain ⟨hz, hor⟩ := run_touches_bound build inputs s before after e a v hsplit hev
    have hloud : ¬ e.quiet ∧ e ≠ .found_all := by
      rcases hev with h | h <;> subst h <;> simp [Event.quiet]
    refine ⟨hz, loud_after_found_all build inputs s hs before after e hsplit hloud.1 hloud.2, ?_⟩
    rcases hor with ⟨task, ht, hc⟩ | h
    · exact absurd (hunbound task ht) (by rw [hc]; exact hz)
    · exact h

/-- C32 at a concrete input: the two variables of `demoBuild2` are found at
4112 and at 4144 in two passes, the second loop is entered with both bound,
and its first pass compares and writes the record at 4112. -/
theorem syncing_only_with_all_bound_witness :
    (run demoBuild2 demoState2 [demoInput 258, demoInput 258, demoInput 258]).2 =
      [.sweep (cry.std.string "g_maxfps") (.ptr 4112), .read 4112 .integer,
        .sweep (cry.std.string "g_chatlog") (.ptr 4144), .read 4144 .integer, .found_all,
        .compare 4112 (.int 5), .write 4112 (.int 5)] ∧
    (run demoBuild2 demoState2 [demoInput 258, demoInput 258, demoInput 258]).1.phase =
      .syncing ∧
    all_of (run demoBuild2 demoState2
      [demoInput 258, demoInput 258, demoInput 258]).1.console_var_tasks = true :=
  ⟨by decide, by decide,
    (syncing_only_with_all_bound demoBuild2 demoState2
      [demoInput 258, demoInput 258, demoInput 258] (by decide) (by decide)).1 (by decide)⟩

/-! ## The first loop finds a task that is not bound -/

theorem find_if_none (tasks : List console_var_task) (h : find_if tasks = none) :
    all_of tasks = true := by
  induction tasks with
  | nil => rfl
  | cons task tasks ih =>
    unfold find_if at h
    by_cases hz : task.cvar = 0
    · rw [if_pos hz] at h
      simp at h
    · rw [if_neg hz] at h
      simp only [Option.map_eq_none'] at h
      have := ih h
      rw [all_of_iff] at this ⊢
      intro t ht
      rcases List.mem_cons.1 ht with ht | ht
      · subst ht
        exact hz
      · exact this t ht

theorem find_if_first (tasks : List console_var_task) :
    ∀ k, find_if tasks = some k →
    ∀ j t, j < k → tasks[j]? = some t → t.cvar ≠ 0 := by
  induction tasks with
  | nil =>
    intro k h
    simp [find_if] at h
  | cons task tasks ih =>
    intro k h j t hj hget
    unfold find_if at h
    by_cases hz : task.cvar = 0
    · rw [if_pos hz] at h
      simp only [Option.some.injEq] at h
      omega
    · rw [if_neg hz] at h
      simp only [Option.map_eq_some'] at h
      obtain ⟨k2, hk2, hk⟩ := h
      cases j with
      | zero =>
        simp only [List.getElem?_cons_zero, Option.some.injEq] at hget
        subst hget
        exact hz
      | succ j =>
        simp only [List.getElem?_cons_succ] at hget
        exact ih k2 hk2 j t (by omega) hget

/-- While `run` is in the first loop, a task is not bound. -/
theorem run_discovering_unbound (build : Build) (inputs : List Input) :
    ∀ s : State, (s.phase = .discovering → all_of s.console_var_tasks = false) →
    (run build s inputs).1.phase = .discovering →
    all_of (run build s inputs).1.console_var_tasks = false := by
  induction inputs with
  | nil =>
    intro s hinv h
    exact hinv h
  | cons i rest ih =>
    intro s hinv h
    rw [run_cons] at h ⊢
    refine ih _ ?_ h
    intro hp2
    by_cases hp : s.phase = .discovering
    · rw [step_discovering build s i hp] at hp2 ⊢
      obtain ⟨events, _, h1 | ⟨_, h1⟩⟩ := discover_spec build s i
      · rw [h1.1] at hp2
        simp at hp2
      · rcases h1 with h1 | h1
        · rw [h1] at hp2
          simp at hp2
        · exact h1.1
    · by_cases hp3 : s.phase = .syncing
      · rw [step_syncing build s i hp3] at hp2
        exact absurd hp2 (sync_phase build s i)
      · rw [step_stopped build s i hp hp3] at hp2
        exact absurd hp2 hp

theorem start_tasks (build : Build) (file : config.document) (now : Int)
    (last_write : Option Int) :
    (start build file now last_write).phase = .discovering ∧
    (start build file now last_write).console_var_tasks.map (fun task => task.cfg.definition) =
      build.varSet ∧
    ∀ task ∈ (start build file now last_write).console_var_tasks, task.cvar = 0 := by
  refine ⟨rfl, ?_, ?_⟩
  · simp only [start, List.map_map]
    exact config.from_file_definitions build.format build.text build.varSet file
  · intro task ht
    simp only [start, List.mem_map] at ht
    obtain ⟨cfg, _, rfl⟩ := ht
    rfl

/-- C39. With a task not bound at the start, as there is when `run` enters
the first loop with a set of definitions that is not empty: at the start of every pass through the first loop a task is not
bound, so `std::find_if` returns an element and not the end of the vector;
the element is the first task not bound, those before it being bound; and
the sweep of the pass is for the name of that task. -/
theorem discovering_picks_first_unbound (build : Build) (s : State) (inputs : List Input)
    (hunbound : all_of s.console_var_tasks = false) :
    ((run build s inputs).1.phase = .discovering →
      ∃ k task, find_if (run build s inputs).1.console_var_tasks = some k ∧
        (run build s inputs).1.console_var_tasks[k]? = some task ∧ task.cvar = 0 ∧
        (∀ j t, j < k → (run build s inputs).1.console_var_tasks[j]? = some t → t.cvar ≠ 0) ∧
        ∀ i, ∃ cvarPtr rest,
          (step build (run build s inputs).1 i).2 = .sweep task.name cvarPtr :: rest) ∧
    (∀ file now last_write, build.varSet ≠ [] →
      (start build file now last_write).phase = .discovering ∧
      all_of (start build file now last_write).console_var_tasks = false ∧
      (start build file now last_write).console_var_tasks.map (fun task => task.cfg.definition) =
        build.varSet) := by
  constructor
  · intro hp
    have hall := run_discovering_unbound build inputs s (fun _ => hunbound) hp
    cases hf : find_if (run build s inputs).1.console_var_tasks with
    | none =>
      rw [find_if_none _ hf] at hall
      simp at hall
    | some k =>
      obtain ⟨task, hget, hz⟩ := find_if_some _ k hf
      refine ⟨k, task, rfl, hget, hz, find_if_first _ k hf, ?_⟩
      intro i
      rw [step_discovering build _ i hp]
      obtain ⟨tasks, events, _, h2, _, h4⟩ := discover_result build (run build s inputs).1 i
      obtain ⟨cvarPtr, rest, hev⟩ := h2 k task hf hget
      rcases h4 with h4 | h4
      · exact ⟨cvarPtr, rest, by rw [h4, hev]⟩
      · exact ⟨cvarPtr, rest ++ [.found_all], by rw [h4, hev]; rfl⟩
  · intro file now last_write hne
    obtain ⟨h1, h2, h3⟩ := start_tasks build file now last_write
    refine ⟨h1, ?_, h2⟩
    cases htasks : (start build file now last_write).console_var_tasks with
    | nil =>
      rw [htasks] at h2
      exact absurd h2.symm hne
    | cons task tasks =>
      have := h3 task (by rw [htasks]; exact List.mem_cons_self _ _)
      simp [all_of, this]

/-- C39 at a concrete input: after two passes that bind the first two of the
three tasks of `demoBuild`, `std::find_if` returns the third. -/
theorem discovering_picks_first_unbound_witness :
    (run demoBuild demoState [demoInput 258, demoInput 258]).1.phase = .discovering ∧
    find_if (run demoBuild demoState [demoInput 258, demoInput 258]).1.console_var_tasks =
      some 2 ∧
    ∃ k task,
      find_if (run demoBuild demoState [demoInput 258, demoInput 258]).1.console_var_tasks =
        some k ∧
      (run demoBuild demoState [demoInput 258, demoInput 258]).1.console_var_tasks[k]? =
        some task ∧
      task.cvar = 0 :=
  ⟨by decide, by decide,
    ((discovering_picks_first_unbound demoBuild demoState [demoInput 258, demoInput 258]
      (by decide)).1 (by decide)).elim
      (fun k h => h.elim (fun task h2 => ⟨k, task, h2.1, h2.2.1, h2.2.2.1⟩))⟩

/-! ## The values of the tasks hold the alternative of their definitions -/

theorem set_cfg (tasks : List console_var_task) (k : Nat) (task : console_var_task) (c : Nat)
    (h : tasks[k]? = some task) :
    (tasks.set k ⟨task.cfg, c⟩).map (fun t => t.cfg) = tasks.map (fun t => t.cfg) := by
  apply List.ext_getElem?
  intro j
  rw [List.getElem?_map, List.getElem?_map]
  by_cases hj : k = j
  · subst hj
    have hlt : k < tasks.length := by
      by_contra hn
      rw [List.getElem?_eq_none (by omega)] at h
      simp at h
    rw [List.getElem?_set_self hlt, h]
    rfl
  · rw [List.getElem?_set_ne hj]

/-- The tasks after the values of a configuration read again are taken: each
keeps its definition and holds the value of the variable at its place. -/
theorem take_values_cfg (tasks : List console_var_task) :
    ∀ (vars : List config.configuration.variable) (tasks2 : List console_var_task),
    take_values tasks vars = some tasks2 →
    tasks.map (fun t => t.cfg.definition) = vars.map (fun var => var.definition) →
    tasks2.map (fun t => t.cfg) = vars := by
  induction tasks with
  | nil =>
    intro vars tasks2 h hdef
    simp only [take_values, Option.some.injEq] at h
    subst h
    simp only [List.map_nil] at hdef ⊢
    exact (List.map_eq_nil_iff.1 hdef.symm).symm
  | cons task tasks ih =>
    intro vars tasks2 h hdef
    cases vars with
    | nil => simp [take_values] at h
    | cons var vars =>
      simp only [take_values, Option.map_eq_some'] at h
      obtain ⟨rest, hrest, h2⟩ := h
      subst h2
      simp only [List.map_cons, List.cons.injEq] at hdef ⊢
      refine ⟨?_, ih vars rest hrest hdef.2⟩
      rw [hdef.1]

/-- What a pass keeps: the definitions of the tasks are those of the build,
in order, and every value of a task holds the alternative its definition
names and fits a record. -/
theorem step_typed (build : Build) (s : State) (i : Input)
    (hdef : s.console_var_tasks.map (fun t => t.cfg.definition) = build.varSet)
    (hval : ∀ cfg ∈ s.console_var_tasks.map (fun t => t.cfg), ∀ v, cfg.opt_value = some v →
      v.type = cfg.definition.cvar_type ∧ v.fits = true) :
    (step build s i).1.console_var_tasks.map (fun t => t.cfg.definition) = build.varSet ∧
    ∀ cfg ∈ (step build s i).1.console_var_tasks.map (fun t => t.cfg), ∀ v,
      cfg.opt_value = some v → v.type = cfg.definition.cvar_type ∧ v.fits = true := by
  have hmap : ∀ tasks : List console_var_task,
      tasks.map (fun t => t.cfg.definition) =
        (tasks.map (fun t => t.cfg)).map (fun cfg => cfg.definition) := by
    intro tasks
    rw [List.map_map]
    rfl
  have hsame : ∀ tasks2 : List console_var_task,
      tasks2.map (fun t => t.cfg) = s.console_var_tasks.map (fun t => t.cfg) →
      tasks2.map (fun t => t.cfg.definition) = build.varSet ∧
      ∀ cfg ∈ tasks2.map (fun t => t.cfg), ∀ v, cfg.opt_value = some v →
        v.type = cfg.definition.cvar_type ∧ v.fits = true := by
    intro tasks2 h
    rw [hmap, h, ← hmap]
    exact ⟨hdef, hval⟩
  by_cases hp : s.phase = .discovering
  · rw [step_discovering build s i hp]
    obtain ⟨tasks, events, h1, _, h3, _⟩ := discover_result build s i
    rw [h3]
    rcases h1 with h1 | ⟨k, task, c, _, hget, _, h1, _⟩
    · exact hsame tasks (by rw [h1])
    · exact hsame tasks (by rw [h1]; exact set_cfg _ k task c hget)
  · by_cases hp2 : s.phase = .syncing
    · rw [step_syncing build s i hp2]
      rcases sync_cases build s i with ⟨_, _, heq⟩ | ⟨monitor, tasks, events, hre, hrest⟩
      · rw [heq]
        exact hsame _ rfl
      · have htasks : (sync build s i).1.console_var_tasks = tasks := by
          rcases hrest with ⟨_, heq⟩ | ⟨_, heq⟩ | ⟨_, _, _, _, _, heq, _⟩ <;> rw [heq]
        rw [htasks]
        rcases hre with ⟨_, _, _, ht⟩ | ⟨_, _, _, ht⟩
        · have hcfg := take_values_cfg _ _ _ ht (by
            rw [hdef]
            exact (config.from_file_definitions build.format build.text build.varSet
              i.file).symm)
          rw [hmap, hcfg]
          exact ⟨config.from_file_definitions build.format build.text build.varSet i.file,
            config.from_file_typed build.format build.text build.varSet i.file⟩
        · exact hsame tasks (by rw [ht])
    · rw [step_stopped build s i hp hp2]
      exact hsame _ rfl

theorem run_typed (build : Build) (inputs : List Input) :
    ∀ s : State, s.console_var_tasks.map (fun t => t.cfg.definition) = build.varSet →
    (∀ cfg ∈ s.console_var_tasks.map (fun t => t.cfg), ∀ v, cfg.opt_value = some v →
      v.type = cfg.definition.cvar_type ∧ v.fits = true) →
    (run build s inputs).1.console_var_tasks.map (fun t => t.cfg.definition) = build.varSet ∧
    ∀ cfg ∈ (run build s inputs).1.console_var_tasks.map (fun t => t.cfg), ∀ v,
      cfg.opt_value = some v → v.type = cfg.definition.cvar_type ∧ v.fits = true := by
  induction inputs with
  | nil =>
    intro s hdef hval
    exact ⟨hdef, hval⟩
  | cons i rest ih =>
    intro s hdef hval
    rw [run_cons]
    obtain ⟨h1, h2⟩ := step_typed build s i hdef hval
    exact ih _ h1 h2

/-- C35. When `from_toml` of the type of a definition returns a value for a
literal, the value holds the alternative that `cvar_type()` names: `int` for
`boolean` and for `integer`, `float` for `floating`, text for `string`. So
every value in what `from_file` returns holds the alternative its definition
names, and so does every value a task holds, from the start of `run` on
through any number of passes, the file being read again or not; the
definitions of the tasks stay those of the build. -/
theorem target_type_is_fixed (build : Build) (file : config.document) (now : Int)
    (last_write : Option Int) (inputs : List Input) :
    (∀ (format : config.toml.value → String) (text : cry.float → String)
      (d : config.configuration.variable_definition) (toml_value : config.toml.value)
      (x : cry.cvar.value),
      d.type.from_toml format text toml_value = .value x → x.type = d.cvar_type) ∧
    (config.configuration.type_variant.cvar_type .boolean = .integer ∧
      (∀ t, config.configuration.type_variant.cvar_type (.integer t) = .integer) ∧
      (∀ t, config.configuration.type_variant.cvar_type (.floating t) = .floating) ∧
      (∀ t, config.configuration.type_variant.cvar_type (.string t) = .string)) ∧
    (∀ var ∈ (config.configuration.from_file build.format build.text build.varSet file).vars,
      ∀ v, var.opt_value = some v → v.type = var.definition.cvar_type) ∧
    (∀ task ∈ (run build (start build file now last_write) inputs).1.console_var_tasks,
      ∀ v, task.cfg.opt_value = some v → v.type = task.type) ∧
    (run build (start build file now last_write) inputs).1.console_var_tasks.map
      (fun task => task.cfg.definition) = build.varSet := by
  have hstart : (start build file now last_write).console_var_tasks.map (fun t => t.cfg) =
      (config.configuration.from_file build.format build.text build.varSet file).vars := by
    simp only [start, List.map_map]
    conv_rhs => rw [← List.map_id (config.configuration.from_file build.format build.text
      build.varSet file).vars]
    rfl
  obtain ⟨h1, h2⟩ := run_typed build inputs (start build file now last_write)
    (start_tasks build file now last_write).2.1 (by
      rw [hstart]
      exact config.from_file_typed build.format build.text build.varSet file)
  refine ⟨?_, ⟨rfl, fun _ => rfl, fun _ => rfl, fun _ => rfl⟩, ?_, ?_, h1⟩
  · intro format text d toml_value x h
    exact config.from_toml_type format text d.type toml_value x h
  · intro var hvar v hv
    exact (config.from_file_typed build.format build.text build.varSet file var hvar v hv).1
  · intro task ht v hv
    exact (h2 task.cfg (List.mem_map.2 ⟨task, ht, rfl⟩) v hv).1

/-! ## A second pass over the tasks writes nothing -/

/-- C40. After one pass of the loop over the tasks, the tasks being bound at
different addresses and their values being `int`, `float` other than NaN, or
texts of at most 255 bytes without NUL: the pass ends, and for every task
with a value `record == value` is true; a second pass over the records as
the first left them, with the same values, ends too, writes nothing (all it
does is compare), and leaves the records as they are. -/
theorem second_pass_writes_nothing (runtime : cry.Runtime) (memory : Nat → cry.cvar)
    (tasks : List console_var_task) (hbound : ∀ task ∈ tasks, task.cvar ≠ 0)
    (hdistinct : (tasks.map (·.cvar)).Nodup)
    (hfields : ∀ task ∈ tasks, (memory task.cvar).string_value.length = 256)
    (hplain : ∀ task ∈ tasks, ∀ v, task.cfg.opt_value = some v → v.plain = true) :
    ∃ memory2 events, sync_pass runtime memory tasks = .done memory2 events ∧
      (∀ task ∈ tasks, ∀ v, task.cfg.opt_value = some v →
        (memory2 task.cvar).eq v = some true) ∧
      ∃ events2, sync_pass runtime memory2 tasks = .done memory2 events2 ∧
        (∀ a v, Event.write a v ∉ events2) ∧
        (∀ e ∈ events2, ∃ a v, e = .compare a v) := by
  have hfits : ∀ task ∈ tasks, ∀ v, task.cfg.opt_value = some v → v.fits = true :=
    fun task ht v hv => cry.plain_fits v (hplain task ht v hv)
  obtain ⟨memory2, events, hpass, _, hkept, hwritten, _, _, _⟩ :=
    sync_pass_spec runtime tasks memory hbound hdistinct hfields hfits
  have hafter : ∀ task ∈ tasks, ∀ v, task.cfg.opt_value = some v →
      (memory2 task.cvar).eq v = some true ∧
      (memory2 task.cvar).string_value.length = 256 := by
    intro task ht v hv
    obtain ⟨r, hr⟩ := cry.eq_some (memory task.cvar) v (hfields task ht)
    cases r with
    | true =>
      rw [hkept task ht (Or.inr ⟨v, hv, hr⟩)]
      exact ⟨hr, hfields task ht⟩
    | false =>
      have hw := hwritten task ht v hv hr
      obtain ⟨w, hw2, heq, hlen⟩ := cry.assign_then_eq runtime (memory task.cvar) v
        (hfields task ht) (hplain task ht v hv)
      rw [hw2] at hw
      simp only [cry.Write.done.injEq] at hw
      rw [← hw]
      exact ⟨heq, hlen⟩
  have hfields2 : ∀ task ∈ tasks, (memory2 task.cvar).string_value.length = 256 := by
    intro task ht
    cases hv : task.cfg.opt_value with
    | none =>
      rw [hkept task ht (Or.inl hv)]
      exact hfields task ht
    | some v => exact (hafter task ht v hv).2
  obtain ⟨memory3, events2, hpass2, hother2, hkept2, _, hw2, _, hev2⟩ :=
    sync_pass_spec runtime tasks memory2 hbound hdistinct hfields2 hfits
  have hnowrite : ∀ a v, Event.write a v ∉ events2 := by
    intro a v hmem
    obtain ⟨task, ht, hc, hv, hfalse⟩ := (hw2 a v).1 hmem
    rw [← hc, (hafter task ht v hv).1] at hfalse
    simp at hfalse
  have hsame : memory3 = memory2 := by
    funext a
    by_cases h : ∃ task ∈ tasks, task.cvar = a
    · obtain ⟨task, ht, hc⟩ := h
      rw [← hc]
      apply hkept2 task ht
      cases hv : task.cfg.opt_value with
      | none => exact Or.inl rfl
      | some v => exact Or.inr ⟨v, rfl, (hafter task ht v hv).1⟩
    · exact hother2 a (fun task ht hc => h ⟨task, ht, hc⟩)
  rw [hsame] at hpass2
  refine ⟨memory2, events, hpass, fun task ht v hv => (hafter task ht v hv).1, events2, hpass2,
    hnowrite, ?_⟩
  intro e he
  rcases hev2 e he with h | ⟨a, v, h⟩
  · exact h
  · rw [h] at he
    exact absurd he (hnowrite a v)

/-- C40 at a concrete input: `demoTasks` over records that hold 7; the first
pass writes 5 to the record at 4112, a second pass writes nothing. -/
theorem second_pass_writes_nothing_witness :
    (sync_pass cry.demoRuntime (fun _ => cry.demoRecord) demoTasks).events =
      some [.compare 4112 (.int 5), .write 4112 (.int 5)] ∧
    ∃ memory2 events,
      sync_pass cry.demoRuntime (fun _ => cry.demoRecord) demoTasks = .done memory2 events ∧
      ∃ events2, sync_pass cry.demoRuntime memory2 demoTasks = .done memory2 events2 ∧
        ∀ a v, Event.write a v ∉ events2 :=
  ⟨by decide,
    (second_pass_writes_nothing cry.demoRuntime (fun _ => cry.demoRecord) demoTasks (by decide)
      (by decide) (by decide)
      (by
        intro task ht v hv
        simp only [demoTasks, List.mem_cons, List.mem_singleton, List.not_mem_nil,
          or_false] at ht
        rcases ht with rfl | rfl
        · simp only [Option.some.injEq] at hv
          subst hv
          decide
        · simp at hv)).imp
      (fun _ h => h.imp (fun _ h2 => ⟨h2.1, h2.2.2.imp (fun _ h3 => ⟨h3.1, h3.2.1⟩)⟩))⟩


end shugoconsole
